import Mathlib

/-!
Verification of jsonchrist: parser, tree model, serializer, statistics and escape codec.

A shallow embedding of `src/json_parser.c`, `src/json_format.c` and
`src/json_stats.c`.

Conventions of the embedding.

* A byte is a natural number; a text is a list of bytes.  The input buffer of
  a parser carries a NUL after its last byte, so reading `input[pos]` is
  `List.getD input pos 0`.
* A `char*` argument is read up to its first NUL byte (`strlen`, `strdup`):
  `cstr s` is the part of `s` before it.  The output buffer of the serializer
  gets no NUL from the code: what `strdup` reads after its contents is an
  argument of `json_format`.
* Every allocation succeeds, and `size_t` arithmetic is done in `Nat`: every
  counter of the parser is bounded by the input length and every counter of
  the serializer by the size of the text it has built.
* A `while` loop whose trip count is bounded by the bytes left in the input is
  a recursion on that bound.  The mutually recursive `parse_value`,
  `parse_array` and `parse_object` take a recursion budget; `none` means the
  budget ran out, and `json_parse_tree` supplies a budget that is proved to be
  enough for every input.  These functions run without a bound on the C call
  stack; `parse_value_on` and the functions that follow it are the same
  functions with a bound on the number of nested calls.
* A `JsonParser*` handle is never NULL here; a `TreeNode*` that may be NULL is
  an `Option TreeNode`.  The `parent` link of a node is implicit in the tree,
  and the capacities of the child and diagnostic arrays are not tracked.
-/

namespace JsonChrist

/-- A text: the bytes of a C buffer, without its terminating NUL. -/
abbrev Bytes := List Nat

/-- The bytes of an ASCII literal of the source. -/
def bytes (s : String) : Bytes := s.toList.map Char.toNat

/-- The C string a `char*` points to: the bytes before the first NUL. -/
def cstr (s : Bytes) : Bytes := s.takeWhile (fun b => b != 0)

/-- Copy of a C string (`strdup`). -/
def strdup (s : Bytes) : Bytes := cstr s

/-- Length of a C string (`strlen`). -/
def strlen (s : Bytes) : Nat := (cstr s).length

/-- The C library test `isdigit` on a byte. -/
def isdigit (c : Nat) : Bool := decide (48 ≤ c) && decide (c ≤ 57)

/-- Output of `snprintf(buf, 32, "%zu", n)`: the decimal digits of `n`. -/
def index_str (n : Nat) : Bytes := (Nat.toDigits 10 n).map Char.toNat

/-! ## Data model (`json_parser.h`) -/

inductive JsonType
  | JSON_NULL
  | JSON_BOOL
  | JSON_NUMBER
  | JSON_STRING
  | JSON_ARRAY
  | JSON_OBJECT
  deriving DecidableEq, Repr

/-- A node of the parsed tree.  `children_count` is the length of `children`. -/
structure TreeNode where
  name : Option Bytes
  value : Option Bytes
  type : JsonType
  children : List TreeNode
  deriving Repr

structure ValidationError where
  message : String
  line : Nat
  column : Nat
  deriving DecidableEq, Repr

/-- The parser context.  `input_len` is the length of `input`; `error_count`
is the length of `errors`. -/
structure JsonParser where
  input : Bytes
  pos : Nat
  line : Nat
  column : Nat
  errors : List ValidationError
  deriving DecidableEq, Repr

structure TypeCounts where
  string_count : Nat
  number_count : Nat
  bool_count : Nat
  null_count : Nat
  array_count : Nat
  object_count : Nat
  deriving DecidableEq, Repr

structure JsonStats where
  total_keys : Nat
  total_values : Nat
  depth : Nat
  types : TypeCounts
  deriving DecidableEq, Repr

def JsonParser.input_len (p : JsonParser) : Nat := p.input.length

/-- The byte `parser->input[parser->pos]`. -/
def JsonParser.cur (p : JsonParser) : Nat := p.input.getD p.pos 0

/-- The pair of statements `parser->pos++; parser->column++;`, `n` times. -/
def JsonParser.advance (p : JsonParser) (n : Nat) : JsonParser :=
  { p with pos := p.pos + n, column := p.column + n }

/-- The statements of the line-feed branch of `skip_whitespace`. -/
def JsonParser.newline (p : JsonParser) : JsonParser :=
  { p with pos := p.pos + 1, line := p.line + 1, column := 0 }

/-- The bytes `input[start .. start+len)`, as copied by `memcpy`. -/
def JsonParser.slice (p : JsonParser) (start len : Nat) : Bytes :=
  (p.input.drop start).take len

/-! ## Tree model (`json_parser.c`) -/

def tree_node_create (name value : Option Bytes) (type : JsonType) : TreeNode :=
  { name := name.map strdup, value := value.map strdup, type := type, children := [] }

/-- The append of `tree_node_add_child` when both pointers are present. -/
def tree_node_add_child (parent child : TreeNode) : TreeNode :=
  { parent with children := parent.children ++ [child] }

/-! ## Grammar engine (`json_parser.c`) -/

def json_parser_create (input : Bytes) : JsonParser :=
  { input := input, pos := 0, line := 1, column := 0, errors := [] }

/-- The loop of `skip_whitespace`; the first argument bounds the trip count. -/
def skip_whitespace_loop : Nat → JsonParser → JsonParser
  | 0, p => p
  | n + 1, p =>
    if p.pos < p.input_len then
      if p.cur = 32 ∨ p.cur = 9 ∨ p.cur = 13 then skip_whitespace_loop n (p.advance 1)
      else if p.cur = 10 then skip_whitespace_loop n p.newline
      else p
    else p

def skip_whitespace (p : JsonParser) : JsonParser :=
  skip_whitespace_loop (p.input_len - p.pos) p

def add_error (p : JsonParser) (message : String) : JsonParser :=
  { p with errors := p.errors ++ [{ message := message, line := p.line, column := p.column }] }

/-- The scan loop of `parse_string`, carrying `len` and `escaped`. -/
def parse_string_loop : Nat → JsonParser → Nat → Bool → JsonParser × Nat
  | 0, p, len, _ => (p, len)
  | n + 1, p, len, escaped =>
    if p.pos < p.input_len then
      if escaped then parse_string_loop n (p.advance 1) (len + 1) false
      else if p.cur = 92 then parse_string_loop n (p.advance 1) (len + 1) true
      else if p.cur = 34 then (p, len)
      else parse_string_loop n (p.advance 1) (len + 1) false
    else (p, len)

def parse_string (p : JsonParser) : Option Bytes × JsonParser :=
  if p.pos ≥ p.input_len ∨ p.cur ≠ 34 then (none, add_error p "Expected string")
  else
    let p1 := p.advance 1
    let start := p1.pos
    let r := parse_string_loop (p1.input_len - p1.pos) p1 0 false
    if r.1.pos ≥ r.1.input_len then (none, add_error r.1 "Unterminated string")
    else (some (r.1.slice start r.2), r.1.advance 1)

/-- The scan loop of the number branch of `parse_value`. -/
def parse_number_loop : Nat → JsonParser → Nat → Bool → JsonParser × Nat
  | 0, p, len, _ => (p, len)
  | n + 1, p, len, has_decimal =>
    if p.pos < p.input_len then
      if p.cur = 46 ∧ has_decimal = false then parse_number_loop n (p.advance 1) (len + 1) true
      else if isdigit p.cur = false then (p, len)
      else parse_number_loop n (p.advance 1) (len + 1) has_decimal
    else (p, len)

/-- The number branch of `parse_value` (the `default:` case with `c` a minus
sign or a digit). -/
def parse_number (p : JsonParser) : Option TreeNode × JsonParser :=
  let start := p.pos
  let p1 := if p.cur = 45 then p.advance 1 else p
  let len := if p.cur = 45 then 1 else 0
  let r := parse_number_loop (p1.input_len - p1.pos) p1 len false
  (some (tree_node_create none (some (r.1.slice start r.2)) JsonType.JSON_NUMBER), r.1)

/-- The test `strncmp(&input[pos], lit, n) == 0` for a NUL-free literal `lit`
of `n` bytes: the `n` bytes at the cursor are those of `lit` (a byte past the
end of the input is the NUL that ends the buffer, which matches no byte of
`lit`). -/
def strncmp_eq (p : JsonParser) (lit : Bytes) : Bool :=
  decide (p.slice p.pos lit.length = lit)

mutual
def parse_value : Nat → JsonParser → Option (Option TreeNode × JsonParser)
  | 0, _ => none
  | fuel + 1, p0 =>
    let p := skip_whitespace p0
    if p.pos ≥ p.input_len then some (none, add_error p "Unexpected end of input")
    else if p.cur = 34 then
      match parse_string p with
      | (none, p1) => some (none, p1)
      | (some str, p1) => some (some (tree_node_create none (some str) JsonType.JSON_STRING), p1)
    else if p.cur = 123 then parse_object fuel p
    else if p.cur = 91 then parse_array fuel p
    else if p.cur = 116 then
      if p.pos + 3 < p.input_len ∧ strncmp_eq p [116, 114, 117, 101] = true then
        some (some (tree_node_create none (some [116, 114, 117, 101]) JsonType.JSON_BOOL),
          p.advance 4)
      else some (none, add_error p "Invalid true value")
    else if p.cur = 102 then
      if p.pos + 4 < p.input_len ∧ strncmp_eq p [102, 97, 108, 115, 101] = true then
        some (some (tree_node_create none (some [102, 97, 108, 115, 101]) JsonType.JSON_BOOL),
          p.advance 5)
      else some (none, add_error p "Invalid false value")
    else if p.cur = 110 then
      if p.pos + 3 < p.input_len ∧ strncmp_eq p [110, 117, 108, 108] = true then
        some (some (tree_node_create none (some [110, 117, 108, 108]) JsonType.JSON_NULL),
          p.advance 4)
      else some (none, add_error p "Invalid null value")
    else if p.cur = 45 ∨ isdigit p.cur = true then some (parse_number p)
    else some (none, add_error p "Invalid value")
def parse_array : Nat → JsonParser → Option (Option TreeNode × JsonParser)
  | 0, _ => none
  | fuel + 1, p0 =>
    let node := tree_node_create none none JsonType.JSON_ARRAY
    let p := skip_whitespace (p0.advance 1)
    match parse_array_loop fuel p node with
    | none => none
    | some (none, p1) => some (none, p1)
    | some (some node1, p1) =>
      if p1.pos ≥ p1.input_len ∨ p1.cur ≠ 93 then some (none, add_error p1 "Unterminated array")
      else some (some node1, p1.advance 1)
def parse_array_loop : Nat → JsonParser → TreeNode → Option (Option TreeNode × JsonParser)
  | 0, _, _ => none
  | fuel + 1, p, node =>
    if p.pos < p.input_len ∧ p.cur ≠ 93 then
      match parse_value fuel p with
      | none => none
      | some (none, p1) => some (none, p1)
      | some (some value, p1) =>
        let value1 := { value with name := some (strdup (index_str node.children.length)) }
        let node1 := tree_node_add_child node value1
        let p2 := skip_whitespace p1
        let p3 := if p2.pos < p2.input_len ∧ p2.cur = 44 then skip_whitespace (p2.advance 1) else p2
        parse_array_loop fuel p3 node1
    else some (some node, p)
def parse_object : Nat → JsonParser → Option (Option TreeNode × JsonParser)
  | 0, _ => none
  | fuel + 1, p0 =>
    let node := tree_node_create none none JsonType.JSON_OBJECT
    let p := skip_whitespace (p0.advance 1)
    match parse_object_loop fuel p node with
    | none => none
    | some (none, p1) => some (none, p1)
    | some (some node1, p1) =>
      if p1.pos ≥ p1.input_len ∨ p1.cur ≠ 125 then some (none, add_error p1 "Unterminated object")
      else some (some node1, p1.advance 1)
def parse_object_loop : Nat → JsonParser → TreeNode → Option (Option TreeNode × JsonParser)
  | 0, _, _ => none
  | fuel + 1, p, node =>
    if p.pos < p.input_len ∧ p.cur ≠ 125 then
      match parse_string p with
      | (none, p1) => some (none, p1)
      | (some key, p1) =>
        let p2 := skip_whitespace p1
        if p2.pos ≥ p2.input_len ∨ p2.cur ≠ 58 then some (none, add_error p2 "Expected ':'")
        else
          let p3 := skip_whitespace (p2.advance 1)
          match parse_value fuel p3 with
          | none => none
          | some (none, p4) => some (none, p4)
          | some (some value, p4) =>
            let value1 := { value with name := some key }
            let node1 := tree_node_add_child node value1
            let p5 := skip_whitespace p4
            let p6 :=
              if p5.pos < p5.input_len ∧ p5.cur = 44 then skip_whitespace (p5.advance 1) else p5
            parse_object_loop fuel p6 node1
    else some (some node, p)
end

/-- The entry point: reset the cursor and the diagnostics, parse one value.
The budget `3 * input_len + 1` is enough for every input
(`json_parse_tree_total`). -/
def json_parse_tree (p : JsonParser) : Option (Option TreeNode × JsonParser) :=
  parse_value (3 * p.input_len + 1) { p with pos := 0, line := 1, column := 0, errors := [] }


/-! ## Serializer (`json_format.c`) -/

/-- The output buffer: `data` holds the first `size` bytes of the storage. -/
structure Buffer where
  data : Bytes
  capacity : Nat
  deriving DecidableEq, Repr

def Buffer.size (b : Buffer) : Nat := b.data.length

def buffer_create : Buffer := { data := [], capacity := 1024 }

/-- The loop `while (new_size > new_capacity) new_capacity *= 2;` of
`buffer_append`; the first argument bounds the trip count. -/
def buffer_grow_loop : Nat → Nat → Nat → Nat
  | 0, _, new_capacity => new_capacity
  | n + 1, new_size, new_capacity =>
    if new_size > new_capacity then buffer_grow_loop n new_size (new_capacity * 2)
    else new_capacity

def buffer_append (buffer : Buffer) (str : Bytes) : Buffer :=
  let new_size := buffer.size + strlen str
  if new_size > buffer.capacity then
    { data := buffer.data ++ cstr str,
      capacity := buffer_grow_loop new_size new_size (buffer.capacity * 2) }
  else { buffer with data := buffer.data ++ cstr str }

/-- The loop `for (i = 0; i < n; i++) buffer_append(buffer, " ");`. -/
def append_spaces : Nat → Buffer → Buffer
  | 0, buffer => buffer
  | n + 1, buffer => append_spaces n (buffer_append buffer [32])

mutual
/-- The serializer.  A scalar node is printed from `node->value`; an absent
value, which no parsed tree has, prints nothing. -/
def format_value : TreeNode → Buffer → Nat → Nat → Buffer
  | ⟨_, value, type, children⟩, buffer, indent, level =>
    let buffer := append_spaces (level * indent) buffer
    match type with
    | JsonType.JSON_NULL => buffer_append buffer [110, 117, 108, 108]
    | JsonType.JSON_BOOL => buffer_append buffer (value.getD [])
    | JsonType.JSON_NUMBER => buffer_append buffer (value.getD [])
    | JsonType.JSON_STRING =>
      buffer_append (buffer_append (buffer_append buffer [34]) (value.getD [])) [34]
    | JsonType.JSON_ARRAY =>
      let buffer := buffer_append buffer [91, 10]
      let buffer := format_array_loop children 0 children.length buffer indent level
      let buffer := append_spaces (level * indent) buffer
      buffer_append buffer [93]
    | JsonType.JSON_OBJECT =>
      let buffer := buffer_append buffer [123, 10]
      let buffer := format_object_loop children 0 children.length buffer indent level
      let buffer := append_spaces (level * indent) buffer
      buffer_append buffer [125]
/-- The loop over the children of an array, from index `i` on; `count` is
`node->children_count`. -/
def format_array_loop : List TreeNode → Nat → Nat → Buffer → Nat → Nat → Buffer
  | [], _, _, buffer, _, _ => buffer
  | child :: rest, i, count, buffer, indent, level =>
    let buffer := format_value child buffer indent (level + 1)
    let buffer := if i < count - 1 then buffer_append buffer [44] else buffer
    let buffer := buffer_append buffer [10]
    format_array_loop rest (i + 1) count buffer indent level
/-- The loop over the members of an object, from index `i` on. -/
def format_object_loop : List TreeNode → Nat → Nat → Buffer → Nat → Nat → Buffer
  | [], _, _, buffer, _, _ => buffer
  | child :: rest, i, count, buffer, indent, level =>
    let buffer := append_spaces ((level + 1) * indent) buffer
    let buffer := buffer_append buffer [34]
    let buffer := buffer_append buffer (child.name.getD [])
    let buffer := buffer_append buffer [34, 58, 32]
    let buffer := format_value child buffer indent (level + 1)
    let buffer := if i < count - 1 then buffer_append buffer [44] else buffer
    let buffer := buffer_append buffer [10]
    format_object_loop rest (i + 1) count buffer indent level
end

/-- The formatter: parse, print the root at level 0, append a line feed and
return `strdup(buffer->data)`.  `buffer_create` takes the storage from `malloc`,
which leaves it unset, and `buffer_append` copies the bytes of `str` with
`memcpy` and writes no NUL after them: `strdup` therefore reads the `size`
bytes written and then goes on, through whatever the memory held before, to the
first NUL byte it meets, inside the block or past its end.  Those bytes are not
fixed by the program; they are the argument `stale`, the content of the memory
that follows the written bytes (the copy ends at its first NUL byte). -/
def json_format (stale : Bytes) (p : JsonParser) (indent : Nat) :
    Option (Option Bytes × JsonParser) :=
  match json_parse_tree p with
  | none => none
  | some (none, p1) => some (none, p1)
  | some (some root, p1) =>
    let buffer := format_value root buffer_create indent 0
    let buffer := buffer_append buffer [10]
    some (some (strdup (buffer.data ++ stale)), p1)

/-- The body of `json_compact` is `return json_format(parser, 0);`: the buffer
is a new one, followed by its own `stale` bytes. -/
def json_compact (stale : Bytes) (p : JsonParser) : Option (Option Bytes × JsonParser) :=
  json_format stale p 0

/-! ## Analytics (`json_stats.c`) -/

def stats_zero : JsonStats :=
  { total_keys := 0, total_values := 0, depth := 0,
    types := { string_count := 0, number_count := 0, bool_count := 0, null_count := 0,
               array_count := 0, object_count := 0 } }

/-- The `switch (node->type)` of `collect_stats`. -/
def count_type : TypeCounts → JsonType → TypeCounts
  | ⟨s, n, b, z, a, o⟩, JsonType.JSON_STRING => ⟨s + 1, n, b, z, a, o⟩
  | ⟨s, n, b, z, a, o⟩, JsonType.JSON_NUMBER => ⟨s, n + 1, b, z, a, o⟩
  | ⟨s, n, b, z, a, o⟩, JsonType.JSON_BOOL => ⟨s, n, b + 1, z, a, o⟩
  | ⟨s, n, b, z, a, o⟩, JsonType.JSON_NULL => ⟨s, n, b, z + 1, a, o⟩
  | ⟨s, n, b, z, a, o⟩, JsonType.JSON_ARRAY => ⟨s, n, b, z, a + 1, o⟩
  | ⟨s, n, b, z, a, o⟩, JsonType.JSON_OBJECT => ⟨s, n, b, z, a, o + 1⟩

mutual
/-- The traversal of `collect_stats`: the four updates of `*stats` for the
node, then the loop over its children. -/
def collect_stats : TreeNode → JsonStats → Nat → JsonStats
  | ⟨name, _, type, children⟩, ⟨total_keys, total_values, stats_depth, types⟩, depth =>
    collect_stats_loop children
      { depth := max stats_depth depth,
        types := count_type types type,
        total_values := total_values + 1,
        total_keys := if name.isSome then total_keys + 1 else total_keys } depth
/-- The loop over `node->children` of `collect_stats`. -/
def collect_stats_loop : List TreeNode → JsonStats → Nat → JsonStats
  | [], stats, _ => stats
  | child :: rest, stats, depth =>
    collect_stats_loop rest (collect_stats child stats (depth + 1)) depth
end

def json_stats (p : JsonParser) : Option (JsonStats × JsonParser) :=
  match json_parse_tree p with
  | none => none
  | some (none, p1) => some (stats_zero, p1)
  | some (some root, p1) => some (collect_stats root stats_zero 0, p1)

def json_validate (p : JsonParser) : Option (Bool × JsonParser) :=
  match json_parse_tree { p with pos := 0, line := 1, column := 0, errors := [] } with
  | none => none
  | some (root, p1) => some (root.isSome && decide (p1.errors.length = 0), p1)

/-! ## Escape codec (`json_stats.c`) -/

/-- The first pass of `json_escape_string`: the bytes that need a backslash. -/
def escape_special (c : Nat) : Bool :=
  c = 34 || c = 92 || c = 8 || c = 12 || c = 10 || c = 13 || c = 9

/-- The value of `escaped_len` after the first pass over `len` bytes. -/
def escaped_len (s : Bytes) : Nat :=
  s.foldl (fun n c => if escape_special c then n + 1 else n) s.length

/-- The `switch (c)` of the second pass: the bytes written for `c`. -/
def escape_byte (c : Nat) : Bytes :=
  if c = 34 then [92, 34]
  else if c = 92 then [92, 92]
  else if c = 8 then [92, 98]
  else if c = 12 then [92, 102]
  else if c = 10 then [92, 110]
  else if c = 13 then [92, 114]
  else if c = 9 then [92, 116]
  else [c]

/-- The second pass of `json_escape_string`, appending to `result`. -/
def escape_loop : Bytes → Bytes → Bytes
  | [], result => result
  | c :: rest, result => escape_loop rest (result ++ escape_byte c)

def json_escape_string (str : Bytes) : Bytes :=
  escape_loop (cstr str) []

/-- The `switch (c)` of `json_unescape_string` in the escaped state. -/
def unescape_byte (c : Nat) : Bytes :=
  if c = 34 ∨ c = 92 ∨ c = 47 then [c]
  else if c = 98 then [8]
  else if c = 102 then [12]
  else if c = 110 then [10]
  else if c = 114 then [13]
  else if c = 116 then [9]
  else [92, c]

/-- The loop of `json_unescape_string` with the trailing-backslash step. -/
def unescape_loop : Bytes → Bool → Bytes → Bytes
  | [], escaped, result => if escaped then result ++ [92] else result
  | c :: rest, escaped, result =>
    if escaped then unescape_loop rest false (result ++ unescape_byte c)
    else if c = 92 then unescape_loop rest true result
    else unescape_loop rest false (result ++ [c])

def json_unescape_string (str : Bytes) : Bytes :=
  unescape_loop (cstr str) false []


/-! ## Tokenizer (`json_format.c`) -/

inductive TokenType
  | TOKEN_BRACE
  | TOKEN_BRACKET
  | TOKEN_COLON
  | TOKEN_COMMA
  | TOKEN_STRING
  | TOKEN_NUMBER
  | TOKEN_BOOL
  | TOKEN_NULL
  deriving DecidableEq, Repr

/-- A token.  `value` is absent when `json_escape_string` was given NULL. -/
structure Token where
  type : TokenType
  value : Option Bytes
  style : String
  deriving DecidableEq, Repr

/-- Append one token; its text is the escaped `value`. -/
def add_token (tokens : List Token) (type : TokenType) (value : Option Bytes)
    (style : String) : List Token :=
  tokens ++ [{ type := type, value := value.map json_escape_string, style := style }]

/-- The contents of `temp` after `snprintf(temp, sizeof(temp), "\"%s\"", value)`
with `char temp[32]`: at most 31 bytes of the quoted value. -/
def quoted_temp (value : Bytes) : Bytes := ((34 :: cstr value) ++ [34]).take 31

mutual
def tokenize_value : TreeNode → List Token → List Token
  | ⟨_, value, type, children⟩, tokens =>
    match type with
    | JsonType.JSON_OBJECT =>
      let tokens := add_token tokens TokenType.TOKEN_BRACE (some [123]) "brace"
      let tokens := tokenize_object_loop children 0 tokens
      add_token tokens TokenType.TOKEN_BRACE (some [125]) "brace"
    | JsonType.JSON_ARRAY =>
      let tokens := add_token tokens TokenType.TOKEN_BRACKET (some [91]) "brace"
      let tokens := tokenize_array_loop children 0 tokens
      add_token tokens TokenType.TOKEN_BRACKET (some [93]) "brace"
    | JsonType.JSON_STRING =>
      add_token tokens TokenType.TOKEN_STRING (some (quoted_temp (value.getD []))) "string"
    | JsonType.JSON_NUMBER => add_token tokens TokenType.TOKEN_NUMBER value "number"
    | JsonType.JSON_BOOL => add_token tokens TokenType.TOKEN_BOOL value "boolean"
    | JsonType.JSON_NULL =>
      add_token tokens TokenType.TOKEN_NULL (some [110, 117, 108, 108]) "null"
/-- The loop over the members of an object, from index `i` on. -/
def tokenize_object_loop : List TreeNode → Nat → List Token → List Token
  | [], _, tokens => tokens
  | child :: rest, i, tokens =>
    let tokens :=
      if i > 0 then add_token tokens TokenType.TOKEN_COMMA (some [44]) "operator" else tokens
    let tokens := add_token tokens TokenType.TOKEN_STRING child.name "key"
    let tokens := add_token tokens TokenType.TOKEN_COLON (some [58]) "operator"
    let tokens := tokenize_value child tokens
    tokenize_object_loop rest (i + 1) tokens
/-- The loop over the elements of an array, from index `i` on. -/
def tokenize_array_loop : List TreeNode → Nat → List Token → List Token
  | [], _, tokens => tokens
  | child :: rest, i, tokens =>
    let tokens :=
      if i > 0 then add_token tokens TokenType.TOKEN_COMMA (some [44]) "operator" else tokens
    let tokens := tokenize_value child tokens
    tokenize_array_loop rest (i + 1) tokens
end

/-- The tokenizer: parse, then walk the tree; no token array when the parse
returns no tree. -/
def json_tokenize (p : JsonParser) : Option (Option (List Token) × JsonParser) :=
  match json_parse_tree p with
  | none => none
  | some (none, p1) => some (none, p1)
  | some (some root, p1) => some (some (tokenize_value root []), p1)

/-! ## Tree nodes in memory (`json_parser.c`) -/

/-- A `TreeNode` object in memory, with its links as addresses: `children`
holds the first `children_count` entries of the child array, `parent` is the
parent link. -/
structure NodeCell where
  name : Option Bytes
  value : Option Bytes
  type : JsonType
  children : List Nat
  children_capacity : Nat
  parent : Option Nat
  deriving DecidableEq, Repr

/-- The objects in memory, by address. -/
abbrev Heap := Nat → Option NodeCell

/-- Store an object at an address. -/
def Heap.store (heap : Heap) (addr : Nat) (cell : NodeCell) : Heap :=
  fun a => if a = addr then some cell else heap a

/-- The statement `child->parent = parent;`. -/
def set_parent (heap : Heap) (child parent : Nat) : Heap :=
  match heap child with
  | none => heap
  | some cc => heap.store child { cc with parent := some parent }

/-- The function `tree_node_add_child` on pointers: `parent` and `child` are
NULL (`none`) or the address of a node, and `grow_ok` tells whether `realloc`
succeeds when the child array is full. -/
def tree_node_add_child_ptr (grow_ok : Bool) (heap : Heap) (parent child : Option Nat) : Heap :=
  match parent, child with
  | some pa, some ch =>
    match heap pa with
    | none => heap
    | some pc =>
      if pc.children.length ≥ pc.children_capacity then
        let new_capacity := if pc.children_capacity = 0 then 16 else pc.children_capacity * 2
        if grow_ok then
          set_parent
            (heap.store pa { pc with children := pc.children ++ [ch],
                                     children_capacity := new_capacity }) ch pa
        else heap
      else set_parent (heap.store pa { pc with children := pc.children ++ [ch] }) ch pa
  | _, _ => heap

/-! ## The recursive functions on a call stack of bounded capacity

`parse_value`, `parse_array` and `parse_object` call each other natively, as
do `collect_stats` and `tree_node_destroy` on the children of a node: every
level of nesting of the input keeps two calls of the parser active, and no
function consults `JSON_MAX_DEPTH`.  The functions of this section are the same
functions run on a call stack that has room for `stack` nested calls of them
(the calls of the other functions, which return before the next nested call is
made, are taken to fit); a call made when no room is left ends the process. -/

/-- Outcome of a run on a call stack of bounded capacity: `killed` when a call
was made with no room left on the stack (the process is ended and nothing is
returned), `done r` when the function returned `r`. -/
inductive Run (α : Type) where
  | killed : Run α
  | done : α → Run α

mutual
/-- The function `parse_value` with room for `stack` nested calls. -/
def parse_value_on : Nat → Nat → JsonParser → Option (Run (Option TreeNode × JsonParser))
  | _, 0, _ => none
  | 0, _ + 1, _ => some Run.killed
  | stack + 1, fuel + 1, p0 =>
    let p := skip_whitespace p0
    if p.pos ≥ p.input_len then some (Run.done (none, add_error p "Unexpected end of input"))
    else if p.cur = 34 then
      match parse_string p with
      | (none, p1) => some (Run.done (none, p1))
      | (some str, p1) =>
        some (Run.done (some (tree_node_create none (some str) JsonType.JSON_STRING), p1))
    else if p.cur = 123 then parse_object_on stack fuel p
    else if p.cur = 91 then parse_array_on stack fuel p
    else if p.cur = 116 then
      if p.pos + 3 < p.input_len ∧ strncmp_eq p [116, 114, 117, 101] = true then
        some (Run.done
          (some (tree_node_create none (some [116, 114, 117, 101]) JsonType.JSON_BOOL),
            p.advance 4))
      else some (Run.done (none, add_error p "Invalid true value"))
    else if p.cur = 102 then
      if p.pos + 4 < p.input_len ∧ strncmp_eq p [102, 97, 108, 115, 101] = true then
        some (Run.done
          (some (tree_node_create none (some [102, 97, 108, 115, 101]) JsonType.JSON_BOOL),
            p.advance 5))
      else some (Run.done (none, add_error p "Invalid false value"))
    else if p.cur = 110 then
      if p.pos + 3 < p.input_len ∧ strncmp_eq p [110, 117, 108, 108] = true then
        some (Run.done
          (some (tree_node_create none (some [110, 117, 108, 108]) JsonType.JSON_NULL),
            p.advance 4))
      else some (Run.done (none, add_error p "Invalid null value"))
    else if p.cur = 45 ∨ isdigit p.cur = true then some (Run.done (parse_number p))
    else some (Run.done (none, add_error p "Invalid value"))
/-- The function `parse_array` with room for `stack` nested calls: its own, and
`stack - 1` for the elements its loop parses. -/
def parse_array_on : Nat → Nat → JsonParser → Option (Run (Option TreeNode × JsonParser))
  | _, 0, _ => none
  | 0, _ + 1, _ => some Run.killed
  | stack + 1, fuel + 1, p0 =>
    let node := tree_node_create none none JsonType.JSON_ARRAY
    let p := skip_whitespace (p0.advance 1)
    match parse_array_loop_on stack fuel p node with
    | none => none
    | some Run.killed => some Run.killed
    | some (Run.done (none, p1)) => some (Run.done (none, p1))
    | some (Run.done (some node1, p1)) =>
      if p1.pos ≥ p1.input_len ∨ p1.cur ≠ 93 then
        some (Run.done (none, add_error p1 "Unterminated array"))
      else some (Run.done (some node1, p1.advance 1))
/-- The element loop of `parse_array`; `stack` is the room left for the calls
of `parse_value` it makes. -/
def parse_array_loop_on :
    Nat → Nat → JsonParser → TreeNode → Option (Run (Option TreeNode × JsonParser))
  | _, 0, _, _ => none
  | stack, fuel + 1, p, node =>
    if p.pos < p.input_len ∧ p.cur ≠ 93 then
      match parse_value_on stack fuel p with
      | none => none
      | some Run.killed => some Run.killed
      | some (Run.done (none, p1)) => some (Run.done (none, p1))
      | some (Run.done (some value, p1)) =>
        let value1 := { value with name := some (strdup (index_str node.children.length)) }
        let node1 := tree_node_add_child node value1
        let p2 := skip_whitespace p1
        let p3 := if p2.pos < p2.input_len ∧ p2.cur = 44 then skip_whitespace (p2.advance 1) else p2
        parse_array_loop_on stack fuel p3 node1
    else some (Run.done (some node, p))
/-- The function `parse_object` with room for `stack` nested calls. -/
def parse_object_on : Nat → Nat → JsonParser → Option (Run (Option TreeNode × JsonParser))
  | _, 0, _ => none
  | 0, _ + 1, _ => some Run.killed
  | stack + 1, fuel + 1, p0 =>
    let node := tree_node_create none none JsonType.JSON_OBJECT
    let p := skip_whitespace (p0.advance 1)
    match parse_object_loop_on stack fuel p node with
    | none => none
    | some Run.killed => some Run.killed
    | some (Run.done (none, p1)) => some (Run.done (none, p1))
    | some (Run.done (some node1, p1)) =>
      if p1.pos ≥ p1.input_len ∨ p1.cur ≠ 125 then
        some (Run.done (none, add_error p1 "Unterminated object"))
      else some (Run.done (some node1, p1.advance 1))
/-- The member loop of `parse_object`; `stack` is the room left for the calls
of `parse_value` it makes. -/
def parse_object_loop_on :
    Nat → Nat → JsonParser → TreeNode → Option (Run (Option TreeNode × JsonParser))
  | _, 0, _, _ => none
  | stack, fuel + 1, p, node =>
    if p.pos < p.input_len ∧ p.cur ≠ 125 then
      match parse_string p with
      | (none, p1) => some (Run.done (none, p1))
      | (some key, p1) =>
        let p2 := skip_whitespace p1
        if p2.pos ≥ p2.input_len ∨ p2.cur ≠ 58 then
          some (Run.done (none, add_error p2 "Expected ':'"))
        else
          let p3 := skip_whitespace (p2.advance 1)
          match parse_value_on stack fuel p3 with
          | none => none
          | some Run.killed => some Run.killed
          | some (Run.done (none, p4)) => some (Run.done (none, p4))
          | some (Run.done (some value, p4)) =>
            let value1 := { value with name := some key }
            let node1 := tree_node_add_child node value1
            let p5 := skip_whitespace p4
            let p6 :=
              if p5.pos < p5.input_len ∧ p5.cur = 44 then skip_whitespace (p5.advance 1) else p5
            parse_object_loop_on stack fuel p6 node1
    else some (Run.done (some node, p))
end

/-- The entry point `json_parse_tree` when the call stack has room for `stack`
nested calls of the parser at its call of `parse_value`. -/
def json_parse_tree_on (stack : Nat) (p : JsonParser) :
    Option (Run (Option TreeNode × JsonParser)) :=
  parse_value_on stack (3 * p.input_len + 1)
    { p with pos := 0, line := 1, column := 0, errors := [] }

mutual
/-- The function `collect_stats` with room for `stack` nested calls. -/
def collect_stats_on : Nat → TreeNode → JsonStats → Nat → Run JsonStats
  | 0, _, _, _ => Run.killed
  | stack + 1, ⟨name, _, type, children⟩, ⟨total_keys, total_values, stats_depth, types⟩, depth =>
    collect_stats_loop_on stack children
      { depth := max stats_depth depth,
        types := count_type types type,
        total_values := total_values + 1,
        total_keys := if name.isSome then total_keys + 1 else total_keys } depth
/-- The loop over `node->children` of `collect_stats`. -/
def collect_stats_loop_on : Nat → List TreeNode → JsonStats → Nat → Run JsonStats
  | _, [], stats, _ => Run.done stats
  | stack, child :: rest, stats, depth =>
    match collect_stats_on stack child stats (depth + 1) with
    | Run.killed => Run.killed
    | Run.done stats1 => collect_stats_loop_on stack rest stats1 depth
end

mutual
/-- The function `tree_node_destroy` with room for `stack` nested calls; it
returns nothing. -/
def tree_node_destroy_on : Nat → TreeNode → Run Unit
  | 0, _ => Run.killed
  | stack + 1, ⟨_, _, _, children⟩ => tree_node_destroy_loop_on stack children
/-- The loop over `node->children` of `tree_node_destroy`. -/
def tree_node_destroy_loop_on : Nat → List TreeNode → Run Unit
  | _, [] => Run.done ()
  | stack, child :: rest =>
    match tree_node_destroy_on stack child with
    | Run.killed => Run.killed
    | Run.done _ => tree_node_destroy_loop_on stack rest
end

/-- The function `json_stats` when the call stack has room for `stack` nested
calls of each of the recursive functions it calls. -/
def json_stats_on (stack : Nat) (p : JsonParser) : Option (Run (JsonStats × JsonParser)) :=
  match json_parse_tree_on stack p with
  | none => none
  | some Run.killed => some Run.killed
  | some (Run.done (none, p1)) => some (Run.done (stats_zero, p1))
  | some (Run.done (some root, p1)) =>
    match collect_stats_on stack root stats_zero 0 with
    | Run.killed => some Run.killed
    | Run.done stats =>
      match tree_node_destroy_on stack root with
      | Run.killed => some Run.killed
      | Run.done _ => some (Run.done (stats, p1))

/-! ## Definitions used by the proofs -/

/-- The unread bytes `input[pos ..]`. -/
def JsonParser.rem (p : JsonParser) : Bytes := p.input.drop p.pos

/-- Whitespace as recognised by `skip_whitespace`. -/
def is_ws (c : Nat) : Bool := c = 32 || c = 9 || c = 13 || c = 10

/-- Bytes consumed by the scan loop of `parse_string` on the unread input. -/
def scan_string : Bool → Bytes → Nat
  | _, [] => 0
  | true, _ :: r => 1 + scan_string false r
  | false, c :: r =>
    if c = 92 then 1 + scan_string true r
    else if c = 34 then 0
    else 1 + scan_string false r

/-- Bytes consumed by the scan loop of the number branch on the unread input. -/
def scan_number : Bool → Bytes → Nat
  | _, [] => 0
  | has_decimal, c :: r =>
    if c = 46 ∧ has_decimal = false then 1 + scan_number true r
    else if isdigit c = false then 0
    else 1 + scan_number has_decimal r

/-- The branches of the `switch` of `parse_value` that do not recurse. -/
def parse_leaf (p : JsonParser) : Option TreeNode × JsonParser :=
  if p.pos ≥ p.input_len then (none, add_error p "Unexpected end of input")
  else if p.cur = 34 then
    match parse_string p with
    | (none, p1) => (none, p1)
    | (some str, p1) => (some (tree_node_create none (some str) JsonType.JSON_STRING), p1)
  else if p.cur = 116 then
    if p.pos + 3 < p.input_len ∧ strncmp_eq p [116, 114, 117, 101] = true then
      (some (tree_node_create none (some [116, 114, 117, 101]) JsonType.JSON_BOOL), p.advance 4)
    else (none, add_error p "Invalid true value")
  else if p.cur = 102 then
    if p.pos + 4 < p.input_len ∧ strncmp_eq p [102, 97, 108, 115, 101] = true then
      (some (tree_node_create none (some [102, 97, 108, 115, 101]) JsonType.JSON_BOOL),
        p.advance 5)
    else (none, add_error p "Invalid false value")
  else if p.cur = 110 then
    if p.pos + 3 < p.input_len ∧ strncmp_eq p [110, 117, 108, 108] = true then
      (some (tree_node_create none (some [110, 117, 108, 108]) JsonType.JSON_NULL), p.advance 4)
    else (none, add_error p "Invalid null value")
  else if p.cur = 45 ∨ isdigit p.cur = true then parse_number p
  else (none, add_error p "Invalid value")

/-- The cursor after the optional comma of the array and object loops. -/
def skip_comma (p : JsonParser) : JsonParser :=
  if (skip_whitespace p).pos < (skip_whitespace p).input_len ∧ (skip_whitespace p).cur = 44 then
    skip_whitespace ((skip_whitespace p).advance 1)
  else skip_whitespace p

/-- What a completed call leaves behind: the input is untouched, the cursor
has not moved back, and it has moved forward when a node is returned. -/
def Progress (p : JsonParser) (r : Option TreeNode × JsonParser) : Prop :=
  r.2.input = p.input ∧ r.2.rem.length ≤ p.rem.length ∧
    (r.1.isSome = true → r.2.rem.length < p.rem.length)

mutual
/-- The greatest number of edges on a path from a node down to a node below it. -/
def tree_height : TreeNode → Nat
  | ⟨_, _, _, children⟩ => forest_height children
/-- One more than the greatest height of a tree of the list; 0 for no tree. -/
def forest_height : List TreeNode → Nat
  | [] => 0
  | child :: rest => max (tree_height child + 1) (forest_height rest)
end

/-- The relation `PathLen t n`: some path of `n` edges leads from `t` down to a node. -/
inductive PathLen : TreeNode → Nat → Prop
  | here (t : TreeNode) : PathLen t 0
  | down (t c : TreeNode) (n : Nat) : c ∈ t.children → PathLen c n → PathLen t (n + 1)

/-- The separator written after child `i` of `count`: a comma, except after the last. -/
def sep_text (i count : Nat) : Bytes := if i < count - 1 then [44] else []

mutual
/-- The bytes `format_value` writes for a node, its leading indentation excluded. -/
def fmt_body : TreeNode → Nat → Nat → Bytes
  | ⟨_, value, type, children⟩, indent, level =>
    match type with
    | JsonType.JSON_NULL => [110, 117, 108, 108]
    | JsonType.JSON_BOOL => cstr (value.getD [])
    | JsonType.JSON_NUMBER => cstr (value.getD [])
    | JsonType.JSON_STRING => [34] ++ cstr (value.getD []) ++ [34]
    | JsonType.JSON_ARRAY =>
      [91, 10] ++ fmt_array children 0 children.length indent level ++
        List.replicate (level * indent) 32 ++ [93]
    | JsonType.JSON_OBJECT =>
      [123, 10] ++ fmt_object children 0 children.length indent level ++
        List.replicate (level * indent) 32 ++ [125]
/-- The bytes `format_array_loop` writes. -/
def fmt_array : List TreeNode → Nat → Nat → Nat → Nat → Bytes
  | [], _, _, _, _ => []
  | child :: rest, i, count, indent, level =>
    List.replicate ((level + 1) * indent) 32 ++ fmt_body child indent (level + 1) ++
      sep_text i count ++ [10] ++ fmt_array rest (i + 1) count indent level
/-- The bytes `format_object_loop` writes. -/
def fmt_object : List TreeNode → Nat → Nat → Nat → Nat → Bytes
  | [], _, _, _, _ => []
  | child :: rest, i, count, indent, level =>
    List.replicate ((level + 1) * indent) 32 ++ [34] ++ cstr (child.name.getD []) ++
      [34, 58, 32] ++ List.replicate ((level + 1) * indent) 32 ++
      fmt_body child indent (level + 1) ++ sep_text i count ++ [10] ++
      fmt_object rest (i + 1) count indent level
end

/-- The text that follows a value in the output of the serializer starts with
a comma or a line feed. -/
def Follows (rest : Bytes) : Prop := ∃ c r, rest = c :: r ∧ (c = 44 ∨ c = 10)

/-- The property `Reparses t`: at every indent width and level the text written for `t` is
NUL-free, starts with a byte that opens a value, and is parsed back to `t`
(without its name) by `parse_value`, which stops right after it. -/
def Reparses (t : TreeNode) : Prop :=
  ∀ indent level : Nat,
    (∀ b ∈ fmt_body t indent level, b ≠ 0) ∧
    (∃ c r, fmt_body t indent level = c :: r ∧ is_ws c = false ∧ c ≠ 93 ∧ c ≠ 44) ∧
    ∀ (q : JsonParser) (rest : Bytes) (f : Nat), Follows rest →
      q.rem = fmt_body t indent level ++ rest → 3 * q.rem.length + 1 ≤ f →
      ∃ q1, parse_value f q = some (some { t with name := none }, q1) ∧
        q1.input = q.input ∧ q1.errors = q.errors ∧ q1.rem = rest

/-- Length of the number text at the head of the unread input. -/
def number_len : Bytes → Nat
  | [] => 0
  | c :: r => if c = 45 then 1 + scan_number false r else scan_number false (c :: r)

/-- A text the number branch reads back whole. -/
def NumText (v : Bytes) : Prop :=
  (∃ c s, v = c :: s ∧ (c = 45 ∨ isdigit c = true)) ∧ (∀ b ∈ v, b ≠ 0) ∧
    ∀ c0 r0, isdigit c0 = false → c0 ≠ 46 → number_len (v ++ c0 :: r0) = v.length

/-- A text the string scan reads back whole. -/
def StrText (s : Bytes) : Prop :=
  (∀ b ∈ s, b ≠ 0) ∧ ∀ r0, scan_string false (s ++ 34 :: r0) = s.length

/-- The property `ArrReparses n0 cs`: the text written for the elements `cs` of an array,
followed by the closing bracket, is read back by the array loop as `cs`, the
elements being numbered from `n0` on. -/
def ArrReparses (n0 : Nat) (cs : List TreeNode) : Prop :=
  ∀ (i count indent level : Nat) (ws2 rest : Bytes), (∀ b ∈ ws2, is_ws b = true) →
    (∀ b ∈ fmt_array cs i count indent level, b ≠ 0) ∧
    (∃ c r, (fmt_array cs i count indent level ++ ws2 ++ 93 :: rest).dropWhile is_ws = c :: r ∧
      c ≠ 44) ∧
    ∀ (q : JsonParser) (node : TreeNode) (f : Nat), node.children.length = n0 →
      q.rem = (fmt_array cs i count indent level ++ ws2 ++ 93 :: rest).dropWhile is_ws →
      3 * q.rem.length + 2 ≤ f →
      ∃ q1, parse_array_loop f q node =
          some (some { node with children := node.children ++ cs }, q1) ∧
        q1.input = q.input ∧ q1.errors = q.errors ∧ q1.rem = 93 :: rest

/-- The property `ObjReparses cs`: the text written for the members `cs` of an object,
followed by the closing brace, is read back by the object loop as `cs`. -/
def ObjReparses (cs : List TreeNode) : Prop :=
  ∀ (i count indent level : Nat) (ws2 rest : Bytes), (∀ b ∈ ws2, is_ws b = true) →
    (∀ b ∈ fmt_object cs i count indent level, b ≠ 0) ∧
    (∃ c r, (fmt_object cs i count indent level ++ ws2 ++ 125 :: rest).dropWhile is_ws = c :: r ∧
      c ≠ 44) ∧
    ∀ (q : JsonParser) (node : TreeNode) (f : Nat),
      q.rem = (fmt_object cs i count indent level ++ ws2 ++ 125 :: rest).dropWhile is_ws →
      3 * q.rem.length + 2 ≤ f →
      ∃ q1, parse_object_loop f q node =
          some (some { node with children := node.children ++ cs }, q1) ∧
        q1.input = q.input ∧ q1.errors = q.errors ∧ q1.rem = 125 :: rest

/-- The test `has_unescaped_quote escaped s`: a quote occurs in `s` that is not preceded
by an active backslash; `escaped` tells whether a backslash is active at the
start of `s`. -/
def has_unescaped_quote : Bool → Bytes → Bool
  | _, [] => false
  | true, _ :: r => has_unescaped_quote false r
  | false, c :: r =>
    if c = 34 then true
    else if c = 92 then has_unescaped_quote true r
    else has_unescaped_quote false r

/-- The state `json_parse_tree` starts from. -/
def JsonParser.reset (p : JsonParser) : JsonParser :=
  { p with pos := 0, line := 1, column := 0, errors := [] }

/-- The escape letter of each of the seven special bytes. -/
def escape_table : List (Nat × Nat) :=
  [(34, 34), (92, 92), (8, 98), (12, 102), (10, 110), (13, 114), (9, 116)]

/-- The image of a byte under escaping: a backslash and the escape letter for
a special byte, the byte itself otherwise. -/
def escape_image (c : Nat) : Bytes :=
  match escape_table.lookup c with
  | some e => [92, e]
  | none => [c]

/-- The bytes that a backslash turns into one decoded byte. -/
def recognized_escapes : List Nat := [34, 92, 47, 98, 102, 110, 114, 116]

/-- The value of the flag `escaped` after the decoder has read a text. -/
def escape_pending : Bool → Bytes → Bool
  | e, [] => e
  | true, _ :: r => escape_pending false r
  | false, c :: r => escape_pending (decide (c = 92)) r

/-- A text without NUL bytes. -/
def NulFree (s : Bytes) : Prop := ∀ b ∈ s, b ≠ 0

/-- Digits with at most one decimal point. -/
def digits_one_point (s : Bytes) : Bool :=
  s.all (fun c => isdigit c || c == 46) && decide (s.count 46 ≤ 1)

/-- A number text: an optional leading minus sign followed by digits with at
most one decimal point, the whole starting with a minus sign or a digit. -/
def is_number_text : Bytes → Bool
  | [] => false
  | c :: s => (c == 45 && digits_one_point s) || (isdigit c && digits_one_point (c :: s))

/-- The bytes a number value is made of: nonempty, each a minus sign, a
decimal point or a digit. -/
def NumBytes (v : Bytes) : Prop := v ≠ [] ∧ ∀ b ∈ v, b = 45 ∨ b = 46 ∨ isdigit b = true

/-- The nodes the non-recursive branches of `parse_value` return. -/
def LeafShape (t : TreeNode) : Prop :=
  (∃ s, t = tree_node_create none (some s) JsonType.JSON_STRING) ∨
  t = tree_node_create none (some [116, 114, 117, 101]) JsonType.JSON_BOOL ∨
  t = tree_node_create none (some [102, 97, 108, 115, 101]) JsonType.JSON_BOOL ∨
  t = tree_node_create none (some [110, 117, 108, 108]) JsonType.JSON_NULL ∨
  (∃ v, NumBytes v ∧ t = tree_node_create none (some v) JsonType.JSON_NUMBER)

/-- A text whose last byte exists and is not a line feed. -/
def EndsNotLF (s : Bytes) : Prop := ∃ r c, s = r ++ [c] ∧ c ≠ 10

mutual
/-- The text the serializer writes for a node at indent width 0, as
`json_compact` asks: a scalar is its text; an array or object is its opening
byte and a line feed, then its children, then its closing byte. -/
def compact_text : TreeNode → Bytes
  | ⟨_, value, type, children⟩ =>
    match type with
    | JsonType.JSON_NULL => [110, 117, 108, 108]
    | JsonType.JSON_BOOL => cstr (value.getD [])
    | JsonType.JSON_NUMBER => cstr (value.getD [])
    | JsonType.JSON_STRING => [34] ++ cstr (value.getD []) ++ [34]
    | JsonType.JSON_ARRAY => [91, 10] ++ compact_elements children ++ [93]
    | JsonType.JSON_OBJECT => [123, 10] ++ compact_members children ++ [125]
/-- The elements of an array in compact output: each is followed by a comma,
unless it is the last, and by a line feed. -/
def compact_elements : List TreeNode → Bytes
  | [] => []
  | child :: rest =>
    compact_text child ++ (if rest.isEmpty then [] else [44]) ++ [10] ++ compact_elements rest
/-- The members of an object in compact output: the quoted key, a colon and a
space, the value, a comma unless it is the last member, and a line feed. -/
def compact_members : List TreeNode → Bytes
  | [] => []
  | child :: rest =>
    [34] ++ cstr (child.name.getD []) ++ [34, 58, 32] ++ compact_text child ++
      (if rest.isEmpty then [] else [44]) ++ [10] ++ compact_members rest
end

/-- The line of the byte that follows the text `pre` at the start of the
input: one more than the number of line feeds in `pre`. -/
def line_of (pre : Bytes) : Nat := 1 + pre.count 10

/-- The column of the byte that follows the text `pre` at the start of the
input: the number of bytes of `pre` after its last line feed. -/
def column_of (pre : Bytes) : Nat := (pre.reverse.takeWhile (fun b => b != 10)).length

/-- The column after `skip_whitespace` has consumed `ws` from column `col`. -/
def ws_column : Nat → Bytes → Nat
  | col, [] => col
  | col, c :: r => ws_column (if c = 10 then 0 else col + 1) r

/-- Two continuations of a text look alike to a scan that stops before them:
they start with the same byte, or the second is empty or starts with a byte
that ends a number. -/
def Compat (b b' : Bytes) : Prop :=
  b'.head? = b.head? ∨ b' = [] ∨ ∃ c r, b' = c :: r ∧ isdigit c = false ∧ c ≠ 46

/-- The element texts of an array, joined by commas. -/
def comma_join : List Bytes → Bytes
  | [] => []
  | [e] => e
  | e :: e' :: es => e ++ 44 :: comma_join (e' :: es)

/-- The text of the array whose element texts are `es`. -/
def array_text (es : List Bytes) : Bytes := 91 :: (comma_join es ++ [93])

/-- The text `e` parses on its own to the node `v`, and the parse leaves
nothing but whitespace unread. -/
def CompleteValue (e : Bytes) (v : TreeNode) : Prop :=
  ∃ q, json_parse_tree (json_parser_create e) = some (some v, q) ∧ q.rem.all is_ws = true

/-- The nodes `vs`, each carrying the decimal rendering of its position
(counted from `n`) as its name. -/
def named_from : Nat → List TreeNode → List TreeNode
  | _, [] => []
  | n, v :: vs => { v with name := some (index_str n) } :: named_from (n + 1) vs

/-- What a completed call does to the handle: the cursor stays within the
input; a call that returns a node records no diagnostic, and a call that
returns none records exactly one. -/
def Effect (p : JsonParser) (r : Option TreeNode × JsonParser) : Prop :=
  r.2.pos ≤ r.2.input_len ∧ (r.1.isSome = true → r.2.errors = p.errors) ∧
    (r.1 = none → ∃ e, r.2.errors = p.errors ++ [e])

mutual
/-- All nodes of a tree, the root first. -/
def nodes : TreeNode → List TreeNode
  | ⟨name, value, type, children⟩ => ⟨name, value, type, children⟩ :: forest_nodes children
/-- All nodes of the trees of a list, in order. -/
def forest_nodes : List TreeNode → List TreeNode
  | [] => []
  | child :: rest => nodes child ++ forest_nodes rest
end

/-- The shape of a node by its type: an array or object has no value, any
other node has no child and has a value. -/
def ShapeOk (n : TreeNode) : Prop :=
  match n.type with
  | JsonType.JSON_ARRAY => n.value = none
  | JsonType.JSON_OBJECT => n.value = none
  | _ => n.children = [] ∧ n.value.isSome = true

/-- The invariant of the trees the parser returns: the root has no name, every
node below it has one, and every node has the shape of its type. -/
def TreeInv (t : TreeNode) : Prop :=
  t.name = none ∧ ShapeOk t ∧ ∀ m ∈ forest_nodes t.children, m.name.isSome = true ∧ ShapeOk m

/-- The sum of the six per-type counts. -/
def type_total (c : TypeCounts) : Nat :=
  c.string_count + c.number_count + c.bool_count + c.null_count + c.array_count +
    c.object_count

/-- The tree of `k + 1` nested arrays, the innermost empty, whose root is named
`nm`; every inner array is element 0 of the array around it. -/
def nested_arrays (nm : Option Bytes) : Nat → TreeNode
  | 0 => ⟨nm, none, JsonType.JSON_ARRAY, []⟩
  | k + 1 => ⟨nm, none, JsonType.JSON_ARRAY, [nested_arrays (some [48]) k]⟩

/-- The input made of `n` opening brackets followed by `n` closing brackets. -/
def brackets (n : Nat) : Bytes := List.replicate n 91 ++ List.replicate n 93

/-- The unread input after the optional separator is skipped: leading
whitespace is dropped, then a comma and the whitespace after it. -/
def comma_drop (l : Bytes) : Bytes :=
  if (l.dropWhile is_ws).head? = some 44 then ((l.dropWhile is_ws).drop 1).dropWhile is_ws
  else l.dropWhile is_ws

/-- The number of recognized escape pairs the decoder meets in a text, given
whether an escape is pending at its start. -/
def escape_pairs : Bool → Bytes → Nat
  | _, [] => 0
  | true, c :: r => (if c ∈ recognized_escapes then 1 else 0) + escape_pairs false r
  | false, c :: r => escape_pairs (decide (c = 92)) r

/-- The element texts of an array, joined by single spaces. -/
def space_join : List Bytes → Bytes
  | [] => []
  | [e] => e
  | e :: e' :: es => e ++ 32 :: space_join (e' :: es)

/-- The text of the array whose element texts `es` are separated by single
spaces. -/
def spaced_array_text (es : List Bytes) : Bytes := 91 :: (space_join es ++ [93])

/-- A byte that may follow the place where an input is cut off: a closing
bracket, a closing brace or whitespace. -/
def is_closer_or_ws (b : Nat) : Bool := b = 93 || b = 125 || is_ws b

/-- The diagnostic of the container that the closing byte `c` would close. -/
def closer_message (c : Nat) : String :=
  if c = 125 then "Unterminated object" else "Unterminated array"

/-- The outcome of a parse whose input is cut off inside an open container
that the byte `c` would close: no node, one more diagnostic, which is that of
the container, and the cursor at the end of the input. -/
def CutResult (c : Nat) (q : JsonParser) (r : Option (Option TreeNode × JsonParser)) : Prop :=
  ∃ q1, r = some (none, q1) ∧
    q1.errors = q.errors ++ [⟨closer_message c, q1.line, q1.column⟩] ∧ q1.rem = []

/-- The tree parsed from `{"a":[1,2,{"b":3}]}`. -/
def stats_example_tree : TreeNode :=
  ⟨none, none, JsonType.JSON_OBJECT,
    [⟨some (bytes "a"), none, JsonType.JSON_ARRAY,
      [⟨some (bytes "0"), some (bytes "1"), JsonType.JSON_NUMBER, []⟩,
       ⟨some (bytes "1"), some (bytes "2"), JsonType.JSON_NUMBER, []⟩,
       ⟨some (bytes "2"), none, JsonType.JSON_OBJECT,
         [⟨some (bytes "b"), some (bytes "3"), JsonType.JSON_NUMBER, []⟩]⟩]⟩]⟩

/-! ## Lemmas and theorems -/

/-! ## Proof toolkit: the unread part of the input -/

theorem cstr_of_nulfree (s : Bytes) (h : ∀ b ∈ s, b ≠ 0) : cstr s = s := by
  unfold cstr
  rw [List.takeWhile_eq_self_iff]
  intro b hb
  simpa using h b hb

theorem cstr_nulfree (s : Bytes) : ∀ b ∈ cstr s, b ≠ 0 := by
  intro b hb
  have := List.mem_takeWhile_imp hb
  simpa using this

theorem rem_length (p : JsonParser) : p.rem.length = p.input_len - p.pos := by
  simp [JsonParser.rem, JsonParser.input_len]

theorem rem_nil (p : JsonParser) (h : p.rem = []) : p.pos ≥ p.input_len := by
  have := rem_length p
  rw [h] at this
  simp at this
  omega

theorem rem_nil_of_ge (p : JsonParser) (h : p.pos ≥ p.input_len) : p.rem = [] := by
  apply List.eq_nil_of_length_eq_zero
  rw [rem_length]
  omega

theorem rem_cons_lt (p : JsonParser) (c : Nat) (r : Bytes) (h : p.rem = c :: r) :
    p.pos < p.input_len := by
  have := rem_length p
  rw [h] at this
  simp at this
  omega

theorem rem_cons_cur (p : JsonParser) (c : Nat) (r : Bytes) (h : p.rem = c :: r) :
    p.cur = c := by
  have hlt := rem_cons_lt p c r h
  unfold JsonParser.cur
  unfold JsonParser.rem at h
  unfold JsonParser.input_len at hlt
  rw [List.getD_eq_getElem _ _ hlt]
  rw [List.drop_eq_getElem_cons hlt] at h
  injection h

theorem rem_advance (p : JsonParser) (n : Nat) : (p.advance n).rem = p.rem.drop n := by
  simp [JsonParser.rem, JsonParser.advance, List.drop_drop, Nat.add_comm]

theorem rem_newline (p : JsonParser) : p.newline.rem = p.rem.drop 1 := by
  simp [JsonParser.rem, JsonParser.newline, List.drop_drop, Nat.add_comm]

theorem slice_pos (p : JsonParser) (n : Nat) : p.slice p.pos n = p.rem.take n := rfl

@[simp]
theorem advance_input (p : JsonParser) (n : Nat) : (p.advance n).input = p.input := rfl
@[simp]
theorem advance_errors (p : JsonParser) (n : Nat) : (p.advance n).errors = p.errors := rfl
@[simp]
theorem advance_pos (p : JsonParser) (n : Nat) : (p.advance n).pos = p.pos + n := rfl
@[simp]
theorem advance_input_len (p : JsonParser) (n : Nat) :
    (p.advance n).input_len = p.input_len := rfl
@[simp]
theorem add_error_input (p : JsonParser) (m : String) : (add_error p m).input = p.input :=
  rfl
@[simp]
theorem add_error_pos (p : JsonParser) (m : String) : (add_error p m).pos = p.pos := rfl
@[simp]
theorem add_error_rem (p : JsonParser) (m : String) : (add_error p m).rem = p.rem := rfl

theorem advance_advance (p : JsonParser) (a b : Nat) :
    (p.advance a).advance b = p.advance (a + b) := by
  simp [JsonParser.advance, Nat.add_assoc]

theorem advance_zero (p : JsonParser) : p.advance 0 = p := by
  simp [JsonParser.advance]

/-- What `skip_whitespace` does to the fields other than `line` and `column`. -/
theorem skip_whitespace_loop_spec (n : Nat) : ∀ p : JsonParser, p.rem.length ≤ n →
    (skip_whitespace_loop n p).input = p.input ∧
    (skip_whitespace_loop n p).errors = p.errors ∧
    (skip_whitespace_loop n p).rem = p.rem.dropWhile is_ws ∧
    (skip_whitespace_loop n p).pos = p.pos + (p.rem.takeWhile is_ws).length := by
  induction n with
  | zero =>
    intro p h
    have h0 : p.rem = [] := List.eq_nil_of_length_eq_zero (by omega)
    simp [skip_whitespace_loop, h0]
  | succ n ih =>
    intro p h
    cases hr : p.rem with
    | nil =>
      have := rem_nil p hr
      simp [skip_whitespace_loop, Nat.not_lt.mpr this, hr]
    | cons c r =>
      have hlt := rem_cons_lt p c r hr
      have hc := rem_cons_cur p c r hr
      rw [hr] at h
      simp only [List.length_cons] at h
      simp only [skip_whitespace_loop, hlt, if_true, hc]
      by_cases h1 : c = 32 ∨ c = 9 ∨ c = 13
      · have hw : is_ws c = true := by
          rcases h1 with h1 | h1 | h1 <;> simp [is_ws, h1]
        have ha : (p.advance 1).rem = r := by rw [rem_advance, hr]; rfl
        have := ih (p.advance 1) (by rw [ha]; omega)
        rw [ha] at this
        simp only [h1, if_true, List.dropWhile_cons, List.takeWhile_cons, hw, List.length_cons]
        refine ⟨this.1, this.2.1, this.2.2.1, ?_⟩
        rw [this.2.2.2]; simp; omega
      · by_cases h2 : c = 10
        · have hw : is_ws c = true := by simp [is_ws, h2]
          have ha : p.newline.rem = r := by rw [rem_newline, hr]; rfl
          have := ih p.newline (by rw [ha]; omega)
          rw [ha] at this
          subst h2
          simp only [h1, if_false, if_true, List.dropWhile_cons, List.takeWhile_cons, hw,
            List.length_cons]
          refine ⟨this.1, this.2.1, this.2.2.1, ?_⟩
          rw [this.2.2.2]; simp [JsonParser.newline]; omega
        · have hw : is_ws c = false := by
            simp only [not_or] at h1
            simp [is_ws, h1.1, h1.2.1, h1.2.2, h2]
          simp [h1, h2, hr, hw]

theorem skip_whitespace_spec (p : JsonParser) :
    (skip_whitespace p).input = p.input ∧
    (skip_whitespace p).errors = p.errors ∧
    (skip_whitespace p).rem = p.rem.dropWhile is_ws ∧
    (skip_whitespace p).pos = p.pos + (p.rem.takeWhile is_ws).length :=
  skip_whitespace_loop_spec _ p (by rw [rem_length])

theorem scan_string_le (l : Bytes) : ∀ e, scan_string e l ≤ l.length := by
  induction l with
  | nil => intro e; cases e <;> simp [scan_string]
  | cons c r ih =>
    intro e
    cases e
    · simp only [scan_string, List.length_cons]
      have h1 := ih true
      have h2 := ih false
      split_ifs <;> omega
    · simp only [scan_string, List.length_cons]
      have h2 := ih false
      omega

theorem scan_number_le (l : Bytes) : ∀ d, scan_number d l ≤ l.length := by
  induction l with
  | nil => intro d; simp [scan_number]
  | cons c r ih =>
    intro d
    simp only [scan_number, List.length_cons]
    have h1 := ih true
    have h2 := ih d
    split_ifs <;> omega

theorem parse_string_loop_spec (n : Nat) : ∀ (p : JsonParser) (len : Nat) (e : Bool),
    p.rem.length ≤ n →
    parse_string_loop n p len e =
      (p.advance (scan_string e p.rem), len + scan_string e p.rem) := by
  induction n with
  | zero =>
    intro p len e h
    have h0 : p.rem = [] := List.eq_nil_of_length_eq_zero (by omega)
    cases e <;> simp [parse_string_loop, h0, scan_string, advance_zero]
  | succ n ih =>
    intro p len e h
    cases hr : p.rem with
    | nil =>
      have := rem_nil p hr
      cases e <;> simp [parse_string_loop, Nat.not_lt.mpr this, scan_string, advance_zero]
    | cons c r =>
      have hlt := rem_cons_lt p c r hr
      have hc := rem_cons_cur p c r hr
      have ha : (p.advance 1).rem = r := by rw [rem_advance, hr]; rfl
      rw [hr] at h
      simp only [List.length_cons] at h
      have hn : (p.advance 1).rem.length ≤ n := by rw [ha]; omega
      simp only [parse_string_loop, hlt, if_true, hc]
      cases e
      · simp only [scan_string, Bool.false_eq_true, if_false]
        by_cases h1 : c = 92
        · simp only [h1, if_true]
          rw [ih _ _ _ hn, ha, advance_advance]
          simp [Nat.add_assoc]
        · by_cases h2 : c = 34
          · simp [h1, h2, advance_zero]
          · simp only [h1, h2, if_false]
            rw [ih _ _ _ hn, ha, advance_advance]
            simp [Nat.add_assoc]
      · simp only [scan_string, if_true]
        rw [ih _ _ _ hn, ha, advance_advance]
        simp [Nat.add_assoc]

theorem parse_number_loop_spec (n : Nat) : ∀ (p : JsonParser) (len : Nat) (d : Bool),
    p.rem.length ≤ n →
    parse_number_loop n p len d =
      (p.advance (scan_number d p.rem), len + scan_number d p.rem) := by
  induction n with
  | zero =>
    intro p len d h
    have h0 : p.rem = [] := List.eq_nil_of_length_eq_zero (by omega)
    simp [parse_number_loop, h0, scan_number, advance_zero]
  | succ n ih =>
    intro p len d h
    cases hr : p.rem with
    | nil =>
      have := rem_nil p hr
      simp [parse_number_loop, Nat.not_lt.mpr this, scan_number, advance_zero]
    | cons c r =>
      have hlt := rem_cons_lt p c r hr
      have hc := rem_cons_cur p c r hr
      have ha : (p.advance 1).rem = r := by rw [rem_advance, hr]; rfl
      rw [hr] at h
      simp only [List.length_cons] at h
      have hn : (p.advance 1).rem.length ≤ n := by rw [ha]; omega
      simp only [parse_number_loop, hlt, if_true, hc, scan_number]
      by_cases h1 : c = 46 ∧ d = false
      · simp only [h1, and_self, if_true]
        rw [ih _ _ _ hn, ha, advance_advance]
        simp [Nat.add_assoc]
      · by_cases h2 : isdigit c = false
        · simp [h1, h2, advance_zero]
        · simp only [h1, h2, if_false]
          rw [ih _ _ _ hn, ha, advance_advance]
          simp [Nat.add_assoc]

/-- The result of `parse_string` at an opening quote, in terms of the unread input. -/
theorem parse_string_eq (p : JsonParser) (r : Bytes) (h : p.rem = 34 :: r) :
    parse_string p =
      if r.length ≤ scan_string false r then
        (none, add_error (p.advance (1 + scan_string false r)) "Unterminated string")
      else (some (r.take (scan_string false r)), p.advance (scan_string false r + 2)) := by
  have hlt := rem_cons_lt p 34 r h
  have hc := rem_cons_cur p 34 r h
  have ha : (p.advance 1).rem = r := by rw [rem_advance, h]; rfl
  have hloop := parse_string_loop_spec ((p.advance 1).input_len - (p.advance 1).pos) (p.advance 1)
    0 false (by rw [rem_length])
  rw [ha] at hloop
  have hk := scan_string_le r false
  unfold parse_string
  simp only [ge_iff_le, Nat.not_le.mpr hlt, hc, ne_eq, not_true_eq_false, or_self, if_false]
  rw [hloop]
  simp only [advance_advance, advance_pos, advance_input_len, Nat.zero_add]
  have hlen : p.input_len - p.pos = r.length + 1 := by
    rw [← rem_length, h]; rfl
  by_cases hu : r.length ≤ scan_string false r
  · have : p.input_len ≤ p.pos + (1 + scan_string false r) := by omega
    simp [hu, this]
  · have : ¬ p.input_len ≤ p.pos + (1 + scan_string false r) := by omega
    simp only [hu, this, if_false]
    congr 2
    · unfold JsonParser.slice
      simp only [advance_input]
      have : List.drop (p.pos + 1) p.input = r := by
        have := ha
        simpa [JsonParser.rem, JsonParser.advance] using this
      rw [this]
    · rw [Nat.add_comm 1, Nat.add_assoc]

theorem parse_string_not_quote (p : JsonParser) (h : p.rem.head? ≠ some 34) :
    parse_string p = (none, add_error p "Expected string") := by
  unfold parse_string
  cases hr : p.rem with
  | nil =>
    have := rem_nil p hr
    simp [this]
  | cons c r =>
    have hc := rem_cons_cur p c r hr
    rw [hr] at h
    have : c ≠ 34 := by simpa using h
    simp [hc, this]

/-- The result of the number branch in terms of the unread input. -/
theorem parse_number_eq (p : JsonParser) (c : Nat) (r : Bytes) (h : p.rem = c :: r) :
    parse_number p =
      if c = 45 then
        (some (tree_node_create none (some (45 :: r.take (scan_number false r)))
            JsonType.JSON_NUMBER), p.advance (1 + scan_number false r))
      else
        (some (tree_node_create none (some ((c :: r).take (scan_number false (c :: r))))
            JsonType.JSON_NUMBER), p.advance (scan_number false (c :: r))) := by
  have hc := rem_cons_cur p c r h
  have ha : (p.advance 1).rem = r := by rw [rem_advance, h]; rfl
  unfold parse_number
  simp only [hc]
  by_cases h1 : c = 45
  · subst h1
    simp only [if_true]
    rw [parse_number_loop_spec _ _ _ _ (by rw [rem_length]), ha, advance_advance]
    simp only [JsonParser.slice, advance_input]
    have : List.drop p.pos p.input = 45 :: r := h
    rw [this]
    simp [Nat.add_comm]
  · simp only [h1, if_false]
    rw [parse_number_loop_spec _ _ _ _ (by rw [rem_length]), h]
    simp only [JsonParser.slice, advance_input, Nat.zero_add]
    have : List.drop p.pos p.input = c :: r := h
    rw [this]

theorem parse_value_zero (p : JsonParser) : parse_value 0 p = none := by
  simp [parse_value]

theorem parse_value_succ (fuel : Nat) (p0 : JsonParser) :
    parse_value (fuel + 1) p0 =
      if (skip_whitespace p0).pos < (skip_whitespace p0).input_len ∧ (skip_whitespace p0).cur = 123
      then parse_object fuel (skip_whitespace p0)
      else if (skip_whitespace p0).pos < (skip_whitespace p0).input_len ∧
          (skip_whitespace p0).cur = 91
      then parse_array fuel (skip_whitespace p0)
      else some (parse_leaf (skip_whitespace p0)) := by
  rw [parse_value]
  simp only [parse_leaf]
  generalize skip_whitespace p0 = p
  by_cases h0 : p.pos ≥ p.input_len
  · have : ¬ p.pos < p.input_len := by omega
    simp [h0, this]
  · have h0' : p.pos < p.input_len := by omega
    simp only [h0, h0', if_false, true_and]
    by_cases h1 : p.cur = 34
    · simp only [h1, if_true]
      simp only [show ¬ (34 : Nat) = 123 by decide, show ¬ (34 : Nat) = 91 by decide, if_false]
      cases hps : parse_string p with
      | mk a b => cases a <;> rfl
    · simp only [h1, if_false]
      by_cases h2 : p.cur = 123
      · simp [h2]
      · simp only [h2, if_false]
        by_cases h3 : p.cur = 91
        · simp [h3]
        · simp only [h3, if_false]
          split_ifs <;> rfl

theorem parse_array_succ (fuel : Nat) (p0 : JsonParser) :
    parse_array (fuel + 1) p0 =
      match parse_array_loop fuel (skip_whitespace (p0.advance 1))
          (tree_node_create none none JsonType.JSON_ARRAY) with
      | none => none
      | some (none, p1) => some (none, p1)
      | some (some node1, p1) =>
        if p1.pos ≥ p1.input_len ∨ p1.cur ≠ 93 then
          some (none, add_error p1 "Unterminated array")
        else some (some node1, p1.advance 1) := by
  rw [parse_array]

theorem parse_object_succ (fuel : Nat) (p0 : JsonParser) :
    parse_object (fuel + 1) p0 =
      match parse_object_loop fuel (skip_whitespace (p0.advance 1))
          (tree_node_create none none JsonType.JSON_OBJECT) with
      | none => none
      | some (none, p1) => some (none, p1)
      | some (some node1, p1) =>
        if p1.pos ≥ p1.input_len ∨ p1.cur ≠ 125 then
          some (none, add_error p1 "Unterminated object")
        else some (some node1, p1.advance 1) := by
  rw [parse_object]

theorem parse_array_loop_succ (fuel : Nat) (p : JsonParser) (node : TreeNode) :
    parse_array_loop (fuel + 1) p node =
      if p.pos < p.input_len ∧ p.cur ≠ 93 then
        match parse_value fuel p with
        | none => none
        | some (none, p1) => some (none, p1)
        | some (some value, p1) =>
          parse_array_loop fuel (skip_comma p1)
            (tree_node_add_child node
              { value with name := some (strdup (index_str node.children.length)) })
      else some (some node, p) := by
  rw [parse_array_loop]
  rfl

theorem parse_object_loop_succ (fuel : Nat) (p : JsonParser) (node : TreeNode) :
    parse_object_loop (fuel + 1) p node =
      if p.pos < p.input_len ∧ p.cur ≠ 125 then
        match parse_string p with
        | (none, p1) => some (none, p1)
        | (some key, p1) =>
          if (skip_whitespace p1).pos ≥ (skip_whitespace p1).input_len ∨
              (skip_whitespace p1).cur ≠ 58 then
            some (none, add_error (skip_whitespace p1) "Expected ':'")
          else
            match parse_value fuel (skip_whitespace ((skip_whitespace p1).advance 1)) with
            | none => none
            | some (none, p4) => some (none, p4)
            | some (some value, p4) =>
              parse_object_loop fuel (skip_comma p4)
                (tree_node_add_child node { value with name := some key })
      else some (some node, p) := by
  rw [parse_object_loop]
  rfl

theorem scan_number_digit_pos (c : Nat) (r : Bytes) (h : isdigit c = true) :
    scan_number false (c :: r) = 1 + scan_number false r := by
  have h46 : c ≠ 46 := by
    intro h'; subst h'; simp [isdigit] at h
  simp [scan_number, h46, h]

/-- A non-recursive branch either returns a node after consuming at least one
byte, or returns no node and records one diagnostic. -/
theorem parse_leaf_cases (p : JsonParser) :
    (∃ t k, parse_leaf p = (some t, p.advance k) ∧ 0 < k ∧ k ≤ p.rem.length) ∨
    (∃ k msg, parse_leaf p = (none, add_error (p.advance k) msg) ∧ k ≤ p.rem.length) := by
  cases hr : p.rem with
  | nil =>
    right
    refine ⟨0, "Unexpected end of input", ?_, by simp⟩
    have := rem_nil p hr
    simp [parse_leaf, this, advance_zero]
  | cons c r =>
    have hlt := rem_cons_lt p c r hr
    have hc := rem_cons_cur p c r hr
    have hlen : p.input_len - p.pos = r.length + 1 := by rw [← rem_length, hr]; rfl
    unfold parse_leaf
    simp only [ge_iff_le, Nat.not_le.mpr hlt, if_false, hc]
    by_cases h1 : c = 34
    · subst h1
      simp only [if_true]
      rw [parse_string_eq p r hr]
      have hk := scan_string_le r false
      by_cases hu : r.length ≤ scan_string false r
      · right
        refine ⟨1 + scan_string false r, "Unterminated string", by simp [hu], ?_⟩
        simp only [List.length_cons]; omega
      · left
        rw [if_neg hu]
        refine ⟨_, scan_string false r + 2, rfl, by omega, ?_⟩
        simp only [List.length_cons]; omega
    · simp only [h1, if_false]
      by_cases h2 : c = 116
      · simp only [h2, if_true]
        by_cases h : p.pos + 3 < p.input_len ∧ strncmp_eq p [116, 114, 117, 101] = true
        · left
          rw [if_pos h]
          refine ⟨_, 4, rfl, by omega, ?_⟩
          simp only [List.length_cons]; omega
        · right
          exact ⟨0, "Invalid true value", by simp [h, advance_zero], by simp⟩
      · simp only [h2, if_false]
        by_cases h3 : c = 102
        · simp only [h3, if_true]
          by_cases h : p.pos + 4 < p.input_len ∧ strncmp_eq p [102, 97, 108, 115, 101] = true
          · left
            rw [if_pos h]
            refine ⟨_, 5, rfl, by omega, ?_⟩
            simp only [List.length_cons]; omega
          · right
            exact ⟨0, "Invalid false value", by simp [h, advance_zero], by simp⟩
        · simp only [h3, if_false]
          by_cases h4 : c = 110
          · simp only [h4, if_true]
            by_cases h : p.pos + 3 < p.input_len ∧ strncmp_eq p [110, 117, 108, 108] = true
            · left
              rw [if_pos h]
              refine ⟨_, 4, rfl, by omega, ?_⟩
              simp only [List.length_cons]; omega
            · right
              exact ⟨0, "Invalid null value", by simp [h, advance_zero], by simp⟩
          · simp only [h4, if_false]
            by_cases h5 : c = 45 ∨ isdigit c = true
            · left
              simp only [h5, if_true]
              rw [parse_number_eq p c r hr]
              by_cases h6 : c = 45
              · have := scan_number_le r false
                rw [if_pos h6]
                refine ⟨_, 1 + scan_number false r, rfl, by omega, ?_⟩
                simp only [List.length_cons]; omega
              · have hd : isdigit c = true := by
                  rcases h5 with h5 | h5
                  · exact absurd h5 h6
                  · exact h5
                have := scan_number_le r false
                have hs := scan_number_digit_pos c r hd
                rw [if_neg h6]
                refine ⟨_, scan_number false (c :: r), rfl, by omega, ?_⟩
                simp only [List.length_cons]; omega
            · right
              exact ⟨0, "Invalid value", by simp [h5, advance_zero], by simp⟩

theorem rem_length_advance (p : JsonParser) (k : Nat) :
    (p.advance k).rem.length = p.rem.length - k := by
  rw [rem_advance]; simp

theorem skip_whitespace_rem_le (p : JsonParser) :
    (skip_whitespace p).rem.length ≤ p.rem.length := by
  rw [(skip_whitespace_spec p).2.2.1]
  exact (List.dropWhile_sublist _).length_le

theorem skip_comma_spec (p : JsonParser) :
    (skip_comma p).input = p.input ∧ (skip_comma p).errors = p.errors ∧
    (skip_comma p).rem.length ≤ p.rem.length := by
  unfold skip_comma
  have h1 := skip_whitespace_spec p
  have h1' := skip_whitespace_rem_le p
  split_ifs
  · have h2 := skip_whitespace_spec ((skip_whitespace p).advance 1)
    have h2' := skip_whitespace_rem_le ((skip_whitespace p).advance 1)
    have h3 := rem_length_advance (skip_whitespace p) 1
    refine ⟨by rw [h2.1, advance_input, h1.1], by rw [h2.2.1, advance_errors, h1.2.1], by omega⟩
  · exact ⟨h1.1, h1.2.1, h1'⟩

theorem parse_leaf_progress (p : JsonParser) : Progress p (parse_leaf p) := by
  rcases parse_leaf_cases p with ⟨t, k, h, hk, hk'⟩ | ⟨k, msg, h, hk⟩
  · rw [h]
    refine ⟨rfl, ?_, fun _ => ?_⟩
    · simp only [rem_length_advance]; omega
    · simp only [rem_length_advance]; omega
  · rw [h]
    refine ⟨rfl, ?_, fun h' => ?_⟩
    · simp only [add_error_rem, rem_length_advance]; omega
    · simp at h'

/-- Termination of the recursive descent: a budget of three steps per unread
byte is never exhausted. -/
theorem parse_total (f : Nat) :
    (∀ p, 3 * p.rem.length + 1 ≤ f → ∃ r, parse_value f p = some r ∧ Progress p r) ∧
    (∀ p, p.rem ≠ [] → 3 * p.rem.length ≤ f → ∃ r, parse_array f p = some r ∧ Progress p r) ∧
    (∀ p, p.rem ≠ [] → 3 * p.rem.length ≤ f → ∃ r, parse_object f p = some r ∧ Progress p r) ∧
    (∀ p node, 3 * p.rem.length + 2 ≤ f →
      ∃ r, parse_array_loop f p node = some r ∧ r.2.input = p.input ∧
        r.2.rem.length ≤ p.rem.length) ∧
    (∀ p node, 3 * p.rem.length + 2 ≤ f →
      ∃ r, parse_object_loop f p node = some r ∧ r.2.input = p.input ∧
        r.2.rem.length ≤ p.rem.length) := by
  induction f with
  | zero =>
    refine ⟨fun p h => by omega, fun p hne h => ?_, fun p hne h => ?_, fun p _ h => by omega,
      fun p _ h => by omega⟩
    · have : p.rem.length ≠ 0 := fun h0 => hne (List.eq_nil_of_length_eq_zero h0)
      omega
    · have : p.rem.length ≠ 0 := fun h0 => hne (List.eq_nil_of_length_eq_zero h0)
      omega
  | succ f ih =>
    obtain ⟨ihv, iha, iho, ihal, ihol⟩ := ih
    refine ⟨?_, ?_, ?_, ?_, ?_⟩
    · intro p0 hf
      rw [parse_value_succ]
      have hs := skip_whitespace_spec p0
      have hs' := skip_whitespace_rem_le p0
      generalize skip_whitespace p0 = p at hs hs'
      have hne : p.pos < p.input_len → p.rem ≠ [] := by
        intro hlt h0
        have := rem_nil p h0
        omega
      by_cases h1 : p.pos < p.input_len ∧ p.cur = 123
      · rw [if_pos h1]
        obtain ⟨r, hr, hp⟩ := iho p (hne h1.1) (by omega)
        exact ⟨r, hr, by rw [hp.1, hs.1], by have := hp.2.1; omega,
          fun h => by have := hp.2.2 h; omega⟩
      · rw [if_neg h1]
        by_cases h2 : p.pos < p.input_len ∧ p.cur = 91
        · rw [if_pos h2]
          obtain ⟨r, hr, hp⟩ := iha p (hne h2.1) (by omega)
          exact ⟨r, hr, by rw [hp.1, hs.1], by have := hp.2.1; omega,
            fun h => by have := hp.2.2 h; omega⟩
        · rw [if_neg h2]
          have hp := parse_leaf_progress p
          exact ⟨_, rfl, by rw [hp.1, hs.1], by have := hp.2.1; omega,
            fun h => by have := hp.2.2 h; omega⟩
    · intro p0 hne hf
      rw [parse_array_succ]
      have hpos : 0 < p0.rem.length := List.length_pos.mpr hne
      have hs := skip_whitespace_spec (p0.advance 1)
      have hs' := skip_whitespace_rem_le (p0.advance 1)
      have ha := rem_length_advance p0 1
      generalize skip_whitespace (p0.advance 1) = p at hs hs'
      obtain ⟨⟨r1, r2⟩, hr, hi, hl⟩ := ihal p (tree_node_create none none JsonType.JSON_ARRAY)
        (by omega)
      rw [hr]
      simp only at hi hl
      cases r1 with
      | none => exact ⟨_, rfl, by simp only [hi, hs.1, advance_input], by simp only; omega,
          fun h => by simp at h⟩
      | some n =>
        simp only
        split_ifs
        · exact ⟨_, rfl, by simp only [add_error_input, hi, hs.1, advance_input],
            by simp only [add_error_rem]; omega, fun h => by simp at h⟩
        · have := rem_length_advance r2 1
          exact ⟨_, rfl, by simp only [advance_input, hi, hs.1], by simp only; omega,
            fun _ => by simp only; omega⟩
    · intro p0 hne hf
      rw [parse_object_succ]
      have hpos : 0 < p0.rem.length := List.length_pos.mpr hne
      have hs := skip_whitespace_spec (p0.advance 1)
      have hs' := skip_whitespace_rem_le (p0.advance 1)
      have ha := rem_length_advance p0 1
      generalize skip_whitespace (p0.advance 1) = p at hs hs'
      obtain ⟨⟨r1, r2⟩, hr, hi, hl⟩ := ihol p (tree_node_create none none JsonType.JSON_OBJECT)
        (by omega)
      rw [hr]
      simp only at hi hl
      cases r1 with
      | none => exact ⟨_, rfl, by simp only [hi, hs.1, advance_input], by simp only; omega,
          fun h => by simp at h⟩
      | some n =>
        simp only
        split_ifs
        · exact ⟨_, rfl, by simp only [add_error_input, hi, hs.1, advance_input],
            by simp only [add_error_rem]; omega, fun h => by simp at h⟩
        · have := rem_length_advance r2 1
          exact ⟨_, rfl, by simp only [advance_input, hi, hs.1], by simp only; omega,
            fun _ => by simp only; omega⟩
    · intro p node hf
      rw [parse_array_loop_succ]
      by_cases hc : p.pos < p.input_len ∧ p.cur ≠ 93
      · rw [if_pos hc]
        obtain ⟨⟨r1, r2⟩, hr, hi, hl, hlt⟩ := ihv p (by omega)
        rw [hr]
        simp only at hi hl hlt
        cases r1 with
        | none => exact ⟨_, rfl, hi, hl⟩
        | some v =>
          simp only
          have hlt' := hlt rfl
          have hsc := skip_comma_spec r2
          obtain ⟨r, hr', hi', hl'⟩ := ihal (skip_comma r2)
            (tree_node_add_child node
              { v with name := some (strdup (index_str node.children.length)) }) (by omega)
          exact ⟨r, hr', by rw [hi', hsc.1, hi], by omega⟩
      · rw [if_neg hc]
        exact ⟨_, rfl, rfl, Nat.le_refl _⟩
    · intro p node hf
      rw [parse_object_loop_succ]
      by_cases hc : p.pos < p.input_len ∧ p.cur ≠ 125
      · rw [if_pos hc]
        have hne : p.rem ≠ [] := by
          intro h0
          have := rem_nil p h0
          omega
        cases hps : parse_string p with
        | mk k p1 =>
          have hkey : p1.input = p.input ∧ p1.rem.length ≤ p.rem.length ∧
              (k.isSome = true → p1.rem.length < p.rem.length) := by
            cases hr : p.rem with
            | nil => exact absurd hr hne
            | cons c r =>
              by_cases hq : c = 34
              · subst hq
                rw [parse_string_eq p r hr] at hps
                have hk := scan_string_le r false
                split_ifs at hps with hu
                · injection hps with h1 h2
                  subst h1 h2
                  refine ⟨rfl, ?_, fun h => by simp at h⟩
                  simp only [add_error_rem, rem_length_advance, hr, List.length_cons]; omega
                · injection hps with h1 h2
                  subst h1 h2
                  refine ⟨rfl, ?_, fun _ => ?_⟩ <;>
                  · simp only [rem_length_advance, hr, List.length_cons]; omega
              · rw [parse_string_not_quote p (by rw [hr]; simpa using hq)] at hps
                injection hps with h1 h2
                subst h1 h2
                exact ⟨rfl, by simp [hr], fun h => by simp at h⟩
          cases k with
          | none => exact ⟨_, rfl, hkey.1, hkey.2.1⟩
          | some key =>
            simp only
            have hk1 := hkey.2.2 rfl
            have hs := skip_whitespace_spec p1
            have hs' := skip_whitespace_rem_le p1
            generalize skip_whitespace p1 = p2 at hs hs'
            split_ifs with hcolon
            · exact ⟨_, rfl, by simp only [add_error_input, hs.1, hkey.1],
                by simp only [add_error_rem]; omega⟩
            · have hs3 := skip_whitespace_spec (p2.advance 1)
              have hs3' := skip_whitespace_rem_le (p2.advance 1)
              have ha := rem_length_advance p2 1
              generalize skip_whitespace (p2.advance 1) = p3 at hs3 hs3'
              obtain ⟨⟨r1, r2⟩, hr, hi, hl, hlt⟩ := ihv p3 (by omega)
              rw [hr]
              simp only at hi hl hlt
              have hin : r2.input = p.input := by
                rw [hi, hs3.1, advance_input, hs.1, hkey.1]
              cases r1 with
              | none => exact ⟨_, rfl, hin, by simp only; omega⟩
              | some v =>
                simp only
                have hsc := skip_comma_spec r2
                obtain ⟨r, hr', hi', hl'⟩ := ihol (skip_comma r2)
                  (tree_node_add_child node { v with name := some key }) (by omega)
                exact ⟨r, hr', by rw [hi', hsc.1, hin], by omega⟩
      · rw [if_neg hc]
        exact ⟨_, rfl, rfl, Nat.le_refl _⟩

/-- The budget of `json_parse_tree` is enough: the parse always completes. -/
theorem json_parse_tree_total (p : JsonParser) :
    ∃ r, json_parse_tree p = some r ∧ r.2.input = p.input := by
  unfold json_parse_tree
  obtain ⟨r, hr, hp⟩ := (parse_total (3 * p.input_len + 1)).1
    { p with pos := 0, line := 1, column := 0, errors := [] }
    (by simp [JsonParser.rem, JsonParser.input_len])
  exact ⟨r, hr, hp.1⟩

/-! ## Depth of a tree -/

theorem tree_height_eq (t : TreeNode) : tree_height t = forest_height t.children := by
  cases t; simp [tree_height]

theorem forest_height_ge (cs : List TreeNode) (c : TreeNode) (h : c ∈ cs) :
    tree_height c + 1 ≤ forest_height cs := by
  induction cs with
  | nil => simp at h
  | cons a rest ih =>
    simp only [forest_height]
    rcases List.mem_cons.mp h with h | h
    · subst h; exact Nat.le_max_left _ _
    · exact Nat.le_trans (ih h) (Nat.le_max_right _ _)

theorem forest_height_attained (cs : List TreeNode) (h : cs ≠ []) :
    ∃ c ∈ cs, forest_height cs = tree_height c + 1 := by
  induction cs with
  | nil => exact absurd rfl h
  | cons a rest ih =>
    simp only [forest_height]
    by_cases hr : rest = []
    · subst hr
      exact ⟨a, by simp, by simp [forest_height]⟩
    · obtain ⟨c, hc, he⟩ := ih hr
      by_cases hm : forest_height rest ≤ tree_height a + 1
      · exact ⟨a, by simp, Nat.max_eq_left hm⟩
      · exact ⟨c, List.mem_cons_of_mem _ hc, by rw [Nat.max_eq_right (by omega), he]⟩

theorem pathLen_le_height (t : TreeNode) (n : Nat) (h : PathLen t n) : n ≤ tree_height t := by
  induction h with
  | here t => exact Nat.zero_le _
  | down t c n hc _ ih =>
    rw [tree_height_eq]
    have := forest_height_ge t.children c hc
    omega

mutual
theorem pathLen_height : ∀ t : TreeNode, PathLen t (tree_height t)
  | ⟨name, value, type, children⟩ => by
    rw [tree_height]
    by_cases h : children = []
    · subst h; exact PathLen.here _
    · obtain ⟨c, hc, he⟩ := pathLen_forest children h
      rw [he.1]
      exact PathLen.down _ c _ hc he.2
theorem pathLen_forest : ∀ cs : List TreeNode, cs ≠ [] →
    ∃ c ∈ cs, forest_height cs = tree_height c + 1 ∧ PathLen c (tree_height c)
  | [], h => absurd rfl h
  | a :: rest, _ => by
    simp only [forest_height]
    by_cases hr : rest = []
    · subst hr
      exact ⟨a, by simp, by simp [forest_height], pathLen_height a⟩
    · obtain ⟨c, hc, he, hp⟩ := pathLen_forest rest hr
      by_cases hm : forest_height rest ≤ tree_height a + 1
      · exact ⟨a, by simp, Nat.max_eq_left hm, pathLen_height a⟩
      · exact ⟨c, List.mem_cons_of_mem _ hc, by rw [Nat.max_eq_right (by omega), he], hp⟩
end

mutual
theorem collect_stats_depth : ∀ (t : TreeNode) (stats : JsonStats) (depth : Nat),
    (collect_stats t stats depth).depth = max stats.depth (depth + tree_height t)
  | ⟨name, value, type, children⟩, ⟨total_keys, total_values, stats_depth, types⟩, depth => by
    rw [collect_stats, tree_height, collect_stats_loop_depth]
    · simp only; omega
    · simp only; omega
theorem collect_stats_loop_depth : ∀ (cs : List TreeNode) (stats : JsonStats) (depth : Nat),
    depth ≤ stats.depth →
    (collect_stats_loop cs stats depth).depth = max stats.depth (depth + forest_height cs)
  | [], stats, depth, h => by simp [collect_stats_loop, forest_height, h]
  | c :: rest, stats, depth, h => by
    rw [collect_stats_loop, collect_stats_loop_depth, collect_stats_depth, forest_height]
    · omega
    · rw [collect_stats_depth]; omega
end

/-! ## The text written by the serializer -/

theorem buffer_append_data (b : Buffer) (s : Bytes) :
    (buffer_append b s).data = b.data ++ cstr s := by
  unfold buffer_append
  dsimp only
  split_ifs <;> rfl

theorem append_spaces_data (n : Nat) : ∀ b : Buffer,
    (append_spaces n b).data = b.data ++ List.replicate n 32 := by
  induction n with
  | zero => intro b; simp [append_spaces]
  | succ n ih =>
    intro b
    rw [append_spaces, ih, buffer_append_data]
    have : cstr [32] = [32] := by decide
    rw [this, List.replicate_succ]
    simp

theorem sep_data (b : Buffer) (i count : Nat) :
    (if i < count - 1 then buffer_append b [44] else b).data = b.data ++ sep_text i count := by
  unfold sep_text
  split_ifs
  · rw [buffer_append_data]; rfl
  · simp

mutual
theorem format_value_data : ∀ (t : TreeNode) (b : Buffer) (indent level : Nat),
    (format_value t b indent level).data =
      b.data ++ List.replicate (level * indent) 32 ++ fmt_body t indent level
  | ⟨name, value, type, children⟩, b, indent, level => by
    unfold format_value fmt_body
    cases type
    · simp only [buffer_append_data, append_spaces_data]; rfl
    · simp only [buffer_append_data, append_spaces_data]
    · simp only [buffer_append_data, append_spaces_data]
    · simp only [buffer_append_data, append_spaces_data]
      have : cstr [34] = [34] := by decide
      simp [this]
    · simp only [buffer_append_data, append_spaces_data, format_array_loop_data]
      have h1 : cstr [91, 10] = [91, 10] := by decide
      have h2 : cstr [93] = [93] := by decide
      simp [h1, h2]
    · simp only [buffer_append_data, append_spaces_data, format_object_loop_data]
      have h1 : cstr [123, 10] = [123, 10] := by decide
      have h2 : cstr [125] = [125] := by decide
      simp [h1, h2]
theorem format_array_loop_data : ∀ (cs : List TreeNode) (i count : Nat) (b : Buffer)
    (indent level : Nat),
    (format_array_loop cs i count b indent level).data =
      b.data ++ fmt_array cs i count indent level
  | [], i, count, b, indent, level => by simp [format_array_loop, fmt_array]
  | c :: rest, i, count, b, indent, level => by
    rw [format_array_loop, fmt_array]
    simp only [format_array_loop_data, buffer_append_data, sep_data, format_value_data]
    have : cstr [10] = [10] := by decide
    simp [this]
theorem format_object_loop_data : ∀ (cs : List TreeNode) (i count : Nat) (b : Buffer)
    (indent level : Nat),
    (format_object_loop cs i count b indent level).data =
      b.data ++ fmt_object cs i count indent level
  | [], i, count, b, indent, level => by simp [format_object_loop, fmt_object]
  | c :: rest, i, count, b, indent, level => by
    rw [format_object_loop, fmt_object]
    simp only [format_object_loop_data, buffer_append_data, sep_data, format_value_data,
      append_spaces_data]
    have h1 : cstr [10] = [10] := by decide
    have h2 : cstr [34] = [34] := by decide
    have h3 : cstr [34, 58, 32] = [34, 58, 32] := by decide
    simp [h1, h2, h3]
end

/-! ## Reading back what the serializer wrote: scanning lemmas -/

theorem dropWhile_ws_of_head (c : Nat) (r : Bytes) (h : is_ws c = false) :
    (c :: r).dropWhile is_ws = c :: r := by
  simp [List.dropWhile_cons, h]

theorem dropWhile_ws_append (ws l : Bytes) (h : ∀ b ∈ ws, is_ws b = true) :
    (ws ++ l).dropWhile is_ws = l.dropWhile is_ws := by
  induction ws with
  | nil => rfl
  | cons a ws ih =>
    have ha : is_ws a = true := h a (by simp)
    simp only [List.cons_append, List.dropWhile_cons, ha, if_true]
    exact ih (fun b hb => h b (List.mem_cons_of_mem _ hb))

theorem replicate_ws (n : Nat) : ∀ b ∈ List.replicate n 32, is_ws b = true := by
  intro b hb
  rw [List.eq_of_mem_replicate hb]
  decide

/-- At a byte that is not whitespace, `skip_whitespace` leaves the unread input alone. -/
theorem skip_whitespace_at (p : JsonParser) (c : Nat) (r : Bytes) (h : p.rem = c :: r)
    (hc : is_ws c = false) :
    (skip_whitespace p).input = p.input ∧ (skip_whitespace p).errors = p.errors ∧
    (skip_whitespace p).rem = c :: r := by
  have := skip_whitespace_spec p
  refine ⟨this.1, this.2.1, ?_⟩
  rw [this.2.2.1, h, dropWhile_ws_of_head c r hc]

/-- The optional comma: after a value followed by an optional comma and a line
feed, `skip_comma` stops at the next byte that is not whitespace. -/
theorem skip_comma_rem (q : JsonParser) (sep Y : Bytes) (c : Nat) (r : Bytes)
    (hsep : sep = [44] ∨ sep = []) (hq : q.rem = sep ++ 10 :: Y)
    (hY : Y.dropWhile is_ws = c :: r) (hc : c ≠ 44) :
    (skip_comma q).input = q.input ∧ (skip_comma q).errors = q.errors ∧
    (skip_comma q).rem = c :: r := by
  have h10 : is_ws 10 = true := by decide
  unfold skip_comma
  rcases hsep with hsep | hsep
  · subst hsep
    have h44 : is_ws 44 = false := by decide
    have hs := skip_whitespace_at q 44 (10 :: Y) hq h44
    have hlt := rem_cons_lt _ _ _ hs.2.2
    have hcur := rem_cons_cur _ _ _ hs.2.2
    rw [if_pos ⟨hlt, hcur⟩]
    have ha : ((skip_whitespace q).advance 1).rem = 10 :: Y := by
      rw [rem_advance, hs.2.2]; rfl
    have hs2 := skip_whitespace_spec ((skip_whitespace q).advance 1)
    refine ⟨by rw [hs2.1, advance_input, hs.1], by rw [hs2.2.1, advance_errors, hs.2.1], ?_⟩
    rw [hs2.2.2.1, ha, List.dropWhile_cons, h10, if_pos rfl, hY]
  · subst hsep
    have hs := skip_whitespace_spec q
    have hrem : (skip_whitespace q).rem = c :: r := by
      rw [hs.2.2.1, hq, List.nil_append, List.dropWhile_cons, h10, if_pos rfl, hY]
    have hcur := rem_cons_cur _ _ _ hrem
    have : ¬ ((skip_whitespace q).pos < (skip_whitespace q).input_len ∧
        (skip_whitespace q).cur = 44) := by
      rw [hcur]; exact fun h => hc h.2
    rw [if_neg this]
    exact ⟨hs.1, hs.2.1, hrem⟩

/-- The string scan stops at the same quote when the text after it changes. -/
theorem scan_string_take (r : Bytes) : ∀ (e : Bool) (r0 : Bytes),
    scan_string e r < r.length →
    scan_string e (r.take (scan_string e r) ++ 34 :: r0) = scan_string e r := by
  induction r with
  | nil => intro e r0 h; simp at h
  | cons c r ih =>
    intro e r0 h
    cases e
    · by_cases h1 : c = 92
      · have hs : scan_string false (c :: r) = 1 + scan_string true r := by
          simp [scan_string, h1]
        rw [hs] at h ⊢
        simp only [List.length_cons] at h
        rw [Nat.add_comm 1, List.take_succ_cons, List.cons_append]
        have := ih true r0 (by omega)
        rw [show scan_string false (c :: (List.take (scan_string true r) r ++ 34 :: r0)) =
          1 + scan_string true (List.take (scan_string true r) r ++ 34 :: r0) by
            simp [scan_string, h1]]
        omega
      · by_cases h2 : c = 34
        · have hs : scan_string false (c :: r) = 0 := by simp [scan_string, h2]
          rw [hs]
          simp [scan_string]
        · have hs : scan_string false (c :: r) = 1 + scan_string false r := by
            simp [scan_string, h1, h2]
          rw [hs] at h ⊢
          simp only [List.length_cons] at h
          rw [Nat.add_comm 1, List.take_succ_cons, List.cons_append]
          have := ih false r0 (by omega)
          rw [show scan_string false (c :: (List.take (scan_string false r) r ++ 34 :: r0)) =
            1 + scan_string false (List.take (scan_string false r) r ++ 34 :: r0) by
              simp [scan_string, h1, h2]]
          omega
    · have hs : scan_string true (c :: r) = 1 + scan_string false r := by
        simp [scan_string]
      rw [hs] at h ⊢
      simp only [List.length_cons] at h
      rw [Nat.add_comm 1, List.take_succ_cons, List.cons_append]
      have := ih false r0 (by omega)
      rw [show scan_string true (c :: (List.take (scan_string false r) r ++ 34 :: r0)) =
        1 + scan_string false (List.take (scan_string false r) r ++ 34 :: r0) by
          simp [scan_string]]
      omega

/-- The number scan stops at the same place when the text after it is replaced
by one that starts with neither a digit nor a decimal point. -/
theorem scan_number_take (r : Bytes) : ∀ (d : Bool) (c0 : Nat) (r0 : Bytes),
    isdigit c0 = false → c0 ≠ 46 →
    scan_number d (r.take (scan_number d r) ++ c0 :: r0) = scan_number d r := by
  induction r with
  | nil =>
    intro d c0 r0 h1 h2
    simp [scan_number, h1, h2]
  | cons c r ih =>
    intro d c0 r0 h1 h2
    by_cases ha : c = 46 ∧ d = false
    · have hs : scan_number d (c :: r) = 1 + scan_number true r := by
        simp [scan_number, ha]
      rw [hs, Nat.add_comm 1, List.take_succ_cons, List.cons_append]
      have := ih true c0 r0 h1 h2
      rw [show scan_number d (c :: (List.take (scan_number true r) r ++ c0 :: r0)) =
        1 + scan_number true (List.take (scan_number true r) r ++ c0 :: r0) by
          simp [scan_number, ha]]
      omega
    · by_cases hb : isdigit c = false
      · have hs : scan_number d (c :: r) = 0 := by
          rw [scan_number, if_neg ha, if_pos hb]
        rw [hs]
        simp [scan_number, h1, h2]
      · have hs : scan_number d (c :: r) = 1 + scan_number d r := by
          rw [scan_number, if_neg ha, if_neg hb]
        rw [hs, Nat.add_comm 1, List.take_succ_cons, List.cons_append]
        have := ih d c0 r0 h1 h2
        rw [show scan_number d (c :: (List.take (scan_number d r) r ++ c0 :: r0)) =
          1 + scan_number d (List.take (scan_number d r) r ++ c0 :: r0) by
            rw [scan_number, if_neg ha, if_neg hb]]
        omega

/-! ## Reading back what the serializer wrote: scalars -/

theorem number_len_le (l : Bytes) : number_len l ≤ l.length := by
  cases l with
  | nil => simp [number_len]
  | cons c r =>
    simp only [number_len, List.length_cons]
    have h1 := scan_number_le r false
    have h2 := scan_number_le (c :: r) false
    simp only [List.length_cons] at h2
    split_ifs <;> omega

theorem parse_number_eq' (p : JsonParser) (c : Nat) (r : Bytes) (h : p.rem = c :: r) :
    parse_number p =
      (some (tree_node_create none (some (p.rem.take (number_len p.rem))) JsonType.JSON_NUMBER),
        p.advance (number_len p.rem)) := by
  rw [parse_number_eq p c r h, h]
  by_cases h1 : c = 45
  · subst h1
    simp [number_len, Nat.add_comm 1, List.take_succ_cons]
  · simp [number_len, h1]

theorem number_len_take (c : Nat) (r : Bytes) (c0 : Nat) (r0 : Bytes)
    (hc45 : c = 45 ∨ isdigit c = true) (h1 : isdigit c0 = false) (h2 : c0 ≠ 46) :
    number_len ((c :: r).take (number_len (c :: r)) ++ c0 :: r0) = number_len (c :: r) := by
  by_cases hc : c = 45
  · subst hc
    have := scan_number_take r false c0 r0 h1 h2
    simp only [number_len, if_true, Nat.add_comm 1, List.take_succ_cons, List.cons_append]
    omega
  · have hd : isdigit c = true := by
      rcases hc45 with h | h
      · exact absurd h hc
      · exact h
    have := scan_number_take (c :: r) false c0 r0 h1 h2
    have e1 : number_len (c :: r) = scan_number false (c :: r) := by simp [number_len, hc]
    have e2 : List.take (scan_number false (c :: r)) (c :: r) =
        c :: List.take (scan_number false r) r := by
      rw [scan_number_digit_pos c r hd, Nat.add_comm 1, List.take_succ_cons]
    rw [e1, e2]
    rw [e2] at this
    simp only [List.cons_append] at this ⊢
    have e3 : ∀ X, number_len (c :: X) = scan_number false (c :: X) := by
      intro X; simp [number_len, hc]
    rw [e3]
    exact this

theorem parse_value_leaf (f : Nat) (q : JsonParser) (c : Nat) (r : Bytes)
    (h : q.rem = c :: r) (hw : is_ws c = false) (h1 : c ≠ 123) (h2 : c ≠ 91) :
    parse_value (f + 1) q = some (parse_leaf (skip_whitespace q)) ∧
    (skip_whitespace q).input = q.input ∧ (skip_whitespace q).errors = q.errors ∧
    (skip_whitespace q).rem = c :: r := by
  have hs := skip_whitespace_at q c r h hw
  have hcur := rem_cons_cur _ _ _ hs.2.2
  refine ⟨?_, hs⟩
  rw [parse_value_succ, if_neg (by rw [hcur]; exact fun h => h1 h.2),
    if_neg (by rw [hcur]; exact fun h => h2 h.2)]

theorem follows_ne_nil {rest : Bytes} (h : Follows rest) : 0 < rest.length := by
  obtain ⟨c, r, h, _⟩ := h
  rw [h]; simp

theorem reparses_string (s : Bytes) (hs : StrText s) :
    Reparses (tree_node_create none (some s) JsonType.JSON_STRING) := by
  have hc : cstr s = s := cstr_of_nulfree s hs.1
  have ht : tree_node_create none (some s) JsonType.JSON_STRING =
      ⟨none, some s, JsonType.JSON_STRING, []⟩ := by
    simp [tree_node_create, strdup, hc]
  rw [ht]
  intro indent level
  have hb : fmt_body ⟨none, some s, JsonType.JSON_STRING, []⟩ indent level = 34 :: (s ++ [34]) := by
    simp [fmt_body, hc]
  rw [hb]
  refine ⟨?_, ⟨34, _, rfl, by decide, by decide, by decide⟩, ?_⟩
  · intro b hb'
    simp only [List.mem_cons, List.mem_append, List.not_mem_nil, or_false] at hb'
    rcases hb' with h | h | h
    · subst h; decide
    · exact hs.1 b h
    · subst h; decide
  · intro q rest f hf hq hfuel
    have hq' : q.rem = 34 :: (s ++ 34 :: rest) := by rw [hq]; simp
    obtain ⟨f', rfl⟩ : ∃ f', f = f' + 1 := ⟨f - 1, by omega⟩
    obtain ⟨hv, hi, he, hr⟩ := parse_value_leaf f' q 34 _ hq' (by decide) (by decide) (by decide)
    rw [hv]
    have hlt := rem_cons_lt _ _ _ hr
    have hcur := rem_cons_cur _ _ _ hr
    have hps := parse_string_eq _ _ hr
    rw [hs.2 rest, if_neg (by simp)] at hps
    refine ⟨(skip_whitespace q).advance (s.length + 2), ?_, by rw [advance_input, hi],
      by rw [advance_errors, he], ?_⟩
    · unfold parse_leaf
      rw [if_neg (by omega), if_pos hcur, hps]
      simp [tree_node_create, strdup, hc]
    · rw [rem_advance, hr]
      simp [List.drop_append]

theorem reparses_number (v : Bytes) (hv : NumText v) :
    Reparses (tree_node_create none (some v) JsonType.JSON_NUMBER) := by
  obtain ⟨⟨c, s, hcs, hc45⟩, hnul, hscan⟩ := hv
  have hc : cstr v = v := cstr_of_nulfree v hnul
  have ht : tree_node_create none (some v) JsonType.JSON_NUMBER =
      ⟨none, some v, JsonType.JSON_NUMBER, []⟩ := by
    simp [tree_node_create, strdup, hc]
  rw [ht]
  intro indent level
  have hb : fmt_body ⟨none, some v, JsonType.JSON_NUMBER, []⟩ indent level = v := by
    simp [fmt_body, hc]
  rw [hb]
  have hcw : is_ws c = false ∧ c ≠ 93 ∧ c ≠ 44 ∧ c ≠ 123 ∧ c ≠ 91 ∧ c ≠ 34 ∧ c ≠ 116 ∧
      c ≠ 102 ∧ c ≠ 110 := by
    rcases hc45 with h | h
    · subst h; decide
    · simp only [isdigit, Bool.and_eq_true, decide_eq_true_eq] at h
      refine ⟨?_, by omega, by omega, by omega, by omega, by omega, by omega, by omega, by omega⟩
      simp only [is_ws, Bool.or_eq_false_iff, decide_eq_false_iff_not]
      omega
  refine ⟨hnul, ⟨c, s, hcs, hcw.1, hcw.2.1, hcw.2.2.1⟩, ?_⟩
  intro q rest f hf hq hfuel
  obtain ⟨c0, r0, hrest, hc0⟩ := hf
  have hq' : q.rem = c :: (s ++ rest) := by rw [hq, hcs]; simp
  obtain ⟨f', rfl⟩ : ∃ f', f = f' + 1 := ⟨f - 1, by omega⟩
  obtain ⟨hpv, hi, he, hr⟩ := parse_value_leaf f' q c _ hq' hcw.1 hcw.2.2.2.1 hcw.2.2.2.2.1
  rw [hpv]
  have hlt := rem_cons_lt _ _ _ hr
  have hcur := rem_cons_cur _ _ _ hr
  have hpn := parse_number_eq' _ _ _ hr
  have hrem : (skip_whitespace q).rem = v ++ c0 :: r0 := by rw [hr, hcs, hrest]; simp
  have hlen : number_len (v ++ c0 :: r0) = v.length := by
    apply hscan
    · rcases hc0 with h | h <;> subst h <;> decide
    · rcases hc0 with h | h <;> omega
  rw [hrem, hlen] at hpn
  refine ⟨(skip_whitespace q).advance v.length, ?_, by rw [advance_input, hi],
    by rw [advance_errors, he], ?_⟩
  · unfold parse_leaf
    rw [if_neg (by omega), if_neg (by rw [hcur]; exact hcw.2.2.2.2.2.1),
      if_neg (by rw [hcur]; exact hcw.2.2.2.2.2.2.1),
      if_neg (by rw [hcur]; exact hcw.2.2.2.2.2.2.2.1),
      if_neg (by rw [hcur]; exact hcw.2.2.2.2.2.2.2.2), if_pos (by rw [hcur]; exact hc45), hpn]
    simp [tree_node_create, strdup, hc]
  · rw [rem_advance, hrem, hrest]
    simp [List.drop_append]

theorem fmt_body_name (t : TreeNode) (x : Option Bytes) (indent level : Nat) :
    fmt_body { t with name := x } indent level = fmt_body t indent level := by
  cases t
  unfold fmt_body
  rfl

/-- A node that a non-recursive branch of `parse_value` reads back from its text. -/
theorem reparses_of_leaf (t : TreeNode) (body : Bytes) (c : Nat) (r : Bytes)
    (hname : t.name = none) (hbody : ∀ i l, fmt_body t i l = body) (hb : body = c :: r)
    (hnul : ∀ b ∈ body, b ≠ 0)
    (hc : is_ws c = false ∧ c ≠ 93 ∧ c ≠ 44 ∧ c ≠ 123 ∧ c ≠ 91)
    (hleaf : ∀ (p : JsonParser) (rest : Bytes), p.rem = body ++ rest → Follows rest →
      parse_leaf p = (some t, p.advance body.length)) :
    Reparses t := by
  intro indent level
  rw [hbody]
  refine ⟨hnul, ⟨c, r, hb, hc.1, hc.2.1, hc.2.2.1⟩, ?_⟩
  intro q rest f hf hq hfuel
  obtain ⟨f', rfl⟩ : ∃ f', f = f' + 1 := ⟨f - 1, by omega⟩
  have hq' : q.rem = c :: (r ++ rest) := by rw [hq, hb]; rfl
  obtain ⟨hpv, hi, he, hr⟩ := parse_value_leaf f' q c _ hq' hc.1 hc.2.2.2.1 hc.2.2.2.2
  rw [hpv, hleaf (skip_whitespace q) rest (by rw [hr, hb]; rfl) hf]
  refine ⟨(skip_whitespace q).advance body.length, ?_, by rw [advance_input, hi],
    by rw [advance_errors, he], ?_⟩
  · cases t
    simp only at hname
    subst hname
    rfl
  · have hr' : (skip_whitespace q).rem = body ++ rest := by rw [hr, hb]; rfl
    rw [rem_advance, hr']
    simp

theorem parse_leaf_literal (p : JsonParser) (rest : Bytes) :
    (p.rem = [116, 114, 117, 101] ++ rest →
      parse_leaf p = (some (tree_node_create none (some [116, 114, 117, 101])
        JsonType.JSON_BOOL), p.advance 4)) ∧
    (p.rem = [102, 97, 108, 115, 101] ++ rest →
      parse_leaf p = (some (tree_node_create none (some [102, 97, 108, 115, 101])
        JsonType.JSON_BOOL), p.advance 5)) ∧
    (p.rem = [110, 117, 108, 108] ++ rest →
      parse_leaf p = (some (tree_node_create none (some [110, 117, 108, 108])
        JsonType.JSON_NULL), p.advance 4)) := by
  refine ⟨fun h => ?_, fun h => ?_, fun h => ?_⟩
  · have hlt := rem_cons_lt _ _ _ h
    have hcur := rem_cons_cur _ _ _ h
    have hlen := rem_length p
    rw [h] at hlen
    simp only [List.length_append, List.length_cons, List.length_nil] at hlen
    have hs : strncmp_eq p [116, 114, 117, 101] = true := by
      simp [strncmp_eq, slice_pos, h]
    unfold parse_leaf
    rw [if_neg (by omega), if_neg (by rw [hcur]; decide), if_pos hcur, if_pos ⟨by omega, hs⟩]
  · have hlt := rem_cons_lt _ _ _ h
    have hcur := rem_cons_cur _ _ _ h
    have hlen := rem_length p
    rw [h] at hlen
    simp only [List.length_append, List.length_cons, List.length_nil] at hlen
    have hs : strncmp_eq p [102, 97, 108, 115, 101] = true := by
      simp [strncmp_eq, slice_pos, h]
    unfold parse_leaf
    rw [if_neg (by omega), if_neg (by rw [hcur]; decide), if_neg (by rw [hcur]; decide),
      if_pos hcur, if_pos ⟨by omega, hs⟩]
  · have hlt := rem_cons_lt _ _ _ h
    have hcur := rem_cons_cur _ _ _ h
    have hlen := rem_length p
    rw [h] at hlen
    simp only [List.length_append, List.length_cons, List.length_nil] at hlen
    have hs : strncmp_eq p [110, 117, 108, 108] = true := by
      simp [strncmp_eq, slice_pos, h]
    unfold parse_leaf
    rw [if_neg (by omega), if_neg (by rw [hcur]; decide), if_neg (by rw [hcur]; decide),
      if_neg (by rw [hcur]; decide), if_pos hcur, if_pos ⟨by omega, hs⟩]

theorem reparses_true :
    Reparses (tree_node_create none (some [116, 114, 117, 101]) JsonType.JSON_BOOL) :=
  reparses_of_leaf _ [116, 114, 117, 101] 116 [114, 117, 101] rfl
    (fun _ _ => by unfold fmt_body; rfl) rfl (by decide) (by decide)
    (fun p rest h _ => (parse_leaf_literal p rest).1 h)

theorem reparses_false :
    Reparses (tree_node_create none (some [102, 97, 108, 115, 101]) JsonType.JSON_BOOL) :=
  reparses_of_leaf _ [102, 97, 108, 115, 101] 102 [97, 108, 115, 101] rfl
    (fun _ _ => by unfold fmt_body; rfl) rfl (by decide) (by decide)
    (fun p rest h _ => (parse_leaf_literal p rest).2.1 h)

theorem reparses_null :
    Reparses (tree_node_create none (some [110, 117, 108, 108]) JsonType.JSON_NULL) :=
  reparses_of_leaf _ [110, 117, 108, 108] 110 [117, 108, 108] rfl
    (fun _ _ => by unfold fmt_body; rfl) rfl (by decide) (by decide)
    (fun p rest h _ => (parse_leaf_literal p rest).2.2 h)

/-! ## Reading back what the serializer wrote: arrays and objects -/

theorem sep_text_cases (i count : Nat) : sep_text i count = [44] ∨ sep_text i count = [] := by
  unfold sep_text
  split_ifs
  · exact Or.inl rfl
  · exact Or.inr rfl

theorem sep_text_follows (i count : Nat) (Y : Bytes) : Follows (sep_text i count ++ 10 :: Y) := by
  rcases sep_text_cases i count with h | h <;> rw [h]
  · exact ⟨44, 10 :: Y, rfl, Or.inl rfl⟩
  · exact ⟨10, Y, rfl, Or.inr rfl⟩

theorem sep_text_nulfree (i count : Nat) : ∀ b ∈ sep_text i count, b ≠ 0 := by
  intro b hb
  rcases sep_text_cases i count with h | h <;> rw [h] at hb
  · simp at hb; omega
  · simp at hb

theorem dropWhile_length_le (l : Bytes) : (l.dropWhile is_ws).length ≤ l.length :=
  (List.dropWhile_sublist _).length_le

theorem arrReparses_nil (n0 : Nat) : ArrReparses n0 [] := by
  intro i count indent level ws2 rest hws2
  have hX : (fmt_array [] i count indent level ++ ws2 ++ 93 :: rest).dropWhile is_ws =
      93 :: rest := by
    rw [fmt_array, List.nil_append, dropWhile_ws_append _ _ hws2,
      dropWhile_ws_of_head _ _ (by decide)]
  rw [hX]
  refine ⟨by simp [fmt_array], ⟨93, rest, rfl, by decide⟩, ?_⟩
  intro q node f _ hq hfuel
  obtain ⟨f', rfl⟩ : ∃ f', f = f' + 1 := ⟨f - 1, by omega⟩
  have hcur := rem_cons_cur _ _ _ hq
  rw [parse_array_loop_succ, if_neg (by rw [hcur]; simp)]
  exact ⟨q, by cases node; simp, rfl, rfl, hq⟩

theorem arrReparses_cons (n0 : Nat) (v : TreeNode) (cs : List TreeNode) (hv : Reparses v)
    (hcs : ArrReparses (n0 + 1) cs) :
    ArrReparses n0 ({ v with name := some (strdup (index_str n0)) } :: cs) := by
  intro i count indent level ws2 rest hws2
  obtain ⟨hvnul, ⟨c, r, hbody, hcw, hc93, hc44⟩, hvparse⟩ := hv indent (level + 1)
  obtain ⟨hcsnul, ⟨c', r', hY, hc'⟩, hcsparse⟩ := hcs (i + 1) count indent level ws2 rest hws2
  have hfmt : fmt_array ({ v with name := some (strdup (index_str n0)) } :: cs) i count indent
      level = List.replicate ((level + 1) * indent) 32 ++ (fmt_body v indent (level + 1) ++
        (sep_text i count ++ 10 :: fmt_array cs (i + 1) count indent level)) := by
    rw [fmt_array, fmt_body_name]
    simp
  have hX : (fmt_array ({ v with name := some (strdup (index_str n0)) } :: cs) i count indent
      level ++ ws2 ++ 93 :: rest).dropWhile is_ws =
      fmt_body v indent (level + 1) ++ (sep_text i count ++
        10 :: (fmt_array cs (i + 1) count indent level ++ ws2 ++ 93 :: rest)) := by
    rw [hfmt]
    simp only [List.append_assoc, List.cons_append]
    rw [dropWhile_ws_append _ _ (replicate_ws _), hbody, List.cons_append,
      dropWhile_ws_of_head _ _ hcw]
  rw [hX]
  refine ⟨?_, ⟨c, _, by rw [hbody]; rfl, hc44⟩, ?_⟩
  · rw [hfmt]
    intro b hb
    simp only [List.mem_append, List.mem_cons] at hb
    rcases hb with h | h | h | h | h
    · rw [List.eq_of_mem_replicate h]; decide
    · exact hvnul b h
    · exact sep_text_nulfree i count b h
    · omega
    · exact hcsnul b h
  · intro q node f hn hq hfuel
    obtain ⟨f', rfl⟩ : ∃ f', f = f' + 1 := ⟨f - 1, by omega⟩
    have hq' : q.rem = c :: (r ++ (sep_text i count ++
        10 :: (fmt_array cs (i + 1) count indent level ++ ws2 ++ 93 :: rest))) := by
      rw [hq, hbody]; rfl
    have hlt := rem_cons_lt _ _ _ hq'
    have hcur := rem_cons_cur _ _ _ hq'
    rw [parse_array_loop_succ, if_pos ⟨hlt, by rw [hcur]; exact hc93⟩]
    obtain ⟨q1, hpv, hi1, he1, hr1⟩ := hvparse q _ f' (sep_text_follows i count _) hq (by omega)
    rw [hpv]
    simp only
    obtain ⟨hi2, he2, hr2⟩ := skip_comma_rem q1 (sep_text i count) _ c' r'
      (sep_text_cases i count) hr1 hY hc'
    have hlen : (skip_comma q1).rem.length + 2 ≤ q.rem.length := by
      rw [hr2, ← hY, hq]
      have := dropWhile_length_le (fmt_array cs (i + 1) count indent level ++ ws2 ++ 93 :: rest)
      have hb1 : 1 ≤ (fmt_body v indent (level + 1)).length := by rw [hbody]; simp
      simp only [List.length_append, List.length_cons] at this ⊢
      omega
    obtain ⟨q2, hloop, hi3, he3, hr3⟩ := hcsparse (skip_comma q1)
      (tree_node_add_child node
        { ({ v with name := none } : TreeNode) with
          name := some (strdup (index_str node.children.length)) })
      f' (by simp [tree_node_add_child, hn]) (by rw [hr2, hY]) (by omega)
    refine ⟨q2, ?_, by rw [hi3, hi2, hi1], by rw [he3, he2, he1], hr3⟩
    rw [hloop]
    simp [tree_node_add_child, hn]

theorem reparses_array (cs : List TreeNode) (h : ArrReparses 0 cs) :
    Reparses ⟨none, none, JsonType.JSON_ARRAY, cs⟩ := by
  intro indent level
  have hparse := h 0 cs.length indent level (List.replicate (level * indent) 32)
  have hb : fmt_body ⟨none, none, JsonType.JSON_ARRAY, cs⟩ indent level =
      91 :: 10 :: (fmt_array cs 0 cs.length indent level ++
        List.replicate (level * indent) 32 ++ [93]) := by
    unfold fmt_body
    simp
  rw [hb]
  refine ⟨?_, ⟨91, _, rfl, by decide, by decide, by decide⟩, ?_⟩
  · intro b hb'
    simp only [List.mem_append, List.mem_cons, List.not_mem_nil, or_false] at hb'
    rcases hb' with h1 | h1 | (h1 | h1) | h1
    · omega
    · omega
    · exact (hparse [] (replicate_ws _)).1 b h1
    · rw [List.eq_of_mem_replicate h1]; decide
    · omega
  · intro q rest f hf hq hfuel
    obtain ⟨hnul', _, hloop⟩ := hparse rest (replicate_ws _)
    have hq' : q.rem = 91 :: 10 :: (fmt_array cs 0 cs.length indent level ++
        List.replicate (level * indent) 32 ++ 93 :: rest) := by
      rw [hq]; simp
    obtain ⟨f1, rfl⟩ : ∃ f1, f = f1 + 1 := ⟨f - 1, by omega⟩
    have hs := skip_whitespace_at q 91 _ hq' (by decide)
    have hlt := rem_cons_lt _ _ _ hs.2.2
    have hcur := rem_cons_cur _ _ _ hs.2.2
    rw [parse_value_succ, if_neg (by rw [hcur]; simp), if_pos ⟨hlt, hcur⟩]
    have hlen : q.rem.length = (fmt_array cs 0 cs.length indent level ++
        List.replicate (level * indent) 32 ++ 93 :: rest).length + 2 := by
      rw [hq']; simp
    obtain ⟨f2, rfl⟩ : ∃ f2, f1 = f2 + 1 := ⟨f1 - 1, by omega⟩
    rw [parse_array_succ]
    have ha : ((skip_whitespace q).advance 1).rem = 10 :: (fmt_array cs 0 cs.length indent level ++
        List.replicate (level * indent) 32 ++ 93 :: rest) := by
      rw [rem_advance, hs.2.2]; rfl
    have hs2 := skip_whitespace_spec ((skip_whitespace q).advance 1)
    have hrem2 : (skip_whitespace ((skip_whitespace q).advance 1)).rem =
        (fmt_array cs 0 cs.length indent level ++ List.replicate (level * indent) 32 ++
          93 :: rest).dropWhile is_ws := by
      rw [hs2.2.2.1, ha, List.dropWhile_cons, show is_ws 10 = true by decide, if_pos rfl]
    have hlen2 := dropWhile_length_le (fmt_array cs 0 cs.length indent level ++
      List.replicate (level * indent) 32 ++ 93 :: rest)
    obtain ⟨q1, hl, hi1, he1, hr1⟩ := hloop (skip_whitespace ((skip_whitespace q).advance 1))
      (tree_node_create none none JsonType.JSON_ARRAY) f2 rfl hrem2 (by rw [hrem2]; omega)
    rw [hl]
    simp only
    have hlt1 := rem_cons_lt _ _ _ hr1
    have hcur1 := rem_cons_cur _ _ _ hr1
    rw [if_neg (by rw [hcur1]; simp; omega)]
    refine ⟨q1.advance 1, by simp [tree_node_create], ?_, ?_, ?_⟩
    · rw [advance_input, hi1, hs2.1, advance_input, hs.1]
    · rw [advance_errors, he1, hs2.2.1, advance_errors, hs.2.1]
    · rw [rem_advance, hr1]; rfl

theorem objReparses_nil : ObjReparses [] := by
  intro i count indent level ws2 rest hws2
  have hX : (fmt_object [] i count indent level ++ ws2 ++ 125 :: rest).dropWhile is_ws =
      125 :: rest := by
    rw [fmt_object, List.nil_append, dropWhile_ws_append _ _ hws2,
      dropWhile_ws_of_head _ _ (by decide)]
  rw [hX]
  refine ⟨by simp [fmt_object], ⟨125, rest, rfl, by decide⟩, ?_⟩
  intro q node f hq hfuel
  obtain ⟨f', rfl⟩ : ∃ f', f = f' + 1 := ⟨f - 1, by omega⟩
  have hcur := rem_cons_cur _ _ _ hq
  rw [parse_object_loop_succ, if_neg (by rw [hcur]; simp)]
  exact ⟨q, by cases node; simp, rfl, rfl, hq⟩

theorem objReparses_cons (key : Bytes) (v : TreeNode) (cs : List TreeNode) (hkey : StrText key)
    (hv : Reparses v) (hcs : ObjReparses cs) :
    ObjReparses ({ v with name := some key } :: cs) := by
  intro i count indent level ws2 rest hws2
  obtain ⟨hvnul, ⟨c, r, hbody, hcw, hc93, hc44⟩, hvparse⟩ := hv indent (level + 1)
  obtain ⟨hcsnul, ⟨c', r', hY, hc'⟩, hcsparse⟩ := hcs (i + 1) count indent level ws2 rest hws2
  have hck : cstr key = key := cstr_of_nulfree key hkey.1
  have hfmt : fmt_object ({ v with name := some key } :: cs) i count indent level =
      List.replicate ((level + 1) * indent) 32 ++ (34 :: (key ++ (34 :: 58 :: 32 ::
        (List.replicate ((level + 1) * indent) 32 ++ (fmt_body v indent (level + 1) ++
          (sep_text i count ++ 10 :: fmt_object cs (i + 1) count indent level)))))) := by
    rw [fmt_object, fmt_body_name]
    simp [hck]
  have hX : (fmt_object ({ v with name := some key } :: cs) i count indent level ++ ws2 ++
      125 :: rest).dropWhile is_ws =
      34 :: (key ++ 34 :: (58 :: 32 :: (List.replicate ((level + 1) * indent) 32 ++
        (fmt_body v indent (level + 1) ++ (sep_text i count ++
          10 :: (fmt_object cs (i + 1) count indent level ++ ws2 ++ 125 :: rest)))))) := by
    rw [hfmt]
    simp only [List.append_assoc, List.cons_append]
    rw [dropWhile_ws_append _ _ (replicate_ws _), dropWhile_ws_of_head _ _ (by decide)]
  rw [hX]
  refine ⟨?_, ⟨34, _, rfl, by decide⟩, ?_⟩
  · rw [hfmt]
    intro b hb
    simp only [List.mem_append, List.mem_cons] at hb
    rcases hb with h | h | h | h | h | h | h | h | h | h | h
    · rw [List.eq_of_mem_replicate h]; decide
    · omega
    · exact hkey.1 b h
    · omega
    · omega
    · omega
    · rw [List.eq_of_mem_replicate h]; decide
    · exact hvnul b h
    · exact sep_text_nulfree i count b h
    · omega
    · exact hcsnul b h
  · intro q node f hq hfuel
    obtain ⟨f', rfl⟩ : ∃ f', f = f' + 1 := ⟨f - 1, by omega⟩
    have hlt := rem_cons_lt _ _ _ hq
    have hcur := rem_cons_cur _ _ _ hq
    rw [parse_object_loop_succ, if_pos ⟨hlt, by rw [hcur]; decide⟩, parse_string_eq _ _ hq,
      hkey.2, if_neg (by simp)]
    simp only [List.take_left']
    have hr1 : (q.advance (key.length + 2)).rem = 58 :: (32 ::
        (List.replicate ((level + 1) * indent) 32 ++ (fmt_body v indent (level + 1) ++
          (sep_text i count ++
            10 :: (fmt_object cs (i + 1) count indent level ++ ws2 ++ 125 :: rest))))) := by
      rw [rem_advance, hq, Nat.add_succ, List.drop_succ_cons, List.drop_append]
      simp
    have hs1 := skip_whitespace_at _ _ _ hr1 (by decide)
    have hlt1 := rem_cons_lt _ _ _ hs1.2.2
    have hcur1 := rem_cons_cur _ _ _ hs1.2.2
    rw [if_neg (by rw [hcur1]; simp; omega)]
    have ha : ((skip_whitespace (q.advance (key.length + 2))).advance 1).rem = 32 ::
        (List.replicate ((level + 1) * indent) 32 ++ (fmt_body v indent (level + 1) ++
          (sep_text i count ++
            10 :: (fmt_object cs (i + 1) count indent level ++ ws2 ++ 125 :: rest)))) := by
      rw [rem_advance, hs1.2.2]; rfl
    have hs3 := skip_whitespace_spec ((skip_whitespace (q.advance (key.length + 2))).advance 1)
    have hr3 : (skip_whitespace ((skip_whitespace (q.advance (key.length + 2))).advance 1)).rem =
        fmt_body v indent (level + 1) ++ (sep_text i count ++
            10 :: (fmt_object cs (i + 1) count indent level ++ ws2 ++ 125 :: rest)) := by
      rw [hs3.2.2.1, ha, List.dropWhile_cons, show is_ws 32 = true by decide, if_pos rfl,
        dropWhile_ws_append _ _ (replicate_ws _), hbody, List.cons_append,
        dropWhile_ws_of_head _ _ hcw]
    have hb1 : 1 ≤ (fmt_body v indent (level + 1)).length := by rw [hbody]; simp
    have hlen3 : (skip_whitespace ((skip_whitespace (q.advance (key.length + 2))).advance
        1)).rem.length + 1 ≤ q.rem.length := by
      rw [hr3, hq]
      simp only [List.length_append, List.length_cons]
      omega
    obtain ⟨q4, hpv, hi4, he4, hr4⟩ := hvparse _ _ f' (sep_text_follows i count _) hr3 (by omega)
    rw [hpv]
    simp only
    obtain ⟨hi5, he5, hr5⟩ := skip_comma_rem q4 (sep_text i count) _ c' r'
      (sep_text_cases i count) hr4 hY hc'
    have hlen : (skip_comma q4).rem.length + 2 ≤ q.rem.length := by
      rw [hr5, ← hY, hq]
      have := dropWhile_length_le (fmt_object cs (i + 1) count indent level ++ ws2 ++
        125 :: rest)
      simp only [List.length_append, List.length_cons] at this ⊢
      omega
    obtain ⟨q6, hloop, hi6, he6, hr6⟩ := hcsparse (skip_comma q4)
      (tree_node_add_child node { ({ v with name := none } : TreeNode) with name := some key })
      f' (by rw [hr5, hY]) (by omega)
    refine ⟨q6, ?_, ?_, ?_, hr6⟩
    · rw [hloop]
      simp [tree_node_add_child]
    · rw [hi6, hi5, hi4, hs3.1, advance_input, hs1.1, advance_input]
    · rw [he6, he5, he4, hs3.2.1, advance_errors, hs1.2.1, advance_errors]

theorem reparses_object (cs : List TreeNode) (h : ObjReparses cs) :
    Reparses ⟨none, none, JsonType.JSON_OBJECT, cs⟩ := by
  intro indent level
  have hparse := h 0 cs.length indent level (List.replicate (level * indent) 32)
  have hb : fmt_body ⟨none, none, JsonType.JSON_OBJECT, cs⟩ indent level =
      123 :: 10 :: (fmt_object cs 0 cs.length indent level ++
        List.replicate (level * indent) 32 ++ [125]) := by
    unfold fmt_body
    simp
  rw [hb]
  refine ⟨?_, ⟨123, _, rfl, by decide, by decide, by decide⟩, ?_⟩
  · intro b hb'
    simp only [List.mem_append, List.mem_cons, List.not_mem_nil, or_false] at hb'
    rcases hb' with h1 | h1 | (h1 | h1) | h1
    · omega
    · omega
    · exact (hparse [] (replicate_ws _)).1 b h1
    · rw [List.eq_of_mem_replicate h1]; decide
    · omega
  · intro q rest f hf hq hfuel
    obtain ⟨hnul', _, hloop⟩ := hparse rest (replicate_ws _)
    have hq' : q.rem = 123 :: 10 :: (fmt_object cs 0 cs.length indent level ++
        List.replicate (level * indent) 32 ++ 125 :: rest) := by
      rw [hq]; simp
    obtain ⟨f1, rfl⟩ : ∃ f1, f = f1 + 1 := ⟨f - 1, by omega⟩
    have hs := skip_whitespace_at q 123 _ hq' (by decide)
    have hlt := rem_cons_lt _ _ _ hs.2.2
    have hcur := rem_cons_cur _ _ _ hs.2.2
    rw [parse_value_succ, if_pos ⟨hlt, hcur⟩]
    have hlen : q.rem.length = (fmt_object cs 0 cs.length indent level ++
        List.replicate (level * indent) 32 ++ 125 :: rest).length + 2 := by
      rw [hq']; simp
    obtain ⟨f2, rfl⟩ : ∃ f2, f1 = f2 + 1 := ⟨f1 - 1, by omega⟩
    rw [parse_object_succ]
    have ha : ((skip_whitespace q).advance 1).rem = 10 :: (fmt_object cs 0 cs.length indent
        level ++ List.replicate (level * indent) 32 ++ 125 :: rest) := by
      rw [rem_advance, hs.2.2]; rfl
    have hs2 := skip_whitespace_spec ((skip_whitespace q).advance 1)
    have hrem2 : (skip_whitespace ((skip_whitespace q).advance 1)).rem =
        (fmt_object cs 0 cs.length indent level ++ List.replicate (level * indent) 32 ++
          125 :: rest).dropWhile is_ws := by
      rw [hs2.2.2.1, ha, List.dropWhile_cons, show is_ws 10 = true by decide, if_pos rfl]
    have hlen2 := dropWhile_length_le (fmt_object cs 0 cs.length indent level ++
      List.replicate (level * indent) 32 ++ 125 :: rest)
    obtain ⟨q1, hl, hi1, he1, hr1⟩ := hloop (skip_whitespace ((skip_whitespace q).advance 1))
      (tree_node_create none none JsonType.JSON_OBJECT) f2 hrem2 (by rw [hrem2]; omega)
    rw [hl]
    simp only
    have hlt1 := rem_cons_lt _ _ _ hr1
    have hcur1 := rem_cons_cur _ _ _ hr1
    rw [if_neg (by rw [hcur1]; simp; omega)]
    refine ⟨q1.advance 1, by simp [tree_node_create], ?_, ?_, ?_⟩
    · rw [advance_input, hi1, hs2.1, advance_input, hs.1]
    · rw [advance_errors, he1, hs2.2.1, advance_errors, hs.2.1]
    · rw [rem_advance, hr1]; rfl

/-! ## What a successful parse returns can be read back -/

theorem rem_nulfree (p : JsonParser) (h : ∀ b ∈ p.input, b ≠ 0) : ∀ b ∈ p.rem, b ≠ 0 :=
  fun b hb => h b (List.mem_of_mem_drop hb)

theorem parse_string_some (p : JsonParser) (key : Bytes) (p1 : JsonParser)
    (hnul : ∀ b ∈ p.input, b ≠ 0) (h : parse_string p = (some key, p1)) :
    StrText key ∧ p1.input = p.input := by
  cases hr : p.rem with
  | nil =>
    rw [parse_string_not_quote p (by rw [hr]; simp)] at h
    injection h with h1 _
    exact absurd h1 (by simp)
  | cons c r =>
    by_cases hc : c = 34
    · subst hc
      rw [parse_string_eq p r hr] at h
      split_ifs at h with hu
      · injection h with h1 _
        exact absurd h1 (by simp)
      · injection h with h1 h2
        injection h1 with h1
        subst h1 h2
        have hk : scan_string false r < r.length := by omega
        refine ⟨⟨?_, fun r0 => ?_⟩, rfl⟩
        · intro b hb
          apply rem_nulfree p hnul
          rw [hr]
          exact List.mem_cons_of_mem _ (List.mem_of_mem_take hb)
        · rw [scan_string_take r false r0 hk, List.length_take]
          omega
    · rw [parse_string_not_quote p (by rw [hr]; simpa using hc)] at h
      injection h with h1 _
      exact absurd h1 (by simp)

theorem parse_leaf_reparses (p : JsonParser) (t : TreeNode) (p1 : JsonParser)
    (hnul : ∀ b ∈ p.input, b ≠ 0) (h : parse_leaf p = (some t, p1)) :
    p1.input = p.input ∧ t.name = none ∧ Reparses t := by
  have hinput : p1.input = p.input := by
    have := (parse_leaf_progress p).1
    rw [h] at this
    exact this
  refine ⟨hinput, ?_⟩
  cases hr : p.rem with
  | nil =>
    have := rem_nil p hr
    unfold parse_leaf at h
    rw [if_pos this] at h
    injection h with h1 _
    exact absurd h1 (by simp)
  | cons c r =>
    have hlt := rem_cons_lt p c r hr
    have hcur := rem_cons_cur p c r hr
    unfold parse_leaf at h
    rw [if_neg (by omega), hcur] at h
    by_cases h1 : c = 34
    · rw [if_pos h1] at h
      cases hps : parse_string p with
      | mk k p2 =>
        rw [hps] at h
        cases k with
        | none =>
          injection h with h1 _
          exact absurd h1 (by simp)
        | some str =>
          simp only at h
          injection h with h1 _
          injection h1 with h1
          subst h1
          exact ⟨rfl, reparses_string str (parse_string_some p str p2 hnul hps).1⟩
    · rw [if_neg h1] at h
      by_cases h2 : c = 116
      · rw [if_pos h2] at h
        split_ifs at h
        · injection h with h1 _
          injection h1 with h1
          subst h1
          exact ⟨rfl, reparses_true⟩
        · injection h with h1 _
          exact absurd h1 (by simp)
      · rw [if_neg h2] at h
        by_cases h3 : c = 102
        · rw [if_pos h3] at h
          split_ifs at h
          · injection h with h1 _
            injection h1 with h1
            subst h1
            exact ⟨rfl, reparses_false⟩
          · injection h with h1 _
            exact absurd h1 (by simp)
        · rw [if_neg h3] at h
          by_cases h4 : c = 110
          · rw [if_pos h4] at h
            split_ifs at h
            · injection h with h1 _
              injection h1 with h1
              subst h1
              exact ⟨rfl, reparses_null⟩
            · injection h with h1 _
              exact absurd h1 (by simp)
          · rw [if_neg h4] at h
            by_cases h5 : c = 45 ∨ isdigit c = true
            · rw [if_pos h5, parse_number_eq' p c r hr] at h
              injection h with h1 _
              injection h1 with h1
              subst h1
              refine ⟨rfl, reparses_number _ ?_⟩
              have hpos : ∃ n, number_len (c :: r) = n + 1 := by
                rcases h5 with h5 | h5
                · subst h5
                  exact ⟨scan_number false r, by simp [number_len, Nat.add_comm]⟩
                · by_cases h45 : c = 45
                  · subst h45
                    exact ⟨scan_number false r, by simp [number_len, Nat.add_comm]⟩
                  · exact ⟨scan_number false r, by
                      simp [number_len, h45, scan_number_digit_pos c r h5, Nat.add_comm]⟩
              obtain ⟨n, hn⟩ := hpos
              rw [hr]
              refine ⟨⟨c, r.take n, by rw [hn, List.take_succ_cons], h5⟩, ?_, ?_⟩
              · intro b hb
                apply rem_nulfree p hnul
                rw [hr]
                exact List.mem_of_mem_take hb
              · intro c0 r0 hc0 hc0'
                rw [number_len_take c r c0 r0 h5 hc0 hc0', List.length_take]
                have := number_len_le (c :: r)
                omega
            · rw [if_neg h5] at h
              injection h with h1 _
              exact absurd h1 (by simp)

theorem node_append_nil (node : TreeNode) :
    node = { node with children := node.children ++ [] } := by
  cases node; simp

/-- Every tree a parse returns on NUL-free input is read back from its own
serialization, at every indent width and nesting level. -/
theorem parse_reparses (f : Nat) :
    (∀ p t p1, (∀ b ∈ p.input, b ≠ 0) → parse_value f p = some (some t, p1) →
      p1.input = p.input ∧ t.name = none ∧ Reparses t) ∧
    (∀ p t p1, (∀ b ∈ p.input, b ≠ 0) → parse_array f p = some (some t, p1) →
      p1.input = p.input ∧ t.name = none ∧ Reparses t) ∧
    (∀ p t p1, (∀ b ∈ p.input, b ≠ 0) → parse_object f p = some (some t, p1) →
      p1.input = p.input ∧ t.name = none ∧ Reparses t) ∧
    (∀ p node t p1, (∀ b ∈ p.input, b ≠ 0) → parse_array_loop f p node = some (some t, p1) →
      p1.input = p.input ∧ ∃ cs, t = { node with children := node.children ++ cs } ∧
        ArrReparses node.children.length cs) ∧
    (∀ p node t p1, (∀ b ∈ p.input, b ≠ 0) → parse_object_loop f p node = some (some t, p1) →
      p1.input = p.input ∧ ∃ cs, t = { node with children := node.children ++ cs } ∧
        ObjReparses cs) := by
  induction f with
  | zero =>
    refine ⟨?_, ?_, ?_, ?_, ?_⟩
    · intro p t p1 _ h; simp [parse_value] at h
    · intro p t p1 _ h; simp [parse_array] at h
    · intro p t p1 _ h; simp [parse_object] at h
    · intro p node t p1 _ h; simp [parse_array_loop] at h
    · intro p node t p1 _ h; simp [parse_object_loop] at h
  | succ f ih =>
    obtain ⟨ihv, iha, iho, ihal, ihol⟩ := ih
    refine ⟨?_, ?_, ?_, ?_, ?_⟩
    · intro p0 t p1 hnul h
      rw [parse_value_succ] at h
      have hs := skip_whitespace_spec p0
      have hnul' : ∀ b ∈ (skip_whitespace p0).input, b ≠ 0 := by rw [hs.1]; exact hnul
      split_ifs at h
      · obtain ⟨h1, h2⟩ := iho _ t p1 hnul' h
        exact ⟨by rw [h1, hs.1], h2⟩
      · obtain ⟨h1, h2⟩ := iha _ t p1 hnul' h
        exact ⟨by rw [h1, hs.1], h2⟩
      · injection h with h
        obtain ⟨h1, h2⟩ := parse_leaf_reparses _ t p1 hnul' h
        exact ⟨by rw [h1, hs.1], h2⟩
    · intro p0 t p1 hnul h
      rw [parse_array_succ] at h
      have hs := skip_whitespace_spec (p0.advance 1)
      have hnul' : ∀ b ∈ (skip_whitespace (p0.advance 1)).input, b ≠ 0 := by
        rw [hs.1]; exact hnul
      cases hl : parse_array_loop f (skip_whitespace (p0.advance 1))
          (tree_node_create none none JsonType.JSON_ARRAY) with
      | none => rw [hl] at h; simp at h
      | some res =>
        obtain ⟨n, p2⟩ := res
        rw [hl] at h
        cases n with
        | none => simp at h
        | some N =>
          simp only at h
          split_ifs at h
          · simp at h
          · injection h with h
            injection h with h1 h2
            injection h1 with h1
            subst h1 h2
            obtain ⟨hi, cs, hN, hcs⟩ := ihal _ _ _ _ hnul' hl
            refine ⟨by rw [advance_input, hi, hs.1, advance_input], ?_⟩
            rw [hN]
            exact ⟨rfl, by simpa [tree_node_create] using reparses_array cs hcs⟩
    · intro p0 t p1 hnul h
      rw [parse_object_succ] at h
      have hs := skip_whitespace_spec (p0.advance 1)
      have hnul' : ∀ b ∈ (skip_whitespace (p0.advance 1)).input, b ≠ 0 := by
        rw [hs.1]; exact hnul
      cases hl : parse_object_loop f (skip_whitespace (p0.advance 1))
          (tree_node_create none none JsonType.JSON_OBJECT) with
      | none => rw [hl] at h; simp at h
      | some res =>
        obtain ⟨n, p2⟩ := res
        rw [hl] at h
        cases n with
        | none => simp at h
        | some N =>
          simp only at h
          split_ifs at h
          · simp at h
          · injection h with h
            injection h with h1 h2
            injection h1 with h1
            subst h1 h2
            obtain ⟨hi, cs, hN, hcs⟩ := ihol _ _ _ _ hnul' hl
            refine ⟨by rw [advance_input, hi, hs.1, advance_input], ?_⟩
            rw [hN]
            exact ⟨rfl, by simpa [tree_node_create] using reparses_object cs hcs⟩
    · intro p node t p1 hnul h
      rw [parse_array_loop_succ] at h
      split_ifs at h with hc
      · cases hv : parse_value f p with
        | none => rw [hv] at h; simp at h
        | some res =>
          obtain ⟨n, p2⟩ := res
          rw [hv] at h
          cases n with
          | none => simp at h
          | some v =>
            simp only at h
            obtain ⟨hi2, hvn, hvr⟩ := ihv _ _ _ hnul hv
            have hsc := skip_comma_spec p2
            obtain ⟨hi, cs, hN, hcs⟩ := ihal _ _ _ _ (by rw [hsc.1, hi2]; exact hnul) h
            refine ⟨by rw [hi, hsc.1, hi2], ?_⟩
            refine ⟨{ v with name := some (strdup (index_str node.children.length)) } :: cs, ?_,
              ?_⟩
            · rw [hN]; simp [tree_node_add_child]
            · apply arrReparses_cons _ v cs hvr
              simpa [tree_node_add_child] using hcs
      · injection h with h
        injection h with h1 h2
        injection h1 with h1
        subst h1 h2
        exact ⟨rfl, [], node_append_nil _, arrReparses_nil _⟩
    · intro p node t p1 hnul h
      rw [parse_object_loop_succ] at h
      split_ifs at h with hc
      · cases hps : parse_string p with
        | mk k p2 =>
          rw [hps] at h
          cases k with
          | none => simp at h
          | some key =>
            simp only at h
            obtain ⟨hkey, hi2⟩ := parse_string_some p key p2 hnul hps
            have hs := skip_whitespace_spec p2
            have hs3 := skip_whitespace_spec ((skip_whitespace p2).advance 1)
            split_ifs at h with hcolon
            · simp at h
            · cases hv : parse_value f (skip_whitespace ((skip_whitespace p2).advance 1)) with
              | none => rw [hv] at h; simp at h
              | some res =>
                obtain ⟨n, p4⟩ := res
                rw [hv] at h
                cases n with
                | none => simp at h
                | some v =>
                  simp only at h
                  have hin3 : (skip_whitespace ((skip_whitespace p2).advance 1)).input = p.input := by
                    rw [hs3.1, advance_input, hs.1, hi2]
                  obtain ⟨hi4, hvn, hvr⟩ := ihv _ _ _ (by rw [hin3]; exact hnul) hv
                  have hsc := skip_comma_spec p4
                  obtain ⟨hi, cs, hN, hcs⟩ := ihol _ _ _ _
                    (by rw [hsc.1, hi4, hin3]; exact hnul) h
                  refine ⟨by rw [hi, hsc.1, hi4, hin3], ?_⟩
                  refine ⟨{ v with name := some key } :: cs, ?_, ?_⟩
                  · rw [hN]; simp [tree_node_add_child]
                  · exact objReparses_cons key v cs hkey hvr hcs
      · injection h with h
        injection h with h1 h2
        injection h1 with h1
        subst h1 h2
        exact ⟨rfl, [], node_append_nil _, objReparses_nil⟩

/-! ## Escape codec lemmas -/

theorem escape_loop_acc (s : Bytes) : ∀ acc, escape_loop s acc = acc ++ escape_loop s [] := by
  induction s with
  | nil => intro acc; simp [escape_loop]
  | cons c r ih =>
    intro acc
    rw [escape_loop, ih, escape_loop, ih ([] ++ escape_byte c)]
    simp

theorem escape_byte_nulfree (c : Nat) (h : c ≠ 0) : ∀ b ∈ escape_byte c, b ≠ 0 := by
  intro b hb
  unfold escape_byte at hb
  split_ifs at hb <;> simp at hb <;> omega

theorem escape_loop_nulfree (s : Bytes) (h : ∀ b ∈ s, b ≠ 0) :
    ∀ b ∈ escape_loop s [], b ≠ 0 := by
  induction s with
  | nil => simp [escape_loop]
  | cons c r ih =>
    intro b hb
    rw [escape_loop, escape_loop_acc] at hb
    simp only [List.nil_append, List.mem_append] at hb
    rcases hb with hb | hb
    · exact escape_byte_nulfree c (h c (by simp)) b hb
    · exact ih (fun x hx => h x (List.mem_cons_of_mem _ hx)) b hb

theorem unescape_escape_byte (c : Nat) (rest res : Bytes) :
    unescape_loop (escape_byte c ++ rest) false res = unescape_loop rest false (res ++ [c]) := by
  unfold escape_byte
  split_ifs with h1 h2 h3 h4 h5 h6 h7
  · subst h1; simp [unescape_loop, unescape_byte]
  · subst h2; simp [unescape_loop, unescape_byte]
  · subst h3; simp [unescape_loop, unescape_byte]
  · subst h4; simp [unescape_loop, unescape_byte]
  · subst h5; simp [unescape_loop, unescape_byte]
  · subst h6; simp [unescape_loop, unescape_byte]
  · subst h7; simp [unescape_loop, unescape_byte]
  · simp [unescape_loop, h2]

theorem unescape_escape_loop (s : Bytes) : ∀ res,
    unescape_loop (escape_loop s []) false res = res ++ s := by
  induction s with
  | nil => intro res; simp [escape_loop, unescape_loop]
  | cons c r ih =>
    intro res
    rw [escape_loop, escape_loop_acc, List.nil_append, unescape_escape_byte, ih]
    simp

/-- Decoding an encoded C string gives the C string back. -/
theorem unescape_escape_cstr (text : Bytes) :
    json_unescape_string (json_escape_string text) = cstr text := by
  unfold json_unescape_string json_escape_string
  rw [cstr_of_nulfree _ (escape_loop_nulfree _ (cstr_nulfree text)), unescape_escape_loop]
  simp

/-! ## Unterminated strings and blank input -/

theorem scan_string_of_no_quote (s : Bytes) : ∀ e, has_unescaped_quote e s = false →
    scan_string e s = s.length := by
  induction s with
  | nil => intro e _; cases e <;> rfl
  | cons c r ih =>
    intro e h
    cases e
    · simp only [has_unescaped_quote] at h
      by_cases h1 : c = 34
      · simp [h1] at h
      · rw [if_neg h1] at h
        by_cases h2 : c = 92
        · rw [if_pos h2] at h
          simp [scan_string, h2, ih true h, Nat.add_comm]
        · rw [if_neg h2] at h
          simp [scan_string, h1, h2, ih false h, Nat.add_comm]
    · simp only [has_unescaped_quote] at h
      simp [scan_string, ih false h, Nat.add_comm]

theorem skip_whitespace_noop (p : JsonParser) (c : Nat) (r : Bytes) (h : p.rem = c :: r)
    (hc : is_ws c = false) : skip_whitespace p = p := by
  have hlt := rem_cons_lt p c r h
  have hcur := rem_cons_cur p c r h
  have hlen : p.input_len - p.pos = r.length + 1 := by rw [← rem_length, h]; rfl
  unfold skip_whitespace
  rw [hlen, skip_whitespace_loop, if_pos hlt, hcur]
  simp only [is_ws, Bool.or_eq_false_iff, decide_eq_false_iff_not] at hc
  rw [if_neg (by omega), if_neg (by omega)]

theorem json_parse_tree_eq (p : JsonParser) :
    json_parse_tree p = parse_value (3 * p.input.length + 1) p.reset := rfl

theorem reset_rem (p : JsonParser) : p.reset.rem = p.input := rfl

/-! ## Escape codec: the byte-wise map and the lenient decoder -/

theorem escape_byte_eq_image (c : Nat) : escape_byte c = escape_image c := by
  unfold escape_byte escape_image escape_table
  split_ifs with h1 h2 h3 h4 h5 h6 h7
  · subst h1; rfl
  · subst h2; rfl
  · subst h3; rfl
  · subst h4; rfl
  · subst h5; rfl
  · subst h6; rfl
  · subst h7; rfl
  · simp only [List.lookup, beq_false_of_ne h1, beq_false_of_ne h2, beq_false_of_ne h3,
      beq_false_of_ne h4, beq_false_of_ne h5, beq_false_of_ne h6, beq_false_of_ne h7]

theorem escape_loop_eq_flatten (s : Bytes) : escape_loop s [] = (s.map escape_image).flatten := by
  induction s with
  | nil => rfl
  | cons c r ih =>
    rw [escape_loop, escape_loop_acc, ih, escape_byte_eq_image]
    simp

theorem escaped_len_fold (s : Bytes) : ∀ n,
    s.foldl (fun n c => if escape_special c then n + 1 else n) n =
      n + s.countP (fun c => decide (c ∈ [34, 92, 8, 12, 10, 13, 9])) := by
  induction s with
  | nil => intro n; simp
  | cons c r ih =>
    intro n
    rw [List.foldl_cons, ih, List.countP_cons]
    by_cases h : c ∈ [34, 92, 8, 12, 10, 13, 9]
    · have : escape_special c = true := by
        simp only [List.mem_cons, List.mem_singleton, List.not_mem_nil, or_false] at h
        rcases h with h | h | h | h | h | h | h <;> subst h <;> decide
      simp [this, h]
      omega
    · have : escape_special c = false := by
        simp only [List.mem_cons, List.mem_singleton, List.not_mem_nil, or_false, not_or] at h
        simp [escape_special, h]
      simp [this, h]

theorem escape_image_length (c : Nat) :
    (escape_image c).length = 1 + if c ∈ [34, 92, 8, 12, 10, 13, 9] then 1 else 0 := by
  rw [← escape_byte_eq_image]
  unfold escape_byte
  split_ifs <;> simp_all

theorem flatten_escape_length (s : Bytes) :
    ((s.map escape_image).flatten).length =
      s.length + s.countP (fun c => decide (c ∈ [34, 92, 8, 12, 10, 13, 9])) := by
  induction s with
  | nil => rfl
  | cons c r ih =>
    rw [List.map_cons, List.flatten_cons, List.length_append, ih, escape_image_length,
      List.countP_cons, List.length_cons]
    by_cases h : c ∈ [34, 92, 8, 12, 10, 13, 9]
    · simp [h]; omega
    · simp [h]; omega

theorem unescape_loop_append (a : Bytes) : ∀ (e : Bool) (res b : Bytes),
    escape_pending e a = false →
    unescape_loop (a ++ b) e res = unescape_loop b false (unescape_loop a e res) := by
  induction a with
  | nil =>
    intro e res b h
    simp only [escape_pending] at h
    subst h
    simp [unescape_loop]
  | cons c r ih =>
    intro e res b h
    cases e
    · simp only [escape_pending] at h
      by_cases hc : c = 92
      · simp only [hc, decide_True] at h
        simp only [List.cons_append, unescape_loop, hc, if_true, Bool.false_eq_true, if_false]
        exact ih true res b h
      · simp only [hc, decide_False] at h
        simp only [List.cons_append, unescape_loop, hc, if_false, Bool.false_eq_true]
        exact ih false _ b h
    · simp only [escape_pending] at h
      simp only [List.cons_append, unescape_loop, if_true]
      exact ih false _ b h

theorem unescape_loop_res (s : Bytes) : ∀ (e : Bool) (res : Bytes),
    unescape_loop s e res = res ++ unescape_loop s e [] := by
  induction s with
  | nil => intro e res; cases e <;> simp [unescape_loop]
  | cons c r ih =>
    intro e res
    cases e
    · by_cases hc : c = 92
      · simp only [unescape_loop, hc, if_true, Bool.false_eq_true, if_false]
        exact ih true res
      · simp only [unescape_loop, hc, if_false, Bool.false_eq_true]
        rw [ih false (res ++ [c]), ih false ([] ++ [c])]
        simp
    · simp only [unescape_loop, if_true]
      rw [ih false (res ++ unescape_byte c), ih false ([] ++ unescape_byte c)]
      simp

theorem unescape_loop_no_backslash (s : Bytes) (h : 92 ∉ s) : unescape_loop s false [] = s := by
  induction s with
  | nil => rfl
  | cons c r ih =>
    have hc : c ≠ 92 := fun hc => h (by simp [hc])
    have hr : 92 ∉ r := fun hr => h (List.mem_cons_of_mem _ hr)
    simp only [unescape_loop, hc, if_false, Bool.false_eq_true]
    rw [unescape_loop_res, ih hr]
    rfl

/-! ## The text of `json_format` -/

theorem nulFree_append {a b : Bytes} (ha : NulFree a) (hb : NulFree b) : NulFree (a ++ b) := by
  intro x hx
  rcases List.mem_append.mp hx with h | h
  · exact ha x h
  · exact hb x h

theorem nulFree_cons {c : Nat} {s : Bytes} (hc : c ≠ 0) (hs : NulFree s) : NulFree (c :: s) := by
  intro x hx
  rcases List.mem_cons.mp hx with h | h
  · rw [h]; exact hc
  · exact hs x h

theorem nulFree_nil : NulFree [] := by
  intro x hx
  simp at hx

theorem nulFree_replicate (n : Nat) : NulFree (List.replicate n 32) := by
  intro x hx
  rw [List.eq_of_mem_replicate hx]
  decide

theorem nulFree_sep (i count : Nat) : NulFree (sep_text i count) := sep_text_nulfree i count

mutual
theorem fmt_body_nulFree : ∀ (t : TreeNode) (indent level : Nat),
    NulFree (fmt_body t indent level)
  | ⟨name, value, type, children⟩, indent, level => by
    unfold fmt_body
    cases type
    · exact nulFree_cons (by decide) (nulFree_cons (by decide) (nulFree_cons (by decide)
        (nulFree_cons (by decide) nulFree_nil)))
    · exact cstr_nulfree _
    · exact cstr_nulfree _
    · exact nulFree_append (nulFree_append (nulFree_cons (by decide) nulFree_nil)
        (cstr_nulfree _)) (nulFree_cons (by decide) nulFree_nil)
    · exact nulFree_append (nulFree_append (nulFree_append
        (nulFree_cons (by decide) (nulFree_cons (by decide) nulFree_nil))
        (fmt_array_nulFree children 0 children.length indent level)) (nulFree_replicate _))
        (nulFree_cons (by decide) nulFree_nil)
    · exact nulFree_append (nulFree_append (nulFree_append
        (nulFree_cons (by decide) (nulFree_cons (by decide) nulFree_nil))
        (fmt_object_nulFree children 0 children.length indent level)) (nulFree_replicate _))
        (nulFree_cons (by decide) nulFree_nil)
theorem fmt_array_nulFree : ∀ (cs : List TreeNode) (i count indent level : Nat),
    NulFree (fmt_array cs i count indent level)
  | [], i, count, indent, level => by
    rw [fmt_array]; exact nulFree_nil
  | c :: rest, i, count, indent, level => by
    rw [fmt_array]
    exact nulFree_append (nulFree_append (nulFree_append (nulFree_append (nulFree_replicate _)
      (fmt_body_nulFree c indent (level + 1))) (nulFree_sep i count))
      (nulFree_cons (by decide) nulFree_nil)) (fmt_array_nulFree rest (i + 1) count indent level)
theorem fmt_object_nulFree : ∀ (cs : List TreeNode) (i count indent level : Nat),
    NulFree (fmt_object cs i count indent level)
  | [], i, count, indent, level => by
    rw [fmt_object]; exact nulFree_nil
  | c :: rest, i, count, indent, level => by
    rw [fmt_object]
    exact nulFree_append (nulFree_append (nulFree_append (nulFree_append (nulFree_append
      (nulFree_append (nulFree_append (nulFree_append (nulFree_replicate _)
      (nulFree_cons (by decide) nulFree_nil)) (cstr_nulfree _))
      (nulFree_cons (by decide) (nulFree_cons (by decide) (nulFree_cons (by decide)
        nulFree_nil)))) (nulFree_replicate _)) (fmt_body_nulFree c indent (level + 1)))
      (nulFree_sep i count)) (nulFree_cons (by decide) nulFree_nil))
      (fmt_object_nulFree rest (i + 1) count indent level)
end

/-- A C string copied from a NUL-free text followed by other bytes is that
text followed by the copy of the other bytes. -/
theorem cstr_append_nulfree (a b : Bytes) (ha : NulFree a) : cstr (a ++ b) = a ++ cstr b := by
  unfold cstr
  induction a with
  | nil => rfl
  | cons c r ih =>
    have hc : c ≠ 0 := ha c (List.mem_cons_self _ _)
    rw [List.cons_append, List.takeWhile_cons_of_pos (by simpa using hc),
      ih (fun x hx => ha x (List.mem_cons_of_mem _ hx)), List.cons_append]

/-- The text `json_format` returns for a parsed tree: the text written for the
root at level 0 and a line feed, followed by the bytes the memory holds after
them, up to the first NUL byte. -/
theorem json_format_eq (stale : Bytes) (p : JsonParser) (w : Nat) (t : TreeNode)
    (p1 : JsonParser) (h : json_parse_tree p = some (some t, p1)) :
    json_format stale p w = some (some (fmt_body t w 0 ++ 10 :: cstr stale), p1) := by
  have h10 : cstr [10] = [10] := by decide
  have hdata : (buffer_append (format_value t buffer_create w 0) [10]).data =
      fmt_body t w 0 ++ [10] := by
    rw [buffer_append_data, format_value_data, h10]
    simp [buffer_create]
  have htext : strdup ((buffer_append (format_value t buffer_create w 0) [10]).data ++ stale) =
      fmt_body t w 0 ++ 10 :: cstr stale := by
    rw [hdata]
    unfold strdup
    rw [cstr_append_nulfree _ _ (nulFree_append (fmt_body_nulFree t w 0)
      (nulFree_cons (by decide) nulFree_nil))]
    simp
  unfold json_format
  rw [h]
  simp only [htext]

theorem json_format_none (stale : Bytes) (p : JsonParser) (w : Nat) (p1 : JsonParser)
    (h : json_parse_tree p = some (none, p1)) : json_format stale p w = some (none, p1) := by
  unfold json_format
  rw [h]

/-! ## Scalars: shape of the parsed node and verbatim output -/

theorem scan_number_all (s : Bytes) : ∀ d : Bool,
    (∀ c ∈ s, isdigit c = true ∨ c = 46) → s.count 46 ≤ (if d = true then 0 else 1) →
    scan_number d s = s.length := by
  induction s with
  | nil => intro d _ _; rfl
  | cons c r ih =>
    intro d hall hcount
    have hr : ∀ x ∈ r, isdigit x = true ∨ x = 46 := fun x hx => hall x (List.mem_cons_of_mem _ hx)
    rw [scan_number]
    by_cases h1 : c = 46 ∧ d = false
    · rw [if_pos h1, List.length_cons]
      obtain ⟨hc, hd⟩ := h1
      subst hc hd
      have : List.count 46 r ≤ 0 := by
        simp only [List.count_cons_self] at hcount
        simpa using hcount
      rw [ih true hr (by simpa using this)]
      omega
    · rw [if_neg h1]
      by_cases h2 : isdigit c = false
      · exfalso
        have hc : c = 46 := by
          rcases hall c (by simp) with h | h
          · rw [h] at h2; exact absurd h2 (by simp)
          · exact h
        subst hc
        have hd : d = true := by
          cases d
          · exact absurd ⟨rfl, rfl⟩ h1
          · rfl
        subst hd
        simp at hcount
      · rw [if_neg h2, List.length_cons]
        have hle : List.count 46 r ≤ List.count 46 (c :: r) := by
          rw [List.count_cons]; omega
        rw [ih d hr (by omega)]
        omega

theorem number_len_of_text (n : Bytes) (h : is_number_text n = true) :
    number_len n = n.length ∧ (∃ c s, n = c :: s ∧ (c = 45 ∨ isdigit c = true)) ∧
      (∀ b ∈ n, b ≠ 0) := by
  cases n with
  | nil => simp [is_number_text] at h
  | cons c s =>
    simp only [is_number_text, Bool.or_eq_true, Bool.and_eq_true, beq_iff_eq] at h
    have hbody : ∀ l : Bytes, digits_one_point l = true →
        (∀ x ∈ l, isdigit x = true ∨ x = 46) ∧ l.count 46 ≤ 1 := by
      intro l hl
      simp only [digits_one_point, Bool.and_eq_true, List.all_eq_true, Bool.or_eq_true,
        beq_iff_eq, decide_eq_true_eq] at hl
      exact hl
    have hnz : ∀ x, (isdigit x = true ∨ x = 46) → x ≠ 0 := by
      intro x hx
      rcases hx with hx | hx
      · simp only [isdigit, Bool.and_eq_true, decide_eq_true_eq] at hx; omega
      · omega
    rcases h with ⟨hc, hs⟩ | ⟨hc, hs⟩
    · subst hc
      obtain ⟨hall, hcnt⟩ := hbody s hs
      refine ⟨?_, ⟨45, s, rfl, Or.inl rfl⟩, ?_⟩
      · simp only [number_len, if_true, List.length_cons]
        rw [scan_number_all s false hall (by simpa using hcnt)]
        omega
      · intro b hb
        rcases List.mem_cons.mp hb with hb | hb
        · omega
        · exact hnz b (hall b hb)
    · obtain ⟨hall, hcnt⟩ := hbody (c :: s) hs
      refine ⟨?_, ⟨c, s, rfl, Or.inr hc⟩, fun b hb => hnz b (hall b hb)⟩
      have h45 : c ≠ 45 := by
        intro h45; subst h45; simp [isdigit] at hc
      simp only [number_len, if_neg h45]
      exact scan_number_all (c :: s) false hall (by simpa using hcnt)

theorem number_head (c : Nat) (h : c = 45 ∨ isdigit c = true) :
    is_ws c = false ∧ c ≠ 123 ∧ c ≠ 91 ∧ c ≠ 34 ∧ c ≠ 116 ∧ c ≠ 102 ∧ c ≠ 110 ∧ c ≠ 10 ∧
      c ≠ 0 := by
  rcases h with h | h
  · subst h; decide
  · simp only [isdigit, Bool.and_eq_true, decide_eq_true_eq] at h
    refine ⟨?_, by omega, by omega, by omega, by omega, by omega, by omega, by omega, by omega⟩
    simp only [is_ws, Bool.or_eq_false_iff, decide_eq_false_iff_not]
    omega

theorem parse_leaf_number (p : JsonParser) (c : Nat) (r : Bytes) (h : p.rem = c :: r)
    (hc : c = 45 ∨ isdigit c = true) :
    parse_leaf p =
      (some (tree_node_create none (some (p.rem.take (number_len p.rem))) JsonType.JSON_NUMBER),
        p.advance (number_len p.rem)) := by
  have hlt := rem_cons_lt _ _ _ h
  have hcur := rem_cons_cur _ _ _ h
  have hh := number_head c hc
  unfold parse_leaf
  rw [if_neg (by omega), if_neg (by rw [hcur]; exact hh.2.2.2.1),
    if_neg (by rw [hcur]; exact hh.2.2.2.2.1), if_neg (by rw [hcur]; exact hh.2.2.2.2.2.1),
    if_neg (by rw [hcur]; exact hh.2.2.2.2.2.2.1), if_pos (by rw [hcur]; exact hc),
    parse_number_eq' p c r h]

theorem parse_leaf_string (p : JsonParser) (r : Bytes) (h : p.rem = 34 :: r) :
    parse_leaf p =
      if r.length ≤ scan_string false r then
        (none, add_error (p.advance (1 + scan_string false r)) "Unterminated string")
      else (some (tree_node_create none (some (r.take (scan_string false r)))
        JsonType.JSON_STRING), p.advance (scan_string false r + 2)) := by
  have hlt := rem_cons_lt _ _ _ h
  have hcur := rem_cons_cur _ _ _ h
  unfold parse_leaf
  rw [if_neg (by omega), if_pos hcur, parse_string_eq p r h]
  split_ifs <;> rfl

theorem scan_string_closed (s : Bytes) : ∀ (e : Bool) (r : Bytes),
    has_unescaped_quote e s = false → escape_pending e s = false →
    scan_string e (s ++ 34 :: r) = s.length := by
  induction s with
  | nil =>
    intro e r _ h2
    simp only [escape_pending] at h2
    subst h2
    simp [scan_string]
  | cons c t ih =>
    intro e r h1 h2
    cases e
    · simp only [has_unescaped_quote] at h1
      simp only [escape_pending] at h2
      by_cases hq : c = 34
      · simp [hq] at h1
      · rw [if_neg hq] at h1
        by_cases hb : c = 92
        · rw [if_pos hb] at h1
          simp only [hb, decide_True] at h2
          have e : scan_string false (c :: (t ++ 34 :: r)) =
              1 + scan_string true (t ++ 34 :: r) := by simp [scan_string, hb]
          rw [List.cons_append, e, ih true r h1 h2, List.length_cons]; omega
        · rw [if_neg hb] at h1
          simp only [hb, decide_False] at h2
          have e : scan_string false (c :: (t ++ 34 :: r)) =
              1 + scan_string false (t ++ 34 :: r) := by simp [scan_string, hb, hq]
          rw [List.cons_append, e, ih false r h1 h2, List.length_cons]; omega
    · simp only [has_unescaped_quote] at h1
      simp only [escape_pending] at h2
      have e : scan_string true (c :: (t ++ 34 :: r)) =
          1 + scan_string false (t ++ 34 :: r) := by simp [scan_string]
      rw [List.cons_append, e, ih false r h1 h2, List.length_cons]; omega

/-! ## Shape of the root of a parsed tree -/

theorem scan_number_bytes (l : Bytes) : ∀ d : Bool,
    ∀ b ∈ l.take (scan_number d l), b = 46 ∨ isdigit b = true := by
  induction l with
  | nil => intro d b hb; simp at hb
  | cons c r ih =>
    intro d b hb
    rw [scan_number] at hb
    by_cases h1 : c = 46 ∧ d = false
    · rw [if_pos h1, Nat.add_comm, List.take_succ_cons] at hb
      rcases List.mem_cons.mp hb with h | h
      · exact Or.inl (h.trans h1.1)
      · exact ih true b h
    · rw [if_neg h1] at hb
      by_cases h2 : isdigit c = false
      · rw [if_pos h2] at hb; simp at hb
      · rw [if_neg h2, Nat.add_comm, List.take_succ_cons] at hb
        rcases List.mem_cons.mp hb with h | h
        · rw [h]; exact Or.inr (by simpa using h2)
        · exact ih d b h

theorem number_len_bytes (c : Nat) (r : Bytes) (hc : c = 45 ∨ isdigit c = true) :
    NumBytes ((c :: r).take (number_len (c :: r))) := by
  by_cases h45 : c = 45
  · subst h45
    have e : number_len (45 :: r) = scan_number false r + 1 := by
      simp [number_len, Nat.add_comm]
    rw [e, List.take_succ_cons]
    refine ⟨by simp, fun b hb => ?_⟩
    rcases List.mem_cons.mp hb with h | h
    · exact Or.inl h
    · exact Or.inr (scan_number_bytes r false b h)
  · have hd : isdigit c = true := by
      rcases hc with h | h
      · exact absurd h h45
      · exact h
    have e : number_len (c :: r) = scan_number false r + 1 := by
      simp [number_len, h45, scan_number_digit_pos c r hd, Nat.add_comm]
    rw [e, List.take_succ_cons]
    refine ⟨by simp, fun b hb => ?_⟩
    rcases List.mem_cons.mp hb with h | h
    · rw [h]; exact Or.inr (Or.inr hd)
    · exact Or.inr (scan_number_bytes r false b h)

theorem parse_leaf_shape (p : JsonParser) (t : TreeNode) (p1 : JsonParser)
    (h : parse_leaf p = (some t, p1)) : LeafShape t := by
  cases hr : p.rem with
  | nil =>
    have := rem_nil p hr
    unfold parse_leaf at h
    rw [if_pos this] at h
    injection h with h1 _
    exact absurd h1 (by simp)
  | cons c r =>
    have hlt := rem_cons_lt p c r hr
    have hcur := rem_cons_cur p c r hr
    by_cases hn : c = 45 ∨ isdigit c = true
    · rw [parse_leaf_number p c r hr hn] at h
      injection h with h1 _
      injection h1 with h1
      subst h1
      rw [hr]
      exact Or.inr (Or.inr (Or.inr (Or.inr ⟨_, number_len_bytes c r hn, rfl⟩)))
    · unfold parse_leaf at h
      rw [if_neg (by omega), hcur] at h
      by_cases h1 : c = 34
      · rw [if_pos h1] at h
        cases hps : parse_string p with
        | mk k p2 =>
          rw [hps] at h
          cases k with
          | none =>
            injection h with ha _
            exact absurd ha (by simp)
          | some str =>
            injection h with ha _
            injection ha with ha
            exact Or.inl ⟨str, ha.symm⟩
      · rw [if_neg h1] at h
        by_cases h2 : c = 116
        · rw [if_pos h2] at h
          split_ifs at h
          · injection h with ha _
            injection ha with ha
            exact Or.inr (Or.inl ha.symm)
          · injection h with ha _
            exact absurd ha (by simp)
        · rw [if_neg h2] at h
          by_cases h3 : c = 102
          · rw [if_pos h3] at h
            split_ifs at h
            · injection h with ha _
              injection ha with ha
              exact Or.inr (Or.inr (Or.inl ha.symm))
            · injection h with ha _
              exact absurd ha (by simp)
          · rw [if_neg h3] at h
            by_cases h4 : c = 110
            · rw [if_pos h4] at h
              split_ifs at h
              · injection h with ha _
                injection ha with ha
                exact Or.inr (Or.inr (Or.inr (Or.inl ha.symm)))
              · injection h with ha _
                exact absurd ha (by simp)
            · rw [if_neg h4, if_neg hn] at h
              injection h with ha _
              exact absurd ha (by simp)

theorem parse_loop_type (f : Nat) :
    (∀ p node t p1, parse_array_loop f p node = some (some t, p1) → t.type = node.type) ∧
    (∀ p node t p1, parse_object_loop f p node = some (some t, p1) → t.type = node.type) := by
  induction f with
  | zero =>
    exact ⟨fun p node t p1 h => by simp [parse_array_loop] at h,
      fun p node t p1 h => by simp [parse_object_loop] at h⟩
  | succ f ih =>
    refine ⟨?_, ?_⟩
    · intro p node t p1 h
      rw [parse_array_loop_succ] at h
      split_ifs at h
      · cases hv : parse_value f p with
        | none => rw [hv] at h; simp at h
        | some res =>
          obtain ⟨n, p2⟩ := res
          rw [hv] at h
          cases n with
          | none => simp at h
          | some v =>
            simp only at h
            rw [ih.1 _ _ _ _ h]
            rfl
      · injection h with h
        injection h with h1 _
        injection h1 with h1
        rw [h1]
    · intro p node t p1 h
      rw [parse_object_loop_succ] at h
      split_ifs at h
      · cases hps : parse_string p with
        | mk k p2 =>
          rw [hps] at h
          cases k with
          | none => simp at h
          | some key =>
            simp only at h
            split_ifs at h
            · simp at h
            · cases hv : parse_value f (skip_whitespace ((skip_whitespace p2).advance 1)) with
              | none => rw [hv] at h; simp at h
              | some res =>
                obtain ⟨n, p4⟩ := res
                rw [hv] at h
                cases n with
                | none => simp at h
                | some v =>
                  simp only at h
                  rw [ih.2 _ _ _ _ h]
                  rfl
      · injection h with h
        injection h with h1 _
        injection h1 with h1
        rw [h1]

/-- The root a parse returns is an array, an object, or one of the scalar
nodes of the non-recursive branches. -/
theorem parse_value_shape (f : Nat) (p : JsonParser) (t : TreeNode) (p1 : JsonParser)
    (h : parse_value f p = some (some t, p1)) :
    t.type = JsonType.JSON_ARRAY ∨ t.type = JsonType.JSON_OBJECT ∨ LeafShape t := by
  cases f with
  | zero => simp [parse_value] at h
  | succ f =>
    rw [parse_value_succ] at h
    split_ifs at h
    · right; left
      cases f with
      | zero => simp [parse_object] at h
      | succ f =>
        rw [parse_object_succ] at h
        cases hl : parse_object_loop f (skip_whitespace ((skip_whitespace p).advance 1))
            (tree_node_create none none JsonType.JSON_OBJECT) with
        | none => rw [hl] at h; simp at h
        | some res =>
          obtain ⟨n, p2⟩ := res
          rw [hl] at h
          cases n with
          | none => simp at h
          | some N =>
            simp only at h
            split_ifs at h
            · simp at h
            · injection h with h
              injection h with h1 _
              injection h1 with h1
              rw [← h1, (parse_loop_type f).2 _ _ _ _ hl]
              rfl
    · left
      cases f with
      | zero => simp [parse_array] at h
      | succ f =>
        rw [parse_array_succ] at h
        cases hl : parse_array_loop f (skip_whitespace ((skip_whitespace p).advance 1))
            (tree_node_create none none JsonType.JSON_ARRAY) with
        | none => rw [hl] at h; simp at h
        | some res =>
          obtain ⟨n, p2⟩ := res
          rw [hl] at h
          cases n with
          | none => simp at h
          | some N =>
            simp only at h
            split_ifs at h
            · simp at h
            · injection h with h
              injection h with h1 _
              injection h1 with h1
              rw [← h1, (parse_loop_type f).1 _ _ _ _ hl]
              rfl
    · right; right
      injection h with h
      exact parse_leaf_shape _ t p1 h

theorem endsNotLF_of_all (v : Bytes) (hne : v ≠ []) (h : ∀ b ∈ v, b ≠ 10) : EndsNotLF v :=
  ⟨v.dropLast, v.getLast hne, (List.dropLast_append_getLast hne).symm,
    h _ (List.getLast_mem hne)⟩

theorem numBytes_facts (v : Bytes) (h : NumBytes v) :
    cstr v = v ∧ (∀ b ∈ v, b ≠ 10) ∧ EndsNotLF v := by
  have hb : ∀ b ∈ v, b ≠ 0 ∧ b ≠ 10 := by
    intro b hb
    rcases h.2 b hb with h1 | h1 | h1
    · omega
    · omega
    · simp only [isdigit, Bool.and_eq_true, decide_eq_true_eq] at h1; omega
  exact ⟨cstr_of_nulfree v (fun b x => (hb b x).1), fun b x => (hb b x).2,
    endsNotLF_of_all v h.1 (fun b x => (hb b x).2)⟩

theorem cstr_cstr (s : Bytes) : cstr (cstr s) = cstr s :=
  cstr_of_nulfree _ (cstr_nulfree s)

/-- The text written for a scalar root: it does not end with a line feed, and
unless the root is a string it holds no line feed. -/
theorem leaf_fmt (t : TreeNode) (h : LeafShape t) (w l : Nat) :
    EndsNotLF (fmt_body t w l) ∧ (t.type ≠ JsonType.JSON_STRING → 10 ∉ fmt_body t w l) := by
  rcases h with ⟨s, h⟩ | h | h | h | ⟨v, hv, h⟩
  · subst h
    refine ⟨⟨34 :: cstr s, 34, ?_, by decide⟩, fun hne => absurd rfl hne⟩
    simp [tree_node_create, fmt_body, strdup, cstr_cstr]
  · subst h
    exact ⟨⟨[116, 114, 117], 101, by rfl, by decide⟩, fun _ => by
      rw [show fmt_body (tree_node_create none (some [116, 114, 117, 101]) JsonType.JSON_BOOL)
        w l = [116, 114, 117, 101] by rfl]
      decide⟩
  · subst h
    exact ⟨⟨[102, 97, 108, 115], 101, by rfl, by decide⟩, fun _ => by
      rw [show fmt_body (tree_node_create none (some [102, 97, 108, 115, 101])
        JsonType.JSON_BOOL) w l = [102, 97, 108, 115, 101] by rfl]
      decide⟩
  · subst h
    exact ⟨⟨[110, 117, 108], 108, by rfl, by decide⟩, fun _ => by
      rw [show fmt_body (tree_node_create none (some [110, 117, 108, 108]) JsonType.JSON_NULL)
        w l = [110, 117, 108, 108] by rfl]
      decide⟩
  · subst h
    obtain ⟨hc, h10, hend⟩ := numBytes_facts v hv
    have hb : fmt_body (tree_node_create none (some v) JsonType.JSON_NUMBER) w l = v := by
      simp [tree_node_create, fmt_body, strdup, hc]
    rw [hb]
    exact ⟨hend, fun _ hm => h10 10 hm rfl⟩

theorem array_fmt (t : TreeNode) (h : t.type = JsonType.JSON_ARRAY) (w l : Nat) :
    (∃ r, fmt_body t w l = 91 :: 10 :: r) ∧ EndsNotLF (fmt_body t w l) := by
  cases t with
  | mk name value type children =>
    simp only at h
    subst h
    unfold fmt_body
    exact ⟨⟨fmt_array children 0 children.length w l ++ (List.replicate (l * w) 32 ++ [93]),
      by simp⟩, ⟨_, 93, rfl, by decide⟩⟩

theorem object_fmt (t : TreeNode) (h : t.type = JsonType.JSON_OBJECT) (w l : Nat) :
    (∃ r, fmt_body t w l = 123 :: 10 :: r) ∧ EndsNotLF (fmt_body t w l) := by
  cases t with
  | mk name value type children =>
    simp only at h
    subst h
    unfold fmt_body
    exact ⟨⟨fmt_object children 0 children.length w l ++ (List.replicate (l * w) 32 ++ [125]),
      by simp⟩, ⟨_, 125, rfl, by decide⟩⟩

theorem sep_text_last (i n : Nat) (rest : List TreeNode) (h : n = i + (rest.length + 1)) :
    sep_text i n = if rest.isEmpty then [] else [44] := by
  unfold sep_text
  cases rest with
  | nil =>
    simp only [List.length_nil] at h
    rw [if_neg (by omega)]
    rfl
  | cons a r =>
    simp only [List.length_cons] at h
    rw [if_pos (by omega)]
    rfl

mutual
theorem fmt_body_zero : ∀ (t : TreeNode) (level : Nat), fmt_body t 0 level = compact_text t
  | ⟨name, value, type, children⟩, level => by
    unfold fmt_body compact_text
    cases type
    · rfl
    · rfl
    · rfl
    · rfl
    · simp only [Nat.mul_zero, List.replicate_zero, List.append_nil]
      rw [fmt_array_zero children 0 children.length level (by omega)]
    · simp only [Nat.mul_zero, List.replicate_zero, List.append_nil]
      rw [fmt_object_zero children 0 children.length level (by omega)]
theorem fmt_array_zero : ∀ (cs : List TreeNode) (i n level : Nat), n = i + cs.length →
    fmt_array cs i n 0 level = compact_elements cs
  | [], i, n, level, _ => by rw [fmt_array, compact_elements]
  | c :: rest, i, n, level, h => by
    rw [fmt_array, compact_elements, fmt_body_zero c (level + 1),
      fmt_array_zero rest (i + 1) n level (by simp only [List.length_cons] at h; omega),
      sep_text_last i n rest h]
    simp
theorem fmt_object_zero : ∀ (cs : List TreeNode) (i n level : Nat), n = i + cs.length →
    fmt_object cs i n 0 level = compact_members cs
  | [], i, n, level, _ => by rw [fmt_object, compact_members]
  | c :: rest, i, n, level, h => by
    rw [fmt_object, compact_members, fmt_body_zero c (level + 1),
      fmt_object_zero rest (i + 1) n level (by simp only [List.length_cons] at h; omega),
      sep_text_last i n rest h]
    simp
end

theorem json_parse_tree_shape (p : JsonParser) (t : TreeNode) (p1 : JsonParser)
    (h : json_parse_tree p = some (some t, p1)) :
    t.type = JsonType.JSON_ARRAY ∨ t.type = JsonType.JSON_OBJECT ∨ LeafShape t :=
  parse_value_shape _ p.reset t p1 (by rw [← json_parse_tree_eq]; exact h)

/-! ## The cursor after leading whitespace -/

theorem ws_column_concat (a : Bytes) : ∀ (col c : Nat),
    ws_column col (a ++ [c]) = if c = 10 then 0 else ws_column col a + 1 := by
  induction a with
  | nil => intro col c; simp [ws_column]
  | cons x r ih => intro col c; simp only [List.cons_append, ws_column]; exact ih _ c

theorem column_of_concat (a : Bytes) (c : Nat) :
    column_of (a ++ [c]) = if c = 10 then 0 else column_of a + 1 := by
  unfold column_of
  rw [List.reverse_append, List.reverse_singleton, List.singleton_append, List.takeWhile_cons]
  by_cases h : c = 10
  · simp [h]
  · simp [h]

theorem ws_column_zero (ws : Bytes) : ws_column 0 ws = column_of ws := by
  induction ws using List.reverseRecOn with
  | nil => rfl
  | append_singleton a c ih => rw [ws_column_concat, column_of_concat, ih]

theorem skip_whitespace_loop_cursor (n : Nat) : ∀ (p : JsonParser) (ws tail : Bytes),
    p.rem = ws ++ tail → (∀ b ∈ ws, is_ws b = true) →
    (∀ c r, tail = c :: r → is_ws c = false) → p.rem.length ≤ n →
    skip_whitespace_loop n p =
      ⟨p.input, p.pos + ws.length, p.line + ws.count 10, ws_column p.column ws, p.errors⟩ := by
  induction n with
  | zero =>
    intro p ws tail hrem _ _ hn
    have h0 : p.rem = [] := List.eq_nil_of_length_eq_zero (by omega)
    rw [h0] at hrem
    have hws : ws = [] := (List.append_eq_nil.mp hrem.symm).1
    subst hws
    rfl
  | succ n ih =>
    intro p ws tail hrem hws htail hn
    cases ws with
    | nil =>
      rw [List.nil_append] at hrem
      cases tail with
      | nil =>
        have := rem_nil p hrem
        rw [skip_whitespace_loop, if_neg (by omega)]
        rfl
      | cons c r =>
        have hlt := rem_cons_lt p c r hrem
        have hcur := rem_cons_cur p c r hrem
        have hc := htail c r rfl
        simp only [is_ws, Bool.or_eq_false_iff, decide_eq_false_iff_not] at hc
        rw [skip_whitespace_loop, if_pos hlt, hcur, if_neg (by omega), if_neg (by omega)]
        rfl
    | cons x ws' =>
      have hrem' : p.rem = x :: (ws' ++ tail) := hrem
      have hlt := rem_cons_lt p x _ hrem'
      have hcur := rem_cons_cur p x _ hrem'
      have hx : is_ws x = true := hws x (by simp)
      have hws' : ∀ b ∈ ws', is_ws b = true := fun b hb => hws b (List.mem_cons_of_mem _ hb)
      rw [hrem'] at hn
      simp only [List.length_cons] at hn
      rw [skip_whitespace_loop, if_pos hlt, hcur]
      by_cases h1 : x = 32 ∨ x = 9 ∨ x = 13
      · have hx10 : x ≠ 10 := by omega
        rw [if_pos h1]
        have ha : (p.advance 1).rem = ws' ++ tail := by rw [rem_advance, hrem']; rfl
        rw [ih (p.advance 1) ws' tail ha hws' htail (by rw [ha]; omega)]
        simp only [JsonParser.advance, List.length_cons, List.count_cons, ws_column,
          beq_iff_eq, hx10, if_false, JsonParser.mk.injEq, true_and, and_true]
        omega
      · have hx10 : x = 10 := by
          simp only [is_ws, Bool.or_eq_true, decide_eq_true_eq] at hx
          omega
        rw [if_neg h1, if_pos hx10]
        have ha : p.newline.rem = ws' ++ tail := by rw [rem_newline, hrem']; rfl
        rw [ih p.newline ws' tail ha hws' htail (by rw [ha]; omega)]
        subst hx10
        simp only [JsonParser.newline, List.length_cons, List.count_cons, ws_column,
          beq_self_eq_true, if_true, JsonParser.mk.injEq, true_and, and_true]
        omega

/-- The state after `skip_whitespace` at the start of a parse. -/
theorem skip_whitespace_reset (p : JsonParser) (ws tail : Bytes) (hin : p.input = ws ++ tail)
    (hws : ∀ b ∈ ws, is_ws b = true) (htail : ∀ c r, tail = c :: r → is_ws c = false) :
    skip_whitespace p.reset = ⟨p.input, ws.length, line_of ws, column_of ws, []⟩ := by
  unfold skip_whitespace
  rw [skip_whitespace_loop_cursor _ p.reset ws tail (by rw [reset_rem, hin]) hws htail
    (by rw [rem_length])]
  simp only [JsonParser.reset, Nat.zero_add, ws_column_zero, line_of]

theorem parse_leaf_literal_mismatch (p : JsonParser) (c : Nat) (rest : Bytes)
    (h : p.rem = c :: rest) :
    (c = 116 → (c :: rest).take 4 ≠ [116, 114, 117, 101] →
      parse_leaf p = (none, add_error p "Invalid true value")) ∧
    (c = 102 → (c :: rest).take 5 ≠ [102, 97, 108, 115, 101] →
      parse_leaf p = (none, add_error p "Invalid false value")) ∧
    (c = 110 → (c :: rest).take 4 ≠ [110, 117, 108, 108] →
      parse_leaf p = (none, add_error p "Invalid null value")) := by
  have hlt := rem_cons_lt _ _ _ h
  have hcur := rem_cons_cur _ _ _ h
  refine ⟨fun hc hne => ?_, fun hc hne => ?_, fun hc hne => ?_⟩
  · have hs : ¬ (p.pos + 3 < p.input_len ∧ strncmp_eq p [116, 114, 117, 101] = true) := by
      rintro ⟨_, hs⟩
      simp only [strncmp_eq, slice_pos, decide_eq_true_eq, h] at hs
      exact hne hs
    unfold parse_leaf
    rw [if_neg (by omega), if_neg (by rw [hcur, hc]; decide), if_pos (by rw [hcur, hc]),
      if_neg hs]
  · have hs : ¬ (p.pos + 4 < p.input_len ∧ strncmp_eq p [102, 97, 108, 115, 101] = true) := by
      rintro ⟨_, hs⟩
      simp only [strncmp_eq, slice_pos, decide_eq_true_eq, h] at hs
      exact hne hs
    unfold parse_leaf
    rw [if_neg (by omega), if_neg (by rw [hcur, hc]; decide), if_neg (by rw [hcur, hc]; decide),
      if_pos (by rw [hcur, hc]), if_neg hs]
  · have hs : ¬ (p.pos + 3 < p.input_len ∧ strncmp_eq p [110, 117, 108, 108] = true) := by
      rintro ⟨_, hs⟩
      simp only [strncmp_eq, slice_pos, decide_eq_true_eq, h] at hs
      exact hne hs
    unfold parse_leaf
    rw [if_neg (by omega), if_neg (by rw [hcur, hc]; decide), if_neg (by rw [hcur, hc]; decide),
      if_neg (by rw [hcur, hc]; decide), if_pos (by rw [hcur, hc]), if_neg hs]

/-! ## The recursion budget does not matter -/

/-- A call that completes with some budget completes with the same result
with one more unit of budget. -/
theorem parse_mono (f : Nat) :
    (∀ p r, parse_value f p = some r → parse_value (f + 1) p = some r) ∧
    (∀ p r, parse_array f p = some r → parse_array (f + 1) p = some r) ∧
    (∀ p r, parse_object f p = some r → parse_object (f + 1) p = some r) ∧
    (∀ p node r, parse_array_loop f p node = some r →
      parse_array_loop (f + 1) p node = some r) ∧
    (∀ p node r, parse_object_loop f p node = some r →
      parse_object_loop (f + 1) p node = some r) := by
  induction f with
  | zero =>
    refine ⟨?_, ?_, ?_, ?_, ?_⟩
    · intro p r h; simp [parse_value] at h
    · intro p r h; simp [parse_array] at h
    · intro p r h; simp [parse_object] at h
    · intro p node r h; simp [parse_array_loop] at h
    · intro p node r h; simp [parse_object_loop] at h
  | succ f ih =>
    obtain ⟨ihv, iha, iho, ihal, ihol⟩ := ih
    refine ⟨?_, ?_, ?_, ?_, ?_⟩
    · intro p r h
      rw [parse_value_succ] at h ⊢
      split_ifs at h ⊢
      · exact iho _ _ h
      · exact iha _ _ h
      · exact h
    · intro p r h
      rw [parse_array_succ] at h ⊢
      cases hl : parse_array_loop f (skip_whitespace (p.advance 1))
          (tree_node_create none none JsonType.JSON_ARRAY) with
      | none => rw [hl] at h; simp at h
      | some x =>
        rw [hl] at h
        rw [ihal _ _ _ hl]
        exact h
    · intro p r h
      rw [parse_object_succ] at h ⊢
      cases hl : parse_object_loop f (skip_whitespace (p.advance 1))
          (tree_node_create none none JsonType.JSON_OBJECT) with
      | none => rw [hl] at h; simp at h
      | some x =>
        rw [hl] at h
        rw [ihol _ _ _ hl]
        exact h
    · intro p node r h
      rw [parse_array_loop_succ] at h ⊢
      split_ifs at h ⊢
      · cases hv : parse_value f p with
        | none => rw [hv] at h; simp at h
        | some x =>
          obtain ⟨n, p2⟩ := x
          rw [hv] at h
          rw [ihv _ _ hv]
          cases n with
          | none => exact h
          | some v => exact ihal _ _ _ h
      · exact h
    · intro p node r h
      rw [parse_object_loop_succ] at h ⊢
      split_ifs at h ⊢
      · cases hps : parse_string p with
        | mk k p2 =>
          rw [hps] at h
          cases k with
          | none => exact h
          | some key =>
            simp only at h ⊢
            split_ifs at h ⊢
            · exact h
            · cases hv : parse_value f (skip_whitespace ((skip_whitespace p2).advance 1)) with
              | none => rw [hv] at h; simp at h
              | some x =>
                obtain ⟨n, p4⟩ := x
                rw [hv] at h
                rw [ihv _ _ hv]
                cases n with
                | none => exact h
                | some v => exact ihol _ _ _ h
      · exact h

theorem parse_value_mono (f f' : Nat) (hle : f ≤ f') (p : JsonParser)
    (r : Option TreeNode × JsonParser) (h : parse_value f p = some r) :
    parse_value f' p = some r := by
  induction hle with
  | refl => exact h
  | step _ ih => exact (parse_mono _).1 _ _ ih

theorem parse_array_loop_mono (f f' : Nat) (hle : f ≤ f') (p : JsonParser) (node : TreeNode)
    (r : Option TreeNode × JsonParser) (h : parse_array_loop f p node = some r) :
    parse_array_loop f' p node = some r := by
  induction hle with
  | refl => exact h
  | step _ ih => exact (parse_mono _).2.2.2.1 _ _ _ ih

theorem parse_object_loop_mono (f f' : Nat) (hle : f ≤ f') (p : JsonParser) (node : TreeNode)
    (r : Option TreeNode × JsonParser) (h : parse_object_loop f p node = some r) :
    parse_object_loop f' p node = some r := by
  induction hle with
  | refl => exact h
  | step _ ih => exact (parse_mono _).2.2.2.2 _ _ _ ih

theorem parse_array_mono (f f' : Nat) (hle : f ≤ f') (p : JsonParser)
    (r : Option TreeNode × JsonParser) (h : parse_array f p = some r) :
    parse_array f' p = some r := by
  induction hle with
  | refl => exact h
  | step _ ih => exact (parse_mono _).2.1 _ _ ih

theorem parse_object_mono (f f' : Nat) (hle : f ≤ f') (p : JsonParser)
    (r : Option TreeNode × JsonParser) (h : parse_object f p = some r) :
    parse_object f' p = some r := by
  induction hle with
  | refl => exact h
  | step _ ih => exact (parse_mono _).2.2.1 _ _ ih

/-- A result obtained with any budget is the result of every budget that is
large enough for the unread input. -/
theorem parse_value_any_fuel (f f' : Nat) (p : JsonParser) (r : Option TreeNode × JsonParser)
    (h : parse_value f p = some r) (hf : 3 * p.rem.length + 1 ≤ f') :
    parse_value f' p = some r := by
  obtain ⟨r', hr', _⟩ := (parse_total f').1 p hf
  have h1 := parse_value_mono f (max f f') (Nat.le_max_left _ _) p r h
  have h2 := parse_value_mono f' (max f f') (Nat.le_max_right _ _) p r' hr'
  rw [h1] at h2
  injection h2 with h2
  rw [hr', h2]

/-- Progress of every completed call, whatever its budget. -/
theorem parse_progress (f : Nat) :
    (∀ p r, parse_value f p = some r → Progress p r) ∧
    (∀ p node r, parse_array_loop f p node = some r →
      r.2.input = p.input ∧ r.2.rem.length ≤ p.rem.length) ∧
    (∀ p node r, parse_object_loop f p node = some r →
      r.2.input = p.input ∧ r.2.rem.length ≤ p.rem.length) := by
  refine ⟨?_, ?_, ?_⟩
  · intro p r h
    obtain ⟨r', hr', hp⟩ := (parse_total (max f (3 * p.rem.length + 1))).1 p (Nat.le_max_right _ _)
    have h1 := parse_value_mono f (max f (3 * p.rem.length + 1)) (Nat.le_max_left _ _) p r h
    rw [h1] at hr'
    injection hr' with hr'
    rw [hr']
    exact hp
  · intro p node r h
    obtain ⟨r', hr', hp⟩ := (parse_total (max f (3 * p.rem.length + 2))).2.2.2.1 p node
      (Nat.le_max_right _ _)
    have h1 := parse_array_loop_mono f (max f (3 * p.rem.length + 2)) (Nat.le_max_left _ _) p node r h
    rw [h1] at hr'
    injection hr' with hr'
    rw [hr']
    exact hp
  · intro p node r h
    obtain ⟨r', hr', hp⟩ := (parse_total (max f (3 * p.rem.length + 2))).2.2.2.2 p node
      (Nat.le_max_right _ _)
    have h1 := parse_object_loop_mono f (max f (3 * p.rem.length + 2)) (Nat.le_max_left _ _) p node r h
    rw [h1] at hr'
    injection hr' with hr'
    rw [hr']
    exact hp

/-! ## Locality: a parse reads only what it consumes and one byte of lookahead -/

theorem length_dropWhile_le_self (P : Nat → Bool) (l : Bytes) :
    (l.dropWhile P).length ≤ l.length :=
  (List.dropWhile_sublist P).length_le

theorem dropWhile_append_long (P : Nat → Bool) (a b : Bytes)
    (h : b.length < ((a ++ b).dropWhile P).length) :
    a.dropWhile P ≠ [] ∧ ∀ b' : Bytes, (a ++ b').dropWhile P = a.dropWhile P ++ b' := by
  have hne : a.dropWhile P ≠ [] := by
    intro he
    rw [List.dropWhile_append, he] at h
    simp only [List.isEmpty_nil, if_true] at h
    have := length_dropWhile_le_self P b
    omega
  refine ⟨hne, fun b' => ?_⟩
  rw [List.dropWhile_append]
  cases hd : a.dropWhile P with
  | nil => exact absurd hd hne
  | cons c r => simp

theorem scan_number_local (b b' : Bytes) (hc : Compat b b') :
    ∀ (x : Bytes) (d : Bool), scan_number d (x ++ b) ≤ x.length →
      scan_number d (x ++ b') = scan_number d (x ++ b) := by
  intro x
  induction x with
  | nil =>
    intro d h
    simp only [List.nil_append, List.length_nil, Nat.le_zero_eq] at h ⊢
    rw [h]
    rcases hc with hh | rfl | ⟨c, r, rfl, hd, h46⟩
    · cases b with
      | nil =>
        cases b' with
        | nil => rfl
        | cons c' r' => simp at hh
      | cons c r =>
        cases b' with
        | nil => simp at hh
        | cons c' r' =>
          simp only [List.head?_cons, Option.some.injEq] at hh
          subst hh
          simp only [scan_number] at h ⊢
          split_ifs at h ⊢ <;> first | rfl | omega
    · rfl
    · simp [scan_number, hd, h46]
  | cons c x ih =>
    intro d h
    simp only [List.cons_append, scan_number, List.length_cons, List.append_eq] at h ⊢
    split_ifs at h ⊢
    · rw [ih true (by omega)]
    · rfl
    · rw [ih d (by omega)]

theorem number_len_local (a b b' : Bytes) (hc : Compat b b') (ha : a ≠ [])
    (h : number_len (a ++ b) ≤ a.length) : number_len (a ++ b') = number_len (a ++ b) := by
  cases a with
  | nil => exact absurd rfl ha
  | cons c x =>
    simp only [List.cons_append, number_len, List.length_cons, List.append_eq] at h ⊢
    split_ifs at h ⊢
    · rw [scan_number_local b b' hc x false (by omega)]
    · exact scan_number_local b b' hc (c :: x) false (by simpa using h)

theorem scan_string_local (b b' : Bytes) :
    ∀ (x : Bytes) (e : Bool), scan_string e (x ++ b) < x.length →
      scan_string e (x ++ b') = scan_string e (x ++ b) := by
  intro x
  induction x with
  | nil => intro e h; simp at h
  | cons c x ih =>
    intro e h
    cases e with
    | true =>
      simp only [List.cons_append, scan_string, List.length_cons, List.append_eq] at h ⊢
      rw [ih false (by omega)]
    | false =>
      simp only [List.cons_append, scan_string, List.length_cons, List.append_eq] at h ⊢
      split_ifs at h ⊢
      · rw [ih true (by omega)]
      · rfl
      · rw [ih false (by omega)]

theorem skip_whitespace_end (p : JsonParser) (h : p.rem = []) : skip_whitespace p = p := by
  have := rem_nil p h
  unfold skip_whitespace
  rw [show p.input_len - p.pos = 0 by omega]
  rfl

theorem skip_whitespace_idem (p : JsonParser) :
    skip_whitespace (skip_whitespace p) = skip_whitespace p := by
  cases h : (skip_whitespace p).rem with
  | nil => exact skip_whitespace_end _ h
  | cons c r =>
    refine skip_whitespace_noop _ c r h ?_
    have h1 := (skip_whitespace_spec p).2.2.1
    have h2 := List.head?_dropWhile_not is_ws p.rem
    rw [← h1, h] at h2
    simpa using h2

theorem parse_value_skip (f : Nat) (p : JsonParser) :
    parse_value f (skip_whitespace p) = parse_value f p := by
  cases f with
  | zero => simp [parse_value]
  | succ f => rw [parse_value_succ, parse_value_succ, skip_whitespace_idem]

theorem skip_whitespace_local (p q : JsonParser) (a b b' : Bytes)
    (hp : p.rem = a ++ b) (hq : q.rem = a ++ b')
    (h : b.length < (skip_whitespace p).rem.length) :
    a.dropWhile is_ws ≠ [] ∧ (skip_whitespace p).rem = a.dropWhile is_ws ++ b ∧
      (skip_whitespace q).rem = a.dropWhile is_ws ++ b' := by
  rw [(skip_whitespace_spec p).2.2.1, hp] at h
  have := dropWhile_append_long is_ws a b h
  refine ⟨this.1, ?_, ?_⟩
  · rw [(skip_whitespace_spec p).2.2.1, hp, this.2]
  · rw [(skip_whitespace_spec q).2.2.1, hq, this.2]

theorem skip_comma_local (p q : JsonParser) (a b b' : Bytes)
    (hp : p.rem = a ++ b) (hq : q.rem = a ++ b')
    (h : b.length < (skip_comma p).rem.length) :
    ∃ a1, (skip_comma p).rem = a1 ++ b ∧ (skip_comma q).rem = a1 ++ b' := by
  have hle : (skip_comma p).rem.length ≤ (skip_whitespace p).rem.length := by
    unfold skip_comma
    split_ifs
    · rw [(skip_whitespace_spec _).2.2.1, rem_advance]
      have := length_dropWhile_le_self is_ws ((skip_whitespace p).rem.drop 1)
      rw [List.length_drop] at this
      omega
    · exact Nat.le_refl _
  obtain ⟨hne, h1, h2⟩ := skip_whitespace_local p q a b b' hp hq (by omega)
  cases hd : a.dropWhile is_ws with
  | nil => exact absurd hd hne
  | cons c r =>
    rw [hd] at h1 h2
    have hpl := rem_cons_lt _ _ _ h1
    have hpc := rem_cons_cur _ _ _ h1
    have hql := rem_cons_lt _ _ _ h2
    have hqc := rem_cons_cur _ _ _ h2
    unfold skip_comma at h ⊢
    by_cases hcm : c = 44
    · rw [if_pos ⟨hpl, by rw [hpc, hcm]⟩] at h ⊢
      rw [if_pos ⟨hql, by rw [hqc, hcm]⟩]
      have e1 : ((skip_whitespace p).advance 1).rem = r ++ b := by
        rw [rem_advance, h1]; rfl
      have e2 : ((skip_whitespace q).advance 1).rem = r ++ b' := by
        rw [rem_advance, h2]; rfl
      obtain ⟨_, h3, h4⟩ := skip_whitespace_local _ _ r b b' e1 e2 h
      exact ⟨_, h3, h4⟩
    · rw [if_neg (by rw [hpc]; exact fun hh => hcm hh.2)]
      rw [if_neg (by rw [hqc]; exact fun hh => hcm hh.2)]
      exact ⟨_, h1, h2⟩

theorem skip_comma_errors (p : JsonParser) : (skip_comma p).errors = p.errors :=
  (skip_comma_spec p).2.1

theorem lit_cond (p : JsonParser) (lit : Bytes) (k : Nat) (hk : lit.length = k + 1) :
    (p.pos + k < p.input_len ∧ strncmp_eq p lit = true) ↔ p.rem.take (k + 1) = lit := by
  have hl := rem_length p
  simp only [strncmp_eq, slice_pos, decide_eq_true_eq, hk]
  constructor
  · exact fun h => h.2
  · intro h
    refine ⟨?_, h⟩
    have := congrArg List.length h
    rw [List.length_take, hk] at this
    omega

theorem lit_local (a b b' lit : Bytes) (n : Nat) (hn : n ≤ a.length) :
    (a ++ b).take n = lit ↔ (a ++ b').take n = lit := by
  rw [List.take_append_of_le_length hn, List.take_append_of_le_length hn]

/-- A string literal that ends before the continuation is read alike in front
of any continuation. -/
theorem parse_string_local (p q : JsonParser) (a b b' : Bytes) (key : Bytes) (p1 : JsonParser)
    (hp : p.rem = a ++ b) (hq : q.rem = a ++ b')
    (h : parse_string p = (some key, p1)) (hlen : b.length ≤ p1.rem.length) :
    ∃ k x, a = 34 :: x ∧ k ≤ a.length ∧ p1 = p.advance k ∧
      parse_string q = (some key, q.advance k) := by
  have hhead : p.rem.head? = some 34 := by
    by_contra hh
    rw [parse_string_not_quote p hh] at h
    injection h with h1 _
    exact absurd h1 (by simp)
  cases hr : p.rem with
  | nil => rw [hr] at hhead; simp at hhead
  | cons c0 r =>
    rw [hr] at hhead
    simp only [List.head?_cons, Option.some.injEq] at hhead
    subst hhead
    rw [parse_string_eq p r hr] at h
    split_ifs at h with hk
    · injection h with h1 _
      exact absurd h1 (by simp)
    · injection h with h1 h2
      injection h1 with h1
      subst h1
      subst h2
      have hl : p.rem.length = r.length + 1 := by rw [hr]; rfl
      rw [rem_length_advance] at hlen
      cases a with
      | nil =>
        have := congrArg List.length hp
        simp only [List.nil_append] at this
        omega
      | cons c x =>
        have hcx : c = 34 ∧ x ++ b = r := by
          have := hp.symm.trans hr
          simpa using this
        obtain ⟨rfl, hxr⟩ := hcx
        subst hxr
        simp only [List.length_append] at hl hk
        have hlt : scan_string false (x ++ b) < x.length := by omega
        have e := scan_string_local b b' x false hlt
        refine ⟨scan_string false (x ++ b) + 2, x, rfl, by simp only [List.length_cons]; omega,
          rfl, ?_⟩
        rw [parse_string_eq q (x ++ b') hq, e, if_neg (by simp only [List.length_append]; omega),
          List.take_append_of_le_length (Nat.le_of_lt hlt),
          List.take_append_of_le_length (Nat.le_of_lt hlt)]

/-- A scalar that ends before the continuation is read alike in front of any
continuation that looks the same to the number scan. -/
theorem parse_leaf_local (p q : JsonParser) (a b b' : Bytes) (t : TreeNode) (p1 : JsonParser)
    (hp : p.rem = a ++ b) (hq : q.rem = a ++ b') (ha : a ≠ [])
    (h : parse_leaf p = (some t, p1)) (hlen : b.length ≤ p1.rem.length) (hc : Compat b b') :
    ∃ k, k ≤ a.length ∧ p1 = p.advance k ∧ parse_leaf q = (some t, q.advance k) := by
  cases a with
  | nil => exact absurd rfl ha
  | cons c x =>
    have hpl := rem_cons_lt p c (x ++ b) hp
    have hpc := rem_cons_cur p c (x ++ b) hp
    have hql := rem_cons_lt q c (x ++ b') hq
    have hqc := rem_cons_cur q c (x ++ b') hq
    have hL : p.rem.length = (c :: x).length + b.length := by rw [hp, List.length_append]
    have hrl := rem_length p
    by_cases hn : c = 45 ∨ isdigit c = true
    · rw [parse_leaf_number p c _ hp hn] at h
      injection h with h1 h2
      injection h1 with h1
      subst h1
      subst h2
      have hnl := number_len_le p.rem
      rw [rem_length_advance] at hlen
      have hk : number_len p.rem ≤ (c :: x).length := by omega
      have e := number_len_local (c :: x) b b' hc (by simp) (by rw [← hp]; exact hk)
      have e1 : number_len q.rem = number_len p.rem := by rw [hq, hp]; exact e
      have e2 : q.rem.take (number_len p.rem) = p.rem.take (number_len p.rem) := by
        rw [hq, hp, List.take_append_of_le_length (by rw [← hp]; exact hk),
          List.take_append_of_le_length (by rw [← hp]; exact hk)]
      exact ⟨number_len p.rem, hk, rfl, by rw [parse_leaf_number q c _ hq hn, e1, e2]⟩
    · unfold parse_leaf at h ⊢
      rw [if_neg (by omega), hpc] at h
      rw [if_neg (by omega), hqc]
      by_cases h1 : c = 34
      · rw [if_pos h1] at h ⊢
        cases hps : parse_string p with
        | mk k p2 =>
          rw [hps] at h
          cases k with
          | none =>
            injection h with ha' _
            exact absurd ha' (by simp)
          | some str =>
            injection h with ha' hb'
            subst hb'
            obtain ⟨k, _, _, hk, rfl, e⟩ := parse_string_local p q _ b b' str p2 hp hq hps hlen
            refine ⟨k, hk, rfl, ?_⟩
            rw [e]
            exact congrArg (fun z => (z, q.advance k)) ha'
      · rw [if_neg h1] at h ⊢
        by_cases h2 : c = 116
        · rw [if_pos h2] at h
          rw [if_pos h2]
          by_cases hl : p.pos + 3 < p.input_len ∧ strncmp_eq p [116, 114, 117, 101] = true
          · rw [if_pos hl] at h
            injection h with ha' hb'
            subst hb'
            rw [rem_length_advance] at hlen
            have hk : 3 + 1 ≤ (c :: x).length := by omega
            have hl1 := (lit_cond p [116, 114, 117, 101] 3 rfl).1 hl
            rw [hp, lit_local _ b b' _ _ hk, ← hq] at hl1
            rw [if_pos ((lit_cond q [116, 114, 117, 101] 3 rfl).2 hl1)]
            exact ⟨4, hk, rfl, congrArg (fun z => (z, q.advance 4)) ha'⟩
          · rw [if_neg hl] at h
            injection h with ha' _
            exact absurd ha' (by simp)
        · rw [if_neg h2] at h ⊢
          by_cases h3 : c = 102
          · rw [if_pos h3] at h
            rw [if_pos h3]
            by_cases hl : p.pos + 4 < p.input_len ∧ strncmp_eq p [102, 97, 108, 115, 101] = true
            · rw [if_pos hl] at h
              injection h with ha' hb'
              subst hb'
              rw [rem_length_advance] at hlen
              have hk : 4 + 1 ≤ (c :: x).length := by omega
              have hl1 := (lit_cond p [102, 97, 108, 115, 101] 4 rfl).1 hl
              rw [hp, lit_local _ b b' _ _ hk, ← hq] at hl1
              rw [if_pos ((lit_cond q [102, 97, 108, 115, 101] 4 rfl).2 hl1)]
              exact ⟨5, hk, rfl, congrArg (fun z => (z, q.advance 5)) ha'⟩
            · rw [if_neg hl] at h
              injection h with ha' _
              exact absurd ha' (by simp)
          · rw [if_neg h3] at h ⊢
            by_cases h4 : c = 110
            · rw [if_pos h4] at h
              rw [if_pos h4]
              by_cases hl : p.pos + 3 < p.input_len ∧ strncmp_eq p [110, 117, 108, 108] = true
              · rw [if_pos hl] at h
                injection h with ha' hb'
                subst hb'
                rw [rem_length_advance] at hlen
                have hk : 3 + 1 ≤ (c :: x).length := by omega
                have hl1 := (lit_cond p [110, 117, 108, 108] 3 rfl).1 hl
                rw [hp, lit_local _ b b' _ _ hk, ← hq] at hl1
                rw [if_pos ((lit_cond q [110, 117, 108, 108] 3 rfl).2 hl1)]
                exact ⟨4, hk, rfl, congrArg (fun z => (z, q.advance 4)) ha'⟩
              · rw [if_neg hl] at h
                injection h with ha' _
                exact absurd ha' (by simp)
            · rw [if_neg h4, if_neg hn] at h
              injection h with ha' _
              exact absurd ha' (by simp)

/-- A parse that returns a node before reaching the continuation of its text
returns the same node, and adds no diagnostic, in front of any continuation
that looks the same to the number scan. -/
theorem parse_local (b b' : Bytes) (hc : Compat b b') (f : Nat) :
    (∀ p q a t p1, parse_value f p = some (some t, p1) → p.rem = a ++ b → q.rem = a ++ b' →
      b.length ≤ p1.rem.length →
      ∃ q1 a1, parse_value f q = some (some t, q1) ∧ q1.errors = q.errors ∧
        p1.rem = a1 ++ b ∧ q1.rem = a1 ++ b') ∧
    (∀ p q a t p1, parse_array f p = some (some t, p1) → p.rem = a ++ b → q.rem = a ++ b' →
      b.length ≤ p1.rem.length →
      ∃ q1 a1, parse_array f q = some (some t, q1) ∧ q1.errors = q.errors ∧
        p1.rem = a1 ++ b ∧ q1.rem = a1 ++ b') ∧
    (∀ p q a t p1, parse_object f p = some (some t, p1) → p.rem = a ++ b → q.rem = a ++ b' →
      b.length ≤ p1.rem.length →
      ∃ q1 a1, parse_object f q = some (some t, q1) ∧ q1.errors = q.errors ∧
        p1.rem = a1 ++ b ∧ q1.rem = a1 ++ b') ∧
    (∀ p q a node t p1, parse_array_loop f p node = some (some t, p1) → p.rem = a ++ b →
      q.rem = a ++ b' → b.length < p1.rem.length →
      ∃ q1 a1, parse_array_loop f q node = some (some t, q1) ∧ q1.errors = q.errors ∧
        p1.rem = a1 ++ b ∧ q1.rem = a1 ++ b') ∧
    (∀ p q a node t p1, parse_object_loop f p node = some (some t, p1) → p.rem = a ++ b →
      q.rem = a ++ b' → b.length < p1.rem.length →
      ∃ q1 a1, parse_object_loop f q node = some (some t, q1) ∧ q1.errors = q.errors ∧
        p1.rem = a1 ++ b ∧ q1.rem = a1 ++ b') := by
  induction f with
  | zero =>
    refine ⟨?_, ?_, ?_, ?_, ?_⟩
    · intro p q a t p1 h; simp [parse_value] at h
    · intro p q a t p1 h; simp [parse_array] at h
    · intro p q a t p1 h; simp [parse_object] at h
    · intro p q a node t p1 h; simp [parse_array_loop] at h
    · intro p q a node t p1 h; simp [parse_object_loop] at h
  | succ f ih =>
    obtain ⟨ihv, iha, iho, ihal, ihol⟩ := ih
    refine ⟨?_, ?_, ?_, ?_, ?_⟩
    · intro p q a t p1 h hp hq hlen
      have hprog := (parse_progress (f + 1)).1 (skip_whitespace p) (some t, p1)
        (by rw [parse_value_skip]; exact h)
      have hlt := hprog.2.2 rfl
      simp only at hlt
      obtain ⟨hne, h1, h2⟩ := skip_whitespace_local p q a b b' hp hq (by omega)
      cases hd : a.dropWhile is_ws with
      | nil => exact absurd hd hne
      | cons c r =>
        rw [hd] at h1 h2
        have hpl := rem_cons_lt _ c (r ++ b) h1
        have hpc := rem_cons_cur _ c (r ++ b) h1
        have hql := rem_cons_lt _ c (r ++ b') h2
        have hqc := rem_cons_cur _ c (r ++ b') h2
        have herr := (skip_whitespace_spec q).2.1
        rw [parse_value_succ] at h ⊢
        by_cases c1 : c = 123
        · rw [if_pos ⟨hpl, by rw [hpc, c1]⟩] at h
          rw [if_pos ⟨hql, by rw [hqc, c1]⟩]
          obtain ⟨q1, a1, e, he, e1, e2⟩ := iho _ _ _ t p1 h h1 h2 hlen
          exact ⟨q1, a1, e, he.trans herr, e1, e2⟩
        · rw [if_neg (by rw [hpc]; exact fun hh => c1 hh.2)] at h
          rw [if_neg (by rw [hqc]; exact fun hh => c1 hh.2)]
          by_cases c2 : c = 91
          · rw [if_pos ⟨hpl, by rw [hpc, c2]⟩] at h
            rw [if_pos ⟨hql, by rw [hqc, c2]⟩]
            obtain ⟨q1, a1, e, he, e1, e2⟩ := iha _ _ _ t p1 h h1 h2 hlen
            exact ⟨q1, a1, e, he.trans herr, e1, e2⟩
          · rw [if_neg (by rw [hpc]; exact fun hh => c2 hh.2)] at h
            rw [if_neg (by rw [hqc]; exact fun hh => c2 hh.2)]
            have h' := Option.some.inj h
            obtain ⟨k, hk, rfl, e⟩ :=
              parse_leaf_local _ _ (c :: r) b b' t p1 h1 h2 (by simp) h' hlen hc
            refine ⟨(skip_whitespace q).advance k, (c :: r).drop k, by rw [e], herr, ?_, ?_⟩
            · rw [rem_advance, h1, List.drop_append_of_le_length hk]
            · rw [rem_advance, h2, List.drop_append_of_le_length hk]
    · intro p q a t p1 h hp hq hlen
      rw [parse_array_succ] at h ⊢
      cases hl : parse_array_loop f (skip_whitespace (p.advance 1))
          (tree_node_create none none JsonType.JSON_ARRAY) with
      | none => rw [hl] at h; simp at h
      | some x =>
        obtain ⟨n, p2⟩ := x
        rw [hl] at h
        cases n with
        | none => simp at h
        | some n1 =>
          simp only at h
          split_ifs at h with hcond
          · simp at h
          · have h' := Option.some.inj h
            injection h' with ht hp1
            injection ht with ht
            subst ht
            subst hp1
            have hp2l := rem_length p2
            rw [rem_length_advance] at hlen
            have hprog := (parse_progress f).2.1 _ _ _ hl
            simp only at hprog
            have hsk := skip_whitespace_rem_le (p.advance 1)
            have hadv := rem_length_advance p 1
            have hpL := congrArg List.length hp
            rw [List.length_append] at hpL
            cases a with
            | nil =>
              simp only [List.length_nil] at hpL
              omega
            | cons c0 x =>
              have e1 : (p.advance 1).rem = x ++ b := by rw [rem_advance, hp]; rfl
              have e2 : (q.advance 1).rem = x ++ b' := by rw [rem_advance, hq]; rfl
              obtain ⟨_, h1, h2⟩ := skip_whitespace_local _ _ x b b' e1 e2 (by omega)
              obtain ⟨q2, a2, e, he, e3, e4⟩ := ihal _ _ _ _ n1 p2 hl h1 h2 (by omega)
              cases a2 with
              | nil =>
                have := congrArg List.length e3
                simp only [List.nil_append] at this
                omega
              | cons c2 r2 =>
                have hpc := rem_cons_cur _ c2 (r2 ++ b) e3
                have hql := rem_cons_lt _ c2 (r2 ++ b') e4
                have hqc := rem_cons_cur _ c2 (r2 ++ b') e4
                have hc93 : c2 = 93 := by
                  by_contra hh
                  exact hcond (Or.inr (by rw [hpc]; exact hh))
                refine ⟨q2.advance 1, r2, ?_, ?_, ?_, ?_⟩
                · rw [e]
                  simp only
                  rw [if_neg (by rw [hqc, hc93]; omega)]
                · exact he.trans (skip_whitespace_spec _).2.1
                · rw [rem_advance, e3]; rfl
                · rw [rem_advance, e4]; rfl
    · intro p q a t p1 h hp hq hlen
      rw [parse_object_succ] at h ⊢
      cases hl : parse_object_loop f (skip_whitespace (p.advance 1))
          (tree_node_create none none JsonType.JSON_OBJECT) with
      | none => rw [hl] at h; simp at h
      | some x =>
        obtain ⟨n, p2⟩ := x
        rw [hl] at h
        cases n with
        | none => simp at h
        | some n1 =>
          simp only at h
          split_ifs at h with hcond
          · simp at h
          · have h' := Option.some.inj h
            injection h' with ht hp1
            injection ht with ht
            subst ht
            subst hp1
            have hp2l := rem_length p2
            rw [rem_length_advance] at hlen
            have hprog := (parse_progress f).2.2 _ _ _ hl
            simp only at hprog
            have hsk := skip_whitespace_rem_le (p.advance 1)
            have hadv := rem_length_advance p 1
            have hpL := congrArg List.length hp
            rw [List.length_append] at hpL
            cases a with
            | nil =>
              simp only [List.length_nil] at hpL
              omega
            | cons c0 x =>
              have e1 : (p.advance 1).rem = x ++ b := by rw [rem_advance, hp]; rfl
              have e2 : (q.advance 1).rem = x ++ b' := by rw [rem_advance, hq]; rfl
              obtain ⟨_, h1, h2⟩ := skip_whitespace_local _ _ x b b' e1 e2 (by omega)
              obtain ⟨q2, a2, e, he, e3, e4⟩ := ihol _ _ _ _ n1 p2 hl h1 h2 (by omega)
              cases a2 with
              | nil =>
                have := congrArg List.length e3
                simp only [List.nil_append] at this
                omega
              | cons c2 r2 =>
                have hpc := rem_cons_cur _ c2 (r2 ++ b) e3
                have hql := rem_cons_lt _ c2 (r2 ++ b') e4
                have hqc := rem_cons_cur _ c2 (r2 ++ b') e4
                have hc125 : c2 = 125 := by
                  by_contra hh
                  exact hcond (Or.inr (by rw [hpc]; exact hh))
                refine ⟨q2.advance 1, r2, ?_, ?_, ?_, ?_⟩
                · rw [e]
                  simp only
                  rw [if_neg (by rw [hqc, hc125]; omega)]
                · exact he.trans (skip_whitespace_spec _).2.1
                · rw [rem_advance, e3]; rfl
                · rw [rem_advance, e4]; rfl
    · intro p q a node t p1 h hp hq hlen
      rw [parse_array_loop_succ] at h ⊢
      have hpL := congrArg List.length hp
      rw [List.length_append] at hpL
      by_cases hcond : p.pos < p.input_len ∧ p.cur ≠ 93
      · rw [if_pos hcond] at h
        cases hv : parse_value f p with
        | none => rw [hv] at h; simp at h
        | some x =>
          obtain ⟨n, p2⟩ := x
          rw [hv] at h
          cases n with
          | none => simp at h
          | some v =>
            simp only at h
            have L1 := ((parse_progress f).2.1 _ _ _ h).2
            have L2 := (skip_comma_spec p2).2.2
            have L3 := ((parse_progress f).1 _ _ hv).2.1
            simp only at L1 L3
            obtain ⟨q2, a2, ev, he2, e3, e4⟩ := ihv _ _ _ v p2 hv hp hq (by omega)
            obtain ⟨a3, e5, e6⟩ := skip_comma_local p2 q2 a2 b b' e3 e4 (by omega)
            obtain ⟨q1, a1, el, he1, e7, e8⟩ := ihal _ _ _ _ t p1 h e5 e6 hlen
            cases a with
            | nil =>
              simp only [List.length_nil] at hpL
              omega
            | cons c x =>
              have hpc := rem_cons_cur _ c (x ++ b) hp
              have hql := rem_cons_lt _ c (x ++ b') hq
              have hqc := rem_cons_cur _ c (x ++ b') hq
              refine ⟨q1, a1, ?_, ?_, e7, e8⟩
              · rw [if_pos ⟨hql, by rw [hqc, ← hpc]; exact hcond.2⟩, ev]
                exact el
              · rw [he1, skip_comma_errors, he2]
      · rw [if_neg hcond] at h
        have h' := Option.some.inj h
        injection h' with ht hp1
        injection ht with ht
        subst ht
        subst hp1
        cases a with
        | nil =>
          simp only [List.length_nil] at hpL
          omega
        | cons c x =>
          have hpl := rem_cons_lt _ c (x ++ b) hp
          have hpc := rem_cons_cur _ c (x ++ b) hp
          have hqc := rem_cons_cur _ c (x ++ b') hq
          refine ⟨q, c :: x, ?_, rfl, hp, hq⟩
          rw [if_neg (by rw [hqc, ← hpc]; exact fun hh => hcond ⟨hpl, hh.2⟩)]
    · intro p q a node t p1 h hp hq hlen
      rw [parse_object_loop_succ] at h ⊢
      have hpL := congrArg List.length hp
      rw [List.length_append] at hpL
      by_cases hcond : p.pos < p.input_len ∧ p.cur ≠ 125
      · rw [if_pos hcond] at h
        cases hps : parse_string p with
        | mk k p2 =>
          rw [hps] at h
          cases k with
          | none => simp at h
          | some key =>
            simp only at h
            split_ifs at h with hcol
            · simp at h
            · cases hv : parse_value f (skip_whitespace ((skip_whitespace p2).advance 1)) with
              | none => rw [hv] at h; simp at h
              | some x =>
                obtain ⟨n, p4⟩ := x
                rw [hv] at h
                cases n with
                | none => simp at h
                | some v =>
                  simp only at h
                  have L1 := ((parse_progress f).2.2 _ _ _ h).2
                  have L2 := (skip_comma_spec p4).2.2
                  have L3 := ((parse_progress f).1 _ _ hv).2.1
                  have L4 := skip_whitespace_rem_le ((skip_whitespace p2).advance 1)
                  have L5 := rem_length_advance (skip_whitespace p2) 1
                  have L6 := skip_whitespace_rem_le p2
                  simp only at L1 L3
                  obtain ⟨k, x, hax, hk, rfl, es⟩ :=
                    parse_string_local p q a b b' key p2 hp hq hps (by omega)
                  have d1 : (p.advance k).rem = a.drop k ++ b := by
                    rw [rem_advance, hp, List.drop_append_of_le_length hk]
                  have d2 : (q.advance k).rem = a.drop k ++ b' := by
                    rw [rem_advance, hq, List.drop_append_of_le_length hk]
                  obtain ⟨hne, h1, h2⟩ := skip_whitespace_local _ _ _ b b' d1 d2 (by omega)
                  cases hd : (a.drop k).dropWhile is_ws with
                  | nil => exact absurd hd hne
                  | cons c r =>
                    rw [hd] at h1 h2
                    have hpc := rem_cons_cur _ c (r ++ b) h1
                    have hql := rem_cons_lt _ c (r ++ b') h2
                    have hqc := rem_cons_cur _ c (r ++ b') h2
                    have hc58 : c = 58 := by
                      by_contra hh
                      exact hcol (Or.inr (by rw [hpc]; exact hh))
                    have e1 : ((skip_whitespace (p.advance k)).advance 1).rem = r ++ b := by
                      rw [rem_advance, h1]; rfl
                    have e2 : ((skip_whitespace (q.advance k)).advance 1).rem = r ++ b' := by
                      rw [rem_advance, h2]; rfl
                    obtain ⟨_, h3, h4⟩ := skip_whitespace_local _ _ r b b' e1 e2 (by omega)
                    obtain ⟨q4, a4, ev, he4, e5, e6⟩ := ihv _ _ _ v p4 hv h3 h4 (by omega)
                    obtain ⟨a5, e7, e8⟩ := skip_comma_local p4 q4 a4 b b' e5 e6 (by omega)
                    obtain ⟨q1, a1, el, he1, e9, e10⟩ := ihol _ _ _ _ t p1 h e7 e8 hlen
                    subst hax
                    have hq0l := rem_cons_lt _ 34 (x ++ b') hq
                    have hq0c := rem_cons_cur _ 34 (x ++ b') hq
                    refine ⟨q1, a1, ?_, ?_, e9, e10⟩
                    · rw [if_pos ⟨hq0l, by rw [hq0c]; decide⟩, es]
                      simp only
                      rw [if_neg (by rw [hqc, hc58]; omega), ev]
                      exact el
                    · rw [he1, skip_comma_errors, he4, (skip_whitespace_spec _).2.1]
                      show (skip_whitespace (q.advance k)).errors = q.errors
                      rw [(skip_whitespace_spec _).2.1]
                      rfl
      · rw [if_neg hcond] at h
        have h' := Option.some.inj h
        injection h' with ht hp1
        injection ht with ht
        subst ht
        subst hp1
        cases a with
        | nil =>
          simp only [List.length_nil] at hpL
          omega
        | cons c x =>
          have hpl := rem_cons_lt _ c (x ++ b) hp
          have hpc := rem_cons_cur _ c (x ++ b) hp
          have hqc := rem_cons_cur _ c (x ++ b') hq
          refine ⟨q, c :: x, ?_, rfl, hp, hq⟩
          rw [if_neg (by rw [hqc, ← hpc]; exact fun hh => hcond ⟨hpl, hh.2⟩)]

/-! ## Arrays of complete values -/

theorem digitChar_toNat_ne_zero : ∀ d, d < 10 → (Nat.digitChar d).toNat ≠ 0 := by
  decide

theorem toDigitsCore_nulfree : ∀ (fuel n : Nat) (acc : List Char),
    (∀ c ∈ acc, c.toNat ≠ 0) → ∀ c ∈ Nat.toDigitsCore 10 fuel n acc, c.toNat ≠ 0 := by
  intro fuel
  induction fuel with
  | zero => intro n acc h c hc; exact h c (by simpa [Nat.toDigitsCore] using hc)
  | succ fuel ih =>
    intro n acc h
    have hacc : ∀ c ∈ Nat.digitChar (n % 10) :: acc, c.toNat ≠ 0 := by
      intro c hc
      rcases List.mem_cons.1 hc with rfl | hc
      · exact digitChar_toNat_ne_zero _ (Nat.mod_lt _ (by decide))
      · exact h c hc
    simp only [Nat.toDigitsCore]
    split_ifs
    · exact hacc
    · exact ih _ _ hacc

theorem strdup_index_str (n : Nat) : strdup (index_str n) = index_str n := by
  unfold strdup
  apply cstr_of_nulfree
  intro b hb
  unfold index_str at hb
  obtain ⟨c, hc, rfl⟩ := List.mem_map.1 hb
  exact toDigitsCore_nulfree _ _ [] (by simp) c hc

theorem named_from_length : ∀ (vs : List TreeNode) (n : Nat),
    (named_from n vs).length = vs.length := by
  intro vs
  induction vs with
  | nil => intro n; rfl
  | cons v vs ih => intro n; simp [named_from, ih]

theorem named_from_get : ∀ (vs : List TreeNode) (n i : Nat) (v : TreeNode),
    vs[i]? = some v → (named_from n vs)[i]? = some { v with name := some (index_str (n + i)) } := by
  intro vs
  induction vs with
  | nil => intro n i v h; simp at h
  | cons v0 vs ih =>
    intro n i v h
    cases i with
    | zero =>
      simp only [List.getElem?_cons_zero, Option.some.injEq] at h
      subst h
      simp [named_from]
    | succ i =>
      simp only [List.getElem?_cons_succ] at h
      simp only [named_from, List.getElem?_cons_succ]
      rw [ih (n + 1) i v h, show n + 1 + i = n + (i + 1) by omega]

theorem comma_join_next (e : Bytes) (es : List Bytes) (rest : Bytes) :
    ∃ c tl, comma_join (e :: es) ++ 93 :: rest = e ++ c :: tl ∧ is_ws c = false ∧
      isdigit c = false ∧ c ≠ 46 ∧
      (if c = 44 then tl.dropWhile is_ws else c :: tl) =
        (comma_join es ++ 93 :: rest).dropWhile is_ws := by
  cases es with
  | nil =>
    refine ⟨93, rest, by simp [comma_join], by decide, by decide, by decide, ?_⟩
    simp [comma_join, is_ws]
  | cons e' es =>
    refine ⟨44, comma_join (e' :: es) ++ 93 :: rest, by simp [comma_join], by decide,
      by decide, by decide, ?_⟩
    simp

theorem rem_suffix (p p1 : JsonParser) (hin : p1.input = p.input)
    (hle : p1.rem.length ≤ p.rem.length) : ∃ a, p.rem = a ++ p1.rem := by
  refine ⟨p.rem.take (p.rem.length - p1.rem.length), ?_⟩
  have h1 := rem_length p
  have h2 := rem_length p1
  have hl : p1.input_len = p.input_len := by
    unfold JsonParser.input_len
    rw [hin]
  have : p1.rem = p.rem.drop (p.rem.length - p1.rem.length) := by
    by_cases hz : p1.rem.length = 0
    · rw [List.length_eq_zero.1 hz]
      simp
    · unfold JsonParser.rem at *
      rw [hin, List.drop_drop]
      congr 1
      simp only [JsonParser.input_len, List.length_drop] at *
      omega
  rw [this, List.length_drop]
  have hh : p.rem.length - (p.rem.length - (p.rem.length - p1.rem.length)) =
      p.rem.length - p1.rem.length := by omega
  rw [hh, List.take_append_drop]

theorem dropWhile_all (P : Nat → Bool) (w tl : Bytes) (hw : w.all P = true) :
    (w ++ tl).dropWhile P = tl.dropWhile P := by
  induction w with
  | nil => rfl
  | cons c w ih =>
    simp only [List.all_cons, Bool.and_eq_true] at hw
    rw [List.cons_append, List.dropWhile_cons_of_pos hw.1, ih hw.2]

theorem skip_comma_ws (q : JsonParser) (w : Bytes) (c : Nat) (tl : Bytes)
    (hq : q.rem = w ++ c :: tl) (hw : w.all is_ws = true) (hc : is_ws c = false) :
    (skip_comma q).rem = if c = 44 then tl.dropWhile is_ws else c :: tl := by
  have h1 : (skip_whitespace q).rem = c :: tl := by
    rw [(skip_whitespace_spec q).2.2.1, hq, dropWhile_all is_ws w _ hw,
      List.dropWhile_cons_of_neg (by simp [hc])]
  have hl := rem_cons_lt _ _ _ h1
  have hcur := rem_cons_cur _ _ _ h1
  unfold skip_comma
  by_cases h44 : c = 44
  · rw [if_pos ⟨hl, by rw [hcur, h44]⟩, if_pos h44, (skip_whitespace_spec _).2.2.1, rem_advance,
      h1]
    rfl
  · rw [if_neg (by rw [hcur]; exact fun hh => h44 hh.2), if_neg h44, h1]

theorem value_not_close (f : Nat) (p : JsonParser) (t : TreeNode) (p1 : JsonParser)
    (h : parse_value f p = some (some t, p1)) (r : Bytes) : p.rem ≠ 93 :: r := by
  intro hr
  cases f with
  | zero => simp [parse_value] at h
  | succ f =>
    obtain ⟨hv, _, _, hr'⟩ := parse_value_leaf f p 93 r hr (by decide) (by decide) (by decide)
    rw [hv] at h
    have hl := rem_cons_lt _ _ _ hr'
    have hcur := rem_cons_cur _ _ _ hr'
    have hge : ¬ (skip_whitespace p).pos ≥ (skip_whitespace p).input_len := by omega
    simp [parse_leaf, hcur, hge, isdigit] at h

theorem dropWhile_append_ne (P : Nat → Bool) (a b : Bytes) (h : a.dropWhile P ≠ []) :
    (a ++ b).dropWhile P = a.dropWhile P ++ b := by
  rw [List.dropWhile_append]
  cases hd : a.dropWhile P with
  | nil => exact absurd hd h
  | cons c r => simp

/-- The element loop of `parse_array`, started in front of the comma-joined
texts of complete values, collects these values in order, names each by its
index, records no diagnostic and stops at the closing bracket. -/
theorem array_loop_elements (es : List Bytes) (vs : List TreeNode)
    (h : List.Forall₂ CompleteValue es vs) :
    ∀ (rest : Bytes) (q : JsonParser) (node : TreeNode),
      q.rem = (comma_join es ++ 93 :: rest).dropWhile is_ws →
      ∃ f q1, parse_array_loop f q node =
          some (some { node with
            children := node.children ++ named_from node.children.length vs }, q1) ∧
        q1.rem = 93 :: rest ∧ q1.errors = q.errors := by
  induction h with
  | nil =>
    intro rest q node hq
    have hq' : q.rem = 93 :: rest := by
      rw [hq]
      simp [comma_join, is_ws]
    have hcur := rem_cons_cur _ _ _ hq'
    refine ⟨1, q, ?_, hq', rfl⟩
    rw [parse_array_loop_succ, if_neg (by rw [hcur]; exact fun hh => hh.2 rfl)]
    cases node
    simp [named_from]
  | @cons e v es vs hev _ ih =>
    intro rest q node hq
    obtain ⟨p1, hparse, hw⟩ := hev
    obtain ⟨c, tl, hjoin, hcw, hcd, hc46, hnext⟩ := comma_join_next e es rest
    rw [hjoin] at hq
    rw [json_parse_tree_eq] at hparse
    have hp0 : (json_parser_create e).reset = json_parser_create e := rfl
    rw [hp0, ← parse_value_skip] at hparse
    obtain ⟨F, hF⟩ : ∃ F, parse_value F (skip_whitespace (json_parser_create e)) =
        some (some v, p1) := ⟨_, hparse⟩
    have hprem : (skip_whitespace (json_parser_create e)).rem = e.dropWhile is_ws := by
      rw [(skip_whitespace_spec _).2.2.1]
      rfl
    generalize skip_whitespace (json_parser_create e) = p at hF hprem
    have hprog := (parse_progress _).1 _ _ hF
    have hlt := hprog.2.2 rfl
    simp only at hlt
    obtain ⟨a, ha⟩ := rem_suffix p p1 hprog.1 hprog.2.1
    have hne : e.dropWhile is_ws ≠ [] := by
      intro hh
      rw [hprem, hh] at hlt
      simp at hlt
    have hq2 : q.rem = a ++ (p1.rem ++ c :: tl) := by
      rw [hq, dropWhile_append_ne _ _ _ hne, ← hprem, ha, List.append_assoc]
    have hcompat : Compat p1.rem (p1.rem ++ c :: tl) := by
      cases p1.rem with
      | nil => exact Or.inr (Or.inr ⟨c, tl, rfl, hcd, hc46⟩)
      | cons x y => exact Or.inl rfl
    obtain ⟨q2, a1, ev, he, e1, e2⟩ :=
      (parse_local _ _ hcompat _).1 p q a v p1 hF ha hq2 (Nat.le_refl _)
    have ha1 : a1 = [] := by
      have := congrArg List.length e1
      rw [List.length_append] at this
      exact List.length_eq_zero.1 (by omega)
    subst ha1
    rw [List.nil_append] at e2
    have hsc := skip_comma_ws q2 p1.rem c tl e2 hw hcw
    rw [hnext] at hsc
    obtain ⟨f2, q1, hloop, hr1, herr1⟩ := ih rest (skip_comma q2)
      (tree_node_add_child node
        { v with name := some (strdup (index_str node.children.length)) }) hsc
    cases hd : e.dropWhile is_ws with
    | nil => exact absurd hd hne
    | cons c0 r0 =>
      have hqr : q.rem = c0 :: (r0 ++ c :: tl) := by
        rw [hq, dropWhile_append_ne _ _ _ hne, hd]
        rfl
      have hql := rem_cons_lt _ _ _ hqr
      have hqc := rem_cons_cur _ _ _ hqr
      have hc0 : c0 ≠ 93 := by
        intro hh
        exact value_not_close _ p v p1 hF r0 (by rw [hprem, hd, hh])
      refine ⟨max F f2 + 1, q1, ?_, hr1, ?_⟩
      · rw [parse_array_loop_succ, if_pos ⟨hql, by rw [hqc]; exact hc0⟩,
          parse_value_mono _ _ (Nat.le_max_left _ _) _ _ ev]
        simp only
        rw [parse_array_loop_mono _ _ (Nat.le_max_right _ _) _ _ _ hloop]
        simp [tree_node_add_child, named_from, strdup_index_str]
      · rw [herr1, skip_comma_errors, he]

/-! ## Buffer growth -/

theorem buffer_grow_loop_spec : ∀ (fuel s c : Nat), s ≤ c * 2 ^ fuel →
    ∃ k, buffer_grow_loop fuel s c = c * 2 ^ k ∧ s ≤ c * 2 ^ k ∧ ∀ j, j < k → c * 2 ^ j < s := by
  intro fuel
  induction fuel with
  | zero =>
    intro s c h
    exact ⟨0, by simp [buffer_grow_loop], by simpa using h, fun j hj => by omega⟩
  | succ fuel ih =>
    intro s c h
    rw [buffer_grow_loop]
    by_cases hgt : s > c
    · rw [if_pos hgt]
      obtain ⟨k, hk, hle, hmin⟩ := ih s (c * 2) (by rw [Nat.mul_assoc, ← Nat.pow_succ']; exact h)
      refine ⟨k + 1, ?_, ?_, ?_⟩
      · rw [hk, Nat.mul_assoc, ← Nat.pow_succ']
      · rw [Nat.pow_succ', ← Nat.mul_assoc]; exact hle
      · intro j hj
        cases j with
        | zero => simpa using hgt
        | succ j =>
          rw [Nat.pow_succ', ← Nat.mul_assoc]
          exact hmin j (by omega)
    · rw [if_neg hgt]
      exact ⟨0, by simp, by simp; omega, fun j hj => by omega⟩

/-! ## The entry point reads only the input bytes of the handle -/

theorem json_parse_tree_input_only (a b : JsonParser) (h : a.input = b.input) :
    json_parse_tree a = json_parse_tree b := by
  rw [json_parse_tree_eq, json_parse_tree_eq]
  unfold JsonParser.reset
  rw [h]

/-! ## Stores of tree nodes in memory -/

theorem store_same (heap : Heap) (addr : Nat) (cell : NodeCell) :
    heap.store addr cell addr = some cell := by
  simp [Heap.store]

theorem store_other (heap : Heap) (addr a : Nat) (cell : NodeCell) (h : a ≠ addr) :
    heap.store addr cell a = heap a := by
  simp [Heap.store, h]

theorem set_parent_spec (heap : Heap) (ch pa : Nat) (cc : NodeCell) (h : heap ch = some cc) :
    set_parent heap ch pa ch = some { cc with parent := some pa } ∧
    ∀ a, a ≠ ch → set_parent heap ch pa a = heap a := by
  unfold set_parent
  rw [h]
  exact ⟨store_same _ _ _, fun a ha => store_other _ _ _ _ ha⟩

/-! ## Bounds and diagnostics of a completed call -/

theorem input_len_eq (p q : JsonParser) (h : q.input = p.input) : q.input_len = p.input_len := by
  unfold JsonParser.input_len
  rw [h]

theorem advance_pos_le (p : JsonParser) (k : Nat) (h : p.pos ≤ p.input_len)
    (hk : k ≤ p.rem.length) : (p.advance k).pos ≤ (p.advance k).input_len := by
  have := rem_length p
  simp only [advance_pos, advance_input_len]
  omega

theorem skip_whitespace_pos_le (p : JsonParser) (h : p.pos ≤ p.input_len) :
    (skip_whitespace p).pos ≤ (skip_whitespace p).input_len := by
  obtain ⟨hi, _, _, hpos⟩ := skip_whitespace_spec p
  have h1 : (p.rem.takeWhile is_ws).length ≤ p.rem.length :=
    (List.takeWhile_sublist is_ws).length_le
  have h2 := rem_length p
  rw [input_len_eq p _ hi, hpos]
  omega

theorem skip_comma_pos_le (p : JsonParser) (h : p.pos ≤ p.input_len) :
    (skip_comma p).pos ≤ (skip_comma p).input_len := by
  have h1 := skip_whitespace_pos_le p h
  unfold skip_comma
  split_ifs with hc
  · exact skip_whitespace_pos_le _ (by simp only [advance_pos, advance_input_len]; omega)
  · exact h1

theorem parse_string_cases (p : JsonParser) :
    (∃ s k, parse_string p = (some s, p.advance k) ∧ 0 < k ∧ k ≤ p.rem.length) ∨
    (∃ k msg, parse_string p = (none, add_error (p.advance k) msg) ∧ k ≤ p.rem.length) := by
  cases hr : p.rem with
  | nil =>
    right
    exact ⟨0, _, by rw [parse_string_not_quote p (by rw [hr]; simp)]; rfl, Nat.zero_le _⟩
  | cons c r =>
    by_cases hq : c = 34
    · subst hq
      rw [parse_string_eq p r hr]
      have hk := scan_string_le r false
      split_ifs with hu
      · right
        exact ⟨_, _, rfl, by simp only [List.length_cons]; omega⟩
      · left
        exact ⟨_, _, rfl, by omega, by simp only [List.length_cons]; omega⟩
    · right
      exact ⟨0, _, by rw [parse_string_not_quote p (by rw [hr]; simpa using hq)]; rfl,
        Nat.zero_le _⟩

theorem parse_leaf_effect (p : JsonParser) (h : p.pos ≤ p.input_len) :
    Effect p (parse_leaf p) := by
  rcases parse_leaf_cases p with ⟨t, k, he, _, hk⟩ | ⟨k, msg, he, hk⟩
  · rw [he]
    exact ⟨advance_pos_le p k h hk, fun _ => rfl, fun hh => by simp at hh⟩
  · rw [he]
    exact ⟨advance_pos_le p k h hk, fun hh => by simp at hh, fun _ => ⟨_, rfl⟩⟩

theorem effect_of_errors_eq (p p' : JsonParser) (r : Option TreeNode × JsonParser)
    (he : p'.errors = p.errors) (h : Effect p' r) : Effect p r := by
  unfold Effect at h ⊢
  rw [he] at h
  exact h

/-- Every completed call keeps the cursor within the input and records no
diagnostic when it returns a node, exactly one when it returns none. -/
theorem parse_effect (f : Nat) :
    (∀ p r, parse_value f p = some r → p.pos ≤ p.input_len → Effect p r) ∧
    (∀ p r, parse_array f p = some r → p.pos < p.input_len → Effect p r) ∧
    (∀ p r, parse_object f p = some r → p.pos < p.input_len → Effect p r) ∧
    (∀ p node r, parse_array_loop f p node = some r → p.pos ≤ p.input_len → Effect p r) ∧
    (∀ p node r, parse_object_loop f p node = some r → p.pos ≤ p.input_len → Effect p r) := by
  induction f with
  | zero =>
    refine ⟨?_, ?_, ?_, ?_, ?_⟩
    · intro p r h; simp [parse_value] at h
    · intro p r h; simp [parse_array] at h
    · intro p r h; simp [parse_object] at h
    · intro p node r h; simp [parse_array_loop] at h
    · intro p node r h; simp [parse_object_loop] at h
  | succ f ih =>
    obtain ⟨ihv, iha, iho, ihal, ihol⟩ := ih
    refine ⟨?_, ?_, ?_, ?_, ?_⟩
    · intro p r h hp
      rw [parse_value_succ] at h
      have hs := skip_whitespace_pos_le p hp
      have he := (skip_whitespace_spec p).2.1
      split_ifs at h with h1 h2
      · exact effect_of_errors_eq _ _ _ he (iho _ _ h h1.1)
      · exact effect_of_errors_eq _ _ _ he (iha _ _ h h2.1)
      · rw [← Option.some.inj h]
        exact effect_of_errors_eq _ _ _ he (parse_leaf_effect _ hs)
    · intro p r h hp
      rw [parse_array_succ] at h
      have hs := skip_whitespace_pos_le (p.advance 1)
        (by simp only [advance_pos, advance_input_len]; omega)
      have he : (skip_whitespace (p.advance 1)).errors = p.errors :=
        (skip_whitespace_spec _).2.1
      cases hl : parse_array_loop f (skip_whitespace (p.advance 1))
          (tree_node_create none none JsonType.JSON_ARRAY) with
      | none => rw [hl] at h; simp at h
      | some x =>
        obtain ⟨n, p2⟩ := x
        rw [hl] at h
        have hE := effect_of_errors_eq _ _ _ he (ihal _ _ _ hl hs)
        cases n with
        | none =>
          rw [← Option.some.inj h]
          exact hE
        | some n1 =>
          simp only at h
          have h2 := hE.2.1 rfl
          simp only at h2
          split_ifs at h with hcond
          · rw [← Option.some.inj h]
            exact ⟨hE.1, fun hh => by simp at hh, fun _ => ⟨_, by
              show p2.errors ++ _ = _
              rw [h2]⟩⟩
          · rw [← Option.some.inj h]
            refine ⟨?_, fun _ => h2, fun hh => by simp at hh⟩
            simp only [advance_pos, advance_input_len]
            omega
    · intro p r h hp
      rw [parse_object_succ] at h
      have hs := skip_whitespace_pos_le (p.advance 1)
        (by simp only [advance_pos, advance_input_len]; omega)
      have he : (skip_whitespace (p.advance 1)).errors = p.errors :=
        (skip_whitespace_spec _).2.1
      cases hl : parse_object_loop f (skip_whitespace (p.advance 1))
          (tree_node_create none none JsonType.JSON_OBJECT) with
      | none => rw [hl] at h; simp at h
      | some x =>
        obtain ⟨n, p2⟩ := x
        rw [hl] at h
        have hE := effect_of_errors_eq _ _ _ he (ihol _ _ _ hl hs)
        cases n with
        | none =>
          rw [← Option.some.inj h]
          exact hE
        | some n1 =>
          simp only at h
          have h2 := hE.2.1 rfl
          simp only at h2
          split_ifs at h with hcond
          · rw [← Option.some.inj h]
            exact ⟨hE.1, fun hh => by simp at hh, fun _ => ⟨_, by
              show p2.errors ++ _ = _
              rw [h2]⟩⟩
          · rw [← Option.some.inj h]
            refine ⟨?_, fun _ => h2, fun hh => by simp at hh⟩
            simp only [advance_pos, advance_input_len]
            omega
    · intro p node r h hp
      rw [parse_array_loop_succ] at h
      split_ifs at h with hcond
      · cases hv : parse_value f p with
        | none => rw [hv] at h; simp at h
        | some x =>
          obtain ⟨n, p2⟩ := x
          rw [hv] at h
          have hE := ihv _ _ hv hp
          cases n with
          | none =>
            rw [← Option.some.inj h]
            exact hE
          | some v =>
            simp only at h
            have h2 := hE.2.1 rfl
            simp only at h2
            exact effect_of_errors_eq _ _ _ ((skip_comma_errors p2).trans h2)
              (ihal _ _ _ h (skip_comma_pos_le p2 hE.1))
      · rw [← Option.some.inj h]
        exact ⟨hp, fun _ => rfl, fun hh => by simp at hh⟩
    · intro p node r h hp
      rw [parse_object_loop_succ] at h
      split_ifs at h with hcond
      · rcases parse_string_cases p with ⟨s, k, hps, _, hk⟩ | ⟨k, msg, hps, hk⟩
        · rw [hps] at h
          simp only at h
          have h1 := advance_pos_le p k hp hk
          have h2 := skip_whitespace_pos_le _ h1
          have e2 : (skip_whitespace (p.advance k)).errors = p.errors :=
            (skip_whitespace_spec _).2.1
          split_ifs at h with hcol
          · rw [← Option.some.inj h]
            exact ⟨h2, fun hh => by simp at hh, fun _ => ⟨_, by
              show (skip_whitespace (p.advance k)).errors ++ _ = _
              rw [e2]⟩⟩
          · have h3 := skip_whitespace_pos_le ((skip_whitespace (p.advance k)).advance 1)
              (by simp only [advance_pos, advance_input_len]; omega)
            have e3 : (skip_whitespace ((skip_whitespace (p.advance k)).advance 1)).errors =
                p.errors := by
              rw [(skip_whitespace_spec _).2.1, advance_errors, e2]
            cases hv : parse_value f
                (skip_whitespace ((skip_whitespace (p.advance k)).advance 1)) with
            | none => rw [hv] at h; simp at h
            | some x =>
              obtain ⟨n, p4⟩ := x
              rw [hv] at h
              have hE := effect_of_errors_eq _ _ _ e3 (ihv _ _ hv h3)
              cases n with
              | none =>
                rw [← Option.some.inj h]
                exact hE
              | some v =>
                simp only at h
                have h4 := hE.2.1 rfl
                simp only at h4
                exact effect_of_errors_eq _ _ _ ((skip_comma_errors p4).trans h4)
                  (ihol _ _ _ h (skip_comma_pos_le p4 hE.1))
        · rw [hps] at h
          simp only at h
          rw [← Option.some.inj h]
          exact ⟨advance_pos_le p k hp hk, fun hh => by simp at hh, fun _ => ⟨_, rfl⟩⟩
      · rw [← Option.some.inj h]
        exact ⟨hp, fun _ => rfl, fun hh => by simp at hh⟩

/-! ## Shape and names of the nodes of a parsed tree -/

theorem nodes_eq (t : TreeNode) : nodes t = t :: forest_nodes t.children := by
  cases t
  simp [nodes]

theorem forest_nodes_append (a b : List TreeNode) :
    forest_nodes (a ++ b) = forest_nodes a ++ forest_nodes b := by
  induction a with
  | nil => simp [forest_nodes]
  | cons c a ih => simp [forest_nodes, ih]

theorem count_type_total (c : TypeCounts) (ty : JsonType) :
    type_total (count_type c ty) = type_total c + 1 := by
  cases c
  cases ty <;> simp only [count_type, type_total] <;> omega

mutual
theorem collect_stats_counts : ∀ (t : TreeNode) (stats : JsonStats) (depth : Nat),
    (collect_stats t stats depth).total_values = stats.total_values + (nodes t).length ∧
    (collect_stats t stats depth).total_keys =
      stats.total_keys + (nodes t).countP (fun n => n.name.isSome) ∧
    type_total (collect_stats t stats depth).types =
      type_total stats.types + (nodes t).length
  | ⟨name, value, type, children⟩, ⟨total_keys, total_values, stats_depth, types⟩, depth => by
    rw [collect_stats, nodes]
    obtain ⟨h1, h2, h3⟩ := collect_stats_loop_counts children
      { depth := max stats_depth depth, types := count_type types type,
        total_values := total_values + 1,
        total_keys := if name.isSome then total_keys + 1 else total_keys } depth
    rw [h1, h2, h3, count_type_total]
    simp only [List.length_cons, List.countP_cons]
    refine ⟨by omega, ?_, by omega⟩
    cases name with
    | none => simp
    | some x => simp; omega
theorem collect_stats_loop_counts : ∀ (cs : List TreeNode) (stats : JsonStats) (depth : Nat),
    (collect_stats_loop cs stats depth).total_values =
      stats.total_values + (forest_nodes cs).length ∧
    (collect_stats_loop cs stats depth).total_keys =
      stats.total_keys + (forest_nodes cs).countP (fun n => n.name.isSome) ∧
    type_total (collect_stats_loop cs stats depth).types =
      type_total stats.types + (forest_nodes cs).length
  | [], stats, depth => by simp [collect_stats_loop, forest_nodes]
  | c :: rest, stats, depth => by
    rw [collect_stats_loop, forest_nodes]
    obtain ⟨h1, h2, h3⟩ := collect_stats_loop_counts rest (collect_stats c stats (depth + 1)) depth
    obtain ⟨g1, g2, g3⟩ := collect_stats_counts c stats (depth + 1)
    rw [h1, h2, h3, g1, g2, g3]
    simp only [List.length_append, List.countP_append]
    omega
end

theorem treeInv_of_leaf (t : TreeNode) (h : LeafShape t) : TreeInv t := by
  rcases h with ⟨s, rfl⟩ | rfl | rfl | rfl | ⟨v, _, rfl⟩ <;>
    exact ⟨rfl, ⟨rfl, rfl⟩, fun m hm => by simp [tree_node_create, forest_nodes] at hm⟩

theorem treeInv_add_child (node v : TreeNode) (x : Bytes) (hn : TreeInv node)
    (ht : node.type = JsonType.JSON_ARRAY ∨ node.type = JsonType.JSON_OBJECT)
    (hv : TreeInv v) : TreeInv (tree_node_add_child node { v with name := some x }) := by
  obtain ⟨n1, n2, n3⟩ := hn
  obtain ⟨v1, v2, v3⟩ := hv
  refine ⟨n1, ?_, ?_⟩
  · unfold ShapeOk at n2 ⊢
    simp only [tree_node_add_child]
    rcases ht with ht | ht <;> rw [ht] at n2 ⊢ <;> exact n2
  · intro m hm
    simp only [tree_node_add_child, forest_nodes_append, forest_nodes, List.append_nil,
      List.mem_append] at hm
    rcases hm with hm | hm
    · exact n3 m hm
    · rw [nodes_eq] at hm
      rcases List.mem_cons.1 hm with rfl | hm
      · exact ⟨rfl, v2⟩
      · exact v3 m hm

/-- Every tree a call returns satisfies the invariant; the loops keep it when
they extend a node. -/
theorem parse_inv (f : Nat) :
    (∀ p t p1, parse_value f p = some (some t, p1) → TreeInv t) ∧
    (∀ p t p1, parse_array f p = some (some t, p1) → TreeInv t) ∧
    (∀ p t p1, parse_object f p = some (some t, p1) → TreeInv t) ∧
    (∀ p node t p1, parse_array_loop f p node = some (some t, p1) → TreeInv node →
      (node.type = JsonType.JSON_ARRAY ∨ node.type = JsonType.JSON_OBJECT) → TreeInv t) ∧
    (∀ p node t p1, parse_object_loop f p node = some (some t, p1) → TreeInv node →
      (node.type = JsonType.JSON_ARRAY ∨ node.type = JsonType.JSON_OBJECT) → TreeInv t) := by
  induction f with
  | zero =>
    refine ⟨?_, ?_, ?_, ?_, ?_⟩
    · intro p t p1 h; simp [parse_value] at h
    · intro p t p1 h; simp [parse_array] at h
    · intro p t p1 h; simp [parse_object] at h
    · intro p node t p1 h; simp [parse_array_loop] at h
    · intro p node t p1 h; simp [parse_object_loop] at h
  | succ f ih =>
    obtain ⟨ihv, iha, iho, ihal, ihol⟩ := ih
    refine ⟨?_, ?_, ?_, ?_, ?_⟩
    · intro p t p1 h
      rw [parse_value_succ] at h
      split_ifs at h
      · exact iho _ _ _ h
      · exact iha _ _ _ h
      · exact treeInv_of_leaf t (parse_leaf_shape _ t p1 (Option.some.inj h))
    · intro p t p1 h
      rw [parse_array_succ] at h
      cases hl : parse_array_loop f (skip_whitespace (p.advance 1))
          (tree_node_create none none JsonType.JSON_ARRAY) with
      | none => rw [hl] at h; simp at h
      | some x =>
        obtain ⟨n, p2⟩ := x
        rw [hl] at h
        cases n with
        | none => simp at h
        | some n1 =>
          simp only at h
          split_ifs at h
          · simp at h
          · have h' := Option.some.inj h
            injection h' with ht _
            injection ht with ht
            subst ht
            exact ihal _ _ _ _ hl
              ⟨rfl, rfl, fun m hm => by simp [tree_node_create, forest_nodes] at hm⟩
              (Or.inl rfl)
    · intro p t p1 h
      rw [parse_object_succ] at h
      cases hl : parse_object_loop f (skip_whitespace (p.advance 1))
          (tree_node_create none none JsonType.JSON_OBJECT) with
      | none => rw [hl] at h; simp at h
      | some x =>
        obtain ⟨n, p2⟩ := x
        rw [hl] at h
        cases n with
        | none => simp at h
        | some n1 =>
          simp only at h
          split_ifs at h
          · simp at h
          · have h' := Option.some.inj h
            injection h' with ht _
            injection ht with ht
            subst ht
            exact ihol _ _ _ _ hl
              ⟨rfl, rfl, fun m hm => by simp [tree_node_create, forest_nodes] at hm⟩
              (Or.inr rfl)
    · intro p node t p1 h hn ht
      rw [parse_array_loop_succ] at h
      split_ifs at h
      · cases hv : parse_value f p with
        | none => rw [hv] at h; simp at h
        | some x =>
          obtain ⟨n, p2⟩ := x
          rw [hv] at h
          cases n with
          | none => simp at h
          | some v =>
            simp only at h
            exact ihal _ _ _ _ h (treeInv_add_child node v _ hn ht (ihv _ _ _ hv)) ht
      · have h' := Option.some.inj h
        injection h' with ht' _
        injection ht' with ht'
        subst ht'
        exact hn
    · intro p node t p1 h hn ht
      rw [parse_object_loop_succ] at h
      split_ifs at h
      · cases hps : parse_string p with
        | mk k p2 =>
          rw [hps] at h
          cases k with
          | none => simp at h
          | some key =>
            simp only at h
            split_ifs at h
            · simp at h
            · cases hv : parse_value f (skip_whitespace ((skip_whitespace p2).advance 1)) with
              | none => rw [hv] at h; simp at h
              | some x =>
                obtain ⟨n, p4⟩ := x
                rw [hv] at h
                cases n with
                | none => simp at h
                | some v =>
                  simp only at h
                  exact ihol _ _ _ _ h (treeInv_add_child node v _ hn ht (ihv _ _ _ hv)) ht
      · have h' := Option.some.inj h
        injection h' with ht' _
        injection ht' with ht'
        subst ht'
        exact hn

theorem json_parse_tree_inv (p : JsonParser) (t : TreeNode) (p1 : JsonParser)
    (h : json_parse_tree p = some (some t, p1)) : TreeInv t :=
  (parse_inv _).1 p.reset t p1 (by rw [← json_parse_tree_eq]; exact h)

theorem countP_all (l : List TreeNode) (P : TreeNode → Bool) (h : ∀ m ∈ l, P m = true) :
    l.countP P = l.length := by
  induction l with
  | nil => rfl
  | cons a l ih =>
    rw [List.countP_cons_of_pos _ _ (h a (List.mem_cons_self _ _)), List.length_cons,
      ih (fun m hm => h m (List.mem_cons_of_mem _ hm))]

/-! ## Nested arrays -/

theorem brackets_succ (n : Nat) (rest : Bytes) :
    brackets (n + 1) ++ rest = 91 :: (brackets n ++ 93 :: rest) := by
  unfold brackets
  rw [List.replicate_succ, List.replicate_succ']
  simp

theorem nested_arrays_rename (nm nm' : Option Bytes) (k : Nat) :
    { nested_arrays nm k with name := nm' } = nested_arrays nm' k := by
  cases k <;> rfl

theorem nested_arrays_height (nm : Option Bytes) (k : Nat) :
    tree_height (nested_arrays nm k) = k := by
  induction k generalizing nm with
  | zero => simp [nested_arrays, tree_height, forest_height]
  | succ k ih => simp [nested_arrays, tree_height, forest_height, ih]

theorem nested_arrays_nodes (nm : Option Bytes) (k : Nat) :
    (nodes (nested_arrays nm k)).length = k + 1 := by
  induction k generalizing nm with
  | zero => simp [nested_arrays, nodes, forest_nodes]
  | succ k ih => simp [nested_arrays, nodes, forest_nodes, ih]

theorem nested_arrays_count (k : Nat) : ∀ (nm : Option Bytes) (stats : JsonStats) (depth : Nat),
    (collect_stats (nested_arrays nm k) stats depth).types.array_count =
      stats.types.array_count + (k + 1) := by
  induction k with
  | zero =>
    intro nm stats depth
    obtain ⟨tk, tv, sd, ⟨s, n, b, z, a, o⟩⟩ := stats
    simp [nested_arrays, collect_stats, collect_stats_loop, count_type]
  | succ k ih =>
    intro nm stats depth
    obtain ⟨tk, tv, sd, ⟨s, n, b, z, a, o⟩⟩ := stats
    rw [nested_arrays, collect_stats, collect_stats_loop, collect_stats_loop, ih]
    simp only [count_type]
    omega

/-- The brackets of `k + 1` nested empty arrays are read as that tree, whatever
follows them. -/
theorem nested_arrays_parse (k : Nat) : ∀ (rest : Bytes) (p : JsonParser),
    p.rem = brackets (k + 1) ++ rest →
    ∃ f p1, parse_value f p = some (some (nested_arrays none k), p1) ∧ p1.rem = rest ∧
      p1.errors = p.errors := by
  induction k with
  | zero =>
    intro rest p hp
    have hp' : p.rem = 91 :: 93 :: rest := by rw [hp]; rfl
    have hl := rem_cons_lt _ _ _ hp'
    have hcur := rem_cons_cur _ _ _ hp'
    have hsk := skip_whitespace_noop _ 91 _ hp' (by decide)
    have e1 : (p.advance 1).rem = 93 :: rest := by rw [rem_advance, hp']; rfl
    have hsk1 := skip_whitespace_noop _ 93 _ e1 (by decide)
    have hl1 := rem_cons_lt _ _ _ e1
    have hcur1 := rem_cons_cur _ _ _ e1
    refine ⟨3, (p.advance 1).advance 1, ?_, by rw [rem_advance, e1]; rfl, rfl⟩
    rw [parse_value_succ, hsk, if_neg (by rw [hcur]; exact fun hh => absurd hh.2 (by decide)),
      if_pos ⟨hl, hcur⟩, parse_array_succ, hsk1, parse_array_loop_succ,
      if_neg (by rw [hcur1]; exact fun hh => hh.2 rfl)]
    simp only
    rw [if_neg (by rw [hcur1]; omega)]
    rfl
  | succ k ih =>
    intro rest p hp
    rw [brackets_succ] at hp
    have hl := rem_cons_lt _ _ _ hp
    have hcur := rem_cons_cur _ _ _ hp
    have hsk := skip_whitespace_noop _ 91 _ hp (by decide)
    have e1 : (p.advance 1).rem = brackets (k + 1) ++ 93 :: rest := by rw [rem_advance, hp]; rfl
    have e1' : (p.advance 1).rem = 91 :: (brackets k ++ 93 :: (93 :: rest)) := by
      rw [e1, brackets_succ]
    have hsk1 := skip_whitespace_noop _ 91 _ e1' (by decide)
    have hl1 := rem_cons_lt _ _ _ e1'
    have hcur1 := rem_cons_cur _ _ _ e1'
    obtain ⟨f, p2, hv, hr2, he2⟩ := ih (93 :: rest) (p.advance 1) e1
    obtain ⟨g, rfl⟩ : ∃ g, f = g + 1 := by
      cases f with
      | zero => simp [parse_value] at hv
      | succ g => exact ⟨g, rfl⟩
    have hsc : (skip_comma p2).rem = 93 :: rest := by
      rw [skip_comma_ws p2 [] 93 rest (by rw [hr2]; rfl) rfl (by decide), if_neg (by decide)]
    have hl2 := rem_cons_lt _ _ _ hsc
    have hcur2 := rem_cons_cur _ _ _ hsc
    refine ⟨g + 1 + 3, (skip_comma p2).advance 1, ?_, by rw [rem_advance, hsc]; rfl, ?_⟩
    · rw [parse_value_succ, hsk, if_neg (by rw [hcur]; exact fun hh => absurd hh.2 (by decide)),
        if_pos ⟨hl, hcur⟩, parse_array_succ, hsk1, parse_array_loop_succ,
        if_pos ⟨hl1, by rw [hcur1]; decide⟩, hv]
      simp only
      rw [parse_array_loop_succ, if_neg (by rw [hcur2]; exact fun hh => hh.2 rfl)]
      simp only
      rw [if_neg (by rw [hcur2]; omega)]
      simp only [tree_node_add_child, tree_node_create, Option.map_none', List.nil_append,
        List.length_nil]
      rw [nested_arrays_rename]
      rfl
    · rw [advance_errors, skip_comma_errors, he2]
      rfl

/-! ## An input cut off before the closing byte -/

theorem dropWhile_append_stop (a : Bytes) (c : Nat) (r : Bytes) (hw : is_ws c = false) :
    (a ++ c :: r).dropWhile is_ws = a.dropWhile is_ws ++ c :: r := by
  induction a with
  | nil => simp [hw]
  | cons x a ih =>
    by_cases hx : is_ws x = true
    · rw [List.cons_append, List.dropWhile_cons_of_pos hx, List.dropWhile_cons_of_pos hx, ih]
    · rw [List.cons_append, List.dropWhile_cons_of_neg hx, List.dropWhile_cons_of_neg hx]
      rfl

theorem skip_comma_rem_eq (p : JsonParser) : (skip_comma p).rem = comma_drop p.rem := by
  have hs := (skip_whitespace_spec p).2.2.1
  unfold skip_comma comma_drop
  rw [← hs]
  cases hr : (skip_whitespace p).rem with
  | nil =>
    have := rem_nil _ hr
    rw [if_neg (by omega), if_neg (by simp), hr]
  | cons c r =>
    have hl := rem_cons_lt _ _ _ hr
    have hcur := rem_cons_cur _ _ _ hr
    by_cases h44 : c = 44
    · rw [if_pos ⟨hl, by rw [hcur, h44]⟩, if_pos (by simp [h44]),
        (skip_whitespace_spec _).2.2.1, rem_advance, hr]
    · rw [if_neg (by rw [hcur]; exact fun hh => h44 hh.2), if_neg (by simp [h44]), hr]

theorem comma_drop_append_stop (a : Bytes) (c : Nat) (r : Bytes) (hw : is_ws c = false)
    (h44 : c ≠ 44) : comma_drop (a ++ c :: r) = comma_drop a ++ c :: r := by
  unfold comma_drop
  rw [dropWhile_append_stop a c r hw]
  cases hd : a.dropWhile is_ws with
  | nil => simp [h44]
  | cons x y =>
    by_cases hx : x = 44
    · subst hx
      simp only [List.cons_append, List.head?_cons, if_true, List.drop_succ_cons, List.drop_zero]
      exact dropWhile_append_stop y c r hw
    · simp [hx]

/-- An element loop that stops right before the last byte of the input stops
at the end of the input, with the same node and no diagnostic, when that byte
is removed. -/
theorem loop_trunc (c : Nat) (hw : is_ws c = false) (h44 : c ≠ 44) (f : Nat) :
    (∀ p q a node t p1, parse_array_loop f p node = some (some t, p1) → p.rem = a ++ [c] →
      q.rem = a → p1.rem = [c] →
      ∃ q1, parse_array_loop f q node = some (some t, q1) ∧ q1.errors = q.errors ∧
        q1.rem = []) ∧
    (∀ p q a node t p1, parse_object_loop f p node = some (some t, p1) → p.rem = a ++ [c] →
      q.rem = a → p1.rem = [c] →
      ∃ q1, parse_object_loop f q node = some (some t, q1) ∧ q1.errors = q.errors ∧
        q1.rem = []) := by
  have hcompat : Compat [c] [] := Or.inr (Or.inl rfl)
  induction f with
  | zero =>
    exact ⟨fun p q a node t p1 h => by simp [parse_array_loop] at h,
      fun p q a node t p1 h => by simp [parse_object_loop] at h⟩
  | succ f ih =>
    obtain ⟨ihal, ihol⟩ := ih
    have hstop : ∀ p q : JsonParser, ∀ a : Bytes, p.rem = a ++ [c] → q.rem = a →
        p.rem = [c] → q.rem = [] ∧ ¬ q.pos < q.input_len := by
      intro p q a hp hq hpc
      have ha : a = [] := by
        have := congrArg List.length (hp.symm.trans hpc)
        simp only [List.length_append, List.length_cons, List.length_nil] at this
        exact List.length_eq_zero.1 (by omega)
      have hq' : q.rem = [] := by rw [hq, ha]
      have := rem_nil q hq'
      exact ⟨hq', by omega⟩
    refine ⟨?_, ?_⟩
    · intro p q a node t p1 h hp hq hp1
      rw [parse_array_loop_succ] at h ⊢
      by_cases hcond : p.pos < p.input_len ∧ p.cur ≠ 93
      · rw [if_pos hcond] at h
        cases hv : parse_value f p with
        | none => rw [hv] at h; simp at h
        | some x =>
          obtain ⟨n, p2⟩ := x
          rw [hv] at h
          cases n with
          | none => simp at h
          | some v =>
            simp only at h
            have L1 := ((parse_progress f).2.1 _ _ _ h).2
            have L2 := (skip_comma_spec p2).2.2
            have L3 := ((parse_progress f).1 _ _ hv).2.2 rfl
            simp only at L1 L3
            rw [hp1] at L1
            simp only [List.length_cons, List.length_nil] at L1
            obtain ⟨q2, a2, ev, he2, e3, e4⟩ := (parse_local [c] [] hcompat f).1 p q a v p2 hv hp
              (by rw [hq, List.append_nil]) (by simp only [List.length_cons, List.length_nil]; omega)
            rw [List.append_nil] at e4
            have e5 : (skip_comma p2).rem = comma_drop a2 ++ [c] := by
              rw [skip_comma_rem_eq, e3, comma_drop_append_stop a2 c [] hw h44]
            have e6 : (skip_comma q2).rem = comma_drop a2 := by
              rw [skip_comma_rem_eq, e4]
            obtain ⟨q1, el, he1, hr1⟩ := ihal _ _ _ _ t p1 h e5 e6 hp1
            cases a with
            | nil =>
              have := congrArg List.length hp
              simp only [List.nil_append, List.length_cons, List.length_nil] at this
              omega
            | cons x y =>
              have hpc := rem_cons_cur _ x (y ++ [c]) hp
              have hql := rem_cons_lt _ x y hq
              have hqc := rem_cons_cur _ x y hq
              refine ⟨q1, ?_, ?_, hr1⟩
              · rw [if_pos ⟨hql, by rw [hqc, ← hpc]; exact hcond.2⟩, ev]
                exact el
              · rw [he1, skip_comma_errors, he2]
      · rw [if_neg hcond] at h
        have h' := Option.some.inj h
        injection h' with ht hp1'
        injection ht with ht
        subst ht
        subst hp1'
        obtain ⟨hq', hnl⟩ := hstop p q a hp hq hp1
        exact ⟨q, by rw [if_neg (fun hh => hnl hh.1)], rfl, hq'⟩
    · intro p q a node t p1 h hp hq hp1
      rw [parse_object_loop_succ] at h ⊢
      by_cases hcond : p.pos < p.input_len ∧ p.cur ≠ 125
      · rw [if_pos hcond] at h
        cases hps : parse_string p with
        | mk k p2 =>
          rw [hps] at h
          cases k with
          | none => simp at h
          | some key =>
            simp only at h
            split_ifs at h with hcol
            · simp at h
            · cases hv : parse_value f (skip_whitespace ((skip_whitespace p2).advance 1)) with
              | none => rw [hv] at h; simp at h
              | some x =>
                obtain ⟨n, p4⟩ := x
                rw [hv] at h
                cases n with
                | none => simp at h
                | some v =>
                  simp only at h
                  have L1 := ((parse_progress f).2.2 _ _ _ h).2
                  have L2 := (skip_comma_spec p4).2.2
                  have L3 := ((parse_progress f).1 _ _ hv).2.2 rfl
                  have L4 := skip_whitespace_rem_le ((skip_whitespace p2).advance 1)
                  have L5 := rem_length_advance (skip_whitespace p2) 1
                  have L6 := skip_whitespace_rem_le p2
                  simp only at L1 L3
                  rw [hp1] at L1
                  simp only [List.length_cons, List.length_nil] at L1
                  obtain ⟨k, x, hax, hk, rfl, es⟩ :=
                    parse_string_local p q a [c] [] key p2 hp (by rw [hq, List.append_nil]) hps
                      (by simp only [List.length_cons, List.length_nil]; omega)
                  have d1 : (p.advance k).rem = a.drop k ++ [c] := by
                    rw [rem_advance, hp, List.drop_append_of_le_length hk]
                  have d2 : (q.advance k).rem = a.drop k ++ [] := by
                    rw [rem_advance, hq, List.append_nil]
                  obtain ⟨hne, h1, h2⟩ := skip_whitespace_local _ _ _ [c] [] d1 d2
                    (by simp only [List.length_cons, List.length_nil]; omega)
                  cases hd : (a.drop k).dropWhile is_ws with
                  | nil => exact absurd hd hne
                  | cons c0 r =>
                    rw [hd] at h1 h2
                    have hpc := rem_cons_cur _ c0 (r ++ [c]) h1
                    have h2' : (skip_whitespace (q.advance k)).rem = c0 :: r := by
                      rw [h2]
                      simp
                    have hql := rem_cons_lt _ c0 r h2'
                    have hqc := rem_cons_cur _ c0 r h2'
                    have hc58 : c0 = 58 := by
                      by_contra hh
                      exact hcol (Or.inr (by rw [hpc]; exact hh))
                    have e1 : ((skip_whitespace (p.advance k)).advance 1).rem = r ++ [c] := by
                      rw [rem_advance, h1]; rfl
                    have e2 : ((skip_whitespace (q.advance k)).advance 1).rem = r ++ [] := by
                      rw [rem_advance, h2']
                      simp
                    obtain ⟨_, h3, h4⟩ := skip_whitespace_local _ _ r [c] [] e1 e2
                      (by simp only [List.length_cons, List.length_nil]; omega)
                    obtain ⟨q4, a4, ev, he4, e5, e6⟩ := (parse_local [c] [] hcompat f).1 _ _ _ v p4
                      hv h3 h4 (by simp only [List.length_cons, List.length_nil]; omega)
                    rw [List.append_nil] at e6
                    have e7 : (skip_comma p4).rem = comma_drop a4 ++ [c] := by
                      rw [skip_comma_rem_eq, e5, comma_drop_append_stop a4 c [] hw h44]
                    have e8 : (skip_comma q4).rem = comma_drop a4 := by
                      rw [skip_comma_rem_eq, e6]
                    obtain ⟨q1, el, he1, hr1⟩ := ihol _ _ _ _ t p1 h e7 e8 hp1
                    subst hax
                    have hq0l := rem_cons_lt _ 34 x hq
                    have hq0c := rem_cons_cur _ 34 x hq
                    refine ⟨q1, ?_, ?_, hr1⟩
                    · rw [if_pos ⟨hq0l, by rw [hq0c]; decide⟩, es]
                      simp only
                      rw [if_neg (by rw [hqc, hc58]; omega), ev]
                      exact el
                    · rw [he1, skip_comma_errors, he4, (skip_whitespace_spec _).2.1]
                      show (skip_whitespace (q.advance k)).errors = q.errors
                      rw [(skip_whitespace_spec _).2.1]
                      rfl
      · rw [if_neg hcond] at h
        have h' := Option.some.inj h
        injection h' with ht hp1'
        injection ht with ht
        subst ht
        subst hp1'
        obtain ⟨hq', hnl⟩ := hstop p q a hp hq hp1
        exact ⟨q, by rw [if_neg (fun hh => hnl hh.1)], rfl, hq'⟩

/-! ## The decoder never grows its input -/

theorem unescape_byte_length (c : Nat) :
    (unescape_byte c).length + (if c ∈ recognized_escapes then 1 else 0) = 2 := by
  unfold unescape_byte
  simp only [recognized_escapes, List.mem_cons, List.mem_singleton, List.not_mem_nil, or_false]
  by_cases h1 : c = 34 ∨ c = 92 ∨ c = 47
  · rw [if_pos h1, if_pos (by rcases h1 with h | h | h <;> simp [h])]
    rfl
  · rw [if_neg h1]
    simp only [not_or] at h1
    obtain ⟨a1, a2, a3⟩ := h1
    by_cases h2 : c = 98
    · simp [h2]
    · by_cases h3 : c = 102
      · simp [h3]
      · by_cases h4 : c = 110
        · simp [h4]
        · by_cases h5 : c = 114
          · simp [h5]
          · by_cases h6 : c = 116
            · simp [h6]
            · simp [a1, a2, a3, h2, h3, h4, h5, h6]

theorem unescape_loop_length (s : Bytes) : ∀ (e : Bool) (res : Bytes),
    (unescape_loop s e res).length + escape_pairs e s =
      res.length + s.length + (if e then 1 else 0) := by
  induction s with
  | nil =>
    intro e res
    cases e <;> simp [unescape_loop, escape_pairs]
  | cons c r ih =>
    intro e res
    cases e with
    | true =>
      have hb := unescape_byte_length c
      have := ih false (res ++ unescape_byte c)
      simp only [unescape_loop, escape_pairs, if_true, List.length_append, List.length_cons,
        Bool.false_eq_true, if_false] at this ⊢
      omega
    | false =>
      by_cases hc : c = 92
      · have := ih true res
        simp only [unescape_loop, escape_pairs, hc, if_true, decide_True, List.length_cons,
          Bool.false_eq_true, if_false] at this ⊢
        omega
      · have := ih false (res ++ [c])
        simp only [unescape_loop, escape_pairs, hc, if_false, decide_False, List.length_append,
          List.length_cons, List.length_nil, Bool.false_eq_true] at this ⊢
        omega

theorem escape_pairs_pos_iff (s : Bytes) : ∀ e : Bool,
    0 < escape_pairs e s ↔
      (e = true ∧ ∃ c r, s = c :: r ∧ c ∈ recognized_escapes) ∨
      ∃ a c b, s = a ++ 92 :: c :: b ∧ escape_pending e a = false ∧ c ∈ recognized_escapes := by
  induction s with
  | nil =>
    intro e
    simp [escape_pairs]
  | cons x r ih =>
    intro e
    cases e with
    | true =>
      simp only [escape_pairs]
      constructor
      · intro h
        by_cases hx : x ∈ recognized_escapes
        · exact Or.inl ⟨trivial, x, r, rfl, hx⟩
        · rw [if_neg hx, Nat.zero_add] at h
          rcases (ih false).1 h with ⟨hf, _⟩ | ⟨a, c, b, hr, hp, hc⟩
          · exact absurd hf (by simp)
          · exact Or.inr ⟨x :: a, c, b, by rw [hr]; rfl, by simpa [escape_pending] using hp, hc⟩
      · rintro (⟨_, c, r', hs, hc⟩ | ⟨a, c, b, hs, hp, hc⟩)
        · injection hs with h1 _
          subst h1
          rw [if_pos hc]
          omega
        · cases a with
          | nil => simp [escape_pending] at hp
          | cons y a' =>
            injection hs with h1 h2
            have : 0 < escape_pairs false r :=
              (ih false).2 (Or.inr ⟨a', c, b, h2, by simpa [escape_pending] using hp, hc⟩)
            omega
    | false =>
      simp only [escape_pairs]
      constructor
      · intro h
        rcases (ih _).1 h with ⟨he, c, r', hr, hc⟩ | ⟨a, c, b, hr, hp, hc⟩
        · have hx : x = 92 := by simpa using he
          exact Or.inr ⟨[], c, r', by rw [hr, hx]; rfl, rfl, hc⟩
        · exact Or.inr ⟨x :: a, c, b, by rw [hr]; rfl, by simpa [escape_pending] using hp, hc⟩
      · rintro (⟨hf, _⟩ | ⟨a, c, b, hs, hp, hc⟩)
        · exact absurd hf (by simp)
        · cases a with
          | nil =>
            injection hs with h1 h2
            exact (ih _).2 (Or.inl ⟨by simp [h1], c, b, h2, hc⟩)
          | cons y a' =>
            injection hs with h1 h2
            subst h1
            exact (ih _).2 (Or.inr ⟨a', c, b, h2, by simpa [escape_pending] using hp, hc⟩)

/-! ## Arrays without separating commas -/

theorem value_not_comma (f : Nat) (p : JsonParser) (t : TreeNode) (p1 : JsonParser)
    (h : parse_value f p = some (some t, p1)) (r : Bytes) : p.rem ≠ 44 :: r := by
  intro hr
  cases f with
  | zero => simp [parse_value] at h
  | succ f =>
    obtain ⟨hv, _, _, hr'⟩ := parse_value_leaf f p 44 r hr (by decide) (by decide) (by decide)
    rw [hv] at h
    have hl := rem_cons_lt _ _ _ hr'
    have hcur := rem_cons_cur _ _ _ hr'
    have hge : ¬ (skip_whitespace p).pos ≥ (skip_whitespace p).input_len := by omega
    simp [parse_leaf, hcur, hge, isdigit] at h

/-- A complete value starts, after its leading whitespace, with a byte that is
neither a comma nor a closing bracket. -/
theorem complete_value_start (e : Bytes) (v : TreeNode) (h : CompleteValue e v) :
    ∃ c r, e.dropWhile is_ws = c :: r ∧ c ≠ 44 ∧ c ≠ 93 := by
  obtain ⟨p1, hparse, _⟩ := h
  rw [json_parse_tree_eq] at hparse
  have hp0 : (json_parser_create e).reset = json_parser_create e := rfl
  rw [hp0, ← parse_value_skip] at hparse
  have hprem : (skip_whitespace (json_parser_create e)).rem = e.dropWhile is_ws := by
    rw [(skip_whitespace_spec _).2.2.1]
    rfl
  have hlt := ((parse_progress _).1 _ _ hparse).2.2 rfl
  simp only at hlt
  cases hd : e.dropWhile is_ws with
  | nil =>
    rw [hprem, hd] at hlt
    simp at hlt
  | cons c r =>
    refine ⟨c, r, rfl, ?_, ?_⟩
    · intro hc
      exact value_not_comma _ _ v p1 hparse r (by rw [hprem, hd, hc])
    · intro hc
      exact value_not_close _ _ v p1 hparse r (by rw [hprem, hd, hc])

theorem space_join_cons (e : Bytes) (es : List Bytes) : ∃ t, space_join (e :: es) = e ++ t := by
  cases es with
  | nil => exact ⟨[], by simp [space_join]⟩
  | cons e' es => exact ⟨32 :: space_join (e' :: es), rfl⟩

/-- What follows an element in the space-joined text: it looks to a number
scan like the end of the element, and skipping the optional separator after
the element leads to the next element or the closing bracket. -/
theorem space_join_next (e : Bytes) (es : List Bytes) (vs : List TreeNode) (rest : Bytes)
    (h : List.Forall₂ CompleteValue es vs) :
    ∃ look, space_join (e :: es) ++ 93 :: rest = e ++ look ∧
      (∀ w : Bytes, Compat w (w ++ look)) ∧
      ∀ w : Bytes, w.all is_ws = true →
        comma_drop (w ++ look) = (space_join es ++ 93 :: rest).dropWhile is_ws := by
  cases h with
  | nil =>
    refine ⟨93 :: rest, by simp [space_join], fun w => ?_, fun w hw => ?_⟩
    · cases w with
      | nil => exact Or.inr (Or.inr ⟨93, rest, rfl, by decide, by decide⟩)
      | cons x y => exact Or.inl rfl
    · unfold comma_drop
      rw [dropWhile_all is_ws w _ hw, List.dropWhile_cons_of_neg (by decide)]
      simp [space_join, is_ws]
  | @cons e' v' es' vs' hev htail =>
    refine ⟨32 :: (space_join (e' :: es') ++ 93 :: rest), by simp [space_join], fun w => ?_,
      fun w hw => ?_⟩
    · cases w with
      | nil => exact Or.inr (Or.inr ⟨32, _, rfl, by decide, by decide⟩)
      | cons x y => exact Or.inl rfl
    · obtain ⟨c, r, hd, h44, _⟩ := complete_value_start e' v' hev
      obtain ⟨t, ht⟩ := space_join_cons e' es'
      have hX : (space_join (e' :: es') ++ 93 :: rest).dropWhile is_ws =
          c :: (r ++ (t ++ 93 :: rest)) := by
        rw [ht, List.append_assoc, dropWhile_append_ne _ _ _ (by rw [hd]; simp), hd]
        rfl
      unfold comma_drop
      rw [dropWhile_all is_ws w _ hw, List.dropWhile_cons_of_pos (by decide), hX]
      simp [h44]

/-- The element loop of `parse_array`, started in front of the space-joined
texts of complete values, collects these values in order, names each by its
index, records no diagnostic and stops at the closing bracket. -/
theorem array_loop_elements_spaced (es : List Bytes) (vs : List TreeNode)
    (h : List.Forall₂ CompleteValue es vs) :
    ∀ (rest : Bytes) (q : JsonParser) (node : TreeNode),
      q.rem = (space_join es ++ 93 :: rest).dropWhile is_ws →
      ∃ f q1, parse_array_loop f q node =
          some (some { node with
            children := node.children ++ named_from node.children.length vs }, q1) ∧
        q1.rem = 93 :: rest ∧ q1.errors = q.errors := by
  induction h with
  | nil =>
    intro rest q node hq
    have hq' : q.rem = 93 :: rest := by
      rw [hq]
      simp [space_join, is_ws]
    have hcur := rem_cons_cur _ _ _ hq'
    refine ⟨1, q, ?_, hq', rfl⟩
    rw [parse_array_loop_succ, if_neg (by rw [hcur]; exact fun hh => hh.2 rfl)]
    cases node
    simp [named_from]
  | @cons e v es vs hev htail ih =>
    intro rest q node hq
    obtain ⟨c0, r0, hd, _, hc0⟩ := complete_value_start e v hev
    obtain ⟨p1, hparse, hw⟩ := hev
    obtain ⟨look, hjoin, hcompat, hnext⟩ := space_join_next e es vs rest htail
    rw [hjoin] at hq
    rw [json_parse_tree_eq] at hparse
    have hp0 : (json_parser_create e).reset = json_parser_create e := rfl
    rw [hp0, ← parse_value_skip] at hparse
    obtain ⟨F, hF⟩ : ∃ F, parse_value F (skip_whitespace (json_parser_create e)) =
        some (some v, p1) := ⟨_, hparse⟩
    have hprem : (skip_whitespace (json_parser_create e)).rem = e.dropWhile is_ws := by
      rw [(skip_whitespace_spec _).2.2.1]
      rfl
    generalize skip_whitespace (json_parser_create e) = p at hF hprem
    have hprog := (parse_progress _).1 _ _ hF
    obtain ⟨a, ha⟩ := rem_suffix p p1 hprog.1 hprog.2.1
    have hne : e.dropWhile is_ws ≠ [] := by rw [hd]; simp
    have hq2 : q.rem = a ++ (p1.rem ++ look) := by
      rw [hq, dropWhile_append_ne _ _ _ hne, ← hprem, ha, List.append_assoc]
    obtain ⟨q2, a1, ev, he, e1, e2⟩ :=
      (parse_local _ _ (hcompat p1.rem) _).1 p q a v p1 hF ha hq2 (Nat.le_refl _)
    have ha1 : a1 = [] := by
      have := congrArg List.length e1
      rw [List.length_append] at this
      exact List.length_eq_zero.1 (by omega)
    subst ha1
    rw [List.nil_append] at e2
    have hsc : (skip_comma q2).rem = (space_join es ++ 93 :: rest).dropWhile is_ws := by
      rw [skip_comma_rem_eq, e2, hnext p1.rem hw]
    obtain ⟨f2, q1, hloop, hr1, herr1⟩ := ih rest (skip_comma q2)
      (tree_node_add_child node
        { v with name := some (strdup (index_str node.children.length)) }) hsc
    have hqr : q.rem = c0 :: (r0 ++ look) := by
      rw [hq, dropWhile_append_ne _ _ _ hne, hd]
      rfl
    have hql := rem_cons_lt _ _ _ hqr
    have hqc := rem_cons_cur _ _ _ hqr
    refine ⟨max F f2 + 1, q1, ?_, hr1, ?_⟩
    · rw [parse_array_loop_succ, if_pos ⟨hql, by rw [hqc]; exact hc0⟩,
        parse_value_mono _ _ (Nat.le_max_left _ _) _ _ ev]
      simp only
      rw [parse_array_loop_mono _ _ (Nat.le_max_right _ _) _ _ _ hloop]
      simp [tree_node_add_child, named_from, strdup_index_str]
    · rw [herr1, skip_comma_errors, he]

/-- From the element loop to the entry point: when the loop, started after the
opening bracket, returns a node in front of the closing bracket that ends the
input, `json_parse_tree` returns that node, with no diagnostic and nothing
unread. -/
theorem array_parse_of_loop (body : Bytes) (node : TreeNode)
    (h : ∀ q : JsonParser, q.rem = (body ++ 93 :: []).dropWhile is_ws →
      ∃ f q1, parse_array_loop f q (tree_node_create none none JsonType.JSON_ARRAY) =
          some (some node, q1) ∧ q1.rem = 93 :: [] ∧ q1.errors = q.errors) :
    ∃ q, json_parse_tree (json_parser_create (91 :: (body ++ [93]))) = some (some node, q) ∧
      q.errors = [] ∧ q.rem = [] := by
  have hq0 : (json_parser_create (91 :: (body ++ [93]))).rem = 91 :: (body ++ [93]) := rfl
  have hl := rem_cons_lt _ _ _ hq0
  have hcur := rem_cons_cur _ _ _ hq0
  have e1 : ((json_parser_create (91 :: (body ++ [93]))).advance 1).rem = body ++ [93] := by
    rw [rem_advance, hq0]
    rfl
  have e2 : (skip_whitespace ((json_parser_create (91 :: (body ++ [93]))).advance 1)).rem =
      (body ++ 93 :: []).dropWhile is_ws := by
    rw [(skip_whitespace_spec _).2.2.1, e1]
  obtain ⟨f, q1, hloop, hr1, herr1⟩ := h _ e2
  have hq1c := rem_cons_cur _ _ _ hr1
  have hq1l := rem_cons_lt _ _ _ hr1
  have hsk := skip_whitespace_noop _ 91 _ hq0 (by decide)
  have hpv : parse_value (f + 2) (json_parser_create (91 :: (body ++ [93]))) =
      some (some node, q1.advance 1) := by
    rw [parse_value_succ, hsk, if_neg (by rw [hcur]; exact fun hh => absurd hh.2 (by decide)),
      if_pos ⟨hl, hcur⟩, parse_array_succ, hloop]
    simp only
    rw [if_neg (by rw [hq1c]; omega)]
  refine ⟨q1.advance 1, ?_, ?_, ?_⟩
  · rw [json_parse_tree_eq]
    exact parse_value_any_fuel _ _ _ _ hpv (Nat.le_refl _)
  · rw [advance_errors, herr1, (skip_whitespace_spec _).2.1]
    rfl
  · rw [rem_advance, hr1]
    rfl

/-! ## Content after the value -/

/-- A scalar other than a number that ends before the continuation is read
alike in front of every continuation. -/
theorem parse_leaf_local_other (p q : JsonParser) (a b b' : Bytes) (t : TreeNode)
    (p1 : JsonParser) (hp : p.rem = a ++ b) (hq : q.rem = a ++ b') (ha : a ≠ [])
    (h : parse_leaf p = (some t, p1)) (hlen : b.length ≤ p1.rem.length)
    (hnum : ∀ c r, a = c :: r → ¬ (c = 45 ∨ isdigit c = true)) :
    ∃ k, k ≤ a.length ∧ p1 = p.advance k ∧ parse_leaf q = (some t, q.advance k) := by
  cases a with
  | nil => exact absurd rfl ha
  | cons c x =>
    have hn := hnum c x rfl
    have hpl := rem_cons_lt p c (x ++ b) hp
    have hpc := rem_cons_cur p c (x ++ b) hp
    have hql := rem_cons_lt q c (x ++ b') hq
    have hqc := rem_cons_cur q c (x ++ b') hq
    have hL : p.rem.length = (c :: x).length + b.length := by rw [hp, List.length_append]
    have hrl := rem_length p
    unfold parse_leaf at h ⊢
    rw [if_neg (by omega), hpc] at h
    rw [if_neg (by omega), hqc]
    by_cases h1 : c = 34
    · rw [if_pos h1] at h ⊢
      cases hps : parse_string p with
      | mk k p2 =>
        rw [hps] at h
        cases k with
        | none =>
          injection h with ha' _
          exact absurd ha' (by simp)
        | some str =>
          injection h with ha' hb'
          subst hb'
          obtain ⟨k, _, _, hk, rfl, e⟩ := parse_string_local p q _ b b' str p2 hp hq hps hlen
          refine ⟨k, hk, rfl, ?_⟩
          rw [e]
          exact congrArg (fun z => (z, q.advance k)) ha'
    · rw [if_neg h1] at h ⊢
      by_cases h2 : c = 116
      · rw [if_pos h2] at h
        rw [if_pos h2]
        by_cases hl : p.pos + 3 < p.input_len ∧ strncmp_eq p [116, 114, 117, 101] = true
        · rw [if_pos hl] at h
          injection h with ha' hb'
          subst hb'
          rw [rem_length_advance] at hlen
          have hk : 3 + 1 ≤ (c :: x).length := by omega
          have hl1 := (lit_cond p [116, 114, 117, 101] 3 rfl).1 hl
          rw [hp, lit_local _ b b' _ _ hk, ← hq] at hl1
          rw [if_pos ((lit_cond q [116, 114, 117, 101] 3 rfl).2 hl1)]
          exact ⟨4, hk, rfl, congrArg (fun z => (z, q.advance 4)) ha'⟩
        · rw [if_neg hl] at h
          injection h with ha' _
          exact absurd ha' (by simp)
      · rw [if_neg h2] at h ⊢
        by_cases h3 : c = 102
        · rw [if_pos h3] at h
          rw [if_pos h3]
          by_cases hl : p.pos + 4 < p.input_len ∧ strncmp_eq p [102, 97, 108, 115, 101] = true
          · rw [if_pos hl] at h
            injection h with ha' hb'
            subst hb'
            rw [rem_length_advance] at hlen
            have hk : 4 + 1 ≤ (c :: x).length := by omega
            have hl1 := (lit_cond p [102, 97, 108, 115, 101] 4 rfl).1 hl
            rw [hp, lit_local _ b b' _ _ hk, ← hq] at hl1
            rw [if_pos ((lit_cond q [102, 97, 108, 115, 101] 4 rfl).2 hl1)]
            exact ⟨5, hk, rfl, congrArg (fun z => (z, q.advance 5)) ha'⟩
          · rw [if_neg hl] at h
            injection h with ha' _
            exact absurd ha' (by simp)
        · rw [if_neg h3] at h ⊢
          by_cases h4 : c = 110
          · rw [if_pos h4] at h
            rw [if_pos h4]
            by_cases hl : p.pos + 3 < p.input_len ∧ strncmp_eq p [110, 117, 108, 108] = true
            · rw [if_pos hl] at h
              injection h with ha' hb'
              subst hb'
              rw [rem_length_advance] at hlen
              have hk : 3 + 1 ≤ (c :: x).length := by omega
              have hl1 := (lit_cond p [110, 117, 108, 108] 3 rfl).1 hl
              rw [hp, lit_local _ b b' _ _ hk, ← hq] at hl1
              rw [if_pos ((lit_cond q [110, 117, 108, 108] 3 rfl).2 hl1)]
              exact ⟨4, hk, rfl, congrArg (fun z => (z, q.advance 4)) ha'⟩
            · rw [if_neg hl] at h
              injection h with ha' _
              exact absurd ha' (by simp)
          · rw [if_neg h4, if_neg hn] at h
            injection h with ha' _
            exact absurd ha' (by simp)

/-- An element loop that stops at a byte `c` stops at that byte, with the same
node and no diagnostic, whatever follows the byte. -/
theorem loop_swap (c : Nat) (b s : Bytes) (hw : is_ws c = false) (h44 : c ≠ 44) (f : Nat) :
    (∀ p q a node t p1, parse_array_loop f p node = some (some t, p1) →
      p.rem = a ++ c :: b → q.rem = a ++ c :: s → p1.rem = c :: b →
      ∃ q1, parse_array_loop f q node = some (some t, q1) ∧ q1.errors = q.errors ∧
        q1.rem = c :: s) ∧
    (∀ p q a node t p1, parse_object_loop f p node = some (some t, p1) →
      p.rem = a ++ c :: b → q.rem = a ++ c :: s → p1.rem = c :: b →
      ∃ q1, parse_object_loop f q node = some (some t, q1) ∧ q1.errors = q.errors ∧
        q1.rem = c :: s) := by
  have hcompat : Compat (c :: b) (c :: s) := Or.inl rfl
  induction f with
  | zero =>
    exact ⟨fun p q a node t p1 h => by simp [parse_array_loop] at h,
      fun p q a node t p1 h => by simp [parse_object_loop] at h⟩
  | succ f ih =>
    obtain ⟨ihal, ihol⟩ := ih
    have hstop : ∀ p q : JsonParser, ∀ a : Bytes, p.rem = a ++ c :: b → q.rem = a ++ c :: s →
        p.rem = c :: b → q.rem = c :: s ∧ p.pos < p.input_len ∧ p.cur = c ∧ q.cur = c := by
      intro p q a hp hq hpc
      have ha : a = [] := by
        have := congrArg List.length (hp.symm.trans hpc)
        simp only [List.length_append, List.length_cons] at this
        exact List.length_eq_zero.1 (by omega)
      have hq' : q.rem = c :: s := by rw [hq, ha]; rfl
      exact ⟨hq', rem_cons_lt _ _ _ hpc, rem_cons_cur _ _ _ hpc, rem_cons_cur _ _ _ hq'⟩
    refine ⟨?_, ?_⟩
    · intro p q a node t p1 h hp hq hp1
      rw [parse_array_loop_succ] at h ⊢
      by_cases hcond : p.pos < p.input_len ∧ p.cur ≠ 93
      · rw [if_pos hcond] at h
        cases hv : parse_value f p with
        | none => rw [hv] at h; simp at h
        | some x =>
          obtain ⟨n, p2⟩ := x
          rw [hv] at h
          cases n with
          | none => simp at h
          | some v =>
            simp only at h
            have L1 := ((parse_progress f).2.1 _ _ _ h).2
            have L2 := (skip_comma_spec p2).2.2
            have L3 := ((parse_progress f).1 _ _ hv).2.2 rfl
            simp only at L1 L3
            rw [hp1] at L1
            simp only [List.length_cons] at L1
            obtain ⟨q2, a2, ev, he2, e3, e4⟩ := (parse_local (c :: b) (c :: s) hcompat f).1 p q a
              v p2 hv hp hq (by simp only [List.length_cons]; omega)
            have e5 : (skip_comma p2).rem = comma_drop a2 ++ c :: b := by
              rw [skip_comma_rem_eq, e3, comma_drop_append_stop a2 c b hw h44]
            have e6 : (skip_comma q2).rem = comma_drop a2 ++ c :: s := by
              rw [skip_comma_rem_eq, e4, comma_drop_append_stop a2 c s hw h44]
            obtain ⟨q1, el, he1, hr1⟩ := ihal _ _ _ _ t p1 h e5 e6 hp1
            cases a with
            | nil =>
              have := congrArg List.length hp
              simp only [List.nil_append, List.length_cons] at this
              omega
            | cons x y =>
              have hpc := rem_cons_cur _ x (y ++ c :: b) hp
              have hql := rem_cons_lt _ x (y ++ c :: s) hq
              have hqc := rem_cons_cur _ x (y ++ c :: s) hq
              refine ⟨q1, ?_, ?_, hr1⟩
              · rw [if_pos ⟨hql, by rw [hqc, ← hpc]; exact hcond.2⟩, ev]
                exact el
              · rw [he1, skip_comma_errors, he2]
      · rw [if_neg hcond] at h
        have h' := Option.some.inj h
        injection h' with ht hp1'
        injection ht with ht
        subst ht
        subst hp1'
        obtain ⟨hq', hpl, hpc, hqc⟩ := hstop p q a hp hq hp1
        exact ⟨q, by rw [if_neg (fun hh => hcond ⟨hpl, by rw [hpc, ← hqc]; exact hh.2⟩)], rfl,
          hq'⟩
    · intro p q a node t p1 h hp hq hp1
      rw [parse_object_loop_succ] at h ⊢
      by_cases hcond : p.pos < p.input_len ∧ p.cur ≠ 125
      · rw [if_pos hcond] at h
        cases hps : parse_string p with
        | mk k p2 =>
          rw [hps] at h
          cases k with
          | none => simp at h
          | some key =>
            simp only at h
            split_ifs at h with hcol
            · simp at h
            · cases hv : parse_value f (skip_whitespace ((skip_whitespace p2).advance 1)) with
              | none => rw [hv] at h; simp at h
              | some x =>
                obtain ⟨n, p4⟩ := x
                rw [hv] at h
                cases n with
                | none => simp at h
                | some v =>
                  simp only at h
                  have L1 := ((parse_progress f).2.2 _ _ _ h).2
                  have L2 := (skip_comma_spec p4).2.2
                  have L3 := ((parse_progress f).1 _ _ hv).2.2 rfl
                  have L4 := skip_whitespace_rem_le ((skip_whitespace p2).advance 1)
                  have L5 := rem_length_advance (skip_whitespace p2) 1
                  have L6 := skip_whitespace_rem_le p2
                  simp only at L1 L3
                  rw [hp1] at L1
                  simp only [List.length_cons] at L1
                  obtain ⟨k, x, hax, hk, rfl, es⟩ :=
                    parse_string_local p q a (c :: b) (c :: s) key p2 hp hq hps
                      (by simp only [List.length_cons]; omega)
                  have d1 : (p.advance k).rem = a.drop k ++ c :: b := by
                    rw [rem_advance, hp, List.drop_append_of_le_length hk]
                  have d2 : (q.advance k).rem = a.drop k ++ c :: s := by
                    rw [rem_advance, hq, List.drop_append_of_le_length hk]
                  obtain ⟨hne, h1, h2⟩ := skip_whitespace_local _ _ _ (c :: b) (c :: s) d1 d2
                    (by simp only [List.length_cons]; omega)
                  cases hd : (a.drop k).dropWhile is_ws with
                  | nil => exact absurd hd hne
                  | cons c0 r =>
                    rw [hd] at h1 h2
                    have hpc := rem_cons_cur _ c0 (r ++ c :: b) h1
                    have hql := rem_cons_lt _ c0 (r ++ c :: s) h2
                    have hqc := rem_cons_cur _ c0 (r ++ c :: s) h2
                    have hc58 : c0 = 58 := by
                      by_contra hh
                      exact hcol (Or.inr (by rw [hpc]; exact hh))
                    have e1 : ((skip_whitespace (p.advance k)).advance 1).rem = r ++ c :: b := by
                      rw [rem_advance, h1]; rfl
                    have e2 : ((skip_whitespace (q.advance k)).advance 1).rem = r ++ c :: s := by
                      rw [rem_advance, h2]; rfl
                    obtain ⟨_, h3, h4⟩ := skip_whitespace_local _ _ r (c :: b) (c :: s) e1 e2
                      (by simp only [List.length_cons]; omega)
                    obtain ⟨q4, a4, ev, he4, e5, e6⟩ :=
                      (parse_local (c :: b) (c :: s) hcompat f).1 _ _ _ v p4 hv h3 h4
                        (by simp only [List.length_cons]; omega)
                    have e7 : (skip_comma p4).rem = comma_drop a4 ++ c :: b := by
                      rw [skip_comma_rem_eq, e5, comma_drop_append_stop a4 c b hw h44]
                    have e8 : (skip_comma q4).rem = comma_drop a4 ++ c :: s := by
                      rw [skip_comma_rem_eq, e6, comma_drop_append_stop a4 c s hw h44]
                    obtain ⟨q1, el, he1, hr1⟩ := ihol _ _ _ _ t p1 h e7 e8 hp1
                    subst hax
                    have hq0l := rem_cons_lt _ 34 (x ++ c :: s) hq
                    have hq0c := rem_cons_cur _ 34 (x ++ c :: s) hq
                    refine ⟨q1, ?_, ?_, hr1⟩
                    · rw [if_pos ⟨hq0l, by rw [hq0c]; decide⟩, es]
                      simp only
                      rw [if_neg (by rw [hqc, hc58]; omega), ev]
                      exact el
                    · rw [he1, skip_comma_errors, he4, (skip_whitespace_spec _).2.1]
                      show (skip_whitespace (q.advance k)).errors = q.errors
                      rw [(skip_whitespace_spec _).2.1]
                      rfl
      · rw [if_neg hcond] at h
        have h' := Option.some.inj h
        injection h' with ht hp1'
        injection ht with ht
        subst ht
        subst hp1'
        obtain ⟨hq', hpl, hpc, hqc⟩ := hstop p q a hp hq hp1
        exact ⟨q, by rw [if_neg (fun hh => hcond ⟨hpl, by rw [hpc, ← hqc]; exact hh.2⟩)], rfl,
          hq'⟩

/-- An object that ends where the continuation `b` starts is read alike, with
no diagnostic, in front of every other continuation. -/
theorem object_tail_swap (f : Nat) (p q : JsonParser) (a b s : Bytes) (t : TreeNode)
    (p1 : JsonParser) (hp : p.rem = a ++ b) (hq : q.rem = a ++ s) (hp1 : p1.rem = b)
    (h : parse_object f p = some (some t, p1)) :
    ∃ q1, parse_object f q = some (some t, q1) ∧ q1.errors = q.errors ∧ q1.rem = s := by
  cases f with
  | zero => simp [parse_object] at h
  | succ g =>
    rw [parse_object_succ] at h ⊢
    cases hl : parse_object_loop g (skip_whitespace (p.advance 1))
        (tree_node_create none none JsonType.JSON_OBJECT) with
    | none => rw [hl] at h; simp at h
    | some x =>
      obtain ⟨n, p2⟩ := x
      rw [hl] at h
      cases n with
      | none => simp at h
      | some n1 =>
        simp only at h
        split_ifs at h with hcond
        · simp at h
        · have h' := Option.some.inj h
          injection h' with ht hp1'
          injection ht with ht
          subst ht
          subst hp1'
          have hp2 : p2.rem = 125 :: b := by
            cases hr : p2.rem with
            | nil =>
              have := rem_nil p2 hr
              exact absurd (Or.inl this) hcond
            | cons c r =>
              have hc := rem_cons_cur _ _ _ hr
              rw [rem_advance, hr] at hp1
              have hr0 : r = b := by simpa using hp1
              have hc125 : c = 125 := by
                by_contra hh
                exact hcond (Or.inr (by rw [hc]; exact hh))
              rw [hr0, hc125]
          have hprog := (parse_progress g).2.2 _ _ _ hl
          simp only at hprog
          obtain ⟨a3, ha3⟩ := rem_suffix _ p2 hprog.1 hprog.2
          have hsk := skip_whitespace_rem_le (p.advance 1)
          have hadv := rem_length_advance p 1
          have hpL := congrArg List.length hp
          have hp2L := congrArg List.length hp2
          rw [List.length_append] at hpL
          rw [List.length_cons] at hp2L
          cases a with
          | nil =>
            simp only [List.length_nil] at hpL
            omega
          | cons c0 x =>
            have d1 : (p.advance 1).rem = x ++ b := by rw [rem_advance, hp]; rfl
            have d2 : (q.advance 1).rem = x ++ s := by rw [rem_advance, hq]; rfl
            have hdw := dropWhile_append_long is_ws x b
              (by rw [← d1, ← (skip_whitespace_spec _).2.2.1]; omega)
            have e1 : (skip_whitespace (p.advance 1)).rem = a3 ++ 125 :: b := by
              rw [ha3, hp2]
            have hx : x.dropWhile is_ws = a3 ++ [125] := by
              have h1 : (skip_whitespace (p.advance 1)).rem = x.dropWhile is_ws ++ b := by
                rw [(skip_whitespace_spec _).2.2.1, d1, hdw.2]
              rw [e1] at h1
              have h2 : (a3 ++ [125]) ++ b = x.dropWhile is_ws ++ b := by
                rw [← h1]
                simp
              exact (List.append_cancel_right h2).symm
            have e2 : (skip_whitespace (q.advance 1)).rem = a3 ++ 125 :: s := by
              rw [(skip_whitespace_spec _).2.2.1, d2, hdw.2, hx]
              simp
            obtain ⟨q2, el, he, hr2⟩ := (loop_swap 125 b s (by decide) (by decide) g).2 _ _ _ _
              n1 p2 hl e1 e2 hp2
            have hq2l := rem_cons_lt _ _ _ hr2
            have hq2c := rem_cons_cur _ _ _ hr2
            refine ⟨q2.advance 1, ?_, ?_, ?_⟩
            · rw [el]
              simp only
              rw [if_neg (by rw [hq2c]; omega)]
            · rw [advance_errors, he, (skip_whitespace_spec _).2.1]
              rfl
            · rw [rem_advance, hr2]
              rfl

/-- An array that ends where the continuation `b` starts is read alike, with
no diagnostic, in front of every other continuation. -/
theorem array_tail_swap (f : Nat) (p q : JsonParser) (a b s : Bytes) (t : TreeNode)
    (p1 : JsonParser) (hp : p.rem = a ++ b) (hq : q.rem = a ++ s) (hp1 : p1.rem = b)
    (h : parse_array f p = some (some t, p1)) :
    ∃ q1, parse_array f q = some (some t, q1) ∧ q1.errors = q.errors ∧ q1.rem = s := by
  cases f with
  | zero => simp [parse_array] at h
  | succ g =>
    rw [parse_array_succ] at h ⊢
    cases hl : parse_array_loop g (skip_whitespace (p.advance 1))
        (tree_node_create none none JsonType.JSON_ARRAY) with
    | none => rw [hl] at h; simp at h
    | some x =>
      obtain ⟨n, p2⟩ := x
      rw [hl] at h
      cases n with
      | none => simp at h
      | some n1 =>
        simp only at h
        split_ifs at h with hcond
        · simp at h
        · have h' := Option.some.inj h
          injection h' with ht hp1'
          injection ht with ht
          subst ht
          subst hp1'
          have hp2 : p2.rem = 93 :: b := by
            cases hr : p2.rem with
            | nil =>
              have := rem_nil p2 hr
              exact absurd (Or.inl this) hcond
            | cons c r =>
              have hc := rem_cons_cur _ _ _ hr
              rw [rem_advance, hr] at hp1
              have hr0 : r = b := by simpa using hp1
              have hc93 : c = 93 := by
                by_contra hh
                exact hcond (Or.inr (by rw [hc]; exact hh))
              rw [hr0, hc93]
          have hprog := (parse_progress g).2.1 _ _ _ hl
          simp only at hprog
          obtain ⟨a3, ha3⟩ := rem_suffix _ p2 hprog.1 hprog.2
          have hsk := skip_whitespace_rem_le (p.advance 1)
          have hadv := rem_length_advance p 1
          have hpL := congrArg List.length hp
          have hp2L := congrArg List.length hp2
          rw [List.length_append] at hpL
          rw [List.length_cons] at hp2L
          cases a with
          | nil =>
            simp only [List.length_nil] at hpL
            omega
          | cons c0 x =>
            have d1 : (p.advance 1).rem = x ++ b := by rw [rem_advance, hp]; rfl
            have d2 : (q.advance 1).rem = x ++ s := by rw [rem_advance, hq]; rfl
            have hdw := dropWhile_append_long is_ws x b
              (by rw [← d1, ← (skip_whitespace_spec _).2.2.1]; omega)
            have e1 : (skip_whitespace (p.advance 1)).rem = a3 ++ 93 :: b := by
              rw [ha3, hp2]
            have hx : x.dropWhile is_ws = a3 ++ [93] := by
              have h1 : (skip_whitespace (p.advance 1)).rem = x.dropWhile is_ws ++ b := by
                rw [(skip_whitespace_spec _).2.2.1, d1, hdw.2]
              rw [e1] at h1
              have h2 : (a3 ++ [93]) ++ b = x.dropWhile is_ws ++ b := by
                rw [← h1]
                simp
              exact (List.append_cancel_right h2).symm
            have e2 : (skip_whitespace (q.advance 1)).rem = a3 ++ 93 :: s := by
              rw [(skip_whitespace_spec _).2.2.1, d2, hdw.2, hx]
              simp
            obtain ⟨q2, el, he, hr2⟩ := (loop_swap 93 b s (by decide) (by decide) g).1 _ _ _ _
              n1 p2 hl e1 e2 hp2
            have hq2l := rem_cons_lt _ _ _ hr2
            have hq2c := rem_cons_cur _ _ _ hr2
            refine ⟨q2.advance 1, ?_, ?_, ?_⟩
            · rw [el]
              simp only
              rw [if_neg (by rw [hq2c]; omega)]
            · rw [advance_errors, he, (skip_whitespace_spec _).2.1]
              rfl
            · rw [rem_advance, hr2]
              rfl

/-- The number branch of `parse_value` returns a Number node. -/
theorem parse_leaf_number_type (p : JsonParser) (c : Nat) (r : Bytes) (t : TreeNode)
    (p1 : JsonParser) (hr : p.rem = c :: r) (hc : c = 45 ∨ isdigit c = true)
    (h : parse_leaf p = (some t, p1)) : t.type = JsonType.JSON_NUMBER := by
  rw [parse_leaf_number p c r hr hc] at h
  injection h with h1 _
  injection h1 with h1
  rw [← h1]
  rfl

/-- A value other than a number is read alike, with no diagnostic, whatever
follows its last byte. -/
theorem value_tail_swap (f : Nat) (p q : JsonParser) (a b s : Bytes) (t : TreeNode)
    (p1 : JsonParser) (hp : p.rem = a ++ b) (hq : q.rem = a ++ s) (hp1 : p1.rem = b)
    (h : parse_value f p = some (some t, p1)) (ht : t.type ≠ JsonType.JSON_NUMBER) :
    ∃ q1, parse_value f q = some (some t, q1) ∧ q1.errors = q.errors ∧ q1.rem = s := by
  cases f with
  | zero => simp [parse_value] at h
  | succ g =>
    have hprog := (parse_progress (g + 1)).1 (skip_whitespace p) (some t, p1)
      (by rw [parse_value_skip]; exact h)
    have hlt := hprog.2.2 rfl
    simp only at hlt
    rw [hp1] at hlt
    obtain ⟨hne, h1, h2⟩ := skip_whitespace_local p q a b s hp hq hlt
    have herr := (skip_whitespace_spec q).2.1
    rw [parse_value_succ] at h ⊢
    cases hd : a.dropWhile is_ws with
    | nil => exact absurd hd hne
    | cons c r =>
      rw [hd] at h1 h2
      have hpl := rem_cons_lt _ c (r ++ b) h1
      have hpc := rem_cons_cur _ c (r ++ b) h1
      have hql := rem_cons_lt _ c (r ++ s) h2
      have hqc := rem_cons_cur _ c (r ++ s) h2
      by_cases c1 : c = 123
      · rw [if_pos ⟨hpl, by rw [hpc, c1]⟩] at h
        rw [if_pos ⟨hql, by rw [hqc, c1]⟩]
        obtain ⟨q1, e, he, hr⟩ := object_tail_swap g _ _ (c :: r) b s t p1 h1 h2 hp1 h
        exact ⟨q1, e, he.trans herr, hr⟩
      · rw [if_neg (by rw [hpc]; exact fun hh => c1 hh.2)] at h
        rw [if_neg (by rw [hqc]; exact fun hh => c1 hh.2)]
        by_cases c2 : c = 91
        · rw [if_pos ⟨hpl, by rw [hpc, c2]⟩] at h
          rw [if_pos ⟨hql, by rw [hqc, c2]⟩]
          obtain ⟨q1, e, he, hr⟩ := array_tail_swap g _ _ (c :: r) b s t p1 h1 h2 hp1 h
          exact ⟨q1, e, he.trans herr, hr⟩
        · rw [if_neg (by rw [hpc]; exact fun hh => c2 hh.2)] at h
          rw [if_neg (by rw [hqc]; exact fun hh => c2 hh.2)]
          have h' := Option.some.inj h
          obtain ⟨k, hk, rfl, e⟩ := parse_leaf_local_other _ _ (c :: r) b s t p1 h1 h2
            (by simp) h' (by rw [hp1])
            (fun c' r' hcr hn => by
              injection hcr with hc' _
              subst hc'
              exact ht (parse_leaf_number_type _ c (r ++ b) t _ h1 hn h'))
          have hk0 : (c :: r).drop k = [] := by
            rw [rem_advance, h1, List.drop_append_of_le_length hk] at hp1
            have := congrArg List.length hp1
            rw [List.length_append] at this
            exact List.length_eq_zero.1 (by omega)
          refine ⟨(skip_whitespace q).advance k, by rw [e], herr, ?_⟩
          rw [rem_advance, h2, List.drop_append_of_le_length hk, hk0]
          rfl

/-! ## An input cut off inside nested containers -/

theorem scan_string_no_quote (l : Bytes) : ∀ e, 34 ∉ l → scan_string e l = l.length := by
  induction l with
  | nil => intro e _; cases e <;> rfl
  | cons c r ih =>
    intro e h
    have hc : c ≠ 34 := fun hh => h (by rw [hh]; exact List.mem_cons_self _ _)
    have hr : 34 ∉ r := fun hh => h (List.mem_cons_of_mem _ hh)
    cases e
    · simp only [scan_string, List.length_cons]
      split_ifs
      · rw [ih true hr]; omega
      · rw [ih false hr]; omega
    · simp only [scan_string, List.length_cons]
      rw [ih false hr]; omega

theorem scan_string_before (tl : Bytes) (h34 : 34 ∉ tl) (y : Bytes) : ∀ e,
    scan_string e (y ++ tl) < (y ++ tl).length → scan_string e (y ++ tl) < y.length := by
  induction y with
  | nil =>
    intro e h
    rw [List.nil_append, scan_string_no_quote tl e h34] at h
    omega
  | cons c r ih =>
    intro e h
    cases e
    · simp only [List.cons_append, scan_string, List.length_cons, List.append_eq] at h ⊢
      split_ifs at h ⊢
      · have := ih true (by omega); omega
      · omega
      · have := ih false (by omega); omega
    · simp only [List.cons_append, scan_string, List.length_cons, List.append_eq] at h ⊢
      have := ih false (by omega); omega

theorem scan_number_stop (c : Nat) (r : Bytes) (hd : isdigit c = false) (h46 : c ≠ 46)
    (x : Bytes) : ∀ d, scan_number d (x ++ c :: r) ≤ x.length := by
  induction x with
  | nil =>
    intro d
    simp [scan_number, hd, h46]
  | cons y x ih =>
    intro d
    simp only [List.cons_append, scan_number, List.length_cons, List.append_eq]
    split_ifs
    · have := ih true; omega
    · omega
    · have := ih d; omega

theorem number_len_stop (c : Nat) (r : Bytes) (hd : isdigit c = false) (h46 : c ≠ 46)
    (a : Bytes) (ha : a ≠ []) : number_len (a ++ c :: r) ≤ a.length := by
  cases a with
  | nil => exact absurd rfl ha
  | cons y x =>
    have h1 := scan_number_stop c r hd h46 x false
    have h2 := scan_number_stop c r hd h46 (y :: x) false
    simp only [List.cons_append, List.length_cons] at h2
    simp only [List.cons_append, number_len, List.length_cons, List.append_eq]
    split_ifs
    · omega
    · exact h2

/-- A string literal never runs over a text that holds no quote. -/
theorem parse_string_stops_before (p : JsonParser) (a tl key : Bytes) (p1 : JsonParser)
    (hp : p.rem = a ++ tl) (ha : a ≠ []) (h34 : 34 ∉ tl)
    (h : parse_string p = (some key, p1)) : tl.length ≤ p1.rem.length := by
  cases a with
  | nil => exact absurd rfl ha
  | cons c y =>
    have hpl := rem_cons_lt p c (y ++ tl) hp
    have hpc := rem_cons_cur p c (y ++ tl) hp
    by_cases h1 : c = 34
    · subst h1
      rw [parse_string_eq p (y ++ tl) hp] at h
      split_ifs at h with hs
      · injection h with h _
        exact absurd h (by simp)
      · injection h with _ h
        subst h
        have := scan_string_before tl h34 y false (by omega)
        rw [rem_length_advance, hp]
        simp only [List.cons_append, List.length_cons, List.length_append]
        omega
    · unfold parse_string at h
      rw [if_pos (Or.inr (by rw [hpc]; exact h1))] at h
      injection h with h _
      exact absurd h (by simp)

/-- A scalar never runs over a closing byte followed by closing bytes and
whitespace. -/
theorem parse_leaf_stops_before (p : JsonParser) (a rest : Bytes) (c : Nat) (t : TreeNode)
    (p1 : JsonParser) (hc : c = 93 ∨ c = 125)
    (hrest : ∀ b ∈ rest, is_closer_or_ws b = true)
    (hp : p.rem = a ++ c :: rest) (ha : a ≠ [])
    (h : parse_leaf p = (some t, p1)) : rest.length < p1.rem.length := by
  have h34 : 34 ∉ c :: rest := by
    intro hm
    rcases List.mem_cons.mp hm with h1 | h1
    · rcases hc with hc | hc <;> omega
    · have := hrest 34 h1
      revert this
      decide
  have hd : isdigit c = false := by rcases hc with hc | hc <;> subst hc <;> decide
  have h46 : c ≠ 46 := by rcases hc with hc | hc <;> omega
  cases a with
  | nil => exact absurd rfl ha
  | cons x y =>
    have hp' : p.rem = x :: (y ++ c :: rest) := hp
    have hpl := rem_cons_lt p x _ hp'
    have hpc := rem_cons_cur p x _ hp'
    have hL : p.rem.length = y.length + 1 + (rest.length + 1) := by
      rw [hp']
      simp only [List.length_cons, List.length_append]
      omega
    by_cases hn : x = 45 ∨ isdigit x = true
    · rw [parse_leaf_number p x _ hp' hn] at h
      injection h with _ h2
      subst h2
      have hk := number_len_stop c rest hd h46 (x :: y) (by simp)
      rw [← hp] at hk
      rw [rem_length_advance]
      simp only [List.length_cons] at hk
      omega
    · unfold parse_leaf at h
      rw [if_neg (by omega), hpc] at h
      by_cases h1 : x = 34
      · rw [if_pos h1] at h
        cases hps : parse_string p with
        | mk k p2 =>
          rw [hps] at h
          cases k with
          | none =>
            injection h with ha' _
            exact absurd ha' (by simp)
          | some str =>
            injection h with _ hb'
            subst hb'
            have := parse_string_stops_before p (x :: y) (c :: rest) str p2 hp (by simp) h34 hps
            simp only [List.length_cons] at this
            omega
      · rw [if_neg h1] at h
        have hlit : ∀ (lit : Bytes) (k : Nat), lit.length = k + 1 → c ∉ lit →
            p.rem.take (k + 1) = lit → k + 1 ≤ (x :: y).length := by
          intro lit k hk hcl ht
          by_contra hlt
          apply hcl
          rw [← ht, hp, List.take_append_eq_append_take]
          apply List.mem_append_right
          obtain ⟨m, hm⟩ : ∃ m, k + 1 - (x :: y).length = m + 1 := ⟨k - (x :: y).length, by omega⟩
          rw [hm, List.take_succ_cons]
          exact List.mem_cons_self _ _
        by_cases h2 : x = 116
        · rw [if_pos h2] at h
          by_cases hl : p.pos + 3 < p.input_len ∧ strncmp_eq p [116, 114, 117, 101] = true
          · rw [if_pos hl] at h
            injection h with _ hb'
            subst hb'
            have hk := hlit [116, 114, 117, 101] 3 rfl
              (by rcases hc with hc | hc <;> subst hc <;> decide)
              ((lit_cond p [116, 114, 117, 101] 3 rfl).1 hl)
            rw [rem_length_advance]
            simp only [List.length_cons] at hk
            omega
          · rw [if_neg hl] at h
            injection h with ha' _
            exact absurd ha' (by simp)
        · rw [if_neg h2] at h
          by_cases h3 : x = 102
          · rw [if_pos h3] at h
            by_cases hl : p.pos + 4 < p.input_len ∧ strncmp_eq p [102, 97, 108, 115, 101] = true
            · rw [if_pos hl] at h
              injection h with _ hb'
              subst hb'
              have hk := hlit [102, 97, 108, 115, 101] 4 rfl
                (by rcases hc with hc | hc <;> subst hc <;> decide)
                ((lit_cond p [102, 97, 108, 115, 101] 4 rfl).1 hl)
              rw [rem_length_advance]
              simp only [List.length_cons] at hk
              omega
            · rw [if_neg hl] at h
              injection h with ha' _
              exact absurd ha' (by simp)
          · rw [if_neg h3] at h
            by_cases h4 : x = 110
            · rw [if_pos h4] at h
              by_cases hl : p.pos + 3 < p.input_len ∧ strncmp_eq p [110, 117, 108, 108] = true
              · rw [if_pos hl] at h
                injection h with _ hb'
                subst hb'
                have hk := hlit [110, 117, 108, 108] 3 rfl
                  (by rcases hc with hc | hc <;> subst hc <;> decide)
                  ((lit_cond p [110, 117, 108, 108] 3 rfl).1 hl)
                rw [rem_length_advance]
                simp only [List.length_cons] at hk
                omega
              · rw [if_neg hl] at h
                injection h with ha' _
                exact absurd ha' (by simp)
            · rw [if_neg h4, if_neg hn] at h
              injection h with ha' _
              exact absurd ha' (by simp)

theorem value_not_brace (f : Nat) (p : JsonParser) (t : TreeNode) (p1 : JsonParser)
    (h : parse_value f p = some (some t, p1)) (r : Bytes) : p.rem ≠ 125 :: r := by
  intro hr
  cases f with
  | zero => simp [parse_value] at h
  | succ f =>
    obtain ⟨hv, _, _, hr'⟩ := parse_value_leaf f p 125 r hr (by decide) (by decide) (by decide)
    rw [hv] at h
    have hl := rem_cons_lt _ _ _ hr'
    have hcur := rem_cons_cur _ _ _ hr'
    have hge : ¬ (skip_whitespace p).pos ≥ (skip_whitespace p).input_len := by omega
    simp [parse_leaf, hcur, hge, isdigit] at h

/-- An element loop that stops at a byte `c` stops at the end of the input,
with the same node and no diagnostic, when the input is cut off before that
byte. -/
theorem loop_cut_at (c : Nat) (rest : Bytes) (hw : is_ws c = false) (h44 : c ≠ 44) (f : Nat) :
    (∀ p q a node t p1, parse_array_loop f p node = some (some t, p1) →
      p.rem = a ++ c :: rest → q.rem = a → p1.rem = c :: rest →
      ∃ q1, parse_array_loop f q node = some (some t, q1) ∧ q1.errors = q.errors ∧
        q1.rem = []) ∧
    (∀ p q a node t p1, parse_object_loop f p node = some (some t, p1) →
      p.rem = a ++ c :: rest → q.rem = a → p1.rem = c :: rest →
      ∃ q1, parse_object_loop f q node = some (some t, q1) ∧ q1.errors = q.errors ∧
        q1.rem = []) := by
  refine ⟨?_, ?_⟩
  · intro p q a node t p1 h hp hq hp1
    obtain ⟨m1, hm, _, hmr⟩ := (loop_swap c rest [] hw h44 f).1 p (json_parser_create (a ++ [c]))
      a node t p1 h hp rfl hp1
    exact (loop_trunc c hw h44 f).1 (json_parser_create (a ++ [c])) q a node t m1 hm rfl hq hmr
  · intro p q a node t p1 h hp hq hp1
    obtain ⟨m1, hm, _, hmr⟩ := (loop_swap c rest [] hw h44 f).2 p (json_parser_create (a ++ [c]))
      a node t p1 h hp rfl hp1
    exact (loop_trunc c hw h44 f).2 (json_parser_create (a ++ [c])) q a node t m1 hm rfl hq hmr

theorem cutResult_of_errors (c : Nat) (q q' : JsonParser)
    (r : Option (Option TreeNode × JsonParser)) (he : q'.errors = q.errors)
    (h : CutResult c q' r) : CutResult c q r := by
  obtain ⟨q1, e, h1, h2⟩ := h
  exact ⟨q1, e, by rw [h1, he], h2⟩

theorem suffix_same_length (a a' b b' : Bytes) (h : a ++ b = a' ++ b')
    (hl : b.length = b'.length) : b = b' :=
  List.append_inj_right' h hl

/-- An input cut off where a closing byte `c` of a text that parses stood,
with only closing bytes and whitespace after it: every call that had read past
that byte fails with the diagnostic of the container `c` would close. -/
theorem parse_cut (c : Nat) (rest : Bytes) (hc : c = 93 ∨ c = 125)
    (hrest : ∀ b ∈ rest, is_closer_or_ws b = true) (f : Nat) :
    (∀ p q a t p1, parse_value f p = some (some t, p1) → p.rem = a ++ c :: rest → q.rem = a →
      p1.rem.length ≤ rest.length → CutResult c q (parse_value f q)) ∧
    (∀ p q a t p1, parse_array f p = some (some t, p1) → p.rem = a ++ c :: rest → q.rem = a →
      a ≠ [] → p1.rem.length ≤ rest.length → CutResult c q (parse_array f q)) ∧
    (∀ p q a t p1, parse_object f p = some (some t, p1) → p.rem = a ++ c :: rest → q.rem = a →
      a ≠ [] → p1.rem.length ≤ rest.length → CutResult c q (parse_object f q)) ∧
    (∀ p q a node t p1, parse_array_loop f p node = some (some t, p1) →
      p.rem = a ++ c :: rest → q.rem = a → p1.rem.length ≤ rest.length →
      CutResult c q (parse_array_loop f q node)) ∧
    (∀ p q a node t p1, parse_object_loop f p node = some (some t, p1) →
      p.rem = a ++ c :: rest → q.rem = a → p1.rem.length ≤ rest.length →
      CutResult c q (parse_object_loop f q node)) := by
  have hw : is_ws c = false := by rcases hc with hc | hc <;> subst hc <;> decide
  have h44 : c ≠ 44 := by rcases hc with hc | hc <;> omega
  have hcompat : Compat (c :: rest) [] := Or.inr (Or.inl rfl)
  have h34 : 34 ∉ c :: rest := by
    intro hm
    rcases List.mem_cons.mp hm with h1 | h1
    · rcases hc with hc | hc <;> omega
    · have := hrest 34 h1
      revert this
      decide
  induction f with
  | zero =>
    refine ⟨?_, ?_, ?_, ?_, ?_⟩
    · intro p q a t p1 h; simp [parse_value] at h
    · intro p q a t p1 h; simp [parse_array] at h
    · intro p q a t p1 h; simp [parse_object] at h
    · intro p q a node t p1 h; simp [parse_array_loop] at h
    · intro p q a node t p1 h; simp [parse_object_loop] at h
  | succ f ih =>
    obtain ⟨ihv, iha, iho, ihal, ihol⟩ := ih
    refine ⟨?_, ?_, ?_, ?_, ?_⟩
    · intro p q a t p1 h hp hq hlen
      have e1 : (skip_whitespace p).rem = a.dropWhile is_ws ++ c :: rest := by
        rw [(skip_whitespace_spec p).2.2.1, hp]
        exact dropWhile_append_stop a c rest hw
      have e2 : (skip_whitespace q).rem = a.dropWhile is_ws := by
        rw [(skip_whitespace_spec q).2.2.1, hq]
      have herr := (skip_whitespace_spec q).2.1
      cases hd : a.dropWhile is_ws with
      | nil =>
        rw [hd] at e1
        have h' : parse_value (f + 1) (skip_whitespace p) = some (some t, p1) := by
          rw [parse_value_skip]; exact h
        rcases hc with hc | hc
        · subst hc
          exact absurd e1 (value_not_close _ _ _ _ h' rest)
        · subst hc
          exact absurd e1 (value_not_brace _ _ _ _ h' rest)
      | cons x y =>
        rw [hd] at e1 e2
        have hpl := rem_cons_lt _ x (y ++ c :: rest) e1
        have hpc := rem_cons_cur _ x (y ++ c :: rest) e1
        have hql := rem_cons_lt _ x y e2
        have hqc := rem_cons_cur _ x y e2
        rw [parse_value_succ] at h ⊢
        by_cases c1 : x = 123
        · rw [if_pos ⟨hpl, by rw [hpc, c1]⟩] at h
          rw [if_pos ⟨hql, by rw [hqc, c1]⟩]
          exact cutResult_of_errors c q _ _ herr
            (iho _ _ (x :: y) t p1 h e1 e2 (by simp) hlen)
        · rw [if_neg (by rw [hpc]; exact fun hh => c1 hh.2)] at h
          rw [if_neg (by rw [hqc]; exact fun hh => c1 hh.2)]
          by_cases c2 : x = 91
          · rw [if_pos ⟨hpl, by rw [hpc, c2]⟩] at h
            rw [if_pos ⟨hql, by rw [hqc, c2]⟩]
            exact cutResult_of_errors c q _ _ herr
              (iha _ _ (x :: y) t p1 h e1 e2 (by simp) hlen)
          · rw [if_neg (by rw [hpc]; exact fun hh => c2 hh.2)] at h
            have h' := Option.some.inj h
            have := parse_leaf_stops_before _ (x :: y) rest c t p1 hc hrest e1 (by simp) h'
            omega
    · intro p q a t p1 h hp hq ha hlen
      rw [parse_array_succ] at h ⊢
      cases hl : parse_array_loop f (skip_whitespace (p.advance 1))
          (tree_node_create none none JsonType.JSON_ARRAY) with
      | none => rw [hl] at h; simp at h
      | some x0 =>
        obtain ⟨n, p2⟩ := x0
        rw [hl] at h
        cases n with
        | none => simp at h
        | some n1 =>
          simp only at h
          split_ifs at h with hcond
          · simp at h
          · have h' := Option.some.inj h
            injection h' with ht hp1
            injection ht with ht
            subst ht
            subst hp1
            rw [rem_length_advance] at hlen
            cases a with
            | nil => exact absurd rfl ha
            | cons x y =>
              have e1 : (skip_whitespace (p.advance 1)).rem =
                  y.dropWhile is_ws ++ c :: rest := by
                rw [(skip_whitespace_spec _).2.2.1, rem_advance, hp]
                exact dropWhile_append_stop y c rest hw
              have e2 : (skip_whitespace (q.advance 1)).rem = y.dropWhile is_ws := by
                rw [(skip_whitespace_spec _).2.2.1, rem_advance, hq]
                rfl
              have herr : (skip_whitespace (q.advance 1)).errors = q.errors := by
                rw [(skip_whitespace_spec _).2.1]
                rfl
              have hprog := (parse_progress f).2.1 _ _ _ hl
              simp only at hprog
              cases hr2 : p2.rem with
              | nil =>
                have := rem_nil p2 hr2
                exact absurd (Or.inl this) hcond
              | cons c2 r2 =>
                have hc2 := rem_cons_cur _ _ _ hr2
                have hc93 : c2 = 93 := by
                  by_contra hh
                  exact hcond (Or.inr (by rw [hc2]; exact hh))
                rw [hr2] at hlen
                simp only [List.length_cons] at hlen
                by_cases hlr : r2.length = rest.length
                · obtain ⟨a0, ha0⟩ := rem_suffix _ p2 hprog.1 hprog.2
                  rw [e1, hr2] at ha0
                  have hsame := suffix_same_length _ _ _ _ ha0
                    (by simp only [List.length_cons]; omega)
                  injection hsame with hcc hrr
                  subst hrr
                  subst hcc
                  subst hc93
                  obtain ⟨q2, el, he2, hq2⟩ := (loop_cut_at 93 rest hw h44 f).1 _ _ _ _ n1 p2 hl
                    e1 e2 hr2
                  rw [el]
                  simp only
                  rw [if_pos (Or.inl (rem_nil q2 hq2))]
                  refine ⟨add_error q2 "Unterminated array", rfl, ?_, by rw [add_error_rem, hq2]⟩
                  show q2.errors ++ _ = _
                  rw [he2, herr]
                  rfl
                · obtain ⟨q1, el, he1, hq1⟩ := ihal _ _ _ _ n1 p2 hl e1 e2
                    (by rw [hr2]; simp only [List.length_cons]; omega)
                  rw [el]
                  exact ⟨q1, rfl, by rw [he1, herr], hq1⟩
    · intro p q a t p1 h hp hq ha hlen
      rw [parse_object_succ] at h ⊢
      cases hl : parse_object_loop f (skip_whitespace (p.advance 1))
          (tree_node_create none none JsonType.JSON_OBJECT) with
      | none => rw [hl] at h; simp at h
      | some x0 =>
        obtain ⟨n, p2⟩ := x0
        rw [hl] at h
        cases n with
        | none => simp at h
        | some n1 =>
          simp only at h
          split_ifs at h with hcond
          · simp at h
          · have h' := Option.some.inj h
            injection h' with ht hp1
            injection ht with ht
            subst ht
            subst hp1
            rw [rem_length_advance] at hlen
            cases a with
            | nil => exact absurd rfl ha
            | cons x y =>
              have e1 : (skip_whitespace (p.advance 1)).rem =
                  y.dropWhile is_ws ++ c :: rest := by
                rw [(skip_whitespace_spec _).2.2.1, rem_advance, hp]
                exact dropWhile_append_stop y c rest hw
              have e2 : (skip_whitespace (q.advance 1)).rem = y.dropWhile is_ws := by
                rw [(skip_whitespace_spec _).2.2.1, rem_advance, hq]
                rfl
              have herr : (skip_whitespace (q.advance 1)).errors = q.errors := by
                rw [(skip_whitespace_spec _).2.1]
                rfl
              have hprog := (parse_progress f).2.2 _ _ _ hl
              simp only at hprog
              cases hr2 : p2.rem with
              | nil =>
                have := rem_nil p2 hr2
                exact absurd (Or.inl this) hcond
              | cons c2 r2 =>
                have hc2 := rem_cons_cur _ _ _ hr2
                have hc125 : c2 = 125 := by
                  by_contra hh
                  exact hcond (Or.inr (by rw [hc2]; exact hh))
                rw [hr2] at hlen
                simp only [List.length_cons] at hlen
                by_cases hlr : r2.length = rest.length
                · obtain ⟨a0, ha0⟩ := rem_suffix _ p2 hprog.1 hprog.2
                  rw [e1, hr2] at ha0
                  have hsame := suffix_same_length _ _ _ _ ha0
                    (by simp only [List.length_cons]; omega)
                  injection hsame with hcc hrr
                  subst hrr
                  subst hcc
                  subst hc125
                  obtain ⟨q2, el, he2, hq2⟩ := (loop_cut_at 125 rest hw h44 f).2 _ _ _ _ n1 p2 hl
                    e1 e2 hr2
                  rw [el]
                  simp only
                  rw [if_pos (Or.inl (rem_nil q2 hq2))]
                  refine ⟨add_error q2 "Unterminated object", rfl, ?_, by rw [add_error_rem, hq2]⟩
                  show q2.errors ++ _ = _
                  rw [he2, herr]
                  rfl
                · obtain ⟨q1, el, he1, hq1⟩ := ihol _ _ _ _ n1 p2 hl e1 e2
                    (by rw [hr2]; simp only [List.length_cons]; omega)
                  rw [el]
                  exact ⟨q1, rfl, by rw [he1, herr], hq1⟩
    · intro p q a node t p1 h hp hq hlen
      have hpL : p.rem.length = a.length + (rest.length + 1) := by
        rw [hp, List.length_append, List.length_cons]
      rw [parse_array_loop_succ] at h ⊢
      by_cases hcond : p.pos < p.input_len ∧ p.cur ≠ 93
      · rw [if_pos hcond] at h
        cases hv : parse_value f p with
        | none => rw [hv] at h; simp at h
        | some x0 =>
          obtain ⟨n, p2⟩ := x0
          rw [hv] at h
          cases n with
          | none => simp at h
          | some v =>
            simp only at h
            cases a with
            | nil =>
              rcases hc with hc | hc
              · subst hc
                exact absurd (rem_cons_cur _ _ _ hp) hcond.2
              · subst hc
                exact absurd hp (value_not_brace _ _ _ _ hv rest)
            | cons x y =>
              have hpc := rem_cons_cur _ x (y ++ c :: rest) hp
              have hql := rem_cons_lt _ x y hq
              have hqc := rem_cons_cur _ x y hq
              rw [if_pos ⟨hql, by rw [hqc, ← hpc]; exact hcond.2⟩]
              by_cases hcase : p2.rem.length ≤ rest.length
              · obtain ⟨q1, ev, he1, hq1⟩ := ihv _ _ _ v p2 hv hp hq hcase
                rw [ev]
                exact ⟨q1, rfl, he1, hq1⟩
              · obtain ⟨q2, a2, ev, he2, e3, e4⟩ := (parse_local (c :: rest) [] hcompat f).1 p q
                  (x :: y) v p2 hv hp (by rw [hq, List.append_nil])
                  (by simp only [List.length_cons]; omega)
                rw [List.append_nil] at e4
                have e5 : (skip_comma p2).rem = comma_drop a2 ++ c :: rest := by
                  rw [skip_comma_rem_eq, e3, comma_drop_append_stop a2 c rest hw h44]
                have e6 : (skip_comma q2).rem = comma_drop a2 := by
                  rw [skip_comma_rem_eq, e4]
                obtain ⟨q1, el, he1, hq1⟩ := ihal _ _ _ _ t p1 h e5 e6 hlen
                rw [ev]
                simp only
                rw [el]
                exact ⟨q1, rfl, by rw [he1, skip_comma_errors, he2], hq1⟩
      · rw [if_neg hcond] at h
        have h' := Option.some.inj h
        injection h' with _ hp1'
        subst hp1'
        omega
    · intro p q a node t p1 h hp hq hlen
      have hpL : p.rem.length = a.length + (rest.length + 1) := by
        rw [hp, List.length_append, List.length_cons]
      rw [parse_object_loop_succ] at h ⊢
      by_cases hcond : p.pos < p.input_len ∧ p.cur ≠ 125
      · rw [if_pos hcond] at h
        cases hps : parse_string p with
        | mk k p2 =>
          rw [hps] at h
          cases k with
          | none => simp at h
          | some key =>
            simp only at h
            split_ifs at h with hcol
            · simp at h
            · cases hv : parse_value f (skip_whitespace ((skip_whitespace p2).advance 1)) with
              | none => rw [hv] at h; simp at h
              | some x0 =>
                obtain ⟨n, p4⟩ := x0
                rw [hv] at h
                cases n with
                | none => simp at h
                | some v =>
                  simp only at h
                  cases a with
                  | nil =>
                    have hcur := rem_cons_cur _ _ _ hp
                    have : p.cur ≠ 34 := by rcases hc with hc | hc <;> omega
                    unfold parse_string at hps
                    rw [if_pos (Or.inr this)] at hps
                    injection hps with hps _
                    exact absurd hps (by simp)
                  | cons x0 y0 =>
                    have hbef := parse_string_stops_before p (x0 :: y0) (c :: rest) key p2 hp
                      (by simp) h34 hps
                    obtain ⟨k, x, hax, hk, rfl, es⟩ :=
                      parse_string_local p q (x0 :: y0) (c :: rest) [] key p2 hp
                        (by rw [hq, List.append_nil]) hps hbef
                    have d1 : (skip_whitespace (p.advance k)).rem =
                        ((x0 :: y0).drop k).dropWhile is_ws ++ c :: rest := by
                      rw [(skip_whitespace_spec _).2.2.1, rem_advance, hp,
                        List.drop_append_of_le_length hk]
                      exact dropWhile_append_stop _ c rest hw
                    have d2 : (skip_whitespace (q.advance k)).rem =
                        ((x0 :: y0).drop k).dropWhile is_ws := by
                      rw [(skip_whitespace_spec _).2.2.1, rem_advance, hq]
                    cases hd : ((x0 :: y0).drop k).dropWhile is_ws with
                    | nil =>
                      rw [hd] at d1
                      have hcur := rem_cons_cur _ _ _ d1
                      have hl0 := rem_cons_lt _ _ _ d1
                      exfalso
                      apply hcol
                      right
                      rw [hcur]
                      rcases hc with hc | hc <;> omega
                    | cons c0 r =>
                      rw [hd] at d1 d2
                      have hpc := rem_cons_cur _ c0 (r ++ c :: rest) d1
                      have hql := rem_cons_lt _ c0 r d2
                      have hqc := rem_cons_cur _ c0 r d2
                      have hc58 : c0 = 58 := by
                        by_contra hh
                        exact hcol (Or.inr (by rw [hpc]; exact hh))
                      have e1 : (skip_whitespace ((skip_whitespace (p.advance k)).advance 1)).rem =
                          r.dropWhile is_ws ++ c :: rest := by
                        rw [(skip_whitespace_spec _).2.2.1, rem_advance, d1]
                        exact dropWhile_append_stop r c rest hw
                      have e2 : (skip_whitespace ((skip_whitespace (q.advance k)).advance 1)).rem =
                          r.dropWhile is_ws := by
                        rw [(skip_whitespace_spec _).2.2.1, rem_advance, d2]
                        rfl
                      have herr : (skip_whitespace
                          ((skip_whitespace (q.advance k)).advance 1)).errors = q.errors := by
                        rw [(skip_whitespace_spec _).2.1]
                        show (skip_whitespace (q.advance k)).errors = q.errors
                        rw [(skip_whitespace_spec _).2.1]
                        rfl
                      have hq0l := rem_cons_lt _ x0 y0 hq
                      have hq0c := rem_cons_cur _ x0 y0 hq
                      have hp0c := rem_cons_cur _ x0 (y0 ++ c :: rest) hp
                      rw [if_pos ⟨hq0l, by rw [hq0c, ← hp0c]; exact hcond.2⟩, es]
                      simp only
                      rw [if_neg (by rw [hqc, hc58]; omega)]
                      by_cases hcase : p4.rem.length ≤ rest.length
                      · obtain ⟨q1, ev, he1, hq1⟩ := ihv _ _ _ v p4 hv e1 e2 hcase
                        rw [ev]
                        exact ⟨q1, rfl, by rw [he1, herr], hq1⟩
                      · obtain ⟨q4, a4, ev, he4, e5, e6⟩ :=
                          (parse_local (c :: rest) [] hcompat f).1 _ _ _ v p4 hv e1
                            (by rw [e2, List.append_nil])
                            (by simp only [List.length_cons]; omega)
                        rw [List.append_nil] at e6
                        have e7 : (skip_comma p4).rem = comma_drop a4 ++ c :: rest := by
                          rw [skip_comma_rem_eq, e5, comma_drop_append_stop a4 c rest hw h44]
                        have e8 : (skip_comma q4).rem = comma_drop a4 := by
                          rw [skip_comma_rem_eq, e6]
                        obtain ⟨q1, el, he1, hq1⟩ := ihol _ _ _ _ t p1 h e7 e8 hlen
                        rw [ev]
                        simp only
                        rw [el]
                        exact ⟨q1, rfl, by rw [he1, skip_comma_errors, he4, herr], hq1⟩
      · rw [if_neg hcond] at h
        have h' := Option.some.inj h
        injection h' with _ hp1'
        subst hp1'
        omega

/-! ## Runs on a call stack of bounded capacity -/

theorem parse_value_on_succ (stack fuel : Nat) (p0 : JsonParser) :
    parse_value_on (stack + 1) (fuel + 1) p0 =
      if (skip_whitespace p0).pos < (skip_whitespace p0).input_len ∧ (skip_whitespace p0).cur = 123
      then parse_object_on stack fuel (skip_whitespace p0)
      else if (skip_whitespace p0).pos < (skip_whitespace p0).input_len ∧
          (skip_whitespace p0).cur = 91
      then parse_array_on stack fuel (skip_whitespace p0)
      else some (Run.done (parse_leaf (skip_whitespace p0))) := by
  rw [parse_value_on]
  simp only [parse_leaf]
  generalize skip_whitespace p0 = p
  by_cases h0 : p.pos ≥ p.input_len
  · have : ¬ p.pos < p.input_len := by omega
    simp [h0, this]
  · have h0' : p.pos < p.input_len := by omega
    simp only [h0, h0', if_false, true_and]
    by_cases h1 : p.cur = 34
    · simp only [h1, if_true]
      simp only [show ¬ (34 : Nat) = 123 by decide, show ¬ (34 : Nat) = 91 by decide, if_false]
      cases hps : parse_string p with
      | mk a b => cases a <;> rfl
    · simp only [h1, if_false]
      by_cases h2 : p.cur = 123
      · simp [h2]
      · simp only [h2, if_false]
        by_cases h3 : p.cur = 91
        · simp [h3]
        · simp only [h3, if_false]
          split_ifs <;> rfl

theorem parse_array_on_succ (stack fuel : Nat) (p0 : JsonParser) :
    parse_array_on (stack + 1) (fuel + 1) p0 =
      match parse_array_loop_on stack fuel (skip_whitespace (p0.advance 1))
          (tree_node_create none none JsonType.JSON_ARRAY) with
      | none => none
      | some Run.killed => some Run.killed
      | some (Run.done (none, p1)) => some (Run.done (none, p1))
      | some (Run.done (some node1, p1)) =>
        if p1.pos ≥ p1.input_len ∨ p1.cur ≠ 93 then
          some (Run.done (none, add_error p1 "Unterminated array"))
        else some (Run.done (some node1, p1.advance 1)) := by
  first | rfl | rw [parse_array_on]

theorem parse_object_on_succ (stack fuel : Nat) (p0 : JsonParser) :
    parse_object_on (stack + 1) (fuel + 1) p0 =
      match parse_object_loop_on stack fuel (skip_whitespace (p0.advance 1))
          (tree_node_create none none JsonType.JSON_OBJECT) with
      | none => none
      | some Run.killed => some Run.killed
      | some (Run.done (none, p1)) => some (Run.done (none, p1))
      | some (Run.done (some node1, p1)) =>
        if p1.pos ≥ p1.input_len ∨ p1.cur ≠ 125 then
          some (Run.done (none, add_error p1 "Unterminated object"))
        else some (Run.done (some node1, p1.advance 1)) := by
  first | rfl | rw [parse_object_on]

theorem parse_array_loop_on_succ (stack fuel : Nat) (p : JsonParser) (node : TreeNode) :
    parse_array_loop_on stack (fuel + 1) p node =
      if p.pos < p.input_len ∧ p.cur ≠ 93 then
        match parse_value_on stack fuel p with
        | none => none
        | some Run.killed => some Run.killed
        | some (Run.done (none, p1)) => some (Run.done (none, p1))
        | some (Run.done (some value, p1)) =>
          parse_array_loop_on stack fuel (skip_comma p1)
            (tree_node_add_child node
              { value with name := some (strdup (index_str node.children.length)) })
      else some (Run.done (some node, p)) := by
  rw [parse_array_loop_on]
  rfl

theorem parse_object_loop_on_succ (stack fuel : Nat) (p : JsonParser) (node : TreeNode) :
    parse_object_loop_on stack (fuel + 1) p node =
      if p.pos < p.input_len ∧ p.cur ≠ 125 then
        match parse_string p with
        | (none, p1) => some (Run.done (none, p1))
        | (some key, p1) =>
          if (skip_whitespace p1).pos ≥ (skip_whitespace p1).input_len ∨
              (skip_whitespace p1).cur ≠ 58 then
            some (Run.done (none, add_error (skip_whitespace p1) "Expected ':'"))
          else
            match parse_value_on stack fuel (skip_whitespace ((skip_whitespace p1).advance 1)) with
            | none => none
            | some Run.killed => some Run.killed
            | some (Run.done (none, p4)) => some (Run.done (none, p4))
            | some (Run.done (some value, p4)) =>
              parse_object_loop_on stack fuel (skip_comma p4)
                (tree_node_add_child node { value with name := some key })
      else some (Run.done (some node, p)) := by
  rw [parse_object_loop_on]
  rfl

theorem parse_value_on_zero (fuel : Nat) (p : JsonParser) :
    parse_value_on 0 (fuel + 1) p = some Run.killed := by
  rw [parse_value_on]

theorem parse_array_on_zero (fuel : Nat) (p : JsonParser) :
    parse_array_on 0 (fuel + 1) p = some Run.killed := by
  rw [parse_array_on]

theorem parse_object_on_zero (fuel : Nat) (p : JsonParser) :
    parse_object_on 0 (fuel + 1) p = some Run.killed := by
  rw [parse_object_on]

/-- A run that is not ended by the call stack returns what the functions
return. -/
theorem parse_on_agrees (f : Nat) : ∀ stack : Nat,
    (∀ p r, parse_value_on stack f p = some (Run.done r) → parse_value f p = some r) ∧
    (∀ p r, parse_array_on stack f p = some (Run.done r) → parse_array f p = some r) ∧
    (∀ p r, parse_object_on stack f p = some (Run.done r) → parse_object f p = some r) ∧
    (∀ p node r, parse_array_loop_on stack f p node = some (Run.done r) →
      parse_array_loop f p node = some r) ∧
    (∀ p node r, parse_object_loop_on stack f p node = some (Run.done r) →
      parse_object_loop f p node = some r) := by
  induction f with
  | zero =>
    intro stack
    refine ⟨?_, ?_, ?_, ?_, ?_⟩
    · intro p r h; simp [parse_value_on] at h
    · intro p r h; simp [parse_array_on] at h
    · intro p r h; simp [parse_object_on] at h
    · intro p node r h; simp [parse_array_loop_on] at h
    · intro p node r h; simp [parse_object_loop_on] at h
  | succ f ih =>
    intro stack
    refine ⟨?_, ?_, ?_, ?_, ?_⟩
    · intro p r h
      cases stack with
      | zero => rw [parse_value_on_zero] at h; simp at h
      | succ s =>
        rw [parse_value_on_succ] at h
        rw [parse_value_succ]
        split_ifs at h ⊢
        · exact (ih s).2.2.1 _ _ h
        · exact (ih s).2.1 _ _ h
        · injection h with h
          injection h with h
          rw [h]
    · intro p r h
      cases stack with
      | zero => rw [parse_array_on_zero] at h; simp at h
      | succ s =>
        rw [parse_array_on_succ] at h
        rw [parse_array_succ]
        cases hl : parse_array_loop_on s f (skip_whitespace (p.advance 1))
            (tree_node_create none none JsonType.JSON_ARRAY) with
        | none => rw [hl] at h; simp at h
        | some x =>
          rw [hl] at h
          cases x with
          | killed => simp at h
          | done y =>
            obtain ⟨n, p2⟩ := y
            rw [(ih s).2.2.2.1 _ _ _ hl]
            cases n with
            | none =>
              simp only at h ⊢
              injection h with h
              injection h with h
              rw [h]
            | some n1 =>
              simp only at h ⊢
              split_ifs at h ⊢
              · injection h with h
                injection h with h
                rw [h]
              · injection h with h
                injection h with h
                rw [h]
    · intro p r h
      cases stack with
      | zero => rw [parse_object_on_zero] at h; simp at h
      | succ s =>
        rw [parse_object_on_succ] at h
        rw [parse_object_succ]
        cases hl : parse_object_loop_on s f (skip_whitespace (p.advance 1))
            (tree_node_create none none JsonType.JSON_OBJECT) with
        | none => rw [hl] at h; simp at h
        | some x =>
          rw [hl] at h
          cases x with
          | killed => simp at h
          | done y =>
            obtain ⟨n, p2⟩ := y
            rw [(ih s).2.2.2.2 _ _ _ hl]
            cases n with
            | none =>
              simp only at h ⊢
              injection h with h
              injection h with h
              rw [h]
            | some n1 =>
              simp only at h ⊢
              split_ifs at h ⊢
              · injection h with h
                injection h with h
                rw [h]
              · injection h with h
                injection h with h
                rw [h]
    · intro p node r h
      rw [parse_array_loop_on_succ] at h
      rw [parse_array_loop_succ]
      by_cases hcond : p.pos < p.input_len ∧ p.cur ≠ 93
      · rw [if_pos hcond] at h ⊢
        cases hv : parse_value_on stack f p with
        | none => rw [hv] at h; simp at h
        | some x =>
          rw [hv] at h
          cases x with
          | killed => simp at h
          | done y =>
            obtain ⟨n, p2⟩ := y
            rw [(ih stack).1 _ _ hv]
            cases n with
            | none =>
              simp only at h ⊢
              injection h with h
              injection h with h
              rw [h]
            | some v =>
              simp only at h ⊢
              exact (ih stack).2.2.2.1 _ _ _ h
      · rw [if_neg hcond] at h ⊢
        injection h with h
        injection h with h
        rw [h]
    · intro p node r h
      rw [parse_object_loop_on_succ] at h
      rw [parse_object_loop_succ]
      by_cases hcond : p.pos < p.input_len ∧ p.cur ≠ 125
      · rw [if_pos hcond] at h ⊢
        cases hps : parse_string p with
        | mk k p2 =>
          rw [hps] at h
          cases k with
          | none =>
            simp only at h ⊢
            injection h with h
            injection h with h
            rw [h]
          | some key =>
            simp only at h ⊢
            split_ifs at h ⊢ with hcol
            · injection h with h
              injection h with h
              rw [h]
            · cases hv : parse_value_on stack f
                  (skip_whitespace ((skip_whitespace p2).advance 1)) with
              | none => rw [hv] at h; simp at h
              | some x =>
                rw [hv] at h
                cases x with
                | killed => simp at h
                | done y =>
                  obtain ⟨n, p4⟩ := y
                  rw [(ih stack).1 _ _ hv]
                  cases n with
                  | none =>
                    simp only at h ⊢
                    injection h with h
                    injection h with h
                    rw [h]
                  | some v =>
                    simp only at h ⊢
                    exact (ih stack).2.2.2.2 _ _ _ h
      · rw [if_neg hcond] at h ⊢
        injection h with h
        injection h with h
        rw [h]

/-- The entry point on a bounded call stack, when it returns, returns what
`json_parse_tree` returns. -/
theorem json_parse_tree_on_agrees (stack : Nat) (p : JsonParser)
    (r : Option TreeNode × JsonParser) (h : json_parse_tree_on stack p = some (Run.done r)) :
    json_parse_tree p = some r :=
  (parse_on_agrees _ stack).1 _ _ h

theorem brackets_length (n : Nat) : (brackets n).length = 2 * n := by
  unfold brackets
  rw [List.length_append, List.length_replicate, List.length_replicate]
  omega

/-- Opening brackets nested deeper than the call stack has room for end the
process, whatever follows them. -/
theorem open_brackets_killed (n : Nat) : ∀ (stack f : Nat) (p : JsonParser) (tail : Bytes),
    p.rem = List.replicate n 91 ++ tail → stack < 2 * n → 3 * n ≤ f →
    parse_value_on stack f p = some Run.killed := by
  induction n with
  | zero => intro stack f p tail _ hs _; omega
  | succ n ih =>
    intro stack f p tail hp hs hf
    obtain ⟨g, rfl⟩ : ∃ g, f = g + 3 := ⟨f - 3, by omega⟩
    have hp' : p.rem = 91 :: (List.replicate n 91 ++ tail) := by
      rw [hp, List.replicate_succ]; rfl
    cases stack with
    | zero => exact parse_value_on_zero _ _
    | succ s =>
      have hl := rem_cons_lt _ _ _ hp'
      have hcur := rem_cons_cur _ _ _ hp'
      have hsk := skip_whitespace_noop _ 91 _ hp' (by decide)
      rw [parse_value_on_succ, hsk,
        if_neg (by rw [hcur]; exact fun hh => absurd hh.2 (by decide)), if_pos ⟨hl, hcur⟩]
      cases s with
      | zero => exact parse_array_on_zero _ _
      | succ s2 =>
        cases n with
        | zero => omega
        | succ m =>
          have e1 : (p.advance 1).rem = List.replicate (m + 1) 91 ++ tail := by
            rw [rem_advance, hp']; rfl
          have e1' : (p.advance 1).rem = 91 :: (List.replicate m 91 ++ tail) := by
            rw [e1, List.replicate_succ]; rfl
          have hsk1 := skip_whitespace_noop _ 91 _ e1' (by decide)
          have hl1 := rem_cons_lt _ _ _ e1'
          have hcur1 := rem_cons_cur _ _ _ e1'
          rw [parse_array_on_succ, hsk1, parse_array_loop_on_succ,
            if_pos ⟨hl1, by rw [hcur1]; decide⟩,
            ih s2 g (p.advance 1) tail e1 (by omega) (by omega)]

/-- The brackets of `k + 1` nested empty arrays are read as that tree, whatever
follows them, when the call stack has room for the `2 * (k + 1)` nested calls
they need. -/
theorem brackets_parse_on (k : Nat) : ∀ (rest : Bytes) (p : JsonParser) (stack f : Nat),
    p.rem = brackets (k + 1) ++ rest → 2 * (k + 1) ≤ stack → 3 * (k + 1) ≤ f →
    ∃ p1, parse_value_on stack f p = some (Run.done (some (nested_arrays none k), p1)) ∧
      p1.rem = rest ∧ p1.errors = p.errors := by
  induction k with
  | zero =>
    intro rest p stack f hp hs hf
    obtain ⟨s, rfl⟩ : ∃ s, stack = s + 2 := ⟨stack - 2, by omega⟩
    obtain ⟨g, rfl⟩ : ∃ g, f = g + 3 := ⟨f - 3, by omega⟩
    have hp' : p.rem = 91 :: 93 :: rest := by rw [hp]; rfl
    have hl := rem_cons_lt _ _ _ hp'
    have hcur := rem_cons_cur _ _ _ hp'
    have hsk := skip_whitespace_noop _ 91 _ hp' (by decide)
    have e1 : (p.advance 1).rem = 93 :: rest := by rw [rem_advance, hp']; rfl
    have hsk1 := skip_whitespace_noop _ 93 _ e1 (by decide)
    have hl1 := rem_cons_lt _ _ _ e1
    have hcur1 := rem_cons_cur _ _ _ e1
    refine ⟨(p.advance 1).advance 1, ?_, by rw [rem_advance, e1]; rfl, rfl⟩
    rw [parse_value_on_succ, hsk, if_neg (by rw [hcur]; exact fun hh => absurd hh.2 (by decide)),
      if_pos ⟨hl, hcur⟩, parse_array_on_succ, hsk1, parse_array_loop_on_succ,
      if_neg (by rw [hcur1]; exact fun hh => hh.2 rfl)]
    simp only
    rw [if_neg (by rw [hcur1]; omega)]
    rfl
  | succ k ih =>
    intro rest p stack f hp hs hf
    obtain ⟨s, rfl⟩ : ∃ s, stack = s + 2 := ⟨stack - 2, by omega⟩
    obtain ⟨g, rfl⟩ : ∃ g, f = g + 1 + 3 := ⟨f - 4, by omega⟩
    rw [brackets_succ] at hp
    have hl := rem_cons_lt _ _ _ hp
    have hcur := rem_cons_cur _ _ _ hp
    have hsk := skip_whitespace_noop _ 91 _ hp (by decide)
    have e1 : (p.advance 1).rem = brackets (k + 1) ++ 93 :: rest := by rw [rem_advance, hp]; rfl
    have e1' : (p.advance 1).rem = 91 :: (brackets k ++ 93 :: (93 :: rest)) := by
      rw [e1, brackets_succ]
    have hsk1 := skip_whitespace_noop _ 91 _ e1' (by decide)
    have hl1 := rem_cons_lt _ _ _ e1'
    have hcur1 := rem_cons_cur _ _ _ e1'
    obtain ⟨p2, hv, hr2, he2⟩ := ih (93 :: rest) (p.advance 1) s (g + 1) e1 (by omega) (by omega)
    have hsc : (skip_comma p2).rem = 93 :: rest := by
      rw [skip_comma_ws p2 [] 93 rest (by rw [hr2]; rfl) rfl (by decide), if_neg (by decide)]
    have hl2 := rem_cons_lt _ _ _ hsc
    have hcur2 := rem_cons_cur _ _ _ hsc
    refine ⟨(skip_comma p2).advance 1, ?_, by rw [rem_advance, hsc]; rfl, ?_⟩
    · rw [parse_value_on_succ, hsk, if_neg (by rw [hcur]; exact fun hh => absurd hh.2 (by decide)),
        if_pos ⟨hl, hcur⟩, parse_array_on_succ, hsk1, parse_array_loop_on_succ,
        if_pos ⟨hl1, by rw [hcur1]; decide⟩, hv]
      simp only
      rw [parse_array_loop_on_succ, if_neg (by rw [hcur2]; exact fun hh => hh.2 rfl)]
      simp only
      rw [if_neg (by rw [hcur2]; omega)]
      simp only [tree_node_add_child, tree_node_create, Option.map_none', List.nil_append,
        List.length_nil]
      rw [nested_arrays_rename]
      rfl
    · rw [advance_errors, skip_comma_errors, he2]
      rfl

theorem collect_stats_on_nested (k : Nat) : ∀ (nm : Option Bytes) (stack : Nat)
    (stats : JsonStats) (depth : Nat), k + 1 ≤ stack →
    collect_stats_on stack (nested_arrays nm k) stats depth =
      Run.done (collect_stats (nested_arrays nm k) stats depth) := by
  induction k with
  | zero =>
    intro nm stack stats depth hs
    obtain ⟨s, rfl⟩ : ∃ s, stack = s + 1 := ⟨stack - 1, by omega⟩
    obtain ⟨tk, tv, sd, ty⟩ := stats
    rw [nested_arrays, collect_stats_on, collect_stats_loop_on, collect_stats,
      collect_stats_loop]
  | succ k ih =>
    intro nm stack stats depth hs
    obtain ⟨s, rfl⟩ : ∃ s, stack = s + 1 := ⟨stack - 1, by omega⟩
    obtain ⟨tk, tv, sd, ty⟩ := stats
    rw [nested_arrays, collect_stats_on, collect_stats_loop_on, ih _ s _ _ (by omega),
      collect_stats, collect_stats_loop, collect_stats_loop]
    simp only
    rw [collect_stats_loop_on]

theorem tree_node_destroy_on_nested (k : Nat) : ∀ (nm : Option Bytes) (stack : Nat),
    k + 1 ≤ stack → tree_node_destroy_on stack (nested_arrays nm k) = Run.done () := by
  induction k with
  | zero =>
    intro nm stack hs
    obtain ⟨s, rfl⟩ : ∃ s, stack = s + 1 := ⟨stack - 1, by omega⟩
    rw [nested_arrays, tree_node_destroy_on, tree_node_destroy_loop_on]
  | succ k ih =>
    intro nm stack hs
    obtain ⟨s, rfl⟩ : ∃ s, stack = s + 1 := ⟨stack - 1, by omega⟩
    rw [nested_arrays, tree_node_destroy_on, tree_node_destroy_loop_on, ih _ s (by omega)]
    simp only
    rw [tree_node_destroy_loop_on]

/-! ## The claims -/

/-- C1 (round trip).  For every NUL-free input on which `json_parse_tree`
yields a tree `t` with zero diagnostics, for every indent width `w` and
whatever bytes the memory holds after the contents of the output buffer
(`stale`), `json_format` returns a text, and parsing that text yields a tree
equal to `t` (same types, names, values and child order at every position)
with zero diagnostics: the bytes that follow the final line feed of the text
are not read by the parser. -/
theorem format_parse_roundtrip (stale : Bytes) (p : JsonParser) (w : Nat) (t : TreeNode)
    (p1 : JsonParser) (hnul : ∀ b ∈ p.input, b ≠ 0)
    (hparse : json_parse_tree p = some (some t, p1)) (_herr : p1.errors = []) :
    ∃ text p2, json_format stale p w = some (some text, p2) ∧
      ∃ p3, json_parse_tree (json_parser_create text) = some (some t, p3) ∧ p3.errors = [] := by
  obtain ⟨_, hname, hrep⟩ := (parse_reparses _).1 p.reset t p1 hnul
    (by rw [← json_parse_tree_eq]; exact hparse)
  obtain ⟨_, _, hre⟩ := hrep w 0
  refine ⟨fmt_body t w 0 ++ 10 :: cstr stale, p1, json_format_eq stale p w t p1 hparse, ?_⟩
  obtain ⟨q1, hq1, _, he, _⟩ :=
    hre (json_parser_create (fmt_body t w 0 ++ 10 :: cstr stale)).reset (10 :: cstr stale)
      (3 * (fmt_body t w 0 ++ 10 :: cstr stale).length + 1) ⟨10, cstr stale, rfl, Or.inr rfl⟩ rfl
      (Nat.le_refl _)
  refine ⟨q1, ?_, by rw [he]; rfl⟩
  rw [json_parse_tree_eq]
  have : ({ t with name := none } : TreeNode) = t := by
    cases t
    simp only at hname
    subst hname
    rfl
  rw [this] at hq1
  exact hq1

/-- Witness of C1 at the input `[1,"a"]` with indent width 2, the memory after
the contents of the buffer holding the bytes `x]` and a NUL. -/
theorem format_parse_roundtrip_witness :
    (∀ b ∈ (json_parser_create (bytes "[1,\"a\"]")).input, b ≠ 0) ∧
    ∃ text p2, json_format [120, 93, 0] (json_parser_create (bytes "[1,\"a\"]")) 2 =
        some (some text, p2) ∧
      ∃ p3, json_parse_tree (json_parser_create text) =
          some (some ⟨none, none, JsonType.JSON_ARRAY,
            [⟨some (bytes "0"), some (bytes "1"), JsonType.JSON_NUMBER, []⟩,
             ⟨some (bytes "1"), some (bytes "a"), JsonType.JSON_STRING, []⟩]⟩, p3) ∧
        p3.errors = [] :=
  ⟨by decide,
   format_parse_roundtrip [120, 93, 0] (json_parser_create (bytes "[1,\"a\"]")) 2 _
    ⟨bytes "[1,\"a\"]", 7, 1, 7, []⟩ (by decide) (by rfl) (by rfl)⟩

/-- C2 (escape/unescape inverse).  For every text of ASCII bytes (a C string:
bytes 1 to 127, the seven special characters included),
`json_unescape_string (json_escape_string text)` is `text`. -/
theorem unescape_escape_ascii (text : Bytes) (h : ∀ b ∈ text, 0 < b ∧ b < 128) :
    json_unescape_string (json_escape_string text) = text := by
  rw [unescape_escape_cstr]
  exact cstr_of_nulfree text (fun b hb => by have := (h b hb).1; omega)

/-- Witness of C2 on a text holding the seven special characters. -/
theorem unescape_escape_ascii_witness :
    (∀ b ∈ [97, 34, 92, 8, 12, 10, 13, 9, 98], 0 < b ∧ b < 128) ∧
    json_unescape_string (json_escape_string [97, 34, 92, 8, 12, 10, 13, 9, 98]) =
      [97, 34, 92, 8, 12, 10, 13, 9, 98] :=
  ⟨by decide, unescape_escape_ascii [97, 34, 92, 8, 12, 10, 13, 9, 98] (by decide)⟩

/-- C3, counterexample.  On the input `{"a":1,}` the parse does not fail: it is
not the case that no tree is returned, or that `json_validate` returns false. -/
theorem trailing_comma_not_rejected :
    ¬ ((∃ q, json_parse_tree (json_parser_create (bytes "\x7b\"a\":1,\x7d")) = some (none, q)) ∨
       (∃ q, json_validate (json_parser_create (bytes "\x7b\"a\":1,\x7d")) = some (false, q))) := by
  have h1 : json_parse_tree (json_parser_create (bytes "\x7b\"a\":1,\x7d")) =
      some (some ⟨none, none, JsonType.JSON_OBJECT,
        [⟨some (bytes "a"), some (bytes "1"), JsonType.JSON_NUMBER, []⟩]⟩,
        ⟨bytes "\x7b\"a\":1,\x7d", 8, 1, 8, []⟩) := by rfl
  have h2 : json_validate (json_parser_create (bytes "\x7b\"a\":1,\x7d")) =
      some (true, ⟨bytes "\x7b\"a\":1,\x7d", 8, 1, 8, []⟩) := by rfl
  rintro (⟨q, hq⟩ | ⟨q, hq⟩)
  · rw [h1] at hq
    injection hq with hq
    injection hq with hq _
    exact absurd hq (by simp)
  · rw [h2] at hq
    injection hq with hq
    injection hq with hq _
    exact absurd hq (by simp)

/-- C3, amended.  Trailing commas are tolerated.  When, after an element of an
array or a member of an object, the unread input is optional whitespace, a
comma, optional whitespace and the closing byte, the comma and the whitespace
are skipped without a diagnostic, and the element loop of an array (closing
byte `]`) or of an object (closing byte `}`) ends there with the children read
so far.  In particular `{"a":1,}` parses to the object with the single member
`a` = `1`, with zero diagnostics, and `json_validate` returns true. -/
theorem trailing_comma_tolerated (q : JsonParser) (ws1 ws2 rest : Bytes) (closer : Nat)
    (h1 : ∀ b ∈ ws1, is_ws b = true) (h2 : ∀ b ∈ ws2, is_ws b = true)
    (hc : closer = 93 ∨ closer = 125)
    (hq : q.rem = ws1 ++ 44 :: (ws2 ++ closer :: rest)) :
    (skip_comma q).rem = closer :: rest ∧ (skip_comma q).errors = q.errors ∧
    (closer = 93 → ∀ f node,
      parse_array_loop (f + 1) (skip_comma q) node = some (some node, skip_comma q)) ∧
    (closer = 125 → ∀ f node,
      parse_object_loop (f + 1) (skip_comma q) node = some (some node, skip_comma q)) ∧
    json_parse_tree (json_parser_create (bytes "\x7b\"a\":1,\x7d")) =
      some (some ⟨none, none, JsonType.JSON_OBJECT,
        [⟨some (bytes "a"), some (bytes "1"), JsonType.JSON_NUMBER, []⟩]⟩,
        ⟨bytes "\x7b\"a\":1,\x7d", 8, 1, 8, []⟩) ∧
    json_validate (json_parser_create (bytes "\x7b\"a\":1,\x7d")) =
      some (true, ⟨bytes "\x7b\"a\":1,\x7d", 8, 1, 8, []⟩) := by
  have hcw : is_ws closer = false := by rcases hc with h | h <;> subst h <;> decide
  have hs := skip_whitespace_spec q
  have hrem1 : (skip_whitespace q).rem = 44 :: (ws2 ++ closer :: rest) := by
    rw [hs.2.2.1, hq, dropWhile_ws_append _ _ h1, dropWhile_ws_of_head _ _ (by decide)]
  have hlt := rem_cons_lt _ _ _ hrem1
  have hcur := rem_cons_cur _ _ _ hrem1
  have hs2 := skip_whitespace_spec ((skip_whitespace q).advance 1)
  have hsc : skip_comma q = skip_whitespace ((skip_whitespace q).advance 1) := by
    unfold skip_comma
    rw [if_pos ⟨hlt, hcur⟩]
  have hrem : (skip_comma q).rem = closer :: rest := by
    rw [hsc, hs2.2.2.1, rem_advance, hrem1]
    show List.dropWhile is_ws (ws2 ++ closer :: rest) = closer :: rest
    rw [dropWhile_ws_append _ _ h2, dropWhile_ws_of_head _ _ hcw]
  have hcur2 := rem_cons_cur _ _ _ hrem
  refine ⟨hrem, by rw [hsc, hs2.2.1, advance_errors, hs.2.1], ?_, ?_, by rfl, by rfl⟩
  · intro h f node
    rw [parse_array_loop_succ, if_neg (by rw [hcur2, h]; simp)]
  · intro h f node
    rw [parse_object_loop_succ, if_neg (by rw [hcur2, h]; simp)]

/-- Witness of the amended C3: after the member `"a":1` of `{"a":1,}` the
cursor is at offset 6, before `,}`. -/
theorem trailing_comma_tolerated_witness :
    (skip_comma ⟨bytes "\x7b\"a\":1,\x7d", 6, 1, 6, []⟩).rem = [125] ∧
    (skip_comma ⟨bytes "\x7b\"a\":1,\x7d", 6, 1, 6, []⟩).errors = [] :=
  ⟨(trailing_comma_tolerated ⟨bytes "\x7b\"a\":1,\x7d", 6, 1, 6, []⟩ [] [] [] 125
      (by decide) (by decide) (by decide) (by rfl)).1,
   (trailing_comma_tolerated ⟨bytes "\x7b\"a\":1,\x7d", 6, 1, 6, []⟩ [] [] [] 125
      (by decide) (by decide) (by decide) (by rfl)).2.1⟩

/-- C4, counterexample.  On the input `3.14.15` the parse does not fail: it is
not the case that no tree is returned, or that `json_validate` returns false. -/
theorem second_decimal_point_not_rejected :
    ¬ ((∃ q, json_parse_tree (json_parser_create (bytes "3.14.15")) = some (none, q)) ∨
       (∃ q, json_validate (json_parser_create (bytes "3.14.15")) = some (false, q))) := by
  have h1 : json_parse_tree (json_parser_create (bytes "3.14.15")) =
      some (some ⟨none, some (bytes "3.14"), JsonType.JSON_NUMBER, []⟩,
        ⟨bytes "3.14.15", 4, 1, 4, []⟩) := by rfl
  have h2 : json_validate (json_parser_create (bytes "3.14.15")) =
      some (true, ⟨bytes "3.14.15", 4, 1, 4, []⟩) := by rfl
  rintro (⟨q, hq⟩ | ⟨q, hq⟩)
  · rw [h1] at hq
    injection hq with hq
    injection hq with hq _
    exact absurd hq (by simp)
  · rw [h2] at hq
    injection hq with hq
    injection hq with hq _
    exact absurd hq (by simp)

/-- C4, amended.  For the input `3.14.15` the number scan stops after `3.14`,
leaving `.15` unconsumed (the cursor stops at offset 4); the rest of the input
is not examined: the parse returns the Number node `3.14` with no diagnostic
and `json_validate` returns true.  Inside an array the stray `.` does make the
parse fail: `[3.14.15]` yields no tree and the diagnostic "Invalid value" at
line 1, column 5. -/
theorem second_decimal_point_stops_scan :
    json_parse_tree (json_parser_create (bytes "3.14.15")) =
      some (some ⟨none, some (bytes "3.14"), JsonType.JSON_NUMBER, []⟩,
        ⟨bytes "3.14.15", 4, 1, 4, []⟩) ∧
    (⟨bytes "3.14.15", 4, 1, 4, []⟩ : JsonParser).rem = bytes ".15" ∧
    json_validate (json_parser_create (bytes "3.14.15")) =
      some (true, ⟨bytes "3.14.15", 4, 1, 4, []⟩) ∧
    json_parse_tree (json_parser_create (bytes "[3.14.15]")) =
      some (none, ⟨bytes "[3.14.15]", 5, 1, 5, [⟨"Invalid value", 1, 5⟩]⟩) :=
  ⟨by rfl, by rfl, by rfl, by rfl⟩

theorem stats_example_eval :
    json_stats (json_parser_create (bytes "\x7b\"a\":[1,2,\x7b\"b\":3\x7d]\x7d")) =
      some (⟨5, 6, 3, ⟨0, 3, 0, 0, 1, 2⟩⟩,
        ⟨bytes "\x7b\"a\":[1,2,\x7b\"b\":3\x7d]\x7d", 19, 1, 19, []⟩) := by
  have hp : json_parse_tree (json_parser_create (bytes "\x7b\"a\":[1,2,\x7b\"b\":3\x7d]\x7d")) =
      some (some stats_example_tree,
        ⟨bytes "\x7b\"a\":[1,2,\x7b\"b\":3\x7d]\x7d", 19, 1, 19, []⟩) := by rfl
  have hc : collect_stats stats_example_tree stats_zero 0 = ⟨5, 6, 3, ⟨0, 3, 0, 0, 1, 2⟩⟩ := by
    decide
  unfold json_stats
  rw [hp]
  simp only [hc]

/-- C5, counterexample.  For the input `{"a":[1,2,{"b":3}]}` the statistics are
not depth 3, total_values 6 and total_keys 4. -/
theorem stats_example_not_four_keys :
    ¬ ∃ s q, json_stats (json_parser_create (bytes "\x7b\"a\":[1,2,\x7b\"b\":3\x7d]\x7d")) =
        some (s, q) ∧ s.depth = 3 ∧ s.total_values = 6 ∧ s.total_keys = 4 := by
  rintro ⟨s, q, hs, _, _, hk⟩
  rw [stats_example_eval] at hs
  injection hs with hs
  injection hs with hs _
  subst hs
  simp at hk

/-- C5, amended.  For the input `{"a":[1,2,{"b":3}]}`, `json_stats` returns
depth = 3, total_values = 6 and total_keys = 5: every node but the root is
named (`a`, `0`, `1`, `2`, `b`). -/
theorem stats_example_five_keys :
    ∃ s q, json_stats (json_parser_create (bytes "\x7b\"a\":[1,2,\x7b\"b\":3\x7d]\x7d")) =
        some (s, q) ∧ s.depth = 3 ∧ s.total_values = 6 ∧ s.total_keys = 5 :=
  ⟨⟨5, 6, 3, ⟨0, 3, 0, 0, 1, 2⟩⟩, ⟨bytes "\x7b\"a\":[1,2,\x7b\"b\":3\x7d]\x7d", 19, 1, 19, []⟩,
    stats_example_eval, rfl, rfl, rfl⟩

/-- C6.  For every input on which the parse yields a tree, `json_stats`
returns, and its `depth` is the maximum number of edges on a path from the root
to a node of that tree: some path has that many edges and no path has more
(a scalar document has depth 0). -/
theorem stats_depth_is_longest_path (p : JsonParser) (t : TreeNode) (p1 : JsonParser)
    (h : json_parse_tree p = some (some t, p1)) :
    ∃ s q, json_stats p = some (s, q) ∧ PathLen t s.depth ∧ ∀ n, PathLen t n → n ≤ s.depth := by
  refine ⟨collect_stats t stats_zero 0, p1, ?_, ?_, ?_⟩
  · unfold json_stats
    rw [h]
  · rw [collect_stats_depth]
    simp only [stats_zero, Nat.zero_add, Nat.zero_max]
    exact pathLen_height t
  · intro n hn
    rw [collect_stats_depth]
    simp only [stats_zero, Nat.zero_add, Nat.zero_max]
    exact pathLen_le_height t n hn

/-- Witness of C6 at the input `[[1]]`, of depth 2. -/
theorem stats_depth_is_longest_path_witness :
    ∃ s q, json_stats (json_parser_create (bytes "[[1]]")) = some (s, q) ∧
      PathLen ⟨none, none, JsonType.JSON_ARRAY,
        [⟨some (bytes "0"), none, JsonType.JSON_ARRAY,
          [⟨some (bytes "0"), some (bytes "1"), JsonType.JSON_NUMBER, []⟩]⟩]⟩ s.depth ∧
      ∀ n, PathLen ⟨none, none, JsonType.JSON_ARRAY,
        [⟨some (bytes "0"), none, JsonType.JSON_ARRAY,
          [⟨some (bytes "0"), some (bytes "1"), JsonType.JSON_NUMBER, []⟩]⟩]⟩ n → n ≤ s.depth :=
  stats_depth_is_longest_path (json_parser_create (bytes "[[1]]")) _
    ⟨bytes "[[1]]", 5, 1, 5, []⟩ (by rfl)

/-- C7.  For every input and every prior state of the parser handle,
`json_validate` returns, and it returns true if and only if `json_parse_tree`
yields a tree and records zero diagnostics. -/
theorem validate_iff_parse_clean (p : JsonParser) :
    ∃ b q, json_validate p = some (b, q) ∧
      (b = true ↔ ∃ t q1, json_parse_tree p = some (some t, q1) ∧ q1.errors = []) := by
  obtain ⟨⟨r, q⟩, hr, _⟩ := json_parse_tree_total p
  have hv : json_validate p = some (r.isSome && decide (q.errors.length = 0), q) := by
    unfold json_validate
    have : json_parse_tree { p with pos := 0, line := 1, column := 0, errors := [] } =
        json_parse_tree p := rfl
    rw [this, hr]
  refine ⟨_, q, hv, ?_⟩
  rw [hr]
  constructor
  · intro hb
    simp only [Bool.and_eq_true, decide_eq_true_eq, List.length_eq_zero] at hb
    obtain ⟨t, ht⟩ := Option.isSome_iff_exists.mp hb.1
    exact ⟨t, q, by rw [ht], hb.2⟩
  · rintro ⟨t, q1, heq, he⟩
    injection heq with heq
    injection heq with h1 h2
    subst h1 h2
    simp [he]

/-- C8.  For every input that is an opening quote followed by bytes among
which no unescaped quote occurs, the parse yields no tree and records exactly
one diagnostic, "Unterminated string", at line 1 and column equal to the input
length. -/
theorem unterminated_string_diagnostic (p : JsonParser) (s : Bytes)
    (hin : p.input = 34 :: s) (hq : has_unescaped_quote false s = false) :
    ∃ q, json_parse_tree p = some (none, q) ∧
      q.errors = [⟨"Unterminated string", 1, p.input.length⟩] := by
  have hrem : p.reset.rem = 34 :: s := by rw [reset_rem, hin]
  have hskip := skip_whitespace_noop p.reset 34 s hrem (by decide)
  have hlt := rem_cons_lt _ _ _ hrem
  have hcur := rem_cons_cur _ _ _ hrem
  have hps := parse_string_eq _ _ hrem
  rw [scan_string_of_no_quote s false hq, if_pos (Nat.le_refl _)] at hps
  refine ⟨add_error (p.reset.advance (1 + s.length)) "Unterminated string", ?_, ?_⟩
  · rw [json_parse_tree_eq, parse_value_succ, hskip, hcur,
      if_neg (by simp), if_neg (by simp)]
    unfold parse_leaf
    rw [if_neg (by omega), if_pos hcur, hps]
  · simp [add_error, JsonParser.advance, JsonParser.reset, hin, Nat.add_comm]

/-- Witness of C8 at the input `"unterminated`. -/
theorem unterminated_string_diagnostic_witness :
    ∃ q, json_parse_tree (json_parser_create (bytes "\"unterminated")) = some (none, q) ∧
      q.errors = [⟨"Unterminated string", 1, 13⟩] :=
  unterminated_string_diagnostic (json_parser_create (bytes "\"unterminated"))
    (bytes "unterminated") (by rfl) (by rfl)

/-- C9.  For every input made only of whitespace (space, tab, CR, LF), the
empty input included, the parse yields no tree and records exactly one
diagnostic, "Unexpected end of input"; for the empty input it is at line 1,
column 0. -/
theorem blank_input_diagnostic (p : JsonParser) (hws : ∀ b ∈ p.input, is_ws b = true) :
    ∃ q line column, json_parse_tree p = some (none, q) ∧
      q.errors = [⟨"Unexpected end of input", line, column⟩] ∧
      (p.input = [] → line = 1 ∧ column = 0) := by
  have hs := skip_whitespace_spec p.reset
  have hrem : (skip_whitespace p.reset).rem = [] := by
    rw [hs.2.2.1, reset_rem]
    have := dropWhile_ws_append p.input [] hws
    simpa using this
  have hge := rem_nil _ hrem
  refine ⟨add_error (skip_whitespace p.reset) "Unexpected end of input",
    (skip_whitespace p.reset).line, (skip_whitespace p.reset).column, ?_, ?_, ?_⟩
  · rw [json_parse_tree_eq, parse_value_succ, if_neg (by omega), if_neg (by omega)]
    unfold parse_leaf
    rw [if_pos hge]
  · simp only [add_error, hs.2.1]
    rfl
  · intro he
    have : skip_whitespace p.reset = p.reset := by
      unfold skip_whitespace
      have : p.reset.input_len - p.reset.pos = 0 := by
        simp [JsonParser.input_len, JsonParser.reset, he]
      rw [this]
      rfl
    rw [this]
    exact ⟨rfl, rfl⟩

/-- Witness of C9 at the input made of a space, a line feed and a tab. -/
theorem blank_input_diagnostic_witness :
    ∃ q line column, json_parse_tree (json_parser_create [32, 10, 9]) = some (none, q) ∧
      q.errors = [⟨"Unexpected end of input", line, column⟩] ∧
      ((json_parser_create [32, 10, 9]).input = [] → line = 1 ∧ column = 0) :=
  blank_input_diagnostic (json_parser_create [32, 10, 9]) (by decide)

/-- C11, counterexample.  For the input `[1]`, whatever the memory holds after
the contents of the buffer, the text `json_compact` returns is not one line
followed by its final newline: it starts with `[`, LF, `1`, LF, `]`, LF. -/
theorem compact_not_one_line :
    ¬ ∃ stale body q, json_compact stale (json_parser_create (bytes "[1]")) =
        some (some (body ++ [10]), q) ∧ 10 ∉ body := by
  rintro ⟨stale, body, q, hq, hb⟩
  have h : json_compact stale (json_parser_create (bytes "[1]")) =
      some (some ([91, 10, 49, 10, 93] ++ 10 :: cstr stale), ⟨bytes "[1]", 3, 1, 3, []⟩) :=
    json_format_eq stale _ 0 ⟨none, none, JsonType.JSON_ARRAY,
      [⟨some (bytes "0"), some (bytes "1"), JsonType.JSON_NUMBER, []⟩]⟩ _ (by rfl)
  rw [h] at hq
  injection hq with hq
  injection hq with hq _
  injection hq with hq
  rcases body with _ | ⟨c0, _ | ⟨c1, body2⟩⟩
  · simp at hq
  · simp at hq
  · simp only [List.cons_append, List.cons.injEq] at hq
    exact hb (by rw [← hq.2.1]; simp)

/-- C11, amended.  For every input on which the parse succeeds, the text
`json_compact` returns starts with the serialization of the tree without
indentation (`compact_text`) and a line feed.  That serialization is not one
line: a scalar is its text (a String its value between quotes); an array or
object is its opening byte and a line feed, its children, each followed by a
comma (unless it is the last) and a line feed, and its closing byte; an object
member is the quoted key, a colon and one space, and the value.  So the text of
an array or object document starts with the opening byte and a line feed, the
text of a Null, Bool or Number document holds no line feed before the one that
follows it, and the text of a String document is the quoted value. -/
theorem compact_text_spec (stale : Bytes) (p : JsonParser) (t : TreeNode) (p1 : JsonParser)
    (h : json_parse_tree p = some (some t, p1)) :
    (∃ tail, json_compact stale p = some (some (compact_text t ++ 10 :: tail), p1)) ∧
    (t.type = JsonType.JSON_ARRAY → ∃ r, compact_text t = 91 :: 10 :: r) ∧
    (t.type = JsonType.JSON_OBJECT → ∃ r, compact_text t = 123 :: 10 :: r) ∧
    (t.type = JsonType.JSON_NULL ∨ t.type = JsonType.JSON_BOOL ∨
      t.type = JsonType.JSON_NUMBER → 10 ∉ compact_text t) ∧
    (t.type = JsonType.JSON_STRING →
      ∃ v, t.value = some v ∧ compact_text t = 34 :: (v ++ [34])) := by
  refine ⟨⟨cstr stale, ?_⟩, ?_, ?_, ?_, ?_⟩
  · unfold json_compact
    rw [json_format_eq stale p 0 t p1 h, fmt_body_zero]
  · intro ht
    rw [← fmt_body_zero t 0]
    exact (array_fmt t ht 0 0).1
  · intro ht
    rw [← fmt_body_zero t 0]
    exact (object_fmt t ht 0 0).1
  · intro ht
    rw [← fmt_body_zero t 0]
    rcases json_parse_tree_shape p t p1 h with hs | hs | hs
    · rw [hs] at ht; simp at ht
    · rw [hs] at ht; simp at ht
    · apply (leaf_fmt t hs 0 0).2
      intro h3
      rw [h3] at ht
      simp at ht
  · intro ht
    rcases json_parse_tree_shape p t p1 h with hs | hs | hs
    · rw [hs] at ht; simp at ht
    · rw [hs] at ht; simp at ht
    · rcases hs with ⟨s, rfl⟩ | rfl | rfl | rfl | ⟨v, _, rfl⟩
      · refine ⟨cstr s, rfl, ?_⟩
        simp [compact_text, tree_node_create, strdup, cstr_cstr]
      · simp [tree_node_create] at ht
      · simp [tree_node_create] at ht
      · simp [tree_node_create] at ht
      · simp [tree_node_create] at ht

/-- Witness of the amended C11 at the input `[1]`, the memory after the
contents of the buffer holding the byte 127 and a NUL: the text starts with
`[`, LF, `1`, LF, `]`, LF. -/
theorem compact_text_spec_witness :
    ∃ tail, json_compact [127, 0] (json_parser_create (bytes "[1]")) =
      some (some (bytes "[\n1\n]" ++ 10 :: tail), ⟨bytes "[1]", 3, 1, 3, []⟩) :=
  (compact_text_spec [127, 0] (json_parser_create (bytes "[1]"))
    ⟨none, none, JsonType.JSON_ARRAY,
      [⟨some (bytes "0"), some (bytes "1"), JsonType.JSON_NUMBER, []⟩]⟩
    ⟨bytes "[1]", 3, 1, 3, []⟩ (by rfl)).1

/-- C12, the text as returned.  For every input on which the parse succeeds and
every indent width `w`, `json_compact` is `json_format` with width 0 on the
same memory, and the text `json_format` returns is a text that does not end
with a line feed, one line feed, and then the bytes the memory holds after the
contents of the buffer up to the first NUL: the line feed is the last byte only
when that memory starts with a NUL. -/
theorem format_newline_then_stale_bytes (stale : Bytes) (p : JsonParser) (w : Nat)
    (t : TreeNode) (p1 : JsonParser) (h : json_parse_tree p = some (some t, p1)) :
    json_compact stale p = json_format stale p 0 ∧
    ∃ body r c, json_format stale p w = some (some (body ++ 10 :: cstr stale), p1) ∧
      body = r ++ [c] ∧ c ≠ 10 := by
  refine ⟨rfl, fmt_body t w 0, ?_⟩
  have hend : EndsNotLF (fmt_body t w 0) := by
    rcases json_parse_tree_shape p t p1 h with hs | hs | hs
    · exact (array_fmt t hs w 0).2
    · exact (object_fmt t hs w 0).2
    · exact (leaf_fmt t hs w 0).1
  obtain ⟨r, c, hr, hc⟩ := hend
  exact ⟨r, c, json_format_eq stale p w t p1 h, hr, hc⟩

/-- C12, the failing input.  For the input `[true]` with indent width 4, the
memory after the contents of the buffer holding the byte 127 and a NUL, the
text `json_format` returns ends with the byte 127, not with a line feed. -/
theorem format_newline_then_stale_bytes_witness :
    json_compact [127, 0] (json_parser_create (bytes "[true]")) =
      json_format [127, 0] (json_parser_create (bytes "[true]")) 0 ∧
    ∃ body r c, json_format [127, 0] (json_parser_create (bytes "[true]")) 4 =
      some (some (body ++ [10, 127]), ⟨bytes "[true]", 6, 1, 6, []⟩) ∧
      body = r ++ [c] ∧ c ≠ 10 :=
  format_newline_then_stale_bytes [127, 0] (json_parser_create (bytes "[true]")) 4
    ⟨none, none, JsonType.JSON_ARRAY,
      [⟨some (bytes "0"), some (bytes "true"), JsonType.JSON_BOOL, []⟩]⟩
    ⟨bytes "[true]", 6, 1, 6, []⟩ (by rfl)

/-- C13, the failing input.  For the input `{"a":1}` and indent width 2,
`json_format` writes three spaces between the colon of the member and its
value: the space after the colon and the indentation of level 1 again.  This
holds whatever the memory holds after the contents of the buffer (`stale`),
whose bytes up to the first NUL follow the final line feed. -/
theorem format_member_value_indented_twice (stale : Bytes) :
    json_format stale (json_parser_create (bytes "\x7b\"a\":1\x7d")) 2 =
      some (some (bytes "\x7b\n  \"a\":   1\n\x7d\n" ++ cstr stale),
        ⟨bytes "\x7b\"a\":1\x7d", 7, 1, 7, []⟩) :=
  json_format_eq stale (json_parser_create (bytes "\x7b\"a\":1\x7d")) 2
    ⟨none, none, JsonType.JSON_OBJECT,
      [⟨some (bytes "a"), some (bytes "1"), JsonType.JSON_NUMBER, []⟩]⟩
    ⟨bytes "\x7b\"a\":1\x7d", 7, 1, 7, []⟩ (by rfl)

/-- C14, the text as returned.  For every input `n` made of an optional
leading minus sign followed by digits with at most one decimal point, starting
with a minus sign or a digit, and every indent width `w`, the parsed node is a
Number with value `n` and no diagnostic is recorded; the text `json_format`
returns is `n`, one line feed, and then the bytes the memory holds after the
contents of the buffer up to the first NUL. -/
theorem number_text_then_stale_bytes (stale : Bytes) (p : JsonParser) (w : Nat)
    (h : is_number_text p.input = true) :
    ∃ q, json_parse_tree p = some (some ⟨none, some p.input, JsonType.JSON_NUMBER, []⟩, q) ∧
      q.errors = [] ∧ json_format stale p w = some (some (p.input ++ 10 :: cstr stale), q) := by
  obtain ⟨hlen, ⟨c, s, hcs, hc⟩, hnul⟩ := number_len_of_text p.input h
  have hrem : p.reset.rem = c :: s := by rw [reset_rem, hcs]
  have hh := number_head c hc
  obtain ⟨hpv, hi, he, hr⟩ := parse_value_leaf (3 * p.input.length) p.reset c s hrem hh.1
    hh.2.1 hh.2.2.1
  have hleaf := parse_leaf_number _ c s hr hc
  have hr' : (skip_whitespace p.reset).rem = p.input := by rw [hr, hcs]
  rw [hr', hlen, List.take_length] at hleaf
  have hparse : json_parse_tree p =
      some (some ⟨none, some p.input, JsonType.JSON_NUMBER, []⟩,
        (skip_whitespace p.reset).advance p.input.length) := by
    rw [json_parse_tree_eq, hpv, hleaf]
    simp [tree_node_create, strdup, cstr_of_nulfree p.input hnul]
  refine ⟨_, hparse, by rw [advance_errors, he]; rfl, ?_⟩
  rw [json_format_eq stale p w _ _ hparse]
  simp [fmt_body, cstr_of_nulfree p.input hnul]

/-- C14, the failing input.  For the input `1.50` with indent width 3, the
memory after the contents of the buffer holding the byte 127 and a NUL, the
text `json_format` returns is `1.50`, a line feed and the byte 127. -/
theorem number_text_then_stale_bytes_witness :
    ∃ q, json_parse_tree (json_parser_create (bytes "1.50")) =
        some (some ⟨none, some (bytes "1.50"), JsonType.JSON_NUMBER, []⟩, q) ∧
      q.errors = [] ∧
      json_format [127, 0] (json_parser_create (bytes "1.50")) 3 =
        some (some (bytes "1.50\n" ++ [127]), q) :=
  number_text_then_stale_bytes [127, 0] (json_parser_create (bytes "1.50")) 3 (by decide)

/-- C15, the text as returned.  For every NUL-free byte string `s` in which
every quote follows an active escape and which does not end with an active
escape, parsing `"` ++ `s` ++ `"` yields a String node whose value is exactly
`s` (no escape is decoded or checked), with no diagnostic; the text
`json_format` returns is `"` ++ `s` ++ `"`, one line feed, and then the bytes
the memory holds after the contents of the buffer up to the first NUL. -/
theorem string_text_then_stale_bytes (stale : Bytes) (p : JsonParser) (w : Nat) (s : Bytes)
    (hin : p.input = 34 :: (s ++ [34])) (hnul : ∀ b ∈ s, b ≠ 0)
    (hquote : has_unescaped_quote false s = false) (hend : escape_pending false s = false) :
    ∃ q, json_parse_tree p = some (some ⟨none, some s, JsonType.JSON_STRING, []⟩, q) ∧
      q.errors = [] ∧
      json_format stale p w = some (some (34 :: (s ++ 34 :: 10 :: cstr stale)), q) := by
  have hrem : p.reset.rem = 34 :: (s ++ [34]) := by rw [reset_rem, hin]
  obtain ⟨hpv, hi, he, hr⟩ := parse_value_leaf (3 * p.input.length) p.reset 34 _ hrem
    (by decide) (by decide) (by decide)
  have hleaf := parse_leaf_string _ _ hr
  rw [scan_string_closed s false [] hquote hend, if_neg (by simp), List.take_left' rfl] at hleaf
  have hparse : json_parse_tree p =
      some (some ⟨none, some s, JsonType.JSON_STRING, []⟩,
        (skip_whitespace p.reset).advance (s.length + 2)) := by
    rw [json_parse_tree_eq, hpv, hleaf]
    simp [tree_node_create, strdup, cstr_of_nulfree s hnul]
  refine ⟨_, hparse, by rw [advance_errors, he]; rfl, ?_⟩
  rw [json_format_eq stale p w _ _ hparse]
  simp [fmt_body, cstr_of_nulfree s hnul]

/-- C15, the failing input.  For the input `"a\q\"b"` with indent width 2, the
memory after the contents of the buffer holding the byte 127 and a NUL, the
parsed value is the raw payload and the text `json_format` returns is the
input, a line feed and the byte 127. -/
theorem string_text_then_stale_bytes_witness :
    ∃ q, json_parse_tree (json_parser_create [34, 97, 92, 113, 92, 34, 98, 34]) =
        some (some ⟨none, some [97, 92, 113, 92, 34, 98], JsonType.JSON_STRING, []⟩, q) ∧
      q.errors = [] ∧
      json_format [127, 0] (json_parser_create [34, 97, 92, 113, 92, 34, 98, 34]) 2 =
        some (some [34, 97, 92, 113, 92, 34, 98, 34, 10, 127], q) :=
  string_text_then_stale_bytes [127, 0] (json_parser_create [34, 97, 92, 113, 92, 34, 98, 34]) 2
    [97, 92, 113, 92, 34, 98] (by rfl) (by decide) (by decide) (by decide)

/-- C16, the failing input.  For the string literal whose payload is thirty
letters `a`, `json_tokenize` returns one token of kind string and style
"string" whose text is the escaped opening quote and the thirty letters: the
closing quote is cut off by the 32-byte buffer, so the text is not
`json_escape_string` of the full quoted payload. -/
theorem tokenize_long_string_truncated :
    json_tokenize (json_parser_create (34 :: (List.replicate 30 97 ++ [34]))) =
      some (some [⟨TokenType.TOKEN_STRING, some (92 :: 34 :: List.replicate 30 97), "string"⟩],
        ⟨34 :: (List.replicate 30 97 ++ [34]), 32, 1, 32, []⟩) ∧
    json_escape_string (34 :: (List.replicate 30 97 ++ [34])) =
      92 :: 34 :: (List.replicate 30 97 ++ [92, 34]) :=
  ⟨by rfl, by decide⟩

/-- C17.  For every NUL-free text, `json_escape_string` is the byte-wise map:
the result is the concatenation, in order, of the images of the bytes, where
each of the seven special bytes maps to a backslash and its escape letter and
every other byte to itself; and the size counted in the first pass, the length
plus the number of special bytes, is the number of bytes the second pass
writes. -/
theorem escape_is_bytewise_map (text : Bytes) (h : ∀ b ∈ text, b ≠ 0) :
    json_escape_string text = (text.map escape_image).flatten ∧
    escaped_len (cstr text) =
      text.length + text.countP (fun c => decide (c ∈ [34, 92, 8, 12, 10, 13, 9])) ∧
    escaped_len (cstr text) = (json_escape_string text).length := by
  have hc := cstr_of_nulfree text h
  have h1 : json_escape_string text = (text.map escape_image).flatten := by
    unfold json_escape_string
    rw [hc, escape_loop_eq_flatten]
  have h2 : escaped_len (cstr text) =
      text.length + text.countP (fun c => decide (c ∈ [34, 92, 8, 12, 10, 13, 9])) := by
    rw [hc]
    unfold escaped_len
    exact escaped_len_fold text text.length
  exact ⟨h1, h2, by rw [h2, h1, flatten_escape_length]⟩

/-- Witness of C17 on a text with a quote, a backslash and a tab. -/
theorem escape_is_bytewise_map_witness :
    json_escape_string [97, 34, 92, 9] = ([97, 34, 92, 9].map escape_image).flatten ∧
    escaped_len (cstr [97, 34, 92, 9]) =
      [97, 34, 92, 9].length +
        [97, 34, 92, 9].countP (fun c => decide (c ∈ [34, 92, 8, 12, 10, 13, 9])) ∧
    escaped_len (cstr [97, 34, 92, 9]) = (json_escape_string [97, 34, 92, 9]).length :=
  escape_is_bytewise_map [97, 34, 92, 9] (by decide)

/-- C18.  `json_unescape_string` is a total function and it is lenient.  For
NUL-free texts `a`, `b` and a byte `c`, where no escape is pending at the end
of `a`: a backslash followed by a byte `c` outside the recognized escapes is
output as the two bytes backslash and `c`; a backslash that is the last byte
of the input is output as a single backslash; and a text without backslashes
is returned unchanged. -/
theorem unescape_is_lenient (a b : Bytes) (c : Nat) (ha : ∀ x ∈ a, x ≠ 0)
    (hb : ∀ x ∈ b, x ≠ 0) (hc0 : c ≠ 0) (hpend : escape_pending false a = false) :
    (c ∉ recognized_escapes →
      json_unescape_string (a ++ 92 :: c :: b) =
        json_unescape_string a ++ 92 :: c :: json_unescape_string b) ∧
    json_unescape_string (a ++ [92]) = json_unescape_string a ++ [92] ∧
    (92 ∉ a → json_unescape_string a = a) := by
  have hca := cstr_of_nulfree a ha
  have hcb := cstr_of_nulfree b hb
  refine ⟨fun hc => ?_, ?_, fun h92 => ?_⟩
  · have hall : ∀ x ∈ a ++ 92 :: c :: b, x ≠ 0 := by
      intro x hx
      simp only [List.mem_append, List.mem_cons] at hx
      rcases hx with hx | hx | hx | hx
      · exact ha x hx
      · omega
      · omega
      · exact hb x hx
    have hbyte : unescape_byte c = [92, c] := by
      simp only [recognized_escapes, List.mem_cons, List.mem_singleton, List.not_mem_nil,
        or_false, not_or] at hc
      unfold unescape_byte
      rw [if_neg (by omega), if_neg hc.2.2.2.1, if_neg hc.2.2.2.2.1, if_neg hc.2.2.2.2.2.1,
        if_neg hc.2.2.2.2.2.2.1, if_neg hc.2.2.2.2.2.2.2]
    unfold json_unescape_string
    rw [cstr_of_nulfree _ hall, hca, hcb, unescape_loop_append a false [] _ hpend]
    simp only [unescape_loop, if_true, Bool.false_eq_true, if_false, hbyte]
    rw [unescape_loop_res]
    simp
  · have hall : ∀ x ∈ a ++ [92], x ≠ 0 := by
      intro x hx
      simp only [List.mem_append, List.mem_singleton] at hx
      rcases hx with hx | hx
      · exact ha x hx
      · omega
    unfold json_unescape_string
    rw [cstr_of_nulfree _ hall, hca, unescape_loop_append a false [] _ hpend]
    simp [unescape_loop]
  · unfold json_unescape_string
    rw [hca, unescape_loop_no_backslash a h92]

/-- Witness of C18 with `a` = `x`, `c` = `q` and `b` = `y`. -/
theorem unescape_is_lenient_witness :
    (113 ∉ recognized_escapes →
      json_unescape_string ([120] ++ 92 :: 113 :: [121]) =
        json_unescape_string [120] ++ 92 :: 113 :: json_unescape_string [121]) ∧
    json_unescape_string ([120] ++ [92]) = json_unescape_string [120] ++ [92] ∧
    (92 ∉ [120] → json_unescape_string [120] = [120]) :=
  unescape_is_lenient [120] [121] 113 (by decide) (by decide) (by decide) (by decide)

/-- C19.  Array elements are named by index in input order: for every list of
element texts `es`, each of which parses on its own to a node `vs[i]` leaving
at most whitespace unread, parsing `[` ++ the texts joined by `,` ++ `]`
consumes the whole text, records no diagnostic and yields an Array node with
exactly as many children as there are texts, where child `i` is `vs[i]`
carrying as its name the decimal rendering of `i`. -/
theorem array_elements_named_by_index (es : List Bytes) (vs : List TreeNode)
    (h : List.Forall₂ CompleteValue es vs) :
    ∃ q, json_parse_tree (json_parser_create (array_text es)) =
        some (some ⟨none, none, JsonType.JSON_ARRAY, named_from 0 vs⟩, q) ∧
      q.errors = [] ∧ q.rem = [] ∧ (named_from 0 vs).length = es.length ∧
      ∀ (i : Nat) (v : TreeNode), vs[i]? = some v →
        (named_from 0 vs)[i]? = some { v with name := some (index_str i) } := by
  have hq0 : (json_parser_create (array_text es)).rem = 91 :: (comma_join es ++ [93]) := rfl
  have hl := rem_cons_lt _ _ _ hq0
  have hcur := rem_cons_cur _ _ _ hq0
  have e1 : ((json_parser_create (array_text es)).advance 1).rem = comma_join es ++ [93] := by
    rw [rem_advance, hq0]
    rfl
  have e2 : (skip_whitespace ((json_parser_create (array_text es)).advance 1)).rem =
      (comma_join es ++ 93 :: []).dropWhile is_ws := by
    rw [(skip_whitespace_spec _).2.2.1, e1]
  obtain ⟨f, q1, hloop, hr1, herr1⟩ := array_loop_elements es vs h [] _
    (tree_node_create none none JsonType.JSON_ARRAY) e2
  have hq1l := rem_cons_lt _ _ _ hr1
  have hq1c := rem_cons_cur _ _ _ hr1
  have hsk := skip_whitespace_noop _ 91 _ hq0 (by decide)
  have hpv : parse_value (f + 2) (json_parser_create (array_text es)) =
      some (some ⟨none, none, JsonType.JSON_ARRAY, named_from 0 vs⟩, q1.advance 1) := by
    rw [parse_value_succ, hsk, if_neg (by rw [hcur]; exact fun hh => absurd hh.2 (by decide)),
      if_pos ⟨hl, hcur⟩, parse_array_succ, hloop]
    simp only
    rw [if_neg (by rw [hq1c]; omega)]
    simp [tree_node_create]
  refine ⟨q1.advance 1, ?_, ?_, ?_, ?_, ?_⟩
  · rw [json_parse_tree_eq]
    exact parse_value_any_fuel _ _ _ _ hpv (Nat.le_refl _)
  · rw [advance_errors, herr1, (skip_whitespace_spec _).2.1]
    rfl
  · rw [rem_advance, hr1]
    rfl
  · rw [named_from_length, h.length_eq]
  · intro i v hv
    simpa using named_from_get vs 0 i v hv

/-- Witness of C19 at the texts `1` and `"a"` followed by a space: the array
`[1,"a" ]`. -/
theorem array_elements_named_by_index_witness :
    List.Forall₂ CompleteValue [[49], [34, 97, 34, 32]]
        [⟨none, some [49], JsonType.JSON_NUMBER, []⟩,
          ⟨none, some [97], JsonType.JSON_STRING, []⟩] ∧
      ∃ q, json_parse_tree (json_parser_create (array_text [[49], [34, 97, 34, 32]])) =
          some (some ⟨none, none, JsonType.JSON_ARRAY,
            named_from 0 [⟨none, some [49], JsonType.JSON_NUMBER, []⟩,
              ⟨none, some [97], JsonType.JSON_STRING, []⟩]⟩, q) ∧
        q.errors = [] ∧ q.rem = [] ∧
        (named_from 0 [⟨none, some [49], JsonType.JSON_NUMBER, []⟩,
          ⟨none, some [97], JsonType.JSON_STRING, []⟩]).length =
            [[49], [34, 97, 34, 32]].length ∧
        ∀ (i : Nat) (v : TreeNode), [(⟨none, some [49], JsonType.JSON_NUMBER, []⟩ : TreeNode),
            ⟨none, some [97], JsonType.JSON_STRING, []⟩][i]? = some v →
          (named_from 0 [⟨none, some [49], JsonType.JSON_NUMBER, []⟩,
            ⟨none, some [97], JsonType.JSON_STRING, []⟩])[i]? =
              some { v with name := some (index_str i) } :=
  ⟨List.Forall₂.cons ⟨_, rfl, by decide⟩ (List.Forall₂.cons ⟨_, rfl, by decide⟩ List.Forall₂.nil),
    array_elements_named_by_index _ _
      (List.Forall₂.cons ⟨_, rfl, by decide⟩
        (List.Forall₂.cons ⟨_, rfl, by decide⟩ List.Forall₂.nil))⟩

/-- C20.  Literal mismatch gives a specific diagnostic: for every input whose
first byte after leading whitespace `ws` is `t` (resp. `f`, `n`) but whose
bytes from there do not spell `true` (resp. `false`, `null`) within the input,
the parse yields no tree and records exactly one diagnostic, "Invalid true
value" (resp. "Invalid false value", "Invalid null value"), at the line and
column of that byte. -/
theorem literal_mismatch_diagnostic (p : JsonParser) (ws rest : Bytes) (c : Nat)
    (hin : p.input = ws ++ c :: rest) (hws : ∀ b ∈ ws, is_ws b = true) :
    (c = 116 → (c :: rest).take 4 ≠ [116, 114, 117, 101] →
      ∃ q, json_parse_tree p = some (none, q) ∧
        q.errors = [⟨"Invalid true value", line_of ws, column_of ws⟩]) ∧
    (c = 102 → (c :: rest).take 5 ≠ [102, 97, 108, 115, 101] →
      ∃ q, json_parse_tree p = some (none, q) ∧
        q.errors = [⟨"Invalid false value", line_of ws, column_of ws⟩]) ∧
    (c = 110 → (c :: rest).take 4 ≠ [110, 117, 108, 108] →
      ∃ q, json_parse_tree p = some (none, q) ∧
        q.errors = [⟨"Invalid null value", line_of ws, column_of ws⟩]) := by
  have key : ∀ msg : String, (c = 116 ∨ c = 102 ∨ c = 110) →
      parse_leaf (skip_whitespace p.reset) = (none, add_error (skip_whitespace p.reset) msg) →
      ∃ q, json_parse_tree p = some (none, q) ∧
        q.errors = [⟨msg, line_of ws, column_of ws⟩] := by
    intro msg hc hleaf
    have hcw : is_ws c = false ∧ c ≠ 123 ∧ c ≠ 91 := by
      rcases hc with h | h | h <;> subst h <;> decide
    have hskip := skip_whitespace_reset p ws (c :: rest) hin hws
      (fun c' r' h => by injection h with h1 _; rw [← h1]; exact hcw.1)
    have hrem : (skip_whitespace p.reset).rem = c :: rest := by
      rw [hskip]
      simp [JsonParser.rem, hin]
    have hcur := rem_cons_cur _ _ _ hrem
    refine ⟨add_error (skip_whitespace p.reset) msg, ?_, ?_⟩
    · rw [json_parse_tree_eq, parse_value_succ, if_neg (by rw [hcur]; exact fun h => hcw.2.1 h.2),
        if_neg (by rw [hcur]; exact fun h => hcw.2.2 h.2), hleaf]
    · rw [hskip]
      rfl
  have hrem : ∀ (hcw : is_ws c = false), (skip_whitespace p.reset).rem = c :: rest := by
    intro hcw
    rw [skip_whitespace_reset p ws (c :: rest) hin hws
      (fun c' r' h => by injection h with h1 _; rw [← h1]; exact hcw)]
    simp [JsonParser.rem, hin]
  refine ⟨fun hc hne => ?_, fun hc hne => ?_, fun hc hne => ?_⟩
  · exact key _ (Or.inl hc)
      ((parse_leaf_literal_mismatch _ c rest (hrem (by rw [hc]; decide))).1 hc hne)
  · exact key _ (Or.inr (Or.inl hc))
      ((parse_leaf_literal_mismatch _ c rest (hrem (by rw [hc]; decide))).2.1 hc hne)
  · exact key _ (Or.inr (Or.inr hc))
      ((parse_leaf_literal_mismatch _ c rest (hrem (by rw [hc]; decide))).2.2 hc hne)

/-- Witness of C20 at the input LF, space, `tru`: the diagnostic is at line 2,
column 1. -/
theorem literal_mismatch_diagnostic_witness :
    ∃ q, json_parse_tree (json_parser_create [10, 32, 116, 114, 117]) = some (none, q) ∧
      q.errors = [⟨"Invalid true value", 2, 1⟩] :=
  (literal_mismatch_diagnostic (json_parser_create [10, 32, 116, 114, 117]) [10, 32]
    [114, 117] 116 (by rfl) (by decide)).1 rfl (by decide)

/-- C21, counterexample.  The input `{"a":` ends while its object is still
open, and the parse fails; but the one diagnostic recorded is "Unexpected end
of input", not "Unterminated object". -/
theorem open_object_other_diagnostic :
    ∃ q, json_parse_tree (json_parser_create (bytes "\x7b\"a\":")) = some (none, q) ∧
      q.errors = [⟨"Unexpected end of input", 1, 5⟩] ∧
      ∀ e ∈ q.errors, e.message ≠ "Unterminated object" :=
  ⟨⟨bytes "\x7b\"a\":", 5, 1, 5, [⟨"Unexpected end of input", 1, 5⟩]⟩, by rfl, rfl, by decide⟩

/-- C21, amended.  When the input ends where the innermost open container
expects its next element or member or its closing byte, that is, when the
input is what is left of a text that parses completely after a closing byte
`c` of it and everything after `c`, closing bytes and whitespace only, are
removed, the parse returns no tree and records exactly one diagnostic, with the
cursor at the end of the input: "Unterminated object" when `c` is `}` (the
innermost open container is an object), "Unterminated array" when `c` is `]`.
Containers that are open around the innermost one add no diagnostic. -/
theorem missing_closer_diagnostic (pre rest : Bytes) (c : Nat) (t : TreeNode) (q : JsonParser)
    (hc : c = 125 ∨ c = 93) (hrest : ∀ b ∈ rest, b = 93 ∨ b = 125 ∨ is_ws b = true)
    (h : json_parse_tree (json_parser_create (pre ++ c :: rest)) = some (some t, q))
    (hq : ∀ b ∈ q.rem, is_ws b = true) :
    ∃ q', json_parse_tree (json_parser_create pre) = some (none, q') ∧
      q'.errors = [⟨if c = 125 then "Unterminated object" else "Unterminated array",
        q'.line, q'.column⟩] ∧ q'.rem = [] := by
  have hw : is_ws c = false := by rcases hc with hc | hc <;> subst hc <;> decide
  have hrest' : ∀ b ∈ rest, is_closer_or_ws b = true := by
    intro b hb
    rcases hrest b hb with h1 | h1 | h1
    · subst h1; decide
    · subst h1; decide
    · simp [is_closer_or_ws, h1]
  have hP : (json_parser_create (pre ++ c :: rest)).rem = pre ++ c :: rest := rfl
  have hQ : (json_parser_create pre).rem = pre := rfl
  rw [json_parse_tree_eq] at h
  have hprog := (parse_progress _).1 _ _ h
  obtain ⟨a0, ha0⟩ := rem_suffix _ q hprog.1 hprog.2.1
  have hlen : q.rem.length ≤ rest.length := by
    by_contra hlt
    have hL := congrArg List.length ha0
    rw [reset_rem] at ha0 hL
    simp only [json_parser_create, List.length_append, List.length_cons] at hL
    have hle : a0.length ≤ pre.length := by omega
    have hd := congrArg (List.drop a0.length) ha0
    simp only [json_parser_create] at hd
    rw [List.drop_append_of_le_length hle, List.drop_left] at hd
    have hmem : c ∈ q.rem := by
      rw [← hd]
      exact List.mem_append_right _ (List.mem_cons_self _ _)
    have := hq c hmem
    rw [hw] at this
    exact absurd this (by decide)
  obtain ⟨q1, e, he, hr⟩ := (parse_cut c rest (Or.comm.mp hc) hrest' _).1
    (json_parser_create (pre ++ c :: rest)).reset (json_parser_create pre) pre t q h hP hQ hlen
  refine ⟨q1, ?_, he, hr⟩
  rw [json_parse_tree_eq]
  exact parse_value_any_fuel _ _ _ _ e (Nat.le_refl _)

/-- Witness of the amended C21 at the inputs `[[1`, `[{"a":1` and
`{"a":{"b":1 `, which lack the closing bytes `]]`, `}]` and `}}`. -/
theorem missing_closer_diagnostic_witness :
    (∃ q', json_parse_tree (json_parser_create (bytes "[[1")) = some (none, q') ∧
      q'.errors = [⟨"Unterminated array", q'.line, q'.column⟩] ∧ q'.rem = []) ∧
    (∃ q', json_parse_tree (json_parser_create (bytes "[\x7b\"a\":1")) = some (none, q') ∧
      q'.errors = [⟨"Unterminated object", q'.line, q'.column⟩] ∧ q'.rem = []) ∧
    (∃ q', json_parse_tree (json_parser_create (bytes "\x7b\"a\":\x7b\"b\":1 ")) =
        some (none, q') ∧
      q'.errors = [⟨"Unterminated object", q'.line, q'.column⟩] ∧ q'.rem = []) :=
  ⟨missing_closer_diagnostic (bytes "[[1") (bytes "]") 93
      ⟨none, none, JsonType.JSON_ARRAY, [⟨some [48], none, JsonType.JSON_ARRAY,
        [⟨some [48], some [49], JsonType.JSON_NUMBER, []⟩]⟩]⟩
      ⟨bytes "[[1]]", 5, 1, 5, []⟩ (Or.inr rfl) (by decide) (by rfl) (by decide),
    missing_closer_diagnostic (bytes "[\x7b\"a\":1") (bytes "]") 125
      ⟨none, none, JsonType.JSON_ARRAY, [⟨some [48], none, JsonType.JSON_OBJECT,
        [⟨some [97], some [49], JsonType.JSON_NUMBER, []⟩]⟩]⟩
      ⟨bytes "[\x7b\"a\":1\x7d]", 9, 1, 9, []⟩ (Or.inl rfl) (by decide) (by rfl) (by decide),
    missing_closer_diagnostic (bytes "\x7b\"a\":\x7b\"b\":1 ") (bytes " \x7d\n") 125
      ⟨none, none, JsonType.JSON_OBJECT, [⟨some [97], none, JsonType.JSON_OBJECT,
        [⟨some [98], some [49], JsonType.JSON_NUMBER, []⟩]⟩]⟩
      ⟨bytes "\x7b\"a\":\x7b\"b\":1 \x7d \x7d\n", 15, 1, 15, []⟩ (Or.inl rfl) (by decide) (by rfl)
      (by decide)⟩

/-- C22, the failing input.  For the input made of a quote and a line feed,
the scan loop of `parse_string` consumes the line feed as a column: the
diagnostic "Unterminated string" is recorded at line 1, column 2, while one
line feed precedes the cursor, which is at line 2, column 0 by the counting
policy. -/
theorem string_line_feed_counted_as_column :
    json_parse_tree (json_parser_create [34, 10]) =
      some (none, ⟨[34, 10], 2, 1, 2, [⟨"Unterminated string", 1, 2⟩]⟩) ∧
    line_of ([34, 10].take 2) = 2 ∧ column_of ([34, 10].take 2) = 0 :=
  ⟨by rfl, by decide, by decide⟩

/-- C23.  `json_parse_tree` resets the cursor state on each call: the parse
returns, and what it returns (the tree and the handle state with its
diagnostics) is the same for every handle holding the same input bytes,
whatever offset, line, column and diagnostics it starts with; in particular a
second call on the handle left by the first returns the same tree and the same
diagnostics. -/
theorem parse_tree_resets_cursor (p p' : JsonParser) (h : p'.input = p.input) :
    ∃ r, json_parse_tree p = some r ∧ json_parse_tree p' = some r ∧
      json_parse_tree r.2 = some r := by
  obtain ⟨r, hr, hin⟩ := json_parse_tree_total p
  exact ⟨r, hr, (json_parse_tree_input_only p' p h).trans hr,
    (json_parse_tree_input_only r.2 p hin).trans hr⟩

/-- Witness of C23 at the input `[tru]`, for a fresh handle and a handle left
at offset 2 with two stale diagnostics. -/
theorem parse_tree_resets_cursor_witness :
    ∃ r, json_parse_tree (json_parser_create (bytes "[tru]")) = some r ∧
      json_parse_tree ⟨bytes "[tru]", 2, 5, 7, [⟨"stale", 9, 9⟩, ⟨"older", 1, 1⟩]⟩ = some r ∧
      json_parse_tree r.2 = some r :=
  parse_tree_resets_cursor (json_parser_create (bytes "[tru]"))
    ⟨bytes "[tru]", 2, 5, 7, [⟨"stale", 9, 9⟩, ⟨"older", 1, 1⟩]⟩ rfl

/-- C24.  `tree_node_add_child` is an ordered append.  With both pointers
present, and the child array not full or its growth succeeding, the parent's
child sequence becomes the old sequence followed by `child`, its count grows by
one, its name, value and type are unchanged, the child's parent link is
`parent`, and no other object changes; with an absent parent or an absent
child nothing changes.  The append on trees used by the grammar engine is the
same append. -/
theorem add_child_is_ordered_append (grow_ok : Bool) (heap : Heap) (pa ch : Nat)
    (pc cc : NodeCell) (hp : heap pa = some pc) (hc : heap ch = some cc)
    (hgrow : grow_ok = true ∨ pc.children.length < pc.children_capacity) :
    (∃ pc', tree_node_add_child_ptr grow_ok heap (some pa) (some ch) pa = some pc' ∧
      pc'.children = pc.children ++ [ch] ∧
      pc'.children.length = pc.children.length + 1 ∧
      pc'.name = pc.name ∧ pc'.value = pc.value ∧ pc'.type = pc.type) ∧
    (∃ cc', tree_node_add_child_ptr grow_ok heap (some pa) (some ch) ch = some cc' ∧
      cc'.parent = some pa) ∧
    (∀ a, a ≠ pa → a ≠ ch →
      tree_node_add_child_ptr grow_ok heap (some pa) (some ch) a = heap a) ∧
    (∀ g c, tree_node_add_child_ptr g heap none c = heap) ∧
    (∀ g p, tree_node_add_child_ptr g heap p none = heap) ∧
    (∀ parent child : TreeNode,
      tree_node_add_child parent child =
        { parent with children := parent.children ++ [child] }) := by
  have key : ∀ pc1 : NodeCell, pc1.children = pc.children ++ [ch] → pc1.name = pc.name →
      pc1.value = pc.value → pc1.type = pc.type →
      tree_node_add_child_ptr grow_ok heap (some pa) (some ch) =
        set_parent (heap.store pa pc1) ch pa →
      (∃ pc', tree_node_add_child_ptr grow_ok heap (some pa) (some ch) pa = some pc' ∧
        pc'.children = pc.children ++ [ch] ∧
        pc'.children.length = pc.children.length + 1 ∧
        pc'.name = pc.name ∧ pc'.value = pc.value ∧ pc'.type = pc.type) ∧
      (∃ cc', tree_node_add_child_ptr grow_ok heap (some pa) (some ch) ch = some cc' ∧
        cc'.parent = some pa) ∧
      (∀ a, a ≠ pa → a ≠ ch →
        tree_node_add_child_ptr grow_ok heap (some pa) (some ch) a = heap a) := by
    intro pc1 h1 h2 h3 h4 he
    rw [he]
    by_cases hpc : ch = pa
    · subst hpc
      obtain ⟨hs, ho⟩ := set_parent_spec (heap.store ch pc1) ch ch pc1 (store_same _ _ _)
      refine ⟨⟨_, hs, h1, by rw [h1]; simp, h2, h3, h4⟩, ⟨_, hs, rfl⟩, fun a ha _ => ?_⟩
      rw [ho a ha, store_other _ _ _ _ ha]
    · have hcc : heap.store pa pc1 ch = some cc := by rw [store_other _ _ _ _ hpc, hc]
      obtain ⟨hs, ho⟩ := set_parent_spec (heap.store pa pc1) ch pa cc hcc
      refine ⟨⟨pc1, ?_, h1, by rw [h1]; simp, h2, h3, h4⟩, ⟨_, hs, rfl⟩, fun a ha hb => ?_⟩
      · rw [ho pa (fun hh => hpc hh.symm), store_same]
      · rw [ho a hb, store_other _ _ _ _ ha]
  have hmain : ∃ pc1 : NodeCell, pc1.children = pc.children ++ [ch] ∧ pc1.name = pc.name ∧
      pc1.value = pc.value ∧ pc1.type = pc.type ∧
      tree_node_add_child_ptr grow_ok heap (some pa) (some ch) =
        set_parent (heap.store pa pc1) ch pa := by
    by_cases hfull : pc.children.length ≥ pc.children_capacity
    · have hg : grow_ok = true := by
        rcases hgrow with hg | hg
        · exact hg
        · omega
      exact ⟨{ pc with children := pc.children ++ [ch],
                       children_capacity :=
                         if pc.children_capacity = 0 then 16 else pc.children_capacity * 2 },
        rfl, rfl, rfl, rfl, by simp [tree_node_add_child_ptr, hp, hfull, hg]⟩
    · exact ⟨{ pc with children := pc.children ++ [ch] }, rfl, rfl, rfl, rfl,
        by simp [tree_node_add_child_ptr, hp, hfull]⟩
  obtain ⟨pc1, h1, h2, h3, h4, he⟩ := hmain
  obtain ⟨k1, k2, k3⟩ := key pc1 h1 h2 h3 h4 he
  refine ⟨k1, k2, k3, fun g c => rfl, fun g p => ?_, fun parent child => rfl⟩
  cases p <;> rfl

/-- Witness of C24: a parent with one child and a full child array of capacity
1, at address 1, receives the node at address 3. -/
theorem add_child_is_ordered_append_witness :
    ∃ pc', tree_node_add_child_ptr true
        (fun a => if a = 1 then some ⟨none, none, JsonType.JSON_ARRAY, [2], 1, none⟩
          else if a = 3 then some ⟨none, some [49], JsonType.JSON_NUMBER, [], 0, none⟩
          else none) (some 1) (some 3) 1 = some pc' ∧
      pc'.children = [2] ++ [3] ∧ pc'.children.length = [2].length + 1 ∧
      pc'.name = none ∧ pc'.value = none ∧ pc'.type = JsonType.JSON_ARRAY :=
  (add_child_is_ordered_append true
    (fun a => if a = 1 then some ⟨none, none, JsonType.JSON_ARRAY, [2], 1, none⟩
      else if a = 3 then some ⟨none, some [49], JsonType.JSON_NUMBER, [], 0, none⟩
      else none) 1 3 ⟨none, none, JsonType.JSON_ARRAY, [2], 1, none⟩
    ⟨none, some [49], JsonType.JSON_NUMBER, [], 0, none⟩ rfl rfl (Or.inl rfl)).1

/-- C25.  A parse records at most one diagnostic, and the tree is present
exactly when none is recorded: for every handle, `json_parse_tree` returns, and
it returns either a tree with an empty diagnostic sequence or no tree with a
diagnostic sequence of length exactly 1. -/
theorem one_diagnostic_or_tree (p : JsonParser) :
    ∃ r, json_parse_tree p = some r ∧
      ((r.1.isSome = true ∧ r.2.errors = []) ∨ (r.1 = none ∧ r.2.errors.length = 1)) := by
  obtain ⟨r, hr, _⟩ := json_parse_tree_total p
  refine ⟨r, hr, ?_⟩
  rw [json_parse_tree_eq] at hr
  obtain ⟨_, h1, h2⟩ := (parse_effect _).1 p.reset r hr (Nat.zero_le _)
  cases ho : r.1 with
  | none =>
    right
    obtain ⟨e, he⟩ := h2 ho
    exact ⟨rfl, by rw [he]; rfl⟩
  | some t =>
    left
    exact ⟨rfl, h1 (by rw [ho]; rfl)⟩

/-- C26.  Shape invariant of parsed trees: in every tree `json_parse_tree`
returns, each Null, Bool, Number and String node has no child and has a value,
and each Array and Object node has no value. -/
theorem parsed_tree_shape (p : JsonParser) (t : TreeNode) (p1 : JsonParser)
    (h : json_parse_tree p = some (some t, p1)) :
    ∀ n ∈ nodes t,
      (n.type = JsonType.JSON_NULL ∨ n.type = JsonType.JSON_BOOL ∨
        n.type = JsonType.JSON_NUMBER ∨ n.type = JsonType.JSON_STRING →
          n.children = [] ∧ n.value.isSome = true) ∧
      (n.type = JsonType.JSON_ARRAY ∨ n.type = JsonType.JSON_OBJECT → n.value = none) := by
  obtain ⟨_, h2, h3⟩ := json_parse_tree_inv p t p1 h
  intro n hn
  have hs : ShapeOk n := by
    rw [nodes_eq] at hn
    rcases List.mem_cons.1 hn with rfl | hn
    · exact h2
    · exact (h3 n hn).2
  unfold ShapeOk at hs
  constructor
  · intro ht
    rcases ht with ht | ht | ht | ht <;> rw [ht] at hs <;> exact hs
  · intro ht
    rcases ht with ht | ht <;> rw [ht] at hs <;> exact hs

/-- Witness of C26 at the input `[1,"a"]` and its String node. -/
theorem parsed_tree_shape_witness :
    json_parse_tree (json_parser_create (bytes "[1,\"a\"]")) =
      some (some ⟨none, none, JsonType.JSON_ARRAY,
        [⟨some [48], some [49], JsonType.JSON_NUMBER, []⟩,
          ⟨some [49], some [97], JsonType.JSON_STRING, []⟩]⟩, ⟨bytes "[1,\"a\"]", 7, 1, 7, []⟩) ∧
    (⟨some [49], some [97], JsonType.JSON_STRING, []⟩ : TreeNode).children = [] ∧
    (⟨some [49], some [97], JsonType.JSON_STRING, []⟩ : TreeNode).value.isSome = true :=
  ⟨by rfl,
    (parsed_tree_shape (json_parser_create (bytes "[1,\"a\"]"))
      ⟨none, none, JsonType.JSON_ARRAY,
        [⟨some [48], some [49], JsonType.JSON_NUMBER, []⟩,
          ⟨some [49], some [97], JsonType.JSON_STRING, []⟩]⟩
      ⟨bytes "[1,\"a\"]", 7, 1, 7, []⟩ (by rfl)
      ⟨some [49], some [97], JsonType.JSON_STRING, []⟩
      (List.Mem.tail _ (List.Mem.tail _ (List.Mem.head _)))).1 (Or.inr (Or.inr (Or.inr rfl)))⟩

/-- C27, counterexample.  No capacity of the call stack lets every input of
`n` opening and `n` closing brackets parse: with room for `stack` nested calls
the input with `n = stack + 1` ends the process inside `parse_value` before a
tree or a diagnostic is returned; so does, with room for 100000 nested calls,
the input with `n` = 100000, which needs 200000. -/
theorem nesting_exhausts_call_stack :
    (¬ ∃ stack, ∀ n, 1 ≤ n → ∃ t q,
      json_parse_tree_on stack (json_parser_create (brackets n)) =
        some (Run.done (some t, q))) ∧
    json_parse_tree_on 100000 (json_parser_create (brackets 100000)) = some Run.killed := by
  have hk : ∀ stack n, stack < 2 * n →
      json_parse_tree_on stack (json_parser_create (brackets n)) = some Run.killed := by
    intro stack n hs
    unfold json_parse_tree_on
    exact open_brackets_killed n stack _ _ (List.replicate n 93) rfl hs
      (by
        show 3 * n ≤ 3 * (brackets n).length + 1
        rw [brackets_length]
        omega)
  refine ⟨?_, hk 100000 100000 (by omega)⟩
  rintro ⟨stack, h⟩
  obtain ⟨t, q, hq⟩ := h (stack + 1) (by omega)
  rw [hk stack (stack + 1) (by omega)] at hq
  injection hq with hq
  cases hq

/-- C27, amended.  The parser sets no bound on the nesting depth and never
consults `JSON_MAX_DEPTH`; the depth it can read is bounded by the call stack
alone.  For every `n ≥ 1`, when the call stack has room for the `2 n` nested
calls the input needs, the input made of `n` opening brackets followed by `n`
closing brackets parses to the tree of `n` nested arrays with no diagnostic,
and `json_stats` reports depth `n - 1`, `n` arrays and `n` values. -/
theorem nesting_within_call_stack (n stack : Nat) (hn : 1 ≤ n) (hs : 2 * n ≤ stack) :
    ∃ q s, json_parse_tree_on stack (json_parser_create (brackets n)) =
        some (Run.done (some (nested_arrays none (n - 1)), q)) ∧ q.errors = [] ∧
      json_stats_on stack (json_parser_create (brackets n)) = some (Run.done (s, q)) ∧
      s.depth = n - 1 ∧ s.types.array_count = n ∧ s.total_values = n := by
  obtain ⟨k, rfl⟩ : ∃ k, n = k + 1 := ⟨n - 1, by omega⟩
  obtain ⟨p1, hv, _, he⟩ := brackets_parse_on k [] (json_parser_create (brackets (k + 1))).reset
    stack (3 * (json_parser_create (brackets (k + 1))).input_len + 1)
    (by simp [JsonParser.rem, json_parser_create, JsonParser.reset]) hs
    (by
      show 3 * (k + 1) ≤ 3 * (brackets (k + 1)).length + 1
      rw [brackets_length]
      omega)
  have hparse : json_parse_tree_on stack (json_parser_create (brackets (k + 1))) =
      some (Run.done (some (nested_arrays none k), p1)) := hv
  refine ⟨p1, collect_stats (nested_arrays none k) stats_zero 0, hparse, he.trans rfl, ?_,
    ?_, ?_, ?_⟩
  · unfold json_stats_on
    rw [hparse]
    simp only
    rw [collect_stats_on_nested k none stack _ _ (by omega)]
    simp only
    rw [tree_node_destroy_on_nested k none stack (by omega)]
  · rw [collect_stats_depth, nested_arrays_height]
    simp [stats_zero]
  · rw [nested_arrays_count]
    simp [stats_zero]
  · rw [(collect_stats_counts _ _ _).1, nested_arrays_nodes]
    simp [stats_zero]

/-- Witness of the amended C27 at `n` = 1001, one more than `JSON_MAX_DEPTH`,
on a call stack with room for 2002 nested calls. -/
theorem nesting_within_call_stack_witness :
    ∃ q s, json_parse_tree_on 2002 (json_parser_create (brackets 1001)) =
        some (Run.done (some (nested_arrays none (1001 - 1)), q)) ∧ q.errors = [] ∧
      json_stats_on 2002 (json_parser_create (brackets 1001)) = some (Run.done (s, q)) ∧
      s.depth = 1001 - 1 ∧ s.types.array_count = 1001 ∧ s.total_values = 1001 :=
  nesting_within_call_stack 1001 2002 (by decide) (by decide)

/-- C28.  Buffer growth by doubling: for every buffer with `capacity > 0`
(whether or not `size ≤ capacity` held before) and every string `str`,
`buffer_append` leaves the contents
equal to the old contents followed by `str`, the size equal to the old size
plus the length of `str`, and `size ≤ capacity`; the capacity is unchanged when
the new size fits, and otherwise it is the old capacity times the smallest
power of two `2 ^ k`, `k ≥ 1`, that makes it at least the new size; so a
capacity that is 1024 times a power of two stays so. -/
theorem buffer_append_growth (buffer : Buffer) (str : Bytes) (hcap : 0 < buffer.capacity) :
    (buffer_append buffer str).data = buffer.data ++ cstr str ∧
    ((∀ b ∈ str, b ≠ 0) → (buffer_append buffer str).data = buffer.data ++ str) ∧
    (buffer_append buffer str).size = buffer.size + strlen str ∧
    (buffer_append buffer str).size ≤ (buffer_append buffer str).capacity ∧
    (buffer.size + strlen str ≤ buffer.capacity →
      (buffer_append buffer str).capacity = buffer.capacity) ∧
    (buffer.capacity < buffer.size + strlen str →
      ∃ k, 1 ≤ k ∧ (buffer_append buffer str).capacity = buffer.capacity * 2 ^ k ∧
        buffer.size + strlen str ≤ buffer.capacity * 2 ^ k ∧
        ∀ j, 1 ≤ j → j < k → buffer.capacity * 2 ^ j < buffer.size + strlen str) ∧
    (∀ m, buffer.capacity = 1024 * 2 ^ m →
      ∃ m', (buffer_append buffer str).capacity = 1024 * 2 ^ m') := by
  have hdata : (buffer_append buffer str).data = buffer.data ++ cstr str := by
    unfold buffer_append
    simp only
    split_ifs <;> rfl
  have hsz : (buffer_append buffer str).size = buffer.size + strlen str := by
    unfold Buffer.size strlen
    rw [hdata, List.length_append]
  have hfit : buffer.size + strlen str ≤ buffer.capacity →
      (buffer_append buffer str).capacity = buffer.capacity := by
    intro hle
    unfold buffer_append
    simp only
    rw [if_neg (by omega)]
  have hgrow : buffer.capacity < buffer.size + strlen str →
      ∃ k, 1 ≤ k ∧ (buffer_append buffer str).capacity = buffer.capacity * 2 ^ k ∧
        buffer.size + strlen str ≤ buffer.capacity * 2 ^ k ∧
        ∀ j, 1 ≤ j → j < k → buffer.capacity * 2 ^ j < buffer.size + strlen str := by
    intro hlt
    have hfuel : buffer.size + strlen str ≤
        buffer.capacity * 2 * 2 ^ (buffer.size + strlen str) := by
      have h1 : buffer.size + strlen str < 2 ^ (buffer.size + strlen str) := Nat.lt_two_pow _
      have h2 : 2 ^ (buffer.size + strlen str) ≤
          buffer.capacity * 2 * 2 ^ (buffer.size + strlen str) :=
        Nat.le_mul_of_pos_left _ (by omega)
      omega
    obtain ⟨k, hk, hle, hmin⟩ := buffer_grow_loop_spec _ _ _ hfuel
    refine ⟨k + 1, by omega, ?_, ?_, ?_⟩
    · unfold buffer_append
      simp only
      rw [if_pos (by omega)]
      simp only
      rw [hk, Nat.mul_assoc, ← Nat.pow_succ']
    · rw [Nat.pow_succ', ← Nat.mul_assoc]; exact hle
    · intro j h1 hj
      obtain ⟨j', rfl⟩ : ∃ j', j = j' + 1 := ⟨j - 1, by omega⟩
      rw [Nat.pow_succ', ← Nat.mul_assoc]
      exact hmin j' (by omega)
  refine ⟨hdata, fun hn => by rw [hdata, cstr_of_nulfree str hn], hsz, ?_, hfit, hgrow, ?_⟩
  · rw [hsz]
    by_cases hle : buffer.size + strlen str ≤ buffer.capacity
    · rw [hfit hle]; exact hle
    · obtain ⟨k, _, hk, hle', _⟩ := hgrow (by omega)
      rw [hk]; exact hle'
  · intro m hm
    by_cases hle : buffer.size + strlen str ≤ buffer.capacity
    · exact ⟨m, by rw [hfit hle, hm]⟩
    · obtain ⟨k, _, hk, _, _⟩ := hgrow (by omega)
      exact ⟨m + k, by rw [hk, hm, Nat.mul_assoc, ← Nat.pow_add]⟩

/-- Witness of C28: five bytes appended to a buffer of capacity 2 holding one
byte make the capacity 8. -/
theorem buffer_append_growth_witness :
    (buffer_append ⟨[120], 2⟩ [97, 98, 99, 100, 101]).data = [120] ++ [97, 98, 99, 100, 101] ∧
    (buffer_append ⟨[120], 2⟩ [97, 98, 99, 100, 101]).size = 6 ∧
    (buffer_append ⟨[120], 2⟩ [97, 98, 99, 100, 101]).capacity = 8 := by
  have h := buffer_append_growth ⟨[120], 2⟩ [97, 98, 99, 100, 101] (by decide)
  exact ⟨h.2.1 (by decide), h.2.2.1, by decide⟩

/-- C29.  Every node but the root is counted as a key: for every input on
which the parse yields a tree, `json_stats` returns `total_keys` one less than
`total_values`, and `total_values` equal to the sum of the six per-type
counts. -/
theorem stats_keys_are_nodes_below_root (p : JsonParser) (t : TreeNode) (p1 : JsonParser)
    (h : json_parse_tree p = some (some t, p1)) :
    ∃ s, json_stats p = some (s, p1) ∧ s.total_keys + 1 = s.total_values ∧
      s.total_keys = s.total_values - 1 ∧
      s.total_values = s.types.string_count + s.types.number_count + s.types.bool_count +
        s.types.null_count + s.types.array_count + s.types.object_count := by
  obtain ⟨h1, _, h3⟩ := json_parse_tree_inv p t p1 h
  obtain ⟨c1, c2, c3⟩ := collect_stats_counts t stats_zero 0
  have hk : (nodes t).countP (fun n => n.name.isSome) = (forest_nodes t.children).length := by
    rw [nodes_eq, List.countP_cons_of_neg _ _ (by rw [h1]; simp)]
    exact countP_all _ _ (fun m hm => (h3 m hm).1)
  have hl : (nodes t).length = (forest_nodes t.children).length + 1 := by
    rw [nodes_eq, List.length_cons]
  have hz1 : stats_zero.total_values = 0 := rfl
  have hz2 : stats_zero.total_keys = 0 := rfl
  have hz3 : type_total stats_zero.types = 0 := rfl
  refine ⟨collect_stats t stats_zero 0, by unfold json_stats; rw [h], ?_, ?_, ?_⟩
  · rw [c1, c2, hk, hl, hz1, hz2]
    omega
  · rw [c1, c2, hk, hl, hz1, hz2]
    omega
  · have := c3
    unfold type_total at this hz3
    rw [c1, hz1]
    omega

/-- Witness of C29 at the input `{"":1}`, an object with an empty key: one key,
two values. -/
theorem stats_keys_are_nodes_below_root_witness :
    ∃ s, json_stats (json_parser_create (bytes "\x7b\"\":1\x7d")) =
        some (s, ⟨bytes "\x7b\"\":1\x7d", 6, 1, 6, []⟩) ∧
      s.total_keys + 1 = s.total_values ∧ s.total_keys = s.total_values - 1 ∧
      s.total_values = s.types.string_count + s.types.number_count + s.types.bool_count +
        s.types.null_count + s.types.array_count + s.types.object_count :=
  stats_keys_are_nodes_below_root (json_parser_create (bytes "\x7b\"\":1\x7d"))
    ⟨none, none, JsonType.JSON_OBJECT, [⟨some [], some [49], JsonType.JSON_NUMBER, []⟩]⟩
    ⟨bytes "\x7b\"\":1\x7d", 6, 1, 6, []⟩ (by rfl)

/-- C30.  The parser terminates and stays in bounds.  Every call of
`json_parse_tree` returns, with the cursor within the input.  From every state
with the cursor within the input and a budget of three steps per unread byte
and two more, `parse_value` and the array and object loops return, the cursor
does not move back and stays within the input, and a call of `parse_value`
that returns a node has advanced the cursor by at least one byte. -/
theorem parser_terminates_in_bounds (p q : JsonParser) (f : Nat)
    (hq : q.pos ≤ q.input_len) (hf : 3 * (q.input_len - q.pos) + 2 ≤ f) :
    (∃ r, json_parse_tree p = some r ∧ r.2.input = p.input ∧ r.2.pos ≤ r.2.input_len) ∧
    (∃ r, parse_value f q = some r ∧ r.2.input = q.input ∧ q.pos ≤ r.2.pos ∧
      r.2.pos ≤ r.2.input_len ∧ (r.1.isSome = true → q.pos + 1 ≤ r.2.pos)) ∧
    (∀ node, ∃ r, parse_array_loop f q node = some r ∧ r.2.input = q.input ∧
      q.pos ≤ r.2.pos ∧ r.2.pos ≤ r.2.input_len) ∧
    (∀ node, ∃ r, parse_object_loop f q node = some r ∧ r.2.input = q.input ∧
      q.pos ≤ r.2.pos ∧ r.2.pos ≤ r.2.input_len) := by
  have hql := rem_length q
  refine ⟨?_, ?_, fun node => ?_, fun node => ?_⟩
  · obtain ⟨r, hr, hin⟩ := json_parse_tree_total p
    refine ⟨r, hr, hin, ?_⟩
    rw [json_parse_tree_eq] at hr
    exact ((parse_effect _).1 p.reset r hr (Nat.zero_le _)).1
  · obtain ⟨r, hr, hin, hle, hlt⟩ := (parse_total f).1 q (by omega)
    have hb := ((parse_effect f).1 q r hr hq).1
    have hrl := rem_length r.2
    have hlen := input_len_eq q r.2 hin
    exact ⟨r, hr, hin, by omega, hb, fun hs => by have := hlt hs; omega⟩
  · obtain ⟨r, hr, hin, hle⟩ := (parse_total f).2.2.2.1 q node (by omega)
    have hb := ((parse_effect f).2.2.2.1 q node r hr hq).1
    have hrl := rem_length r.2
    have hlen := input_len_eq q r.2 hin
    exact ⟨r, hr, hin, by omega, hb⟩
  · obtain ⟨r, hr, hin, hle⟩ := (parse_total f).2.2.2.2 q node (by omega)
    have hb := ((parse_effect f).2.2.2.2 q node r hr hq).1
    have hrl := rem_length r.2
    have hlen := input_len_eq q r.2 hin
    exact ⟨r, hr, hin, by omega, hb⟩

/-- Witness of C30: the value `12` read from offset 1 of the input `[12]` with
a budget of 11 steps. -/
theorem parser_terminates_in_bounds_witness :
    ∃ r, parse_value 11 ⟨bytes "[12]", 1, 1, 1, []⟩ = some r ∧
      r.2.input = bytes "[12]" ∧ 1 ≤ r.2.pos ∧ r.2.pos ≤ r.2.input_len ∧
      (r.1.isSome = true → 1 + 1 ≤ r.2.pos) :=
  (parser_terminates_in_bounds (json_parser_create (bytes "[12]"))
    ⟨bytes "[12]", 1, 1, 1, []⟩ 11 (by decide) (by decide)).2.1

/-- C31.  Content after the top-level value is never examined: for every input
`x` on which the parse yields a tree `t` that is not a Number, no diagnostic is
recorded, and for every byte string `s`, parsing the consumed part of `x`
(its first `q.pos` bytes, `q` being the handle state after the parse) followed
by `s` yields the same tree `t` with no diagnostic, leaving exactly `s`
unread; so `json_validate` returns true on that input. -/
theorem trailing_content_ignored (x s : Bytes) (t : TreeNode) (q : JsonParser)
    (h : json_parse_tree (json_parser_create x) = some (some t, q))
    (ht : t.type ≠ JsonType.JSON_NUMBER) :
    q.errors = [] ∧
    ∃ q', json_parse_tree (json_parser_create (x.take q.pos ++ s)) = some (some t, q') ∧
      q'.errors = [] ∧ q'.rem = s ∧
      json_validate (json_parser_create (x.take q.pos ++ s)) = some (true, q') := by
  rw [json_parse_tree_eq] at h
  have hreset : (json_parser_create x).reset = json_parser_create x := rfl
  rw [hreset] at h
  have hin : q.input = x := ((parse_progress _).1 _ _ h).1
  have hqrem : q.rem = x.drop q.pos := by
    unfold JsonParser.rem
    rw [hin]
  have hp : (json_parser_create x).rem = x.take q.pos ++ q.rem := by
    rw [hqrem, List.take_append_drop]
    rfl
  have hq : (json_parser_create (x.take q.pos ++ s)).rem = x.take q.pos ++ s := rfl
  obtain ⟨q1, e, he, hr⟩ := value_tail_swap _ _ _ _ q.rem s t q hp hq rfl h ht
  have hparse : json_parse_tree (json_parser_create (x.take q.pos ++ s)) =
      some (some t, q1) := by
    rw [json_parse_tree_eq]
    exact parse_value_any_fuel _ _ _ _ e (Nat.le_refl _)
  have he1 : q1.errors = [] := he.trans rfl
  refine ⟨((parse_effect _).1 _ _ h (Nat.zero_le _)).2.1 rfl, q1, hparse, he1, hr, ?_⟩
  show (match json_parse_tree (json_parser_create (x.take q.pos ++ s)) with
    | none => none
    | some (root, p1) => some (root.isSome && decide (p1.errors.length = 0), p1)) = _
  rw [hparse]
  simp [he1]

/-- Witness of C31 at the inputs `null` followed by `x` and `{}` followed by
` garbage`. -/
theorem trailing_content_ignored_witness :
    (∃ q', json_parse_tree (json_parser_create ((bytes "null").take 4 ++ bytes "x")) =
        some (some ⟨none, some (bytes "null"), JsonType.JSON_NULL, []⟩, q') ∧
      q'.errors = [] ∧ q'.rem = bytes "x" ∧
      json_validate (json_parser_create ((bytes "null").take 4 ++ bytes "x")) =
        some (true, q')) ∧
    (∃ q', json_parse_tree
        (json_parser_create ((bytes "\x7b\x7d").take 2 ++ bytes " garbage")) =
        some (some ⟨none, none, JsonType.JSON_OBJECT, []⟩, q') ∧
      q'.errors = [] ∧ q'.rem = bytes " garbage" ∧
      json_validate (json_parser_create ((bytes "\x7b\x7d").take 2 ++ bytes " garbage")) =
        some (true, q')) :=
  ⟨(trailing_content_ignored (bytes "null") (bytes "x")
      ⟨none, some (bytes "null"), JsonType.JSON_NULL, []⟩ ⟨bytes "null", 4, 1, 4, []⟩
      (by rfl) (by decide)).2,
    (trailing_content_ignored (bytes "\x7b\x7d") (bytes " garbage")
      ⟨none, none, JsonType.JSON_OBJECT, []⟩ ⟨bytes "\x7b\x7d", 2, 1, 2, []⟩
      (by rfl) (by decide)).2⟩

/-- C32.  Separating commas are optional: for every list of element texts
`es`, each of which parses on its own to a node `vs[i]` leaving at most
whitespace unread, the array text with the elements joined by single spaces
and the array text with the elements joined by commas both parse with no
diagnostic, and to the same tree: the Array node whose children are the
`vs[i]` in order, each named by its index. -/
theorem commas_are_optional (es : List Bytes) (vs : List TreeNode)
    (h : List.Forall₂ CompleteValue es vs) :
    ∃ q q', json_parse_tree (json_parser_create (spaced_array_text es)) =
        some (some ⟨none, none, JsonType.JSON_ARRAY, named_from 0 vs⟩, q) ∧
      q.errors = [] ∧
      json_parse_tree (json_parser_create (array_text es)) =
        some (some ⟨none, none, JsonType.JSON_ARRAY, named_from 0 vs⟩, q') ∧
      q'.errors = [] := by
  obtain ⟨q, hq, he, _⟩ := array_parse_of_loop (space_join es)
    ⟨none, none, JsonType.JSON_ARRAY, named_from 0 vs⟩ (fun q0 h0 => by
      obtain ⟨f, q1, hl, hr, herr⟩ := array_loop_elements_spaced es vs h [] q0
        (tree_node_create none none JsonType.JSON_ARRAY) h0
      exact ⟨f, q1, by rw [hl]; simp [tree_node_create], hr, herr⟩)
  obtain ⟨q', hq', he', _⟩ := array_parse_of_loop (comma_join es)
    ⟨none, none, JsonType.JSON_ARRAY, named_from 0 vs⟩ (fun q0 h0 => by
      obtain ⟨f, q1, hl, hr, herr⟩ := array_loop_elements es vs h [] q0
        (tree_node_create none none JsonType.JSON_ARRAY) h0
      exact ⟨f, q1, by rw [hl]; simp [tree_node_create], hr, herr⟩)
  exact ⟨q, q', hq, he, hq', he'⟩

/-- Witness of C32 at the texts `1` and `2`: `[1 2]` parses like `[1,2]`. -/
theorem commas_are_optional_witness :
    ∃ q q', json_parse_tree (json_parser_create (spaced_array_text [[49], [50]])) =
        some (some ⟨none, none, JsonType.JSON_ARRAY,
          named_from 0 [⟨none, some [49], JsonType.JSON_NUMBER, []⟩,
            ⟨none, some [50], JsonType.JSON_NUMBER, []⟩]⟩, q) ∧
      q.errors = [] ∧
      json_parse_tree (json_parser_create (array_text [[49], [50]])) =
        some (some ⟨none, none, JsonType.JSON_ARRAY,
          named_from 0 [⟨none, some [49], JsonType.JSON_NUMBER, []⟩,
            ⟨none, some [50], JsonType.JSON_NUMBER, []⟩]⟩, q') ∧
      q'.errors = [] :=
  commas_are_optional [[49], [50]]
    [⟨none, some [49], JsonType.JSON_NUMBER, []⟩, ⟨none, some [50], JsonType.JSON_NUMBER, []⟩]
    (List.Forall₂.cons ⟨_, rfl, by decide⟩
      (List.Forall₂.cons ⟨_, rfl, by decide⟩ List.Forall₂.nil))

/-- C33.  `json_unescape_string` never grows its input: for every NUL-free
text `s` the result is at most as long as `s`, shorter by one byte for each
recognized escape pair, and exactly as long as `s` when and only when `s`
contains no recognized escape pair, that is, no backslash in escape position
followed by one of the eight recognized escape bytes. -/
theorem unescape_never_grows (s : Bytes) (h : ∀ b ∈ s, b ≠ 0) :
    (json_unescape_string s).length ≤ s.length ∧
    (json_unescape_string s).length + escape_pairs false s = s.length ∧
    ((json_unescape_string s).length = s.length ↔
      ¬ ∃ a c b, s = a ++ 92 :: c :: b ∧ escape_pending false a = false ∧
        c ∈ recognized_escapes) := by
  have hl : (json_unescape_string s).length + escape_pairs false s = s.length := by
    unfold json_unescape_string
    rw [cstr_of_nulfree s h]
    have := unescape_loop_length s false []
    simpa using this
  have hp := escape_pairs_pos_iff s false
  refine ⟨by omega, hl, ?_⟩
  constructor
  · intro he hex
    have : 0 < escape_pairs false s := hp.2 (Or.inr hex)
    omega
  · intro hne
    have : ¬ 0 < escape_pairs false s := by
      intro hpos
      rcases hp.1 hpos with ⟨hf, _⟩ | hex
      · exact absurd hf (by simp)
      · exact hne hex
    omega

/-- Witness of C33 at the text `a\nb\q`: one recognized pair, so five bytes
out of six. -/
theorem unescape_never_grows_witness :
    (json_unescape_string [97, 92, 110, 98, 92, 113]).length ≤
      [97, 92, 110, 98, 92, 113].length ∧
    (json_unescape_string [97, 92, 110, 98, 92, 113]).length +
      escape_pairs false [97, 92, 110, 98, 92, 113] = [97, 92, 110, 98, 92, 113].length ∧
    json_unescape_string [97, 92, 110, 98, 92, 113] = [97, 10, 98, 92, 113] :=
  ⟨(unescape_never_grows [97, 92, 110, 98, 92, 113] (by decide)).1,
    (unescape_never_grows [97, 92, 110, 98, 92, 113] (by decide)).2.1, by decide⟩

end JsonChrist
